import Mathlib

/-!
# Verification of the prettier-plugin-sort-props ordering core

Shallow embedding of the repository's ordering engine:
`PriorityQueue` (binary min-heap), `MultiQueue` (multi-view queue with lazy
deletion), the preference `DAG` (`addEdges`, `hasPath`, `topoSort`),
`fasTopoSort` (greedy feedback-arc-set sort), `bradleyTerry` and the
orchestrator `PreferenceSorter.sort`, together with proofs of the spec's
testable properties.

Tokens (`SplitString` in the source) are modelled as lists of characters;
JS numbers used as comparator results are modelled as `Int` (only their
sign is ever inspected), and the IEEE doubles inside `bradleyTerry` are
modelled by an explicit type `FP` with NaN/infinity propagation.
-/

set_option autoImplicit false

/-- Normalized token type (`SplitString` in `split-identifier.ts`),
modelled as a list of characters. -/
abbrev SplitString := List Char

open List in
theorem list_perm_refl {α : Type} (l : List α) : l.Perm l := List.Perm.refl l

namespace PQ

open scoped List

variable {α : Type}

/-- Comparator: a three-way compare returning a number; the heap only ever
looks at the sign (`cmp a b < 0`), so the result is modelled as `Int`. -/
abbrev Comparator (α : Type) := α → α → Int

/-- Swap the entries at positions `i` and `j` of a list (the three-line
`tmp` swap in `siftUp`/`siftDown`). Out-of-range positions never occur at
call sites. -/
def swapAt [Inhabited α] (q : List α) (i j : Nat) : List α :=
  (q.set i (q.getD j default)).set j (q.getD i default)

@[simp] theorem swapAt_length [Inhabited α] (q : List α) (i j : Nat) :
    (swapAt q i j).length = q.length := by
  simp [swapAt]

/-- Loop body of `PriorityQueue.siftUp`; `fuel` only bounds the iteration
count (the index strictly decreases, so `fuel = idx` is exact: when fuel
reaches 0 the index is 0 and the loop would stop anyway). -/
def siftUpAux [Inhabited α] (cmp : Comparator α) : Nat → List α → Nat → List α
  | 0, q, _ => q
  | fuel + 1, q, idx =>
    if 0 < idx then
      if cmp (q.getD idx default) (q.getD ((idx - 1) / 2) default) < 0 then
        siftUpAux cmp fuel (swapAt q idx ((idx - 1) / 2)) ((idx - 1) / 2)
      else q
    else q

/-- `PriorityQueue.siftUp`: move the element at `idx` up while it compares
below its parent. -/
def siftUp [Inhabited α] (cmp : Comparator α) (q : List α) (idx : Nat) : List α :=
  siftUpAux cmp idx q idx

/-- `PriorityQueue.push`: append and sift up from the last index. -/
def push [Inhabited α] (cmp : Comparator α) (q : List α) (item : α) : List α :=
  siftUp cmp (q ++ [item]) q.length

/-- Index of the smallest of `q[idx]` and its (at most two) children —
the `min` computation in `PriorityQueue.siftDown`. -/
def minChild [Inhabited α] (cmp : Comparator α) (q : List α) (idx : Nat) : Nat :=
  let l := q.length
  let left := 2 * idx + 1
  let right := 2 * idx + 2
  let min1 := if left < l ∧ cmp (q.getD left default) (q.getD idx default) < 0 then left else idx
  if right < l ∧ cmp (q.getD right default) (q.getD min1 default) < 0 then right else min1

theorem minChild_cases [Inhabited α] (cmp : Comparator α) (q : List α) (idx : Nat) :
    minChild cmp q idx = idx ∨
      (idx < minChild cmp q idx ∧ minChild cmp q idx < q.length) := by
  unfold minChild
  simp only []
  split <;> split <;> omega

/-- When `idx` has no children inside the array, `minChild` is `idx`. -/
theorem minChild_oob [Inhabited α] (cmp : Comparator α) (q : List α) (idx : Nat)
    (h : q.length ≤ idx) : minChild cmp q idx = idx := by
  unfold minChild
  simp only []
  rw [if_neg (by omega), if_neg (by omega)]

/-- Loop body of `PriorityQueue.siftDown`; the index strictly increases and
stays below the (constant) array length, so `fuel = q.length` is exact:
when fuel reaches 0 the index is out of range and the loop would stop. -/
def siftDownAux [Inhabited α] (cmp : Comparator α) : Nat → List α → Nat → List α
  | 0, q, _ => q
  | fuel + 1, q, idx =>
    if minChild cmp q idx = idx then q
    else siftDownAux cmp fuel (swapAt q idx (minChild cmp q idx)) (minChild cmp q idx)

/-- `PriorityQueue.siftDown`: move the element at `idx` down while a child
compares below it. -/
def siftDown [Inhabited α] (cmp : Comparator α) (q : List α) (idx : Nat) : List α :=
  siftDownAux cmp q.length q idx

/-- `PriorityQueue.pop`: return the root; move the last element to the root
and sift down (skipped when the queue becomes empty). -/
def pop [Inhabited α] (cmp : Comparator α) (q : List α) : Option α × List α :=
  match q with
  | [] => (none, [])
  | top :: rest =>
    let q' := (top :: rest).dropLast
    let last := (top :: rest).getLast (by simp)
    if q'.isEmpty then (some top, q')
    else (some top, siftDown cmp (q'.set 0 last) 0)

/-- `PriorityQueue.peek`: read index 0 without mutation. -/
def peek (q : List α) : Option α := q.head?

theorem set_cons_perm [Inhabited α] :
    ∀ (l : List α) (j : Nat) (x : α), j < l.length →
      (l.getD j default) :: l.set j x ~ x :: l := by
  intro l
  induction l with
  | nil => intro j x hj; simp at hj
  | cons y t ih =>
    intro j x hj
    cases j with
    | zero => simpa using List.Perm.swap x y t
    | succ j =>
      have hj' : j < t.length := by simpa using hj
      calc (y :: t).getD (j + 1) default :: (y :: t).set (j + 1) x
          = t.getD j default :: y :: t.set j x := by simp
        _ ~ y :: (t.getD j default :: t.set j x) := List.Perm.swap _ _ _
        _ ~ y :: (x :: t) := (ih j x hj').cons y
        _ ~ x :: y :: t := List.Perm.swap _ _ _

theorem set_getD_self [Inhabited α] (l : List α) (i : Nat) (hi : i < l.length) :
    l.set i (l.getD i default) = l := by
  apply List.ext_getElem (by simp)
  intro n h1 h2
  rcases eq_or_ne i n with rfl | hne
  · simp [List.getElem_set_self, List.getD_eq_getElem?_getD, List.getElem?_eq_getElem h2]
  · simp [List.getElem_set_ne hne]

theorem swapAt_perm [Inhabited α] (l : List α) (i j : Nat)
    (hi : i < l.length) (hj : j < l.length) : swapAt l i j ~ l := by
  rcases eq_or_ne i j with rfl | hne
  · simp only [swapAt, List.set_set, set_getD_self l i hi]
    exact List.Perm.refl _
  · have hgd : (l.set i (l.getD j default)).getD j default = l.getD j default := by
      rw [List.getD_eq_getElem?_getD, List.getElem?_set_ne hne,
        ← List.getD_eq_getElem?_getD]
    have p1 : (l.set i (l.getD j default)).getD j default
        :: (l.set i (l.getD j default)).set j (l.getD i default)
        ~ (l.getD i default) :: l.set i (l.getD j default) :=
      set_cons_perm _ j _ (by simpa using hj)
    have p2 : (l.getD i default) :: l.set i (l.getD j default)
        ~ (l.getD j default) :: l := set_cons_perm _ i _ hi
    have : (l.getD j default) :: swapAt l i j ~ (l.getD j default) :: l := by
      have := (hgd ▸ p1).trans p2
      simpa [swapAt] using this
    exact this.cons_inv

theorem siftUpAux_perm [Inhabited α] (cmp : Comparator α) :
    ∀ (fuel : Nat) (q : List α) (idx : Nat), idx < q.length →
      (siftUpAux cmp fuel q idx).Perm q := by
  intro fuel
  induction fuel with
  | zero => intro q idx _; exact List.Perm.refl q
  | succ fuel ih =>
    intro q idx hidx
    rw [siftUpAux]
    by_cases hpos : 0 < idx
    · rw [if_pos hpos]
      by_cases hcmp : cmp (q.getD idx default) (q.getD ((idx - 1) / 2) default) < 0
      · rw [if_pos hcmp]
        have hp : (idx - 1) / 2 < q.length :=
          Nat.lt_of_le_of_lt (Nat.le_trans (Nat.div_le_self _ 2) (Nat.pred_le idx)) hidx
        exact (ih _ _ (by simpa using hp)).trans (swapAt_perm q idx _ hidx hp)
      · rw [if_neg hcmp]
    · rw [if_neg hpos]

theorem siftUp_perm [Inhabited α] (cmp : Comparator α) (q : List α) (idx : Nat)
    (hidx : idx < q.length) : (siftUp cmp q idx).Perm q :=
  siftUpAux_perm cmp idx q idx hidx

theorem siftDownAux_perm [Inhabited α] (cmp : Comparator α) :
    ∀ (fuel : Nat) (q : List α) (idx : Nat), (siftDownAux cmp fuel q idx).Perm q := by
  intro fuel
  induction fuel with
  | zero => intro q idx; exact List.Perm.refl q
  | succ fuel ih =>
    intro q idx
    rw [siftDownAux]
    by_cases hm : minChild cmp q idx = idx
    · rw [if_pos hm]
    · rw [if_neg hm]
      rcases minChild_cases cmp q idx with hc | hc
      · exact absurd hc hm
      · exact (ih _ _).trans (swapAt_perm q idx _ (Nat.lt_trans hc.1 hc.2) hc.2)

theorem siftDown_perm [Inhabited α] (cmp : Comparator α) (q : List α) (idx : Nat) :
    (siftDown cmp q idx).Perm q :=
  siftDownAux_perm cmp q.length q idx

@[simp] theorem siftDown_length [Inhabited α] (cmp : Comparator α) (q : List α) (idx : Nat) :
    (siftDown cmp q idx).length = q.length :=
  (siftDown_perm cmp q idx).length_eq

theorem push_perm [Inhabited α] (cmp : Comparator α) (q : List α) (x : α) :
    (push cmp q x).Perm (q ++ [x]) := by
  unfold push
  exact siftUp_perm cmp (q ++ [x]) q.length (by simp)

@[simp] theorem push_length [Inhabited α] (cmp : Comparator α) (q : List α) (x : α) :
    (push cmp q x).length = q.length + 1 := by
  have := (push_perm cmp q x).length_eq
  simpa using this

theorem pop_nil [Inhabited α] (cmp : Comparator α) : pop cmp ([] : List α) = (none, []) := rfl

theorem pop_cons [Inhabited α] (cmp : Comparator α) (top : α) (rest : List α) :
    (pop cmp (top :: rest)).1 = some top ∧ (pop cmp (top :: rest)).2.Perm rest := by
  rcases List.eq_nil_or_concat rest with rfl | ⟨l, b, rfl⟩
  · exact ⟨rfl, by simp [pop]⟩
  · simp only [List.concat_eq_append]
    have hdrop : (top :: (l ++ [b])).dropLast = top :: l := by
      rw [show top :: (l ++ [b]) = (top :: l) ++ [b] by simp, List.dropLast_concat]
    have hlast : (top :: (l ++ [b])).getLast (by simp) = b := by
      rw [List.getLast_eq_getElem]
      simp [List.getElem_append_right, List.getElem_cons]
    refine ⟨?_, ?_⟩
    · simp only [pop]
      split <;> rfl
    · have hne : ((top :: (l ++ [b])).dropLast).isEmpty = false := by
        rw [hdrop]; rfl
      simp only [pop, hne, Bool.false_eq_true, if_false]
      rw [hdrop, hlast]
      have h1 : (siftDown cmp ((top :: l).set 0 b) 0).Perm ((top :: l).set 0 b) :=
        siftDown_perm cmp _ 0
      simp only [List.set_cons_zero] at h1
      exact h1.trans (List.perm_append_singleton b l).symm

/-! ### Heap-order invariant

The comparator contract of the spec: negative means the first argument
sorts before the second, positive the reverse, zero either. A comparator
is *compatible* with a total preorder `le` when every sign it returns is
consistent with `le`; the binary heap then keeps every parent `le` its
children and the root is a minimum. -/

/-- `j` is a child index of `i` in the implicit binary tree. -/
def childOf (i j : Nat) : Prop := j = 2 * i + 1 ∨ j = 2 * i + 2

theorem childOf_gt {i j : Nat} (h : childOf i j) : i < j := by
  rcases h with rfl | rfl <;> omega

theorem childOf_parent {i j : Nat} (h : childOf i j) : i = (j - 1) / 2 := by
  rcases h with rfl | rfl <;> omega

/-- Every answer of `cmp` is consistent with the preorder `le`. -/
def Compat (cmp : Comparator α) (le : α → α → Prop) : Prop :=
  ∀ a b, (cmp a b < 0 → le a b) ∧ (¬ cmp a b < 0 → le b a)

theorem Compat.le_refl {cmp : Comparator α} {le : α → α → Prop}
    (hc : Compat cmp le) (a : α) : le a a := by
  rcases lt_or_ge (cmp a a) 0 with h | h
  · exact (hc a a).1 h
  · exact (hc a a).2 (not_lt.mpr h)

/-- Parent `le` child throughout the array. -/
def HeapInv [Inhabited α] (le : α → α → Prop) (q : List α) : Prop :=
  ∀ i j, childOf i j → j < q.length → le (q.getD i default) (q.getD j default)

theorem swapAt_getD_fst [Inhabited α] {q : List α} {i j : Nat}
    (hne : i ≠ j) (hi : i < q.length) :
    (swapAt q i j).getD i default = q.getD j default := by
  unfold swapAt
  rw [List.getD_eq_getElem?_getD, List.getElem?_set_ne (Ne.symm hne),
    List.getElem?_set_self (by simpa using hi)]
  rfl

theorem swapAt_getD_snd [Inhabited α] {q : List α} {i j : Nat}
    (hj : j < q.length) :
    (swapAt q i j).getD j default = q.getD i default := by
  unfold swapAt
  rw [List.getD_eq_getElem?_getD, List.getElem?_set_self (by simpa using hj)]
  rfl

theorem swapAt_getD_other [Inhabited α] {q : List α} {i j k : Nat}
    (hki : k ≠ i) (hkj : k ≠ j) :
    (swapAt q i j).getD k default = q.getD k default := by
  unfold swapAt
  rw [List.getD_eq_getElem?_getD, List.getElem?_set_ne (Ne.symm hkj),
    List.getElem?_set_ne (Ne.symm hki), ← List.getD_eq_getElem?_getD]

theorem childOf_parent_self {j : Nat} (hj : 0 < j) : childOf ((j - 1) / 2) j := by
  unfold childOf; omega

theorem siftUpAux_heapInv [Inhabited α] {cmp : Comparator α} {le : α → α → Prop}
    (hc : Compat cmp le) (htr : Transitive le) :
    ∀ (fuel : Nat) (q : List α) (idx : Nat), idx ≤ fuel → idx < q.length →
    (∀ i j, childOf i j → j < q.length → j ≠ idx →
      le (q.getD i default) (q.getD j default)) →
    (∀ j, childOf idx j → j < q.length → 0 < idx →
      le (q.getD ((idx - 1) / 2) default) (q.getD j default)) →
    HeapInv le (siftUpAux cmp fuel q idx) := by
  intro fuel
  induction fuel with
  | zero =>
    intro q idx hfuel hidx h1 h2
    have : idx = 0 := by omega
    subst this
    rw [siftUpAux]
    intro i j hcij hjlen
    exact h1 i j hcij hjlen (by have := childOf_gt hcij; omega)
  | succ fuel ih =>
    intro q idx hfuel hidx h1 h2
    rw [siftUpAux]
    by_cases hpos : 0 < idx
    rotate_left
    · rw [if_neg hpos]
      have : idx = 0 := by omega
      subst this
      intro i j hcij hjlen
      exact h1 i j hcij hjlen (by have := childOf_gt hcij; omega)
    rw [if_pos hpos]
    set parent := (idx - 1) / 2 with hparent
    by_cases hcmp : cmp (q.getD idx default) (q.getD parent default) < 0
    rotate_left
    · rw [if_neg hcmp]
      intro i j hcij hjlen
      rcases eq_or_ne j idx with hjj | hjne
      · have hij : i = parent := by
          have := childOf_parent hcij; omega
        rw [hij, hjj]
        exact (hc _ _).2 hcmp
      · exact h1 i j hcij hjlen hjne
    rw [if_pos hcmp]
    have hpar_lt : parent < idx := Nat.lt_of_le_of_lt (Nat.div_le_self _ 2) (by omega)
    have hpar_len : parent < q.length := Nat.lt_trans hpar_lt hidx
    have hne : idx ≠ parent := (Nat.ne_of_lt hpar_lt).symm
    have hstar : le (q.getD idx default) (q.getD parent default) := (hc _ _).1 hcmp
    have e1 : (swapAt q idx parent).getD idx default = q.getD parent default :=
      swapAt_getD_fst hne hidx
    have e2 : (swapAt q idx parent).getD parent default = q.getD idx default :=
      swapAt_getD_snd hpar_len
    have hlen : (swapAt q idx parent).length = q.length := swapAt_length q idx parent
    refine ih _ parent (by omega) (by rw [hlen]; exact hpar_len) ?_ ?_
    · intro i j hcij hjlen hjne
      rw [hlen] at hjlen
      rcases eq_or_ne j idx with hjj | hjidx
      · -- the pair (parent, idx)
        have hij : i = parent := by
          have := childOf_parent hcij; omega
        rw [hij, hjj, e1, e2]; exact hstar
      · have ej : (swapAt q idx parent).getD j default = q.getD j default :=
          swapAt_getD_other hjidx hjne
        rcases eq_or_ne i idx with hii | hiidx
        · -- children of idx now hold the displaced parent value
          rw [hii] at hcij
          rw [hii, e1, ej]
          exact h2 j hcij hjlen hpos
        · rcases eq_or_ne i parent with hip | hipar
          · -- sibling of idx under parent
            rw [hip] at hcij
            rw [hip, e2, ej]
            exact htr hstar (h1 parent j hcij hjlen hjidx)
          · rw [swapAt_getD_other hiidx hipar, ej]
            exact h1 i j hcij hjlen hjidx
    · intro j hcij hjlen hppos
      rw [hlen] at hjlen
      have egp : (swapAt q idx parent).getD ((parent - 1) / 2) default
          = q.getD ((parent - 1) / 2) default := by
        have hgp_lt : (parent - 1) / 2 < parent :=
          Nat.lt_of_le_of_lt (Nat.div_le_self _ 2) (by omega)
        exact swapAt_getD_other (by omega) (by omega)
      have hgp_par : le (q.getD ((parent - 1) / 2) default) (q.getD parent default) :=
        h1 _ parent (childOf_parent_self hppos) (Nat.lt_trans hpar_lt hidx) hne.symm
      rcases eq_or_ne j idx with hjj | hjidx
      · rw [hjj, egp, e1]; exact hgp_par
      · have hj_par : j ≠ parent := by
          have := childOf_gt hcij; omega
        rw [egp, swapAt_getD_other hjidx hj_par]
        exact htr hgp_par (h1 parent j hcij hjlen hjidx)

theorem siftUp_heapInv [Inhabited α] {cmp : Comparator α} {le : α → α → Prop}
    (hc : Compat cmp le) (htr : Transitive le) (q : List α) (idx : Nat)
    (hidx : idx < q.length)
    (h1 : ∀ i j, childOf i j → j < q.length → j ≠ idx →
      le (q.getD i default) (q.getD j default))
    (h2 : ∀ j, childOf idx j → j < q.length → 0 < idx →
      le (q.getD ((idx - 1) / 2) default) (q.getD j default)) :
    HeapInv le (siftUp cmp q idx) :=
  siftUpAux_heapInv hc htr idx q idx (Nat.le_refl idx) hidx h1 h2

theorem getD_append_left [Inhabited α] (q t : List α) (k : Nat) (hk : k < q.length) :
    (q ++ t).getD k default = q.getD k default := by
  rw [List.getD_eq_getElem?_getD, List.getElem?_append_left hk,
    ← List.getD_eq_getElem?_getD]

theorem push_heapInv [Inhabited α] {cmp : Comparator α} {le : α → α → Prop}
    (hc : Compat cmp le) (htr : Transitive le) {q : List α} (x : α)
    (hq : HeapInv le q) : HeapInv le (push cmp q x) := by
  unfold push
  refine siftUp_heapInv hc htr _ _ (by simp) ?_ ?_
  · intro i j hcij hjlen hjne
    simp only [List.length_append, List.length_cons, List.length_nil] at hjlen
    have hj : j < q.length := by omega
    have hi : i < q.length := Nat.lt_trans (childOf_gt hcij) hj
    rw [getD_append_left q [x] i hi, getD_append_left q [x] j hj]
    exact hq i j hcij hj
  · intro j hcij hjlen _
    have := childOf_gt hcij
    simp only [List.length_append, List.length_cons, List.length_nil] at hjlen
    omega

theorem minChild_min [Inhabited α] {cmp : Comparator α} {le : α → α → Prop}
    (hc : Compat cmp le) (htr : Transitive le) (q : List α) (idx : Nat) :
    le (q.getD (minChild cmp q idx) default) (q.getD idx default) ∧
      ∀ c, childOf idx c → c < q.length →
        le (q.getD (minChild cmp q idx) default) (q.getD c default) := by
  unfold minChild
  simp only []
  by_cases h1 : 2 * idx + 1 < q.length ∧
      cmp (q.getD (2 * idx + 1) default) (q.getD idx default) < 0
  · rw [if_pos h1]
    by_cases h2 : 2 * idx + 2 < q.length ∧
        cmp (q.getD (2 * idx + 2) default) (q.getD (2 * idx + 1) default) < 0
    · rw [if_pos h2]
      have hRL : le (q.getD (2 * idx + 2) default) (q.getD (2 * idx + 1) default) :=
        (hc _ _).1 h2.2
      have hLI : le (q.getD (2 * idx + 1) default) (q.getD idx default) :=
        (hc _ _).1 h1.2
      refine ⟨htr hRL hLI, ?_⟩
      intro c hcc _
      rcases hcc with rfl | rfl
      · exact hRL
      · exact hc.le_refl _
    · rw [if_neg h2]
      have hLI : le (q.getD (2 * idx + 1) default) (q.getD idx default) :=
        (hc _ _).1 h1.2
      refine ⟨hLI, ?_⟩
      intro c hcc hclen
      rcases hcc with rfl | rfl
      · exact hc.le_refl _
      · have : ¬ cmp (q.getD (2 * idx + 2) default) (q.getD (2 * idx + 1) default) < 0 := by
          intro hcontra; exact h2 ⟨hclen, hcontra⟩
        exact (hc _ _).2 this
  · rw [if_neg h1]
    by_cases h2 : 2 * idx + 2 < q.length ∧
        cmp (q.getD (2 * idx + 2) default) (q.getD idx default) < 0
    · rw [if_pos h2]
      have hRI : le (q.getD (2 * idx + 2) default) (q.getD idx default) :=
        (hc _ _).1 h2.2
      refine ⟨hRI, ?_⟩
      intro c hcc hclen
      rcases hcc with rfl | rfl
      · have : ¬ cmp (q.getD (2 * idx + 1) default) (q.getD idx default) < 0 := by
          intro hcontra; exact h1 ⟨hclen, hcontra⟩
        exact htr hRI ((hc _ _).2 this)
      · exact hc.le_refl _
    · rw [if_neg h2]
      refine ⟨hc.le_refl _, ?_⟩
      intro c hcc hclen
      rcases hcc with rfl | rfl
      · have : ¬ cmp (q.getD (2 * idx + 1) default) (q.getD idx default) < 0 := by
          intro hcontra; exact h1 ⟨hclen, hcontra⟩
        exact (hc _ _).2 this
      · have : ¬ cmp (q.getD (2 * idx + 2) default) (q.getD idx default) < 0 := by
          intro hcontra; exact h2 ⟨hclen, hcontra⟩
        exact (hc _ _).2 this

theorem minChild_child [Inhabited α] (cmp : Comparator α) (q : List α) (idx : Nat) :
    minChild cmp q idx = idx ∨
      (childOf idx (minChild cmp q idx) ∧ minChild cmp q idx < q.length) := by
  unfold minChild childOf
  simp only []
  split <;> split <;> omega

theorem siftDownAux_heapInv [Inhabited α] {cmp : Comparator α} {le : α → α → Prop}
    (hc : Compat cmp le) (htr : Transitive le) :
    ∀ (fuel : Nat) (q : List α) (idx : Nat), q.length ≤ fuel + idx →
    (∀ i j, childOf i j → j < q.length → i ≠ idx →
      le (q.getD i default) (q.getD j default)) →
    (∀ c, childOf idx c → c < q.length → 0 < idx →
      le (q.getD ((idx - 1) / 2) default) (q.getD c default)) →
    HeapInv le (siftDownAux cmp fuel q idx) := by
  intro fuel
  induction fuel with
  | zero =>
    intro q idx hfuel h1 h2
    rw [siftDownAux]
    intro i j hcij hjlen
    refine h1 i j hcij hjlen ?_
    have := childOf_gt hcij
    omega
  | succ fuel ih =>
    intro q idx hfuel h1 h2
    rw [siftDownAux]
    set m := minChild cmp q idx with hmdef
    by_cases hm : m = idx
    · rw [if_pos hm]
      intro i j hcij hjlen
      rcases eq_or_ne i idx with hii | hne
      · rw [hii] at hcij ⊢
        have := (minChild_min hc htr q idx).2 j hcij hjlen
        rwa [← hmdef, hm] at this
      · exact h1 i j hcij hjlen hne
    rw [if_neg hm]
    have halt : m = idx ∨ (childOf idx m ∧ m < q.length) := minChild_child cmp q idx
    rcases halt with hc' | ⟨hchild, hmlen⟩
    · exact absurd hc' hm
    · have hmgt : idx < m := childOf_gt hchild
      have hidxlen : idx < q.length := Nat.lt_trans hmgt hmlen
      have e1 : (swapAt q idx m).getD idx default = q.getD m default :=
        swapAt_getD_fst (by omega) hidxlen
      have e2 : (swapAt q idx m).getD m default = q.getD idx default :=
        swapAt_getD_snd hmlen
      have hlen : (swapAt q idx m).length = q.length := swapAt_length q idx m
      have hmin1 : le (q.getD m default) (q.getD idx default) :=
        (minChild_min hc htr q idx).1
      have hmin2 : ∀ c, childOf idx c → c < q.length →
          le (q.getD m default) (q.getD c default) :=
        (minChild_min hc htr q idx).2
      refine ih _ m (by omega) ?_ ?_
      · intro i j hcij hjlen hine
        rw [hlen] at hjlen
        rcases eq_or_ne i idx with hii | hiidx
        · -- children of idx: m and possibly a sibling
          rw [hii] at hcij ⊢
          rcases eq_or_ne j m with hjm | hjm
          · rw [hjm, e1, e2]; exact hmin1
          · rw [e1, swapAt_getD_other (by have := childOf_gt hcij; omega) hjm]
            exact hmin2 j hcij hjlen
        · rcases eq_or_ne j idx with hjj | hjidx
          · -- pair (parent idx, idx)
            rw [hjj] at hcij ⊢
            have hpos : 0 < idx := by
              have := childOf_gt hcij; omega
            have hipar : i = (idx - 1) / 2 := childOf_parent hcij
            rw [hipar, swapAt_getD_other
              (by have := childOf_gt hcij; rw [hipar] at this; omega) (by omega), e1]
            exact h2 m hchild hmlen hpos
          · rcases eq_or_ne j m with hjm | hjm
            · -- pair (parent m, m) with parent m = idx, contradiction with i ≠ idx
              have : i = idx := by
                have h1' := childOf_parent hcij
                have h2' := childOf_parent hchild
                rw [hjm] at h1'
                omega
              exact absurd this hiidx
            · rw [swapAt_getD_other hiidx hine, swapAt_getD_other hjidx hjm]
              exact h1 i j hcij hjlen hiidx
      · intro c hcc hclen _
        rw [hlen] at hclen
        have hpar : (m - 1) / 2 = idx := (childOf_parent hchild).symm
        rw [hpar]
        have hcgt := childOf_gt hcc
        rw [e1, swapAt_getD_other (by omega) (by omega)]
        exact h1 m c hcc hclen (by omega)

theorem siftDown_heapInv [Inhabited α] {cmp : Comparator α} {le : α → α → Prop}
    (hc : Compat cmp le) (htr : Transitive le) (q : List α) (idx : Nat)
    (h1 : ∀ i j, childOf i j → j < q.length → i ≠ idx →
      le (q.getD i default) (q.getD j default))
    (h2 : ∀ c, childOf idx c → c < q.length → 0 < idx →
      le (q.getD ((idx - 1) / 2) default) (q.getD c default)) :
    HeapInv le (siftDown cmp q idx) :=
  siftDownAux_heapInv hc htr q.length q idx (by omega) h1 h2

theorem dropLast_set_getD [Inhabited α] (q : List α) (last : α) (k : Nat)
    (hk : 0 < k) (hk2 : k < q.length - 1) :
    ((q.dropLast).set 0 last).getD k default = q.getD k default := by
  rw [List.getD_eq_getElem?_getD, List.getElem?_set_ne (by omega),
    List.getElem?_dropLast, if_pos hk2, ← List.getD_eq_getElem?_getD]

theorem pop_heapInv [Inhabited α] {cmp : Comparator α} {le : α → α → Prop}
    (hc : Compat cmp le) (htr : Transitive le) {q : List α}
    (hq : HeapInv le q) : HeapInv le (pop cmp q).2 := by
  match q with
  | [] =>
    intro i j _ hj
    rw [pop_nil] at hj
    simp at hj
  | [top] =>
    intro i j _ hj
    rw [show (pop cmp [top]).2 = [] from rfl] at hj
    simp at hj
  | top :: b :: rest =>
    have hne : ((top :: b :: rest).dropLast).isEmpty = false := by
      rcases List.eq_nil_or_concat rest with rfl | ⟨l, c, rfl⟩ <;> simp
    simp only [pop, hne, Bool.false_eq_true, if_false]
    refine siftDown_heapInv hc htr _ 0 ?_
      (fun c _ _ h => absurd h (lt_irrefl 0))
    intro i j hcij hjlen hine
    have hipos : 0 < i := Nat.pos_of_ne_zero hine
    rw [List.length_set, List.length_dropLast] at hjlen
    have hjq : j < (top :: b :: rest).length - 1 := hjlen
    have hiq : i < (top :: b :: rest).length - 1 :=
      Nat.lt_trans (childOf_gt hcij) hjq
    rw [dropLast_set_getD _ _ i hipos hiq,
      dropLast_set_getD _ _ j (by have := childOf_gt hcij; omega) hjq]
    exact hq i j hcij (by omega)

/-- The root of a heap is `le` every element. -/
theorem heapInv_root_min [Inhabited α] {cmp : Comparator α} {le : α → α → Prop}
    (hc : Compat cmp le) (htr : Transitive le) {q : List α}
    (hq : HeapInv le q) : ∀ k, k < q.length → le (q.getD 0 default) (q.getD k default) := by
  intro k
  induction k using Nat.strong_induction_on with
  | _ k ih =>
    intro hk
    rcases Nat.eq_zero_or_pos k with rfl | hkpos
    · exact hc.le_refl _
    · have hpar_lt : (k - 1) / 2 < k :=
        Nat.lt_of_le_of_lt (Nat.div_le_self _ 2) (by omega)
      exact htr (ih _ hpar_lt (by omega)) (hq _ k (childOf_parent_self hkpos) hk)

theorem heapInv_head_min [Inhabited α] {cmp : Comparator α} {le : α → α → Prop}
    (hc : Compat cmp le) (htr : Transitive le) {top : α} {rest : List α}
    (hq : HeapInv le (top :: rest)) : ∀ x ∈ top :: rest, le top x := by
  intro x hx
  rcases List.mem_iff_getElem.mp hx with ⟨k, hk, rfl⟩
  have := heapInv_root_min hc htr hq k hk
  have h0 : (top :: rest).getD 0 default = top := rfl
  rw [h0, List.getD_eq_getElem?_getD, List.getElem?_eq_getElem hk] at this
  exact this

/-! ### Trace semantics for interleaved push/pop sequences -/

/-- A single operation on a `PriorityQueue`. -/
inductive Op (α : Type) where
  | push (a : α)
  | pop

/-- One step of the trace: a push mutates the heap; a pop records its
result in the log. -/
def step [Inhabited α] (cmp : Comparator α) (st : List α × List (Option α)) :
    Op α → List α × List (Option α)
  | .push a => (push cmp st.1 a, st.2)
  | .pop =>
    let r := pop cmp st.1
    (r.2, st.2 ++ [r.1])

/-- Run a sequence of operations from a state. -/
def runFrom [Inhabited α] (cmp : Comparator α) (st : List α × List (Option α))
    (ops : List (Op α)) : List α × List (Option α) :=
  ops.foldl (step cmp) st

/-- Run a sequence of operations from the empty queue. -/
def runOps [Inhabited α] (cmp : Comparator α) (ops : List (Op α)) :
    List α × List (Option α) :=
  runFrom cmp ([], []) ops

/-- Number of pushes in an operation sequence. -/
def countPush {α : Type} (ops : List (Op α)) : Nat :=
  (ops.filter fun o => match o with | .push _ => true | .pop => false).length

/-- Number of successful pops recorded in a log. -/
def countSome {α : Type} (log : List (Option α)) : Nat :=
  (log.filter fun o => o.isSome).length

theorem runFrom_heapInv [Inhabited α] {cmp : Comparator α} {le : α → α → Prop}
    (hc : Compat cmp le) (htr : Transitive le) :
    ∀ (ops : List (Op α)) (st : List α × List (Option α)),
      HeapInv le st.1 → HeapInv le (runFrom cmp st ops).1 := by
  intro ops
  induction ops with
  | nil => intro st h; exact h
  | cons o rest ih =>
    intro st h
    refine ih _ ?_
    match o with
    | .push a => exact push_heapInv hc htr a h
    | .pop => exact pop_heapInv hc htr h

theorem runOps_heapInv [Inhabited α] {cmp : Comparator α} {le : α → α → Prop}
    (hc : Compat cmp le) (htr : Transitive le) (ops : List (Op α)) :
    HeapInv le (runOps cmp ops).1 :=
  runFrom_heapInv hc htr ops ([], []) (fun _ j _ hj => by simp at hj)

theorem runFrom_length [Inhabited α] (cmp : Comparator α) :
    ∀ (ops : List (Op α)) (st : List α × List (Option α)),
      (runFrom cmp st ops).1.length + countSome (runFrom cmp st ops).2
        = st.1.length + countSome st.2 + countPush ops := by
  intro ops
  induction ops with
  | nil => intro st; simp [runFrom, countPush]
  | cons o rest ih =>
    intro st
    have hstep : runFrom cmp st (o :: rest) = runFrom cmp (step cmp st o) rest := rfl
    rw [hstep, ih]
    match o with
    | .push a =>
      simp [step, countPush, countSome, List.filter]
      omega
    | .pop =>
      match hq : st.1 with
      | [] =>
        simp [step, hq, pop_nil, countPush, countSome, List.filter]
      | top :: rest' =>
        have hpop := pop_cons cmp top rest'
        have hlen : (pop cmp (top :: rest')).2.length = rest'.length :=
          hpop.2.length_eq
        simp only [step, hq, countPush, countSome, List.filter, hpop.1]
        simp [hlen, List.filter_append]
        omega

theorem runOps_length [Inhabited α] (cmp : Comparator α) (ops : List (Op α)) :
    (runOps cmp ops).1.length + countSome (runOps cmp ops).2 = countPush ops := by
  have h := runFrom_length cmp ops ([], [])
  simpa [runOps, countSome] using h

end PQ

/-- C5, counterexample to the claim as stated: for the valid comparator
`a - b` on integers, the interleaved sequence push 5, pop, push 1, pop pops
5 and then 1, which is *decreasing* under the comparator. -/
theorem priorityQueue_popOrder_counterexample :
    PQ.Compat (fun a b : Int => a - b) (· ≤ ·)
    ∧ Transitive ((· ≤ ·) : Int → Int → Prop)
    ∧ (PQ.runOps (fun a b : Int => a - b)
        [PQ.Op.push 5, PQ.Op.pop, PQ.Op.push 1, PQ.Op.pop]).2 = [some 5, some 1]
    ∧ ¬ ((5 : Int) ≤ 1) := by
  refine ⟨?_, ?_, ?_, ?_⟩
  · intro a b
    refine ⟨fun h => ?_, fun h => ?_⟩
    · have h' : a - b < 0 := h
      omega
    · have h' : ¬ a - b < 0 := h
      omega
  · exact fun a b c h1 h2 => le_trans h1 h2
  · rfl
  · decide

/-- C5 (amended): for a comparator compatible with a transitive total
preorder, over every interleaved sequence of pushes and pops: the queue
length plus the number of successful pops equals the number of pushes;
pop and peek on the empty queue return empty; every successful pop returns
an element minimal among the current queue contents; and two consecutive
pops (with no push in between) are non-decreasing. The popped sequence as
a whole need not be non-decreasing when pushes intervene. -/
theorem priorityQueue_trace_spec {α : Type} [Inhabited α] (cmp : PQ.Comparator α)
    (le : α → α → Prop) (hc : PQ.Compat cmp le) (htr : Transitive le) :
    (∀ ops : List (PQ.Op α),
        (PQ.runOps cmp ops).1.length + PQ.countSome (PQ.runOps cmp ops).2
          = PQ.countPush ops)
    ∧ (PQ.pop cmp ([] : List α) = (none, []) ∧ PQ.peek ([] : List α) = none)
    ∧ (∀ (pre : List (PQ.Op α)) (r : α),
        (PQ.pop cmp (PQ.runOps cmp pre).1).1 = some r →
          ∀ x ∈ (PQ.runOps cmp pre).1, le r x)
    ∧ (∀ (pre : List (PQ.Op α)) (r₁ r₂ : α),
        (PQ.pop cmp (PQ.runOps cmp pre).1).1 = some r₁ →
        (PQ.pop cmp (PQ.pop cmp (PQ.runOps cmp pre).1).2).1 = some r₂ →
          le r₁ r₂) := by
  have hmin : ∀ (pre : List (PQ.Op α)) (r : α),
      (PQ.pop cmp (PQ.runOps cmp pre).1).1 = some r →
        ∀ x ∈ (PQ.runOps cmp pre).1, le r x := by
    intro pre r hr x hx
    have hheap := PQ.runOps_heapInv hc htr pre
    match hq : (PQ.runOps cmp pre).1 with
    | [] => rw [hq, PQ.pop_nil] at hr; exact absurd hr (by simp)
    | top :: rest =>
      rw [hq] at hr hx
      have := (PQ.pop_cons cmp top rest).1
      rw [this] at hr
      have hrtop : r = top := (Option.some.inj hr).symm
      rw [hq] at hheap
      rw [hrtop]
      exact PQ.heapInv_head_min hc htr hheap x hx
  refine ⟨PQ.runOps_length cmp, ⟨PQ.pop_nil cmp, rfl⟩, hmin, ?_⟩
  intro pre r₁ r₂ hr₁ hr₂
  match hq : (PQ.runOps cmp pre).1 with
  | [] => rw [hq, PQ.pop_nil] at hr₁; exact absurd hr₁ (by simp)
  | top :: rest =>
    rw [hq] at hr₁ hr₂
    have hpc := PQ.pop_cons cmp top rest
    rw [hpc.1] at hr₁
    have hr₁top : r₁ = top := (Option.some.inj hr₁).symm
    have hmem : r₂ ∈ (PQ.pop cmp (top :: rest)).2 := by
      match hq₂ : (PQ.pop cmp (top :: rest)).2 with
      | [] => rw [hq₂, PQ.pop_nil] at hr₂; exact absurd hr₂ (by simp)
      | c :: t =>
        rw [hq₂] at hr₂
        rw [(PQ.pop_cons cmp c t).1] at hr₂
        have : r₂ = c := (Option.some.inj hr₂).symm
        rw [this]
        exact List.mem_cons_self c t
    have hmem' : r₂ ∈ top :: rest :=
      List.mem_cons_of_mem top (hpc.2.subset hmem)
    have hheap := PQ.runOps_heapInv hc htr pre
    rw [hq] at hheap
    rw [hr₁top]
    exact PQ.heapInv_head_min hc htr hheap r₂ hmem'

/-- Witness for C5's amended theorem at the concrete integer comparator
`a - b`: push 3 then pop leaves an empty queue with one successful pop. -/
theorem priorityQueue_trace_spec_witness :
    (PQ.runOps (fun a b : Int => a - b) [PQ.Op.push 3, PQ.Op.pop]).1.length
      + PQ.countSome (PQ.runOps (fun a b : Int => a - b) [PQ.Op.push 3, PQ.Op.pop]).2
      = PQ.countPush [PQ.Op.push (3 : Int), PQ.Op.pop] :=
  (priorityQueue_trace_spec (fun a b : Int => a - b) (· ≤ ·)
    (fun a b => ⟨fun h => by have h' : a - b < 0 := h; omega,
      fun h => by have h' : ¬ a - b < 0 := h; omega⟩)
    (fun a b c h1 h2 => le_trans h1 h2)).1 [PQ.Op.push 3, PQ.Op.pop]

/-! ## Multi-View Queue (`MultiQueue` in the source)

Several priority queues over one logical item set, with lazy (soft)
deletion shared across views via the `live` id set. -/

namespace MQ

/-- `MultiQueue.Item`: wrapper `{id, data}` created on push. -/
structure Item (α : Type) where
  id : Nat
  data : α

instance {α : Type} [Inhabited α] : Inhabited (Item α) := ⟨⟨0, default⟩⟩

/-- The per-view heap comparator `(a, b) => cmp(a.data, b.data)`. -/
def itemCmp {α : Type} (cmp : PQ.Comparator α) : PQ.Comparator (Item α) :=
  fun a b => cmp a.data b.data

/-- State of a `MultiQueue`: live id set (insertion order), fresh id
counter, and one heap per view key. -/
structure MultiQueue (α K : Type) where
  live : List Nat
  nextId : Nat
  qs : K → List (Item α)

/-- A fresh `MultiQueue` (empty heaps, no live ids). -/
def MultiQueue.empty (α K : Type) : MultiQueue α K := ⟨[], 0, fun _ => []⟩

/-- `MultiQueue.length`: the number of live ids. -/
def length {α K : Type} (mq : MultiQueue α K) : Nat := mq.live.length

/-- `MultiQueue.push`: assign a fresh id, mark it live, push the wrapper
into every view's heap. -/
def push {α K : Type} [DecidableEq K] [Inhabited α] (keys : List K)
    (cmps : K → PQ.Comparator α) (mq : MultiQueue α K) (data : α) :
    Item α × MultiQueue α K :=
  let id := mq.nextId
  let item : Item α := ⟨id, data⟩
  let qs' := keys.foldl
    (fun f k => fun k' => if k' = k then PQ.push (itemCmp (cmps k)) (f k) item else f k')
    mq.qs
  (item, ⟨if id ∈ mq.live then mq.live else mq.live ++ [id], id + 1, qs'⟩)

/-- Loop body of `MultiQueue.pop`: peek the view's top, physically pop it,
return it if it is live (unmarking it), otherwise continue. `fuel` is the
heap size, an exact bound (each iteration removes one element). -/
def popLoop {α : Type} [Inhabited α] (cmp : PQ.Comparator (Item α)) :
    Nat → List (Item α) → List Nat → Option (Item α) × List (Item α) × List Nat
  | 0, q, live => (none, q, live)
  | fuel + 1, q, live =>
    match PQ.peek q with
    | none => (none, q, live)
    | some top =>
      let q' := (PQ.pop cmp q).2
      if top.id ∈ live then (some top, q', live.erase top.id)
      else popLoop cmp fuel q' live

/-- `MultiQueue.pop` for a view key (the source returns `top.data`; the
model keeps the whole wrapper so that statements can speak about its id). -/
def pop {α K : Type} [DecidableEq K] [Inhabited α] (cmps : K → PQ.Comparator α)
    (mq : MultiQueue α K) (key : K) : Option (Item α) × MultiQueue α K :=
  let r := popLoop (itemCmp (cmps key)) (mq.qs key).length (mq.qs key) mq.live
  (r.1, ⟨r.2.2, mq.nextId, fun k' => if k' = key then r.2.1 else mq.qs k'⟩)

/-- Loop body of `MultiQueue.peek`: skip (physically remove) dead top
entries until a live one surfaces; never unmarks a live id. -/
def peekLoop {α : Type} [Inhabited α] (cmp : PQ.Comparator (Item α)) :
    Nat → List (Item α) → List Nat → Option (Item α) × List (Item α)
  | 0, q, _ => (none, q)
  | fuel + 1, q, live =>
    match PQ.peek q with
    | none => (none, q)
    | some top =>
      if top.id ∈ live then (some top, q)
      else peekLoop cmp fuel (PQ.pop cmp q).2 live

/-- `MultiQueue.peek` for a view key. -/
def peek {α K : Type} [DecidableEq K] [Inhabited α] (cmps : K → PQ.Comparator α)
    (mq : MultiQueue α K) (key : K) : Option (Item α) × MultiQueue α K :=
  let r := peekLoop (itemCmp (cmps key)) (mq.qs key).length (mq.qs key) mq.live
  (r.1, ⟨mq.live, mq.nextId, fun k' => if k' = key then r.2 else mq.qs k'⟩)

/-- `MultiQueue.delete`: pure lazy deletion — unmark the id, touch no heap. -/
def delete {α K : Type} (mq : MultiQueue α K) (id : Nat) : MultiQueue α K :=
  ⟨mq.live.erase id, mq.nextId, mq.qs⟩

/-- One operation on a `MultiQueue`. -/
inductive MQOp (α K : Type) where
  | push (a : α)
  | pop (k : K)
  | peek (k : K)
  | del (id : Nat)

/-- Trace state: the queue plus the ids popped so far (through any view)
and the ids passed to `delete` so far. -/
structure TState (α K : Type) where
  mq : MultiQueue α K
  popped : List Nat
  deleted : List Nat

/-- One trace step. -/
def stepMQ {α K : Type} [DecidableEq K] [Inhabited α] (keys : List K)
    (cmps : K → PQ.Comparator α) (st : TState α K) : MQOp α K → TState α K
  | .push a => ⟨(push keys cmps st.mq a).2, st.popped, st.deleted⟩
  | .pop k =>
    let r := pop cmps st.mq k
    ⟨r.2, st.popped ++ (match r.1 with | some it => [it.id] | none => []), st.deleted⟩
  | .peek k => ⟨(peek cmps st.mq k).2, st.popped, st.deleted⟩
  | .del id => ⟨delete st.mq id, st.popped, st.deleted ++ [id]⟩

/-- Run a trace from the empty queue. -/
def runMQ {α K : Type} [DecidableEq K] [Inhabited α] (keys : List K)
    (cmps : K → PQ.Comparator α) (ops : List (MQOp α K)) : TState α K :=
  ops.foldl (stepMQ keys cmps) ⟨MultiQueue.empty α K, [], []⟩

/-- Number of pushes in a trace. -/
def countPushMQ {α K : Type} (ops : List (MQOp α K)) : Nat :=
  (ops.filter fun o => match o with | .push _ => true | _ => false).length

/-- Every `delete` targets an id already issued by an earlier push. -/
def ValidDel {α K : Type} : List (MQOp α K) → Nat → Bool
  | [], _ => true
  | .del id :: rest, pc => id < pc && ValidDel rest pc
  | .push _ :: rest, pc => ValidDel rest (pc + 1)
  | _ :: rest, pc => ValidDel rest pc

end MQ

namespace MQ

variable {α K : Type}

theorem popLoop_none [Inhabited α] (cmp : PQ.Comparator (Item α)) :
    ∀ (fuel : Nat) (q : List (Item α)) (live : List Nat),
      (popLoop cmp fuel q live).1 = none → (popLoop cmp fuel q live).2.2 = live := by
  intro fuel
  induction fuel with
  | zero => intro q live _; rfl
  | succ fuel ih =>
    intro q live h
    rcases hq : PQ.peek q with _ | top
    · simp only [popLoop, hq]
    · simp only [popLoop, hq] at h ⊢
      by_cases hl : top.id ∈ live
      · rw [if_pos hl] at h; exact absurd h (by simp)
      · rw [if_neg hl] at h ⊢
        exact ih _ _ h

theorem popLoop_some [Inhabited α] (cmp : PQ.Comparator (Item α)) :
    ∀ (fuel : Nat) (q : List (Item α)) (live : List Nat) (it : Item α),
      (popLoop cmp fuel q live).1 = some it →
        it.id ∈ live ∧ (popLoop cmp fuel q live).2.2 = live.erase it.id := by
  intro fuel
  induction fuel with
  | zero => intro q live it h; exact absurd h (by simp [popLoop])
  | succ fuel ih =>
    intro q live it h
    rcases hq : PQ.peek q with _ | top
    · simp only [popLoop, hq] at h; exact absurd h (by simp)
    · simp only [popLoop, hq] at h ⊢
      by_cases hl : top.id ∈ live
      · rw [if_pos hl] at h ⊢
        have : top = it := Option.some.inj h
        subst this
        exact ⟨hl, rfl⟩
      · rw [if_neg hl] at h ⊢
        exact ih _ _ _ h

theorem peekLoop_some [Inhabited α] (cmp : PQ.Comparator (Item α)) :
    ∀ (fuel : Nat) (q : List (Item α)) (live : List Nat) (it : Item α),
      (peekLoop cmp fuel q live).1 = some it → it.id ∈ live := by
  intro fuel
  induction fuel with
  | zero => intro q live it h; exact absurd h (by simp [peekLoop])
  | succ fuel ih =>
    intro q live it h
    rcases hq : PQ.peek q with _ | top
    · simp only [peekLoop, hq] at h; exact absurd h (by simp)
    · simp only [peekLoop, hq] at h
      by_cases hl : top.id ∈ live
      · rw [if_pos hl] at h
        have : top = it := Option.some.inj h
        subst this
        exact hl
      · rw [if_neg hl] at h
        exact ih _ _ _ h

/-- The liveness invariant: `live` holds exactly the issued ids that have
been neither popped (through any view) nor deleted. -/
def INV (st : TState α K) : Prop :=
  st.mq.live.Nodup ∧
  (∀ i ∈ st.mq.live, i < st.mq.nextId ∧ i ∉ st.popped ∧ i ∉ st.deleted) ∧
  (∀ i, i < st.mq.nextId → i ∉ st.popped → i ∉ st.deleted → i ∈ st.mq.live) ∧
  (∀ i ∈ st.popped, i < st.mq.nextId) ∧
  (∀ i ∈ st.deleted, i < st.mq.nextId)

theorem stepMQ_nextId [DecidableEq K] [Inhabited α] (keys : List K)
    (cmps : K → PQ.Comparator α) (st : TState α K) (op : MQOp α K) :
    (stepMQ keys cmps st op).mq.nextId
      = st.mq.nextId + (match op with | .push _ => 1 | _ => 0) := by
  match op with
  | .push a => rfl
  | .pop k => rfl
  | .peek k => rfl
  | .del id => rfl

theorem stepMQ_inv [DecidableEq K] [Inhabited α] (keys : List K)
    (cmps : K → PQ.Comparator α) (st : TState α K) (op : MQOp α K)
    (hinv : INV st)
    (hop : match op with | .del id => id < st.mq.nextId | _ => True) :
    INV (stepMQ keys cmps st op) := by
  obtain ⟨hnd, h1, h2, h3, h4⟩ := hinv
  match op with
  | .push a =>
    have hfresh : st.mq.nextId ∉ st.mq.live := fun h => absurd (h1 _ h).1 (lt_irrefl _)
    refine ⟨?_, ?_, ?_, ?_, ?_⟩
    · show (if st.mq.nextId ∈ st.mq.live then st.mq.live
        else st.mq.live ++ [st.mq.nextId]).Nodup
      rw [if_neg hfresh, List.nodup_append]
      exact ⟨hnd, List.nodup_singleton _, by
        intro x hx hx'
        rw [List.mem_singleton] at hx'
        exact hfresh (hx' ▸ hx)⟩
    · intro i hi
      show i < st.mq.nextId + 1 ∧ i ∉ st.popped ∧ i ∉ st.deleted
      rw [show (stepMQ keys cmps st (.push a)).mq.live
          = if st.mq.nextId ∈ st.mq.live then st.mq.live
            else st.mq.live ++ [st.mq.nextId] from rfl, if_neg hfresh] at hi
      rcases List.mem_append.mp hi with hi | hi
      · obtain ⟨ha, hb, hc⟩ := h1 i hi
        exact ⟨by omega, hb, hc⟩
      · rw [List.mem_singleton] at hi
        subst hi
        exact ⟨by omega, fun h => absurd (h3 _ h) (lt_irrefl _),
          fun h => absurd (h4 _ h) (lt_irrefl _)⟩
    · intro i hi hp hd
      show i ∈ if st.mq.nextId ∈ st.mq.live then st.mq.live
        else st.mq.live ++ [st.mq.nextId]
      rw [if_neg hfresh]
      have hi' : i < st.mq.nextId + 1 := hi
      rcases Nat.lt_or_ge i st.mq.nextId with h | h
      · exact List.mem_append.mpr (Or.inl (h2 i h hp hd))
      · have : i = st.mq.nextId := by omega
        subst this
        exact List.mem_append.mpr (Or.inr (List.mem_singleton.mpr rfl))
    · intro i hi
      have := h3 i hi
      show i < st.mq.nextId + 1
      omega
    · intro i hi
      have := h4 i hi
      show i < st.mq.nextId + 1
      omega
  | .pop k =>
    rcases hr : (pop cmps st.mq k).1 with _ | it
    · -- unsuccessful pop: live unchanged
      have hlive : (pop cmps st.mq k).2.live = st.mq.live := popLoop_none _ _ _ _ hr
      refine ⟨by rw [show (stepMQ keys cmps st (.pop k)).mq.live
          = (pop cmps st.mq k).2.live from rfl, hlive]; exact hnd, ?_, ?_, ?_, ?_⟩
      all_goals
        simp only [stepMQ, hr, show (pop cmps st.mq k).2.live = st.mq.live from hlive,
          show (pop cmps st.mq k).2.nextId = st.mq.nextId from rfl, List.append_nil]
      · intro i hi
        exact h1 i hi
      · intro i hi hp hd
        exact h2 i hi hp hd
      · intro i hi
        exact h3 i hi
      · intro i hi
        exact h4 i hi
    · have hps := popLoop_some (itemCmp (cmps k)) _ _ _ _ hr
      have hlive : (pop cmps st.mq k).2.live = st.mq.live.erase it.id := hps.2
      have hmem : it.id ∈ st.mq.live := hps.1
      refine ⟨?_, ?_, ?_, ?_, ?_⟩
      all_goals
        simp only [stepMQ, hr, show (pop cmps st.mq k).2.live
          = st.mq.live.erase it.id from hlive,
          show (pop cmps st.mq k).2.nextId = st.mq.nextId from rfl]
      · exact hnd.erase _
      · intro i hi
        rw [hnd.mem_erase_iff] at hi
        obtain ⟨hne, hin⟩ := hi
        obtain ⟨ha, hb, hc⟩ := h1 i hin
        refine ⟨ha, ?_, hc⟩
        intro hcon
        rcases List.mem_append.mp hcon with h | h
        · exact hb h
        · rw [List.mem_singleton] at h; exact hne h
      · intro i hi hp hd
        rw [hnd.mem_erase_iff]
        have hne : i ≠ it.id := by
          intro h
          exact hp (List.mem_append.mpr (Or.inr (List.mem_singleton.mpr h)))
        have hnp : i ∉ st.popped := fun h => hp (List.mem_append.mpr (Or.inl h))
        exact ⟨hne, h2 i hi hnp hd⟩
      · intro i hi
        rcases List.mem_append.mp hi with h | h
        · exact h3 i h
        · rw [List.mem_singleton] at h
          subst h
          exact (h1 _ hmem).1
      · intro i hi
        exact h4 i hi
  | .peek k =>
    exact ⟨hnd, h1, h2, h3, h4⟩
  | .del id =>
    have hid : id < st.mq.nextId := hop
    refine ⟨hnd.erase _, ?_, ?_, ?_, ?_⟩
    · intro i hi
      rw [show (stepMQ keys cmps st (.del id)).mq.live
        = st.mq.live.erase id from rfl, hnd.mem_erase_iff] at hi
      obtain ⟨hne, hin⟩ := hi
      obtain ⟨ha, hb, hc⟩ := h1 i hin
      refine ⟨ha, hb, ?_⟩
      intro hcon
      rcases List.mem_append.mp hcon with h | h
      · exact hc h
      · rw [List.mem_singleton] at h; exact hne h
    · intro i hi hp hd
      show i ∈ st.mq.live.erase id
      rw [hnd.mem_erase_iff]
      have hne : i ≠ id := by
        intro h
        exact hd (List.mem_append.mpr (Or.inr (List.mem_singleton.mpr h)))
      have hnd' : i ∉ st.deleted := fun h => hd (List.mem_append.mpr (Or.inl h))
      exact ⟨hne, h2 i hi hp hnd'⟩
    · intro i hi
      exact h3 i hi
    · intro i hi
      rcases List.mem_append.mp hi with h | h
      · exact h4 i h
      · rw [List.mem_singleton] at h
        subst h
        exact hid

end MQ

namespace MQ

variable {α K : Type}

theorem foldMQ_inv [DecidableEq K] [Inhabited α] (keys : List K)
    (cmps : K → PQ.Comparator α) :
    ∀ (ops : List (MQOp α K)) (st : TState α K), INV st →
      ValidDel ops st.mq.nextId = true →
      INV (ops.foldl (stepMQ keys cmps) st) := by
  intro ops
  induction ops with
  | nil => intro st h _; exact h
  | cons op rest ih =>
    intro st h hv
    have hstep : (op :: rest).foldl (stepMQ keys cmps) st
        = rest.foldl (stepMQ keys cmps) (stepMQ keys cmps st op) := rfl
    rw [hstep]
    match op with
    | .push a =>
      refine ih _ (stepMQ_inv keys cmps st _ h trivial) ?_
      rw [stepMQ_nextId]
      exact hv
    | .pop k =>
      refine ih _ (stepMQ_inv keys cmps st _ h trivial) ?_
      rw [stepMQ_nextId]
      simpa using hv
    | .peek k =>
      refine ih _ (stepMQ_inv keys cmps st _ h trivial) ?_
      rw [stepMQ_nextId]
      simpa using hv
    | .del id =>
      have hv' : (id < st.mq.nextId ∧ ValidDel rest st.mq.nextId = true) := by
        have : (decide (id < st.mq.nextId) && ValidDel rest st.mq.nextId) = true := hv
        simpa using this
      refine ih _ (stepMQ_inv keys cmps st _ h hv'.1) ?_
      rw [stepMQ_nextId]
      simpa using hv'.2

theorem foldMQ_nextId [DecidableEq K] [Inhabited α] (keys : List K)
    (cmps : K → PQ.Comparator α) :
    ∀ (ops : List (MQOp α K)) (st : TState α K),
      (ops.foldl (stepMQ keys cmps) st).mq.nextId
        = st.mq.nextId + countPushMQ ops := by
  intro ops
  induction ops with
  | nil => intro st; simp [countPushMQ]
  | cons op rest ih =>
    intro st
    have hstep : (op :: rest).foldl (stepMQ keys cmps) st
        = rest.foldl (stepMQ keys cmps) (stepMQ keys cmps st op) := rfl
    rw [hstep, ih, stepMQ_nextId]
    match op with
    | .push a => simp [countPushMQ, List.filter]; omega
    | .pop k => simp [countPushMQ, List.filter]
    | .peek k => simp [countPushMQ, List.filter]
    | .del id => simp [countPushMQ, List.filter]

theorem foldMQ_deleted_mono [DecidableEq K] [Inhabited α] (keys : List K)
    (cmps : K → PQ.Comparator α) :
    ∀ (ops : List (MQOp α K)) (st : TState α K) (x : Nat),
      x ∈ st.deleted → x ∈ (ops.foldl (stepMQ keys cmps) st).deleted := by
  intro ops
  induction ops with
  | nil => intro st x h; exact h
  | cons op rest ih =>
    intro st x h
    have hstep : (op :: rest).foldl (stepMQ keys cmps) st
        = rest.foldl (stepMQ keys cmps) (stepMQ keys cmps st op) := rfl
    rw [hstep]
    refine ih _ x ?_
    match op with
    | .push a => exact h
    | .pop k => exact h
    | .peek k => exact h
    | .del id => exact List.mem_append.mpr (Or.inl h)

theorem runMQ_inv [DecidableEq K] [Inhabited α] (keys : List K)
    (cmps : K → PQ.Comparator α) (ops : List (MQOp α K))
    (hv : ValidDel ops 0 = true) : INV (runMQ keys cmps ops) := by
  refine foldMQ_inv keys cmps ops _ ?_ hv
  exact ⟨List.nodup_nil, fun i h => absurd h (List.not_mem_nil i),
    fun i h => by simp [MultiQueue.empty] at h,
    fun i h => absurd h (List.not_mem_nil i),
    fun i h => absurd h (List.not_mem_nil i)⟩

end MQ

/-- C6: over every interleaved sequence of push, pop, peek and delete
operations in which each delete targets an id already issued: the queue's
`length` plus the number of distinct ids popped-or-deleted equals the
number of ids pushed; no pop or peek through any view returns an id
previously popped (through any view) or deleted; once an id is deleted it
is invisible to every subsequent pop and peek on every view. -/
theorem multiQueue_trace_spec {α K : Type} [DecidableEq K] [Inhabited α]
    (keys : List K) (cmps : K → PQ.Comparator α) :
    (∀ ops : List (MQ.MQOp α K), MQ.ValidDel ops 0 = true →
        MQ.length (MQ.runMQ keys cmps ops).mq
          + ((MQ.runMQ keys cmps ops).popped
              ++ (MQ.runMQ keys cmps ops).deleted).toFinset.card
          = MQ.countPushMQ ops)
    ∧ (∀ (ops : List (MQ.MQOp α K)) (k : K) (it : MQ.Item α),
        MQ.ValidDel ops 0 = true →
        (MQ.pop cmps (MQ.runMQ keys cmps ops).mq k).1 = some it →
          it.id ∉ (MQ.runMQ keys cmps ops).popped
            ∧ it.id ∉ (MQ.runMQ keys cmps ops).deleted)
    ∧ (∀ (ops : List (MQ.MQOp α K)) (k : K) (it : MQ.Item α),
        MQ.ValidDel ops 0 = true →
        (MQ.peek cmps (MQ.runMQ keys cmps ops).mq k).1 = some it →
          it.id ∉ (MQ.runMQ keys cmps ops).popped
            ∧ it.id ∉ (MQ.runMQ keys cmps ops).deleted)
    ∧ (∀ (pre suf : List (MQ.MQOp α K)) (k : K) (id : Nat) (it : MQ.Item α),
        MQ.ValidDel (pre ++ MQ.MQOp.del id :: suf) 0 = true →
        ((MQ.pop cmps (MQ.runMQ keys cmps (pre ++ MQ.MQOp.del id :: suf)).mq k).1
            = some it → it.id ≠ id)
        ∧ ((MQ.peek cmps (MQ.runMQ keys cmps (pre ++ MQ.MQOp.del id :: suf)).mq k).1
            = some it → it.id ≠ id)) := by
  have hpop : ∀ (ops : List (MQ.MQOp α K)) (k : K) (it : MQ.Item α),
      MQ.ValidDel ops 0 = true →
      (MQ.pop cmps (MQ.runMQ keys cmps ops).mq k).1 = some it →
        it.id ∉ (MQ.runMQ keys cmps ops).popped
          ∧ it.id ∉ (MQ.runMQ keys cmps ops).deleted := by
    intro ops k it hv hr
    obtain ⟨_, h1, _, _, _⟩ := MQ.runMQ_inv keys cmps ops hv
    have hmem : it.id ∈ (MQ.runMQ keys cmps ops).mq.live :=
      (MQ.popLoop_some (MQ.itemCmp (cmps k)) _ _ _ _ hr).1
    exact ⟨(h1 _ hmem).2.1, (h1 _ hmem).2.2⟩
  have hpeek : ∀ (ops : List (MQ.MQOp α K)) (k : K) (it : MQ.Item α),
      MQ.ValidDel ops 0 = true →
      (MQ.peek cmps (MQ.runMQ keys cmps ops).mq k).1 = some it →
        it.id ∉ (MQ.runMQ keys cmps ops).popped
          ∧ it.id ∉ (MQ.runMQ keys cmps ops).deleted := by
    intro ops k it hv hr
    obtain ⟨_, h1, _, _, _⟩ := MQ.runMQ_inv keys cmps ops hv
    have hmem : it.id ∈ (MQ.runMQ keys cmps ops).mq.live :=
      MQ.peekLoop_some (MQ.itemCmp (cmps k)) _ _ _ _ hr
    exact ⟨(h1 _ hmem).2.1, (h1 _ hmem).2.2⟩
  have hdel : ∀ (pre suf : List (MQ.MQOp α K)) (id : Nat),
      id ∈ (MQ.runMQ keys cmps (pre ++ MQ.MQOp.del id :: suf)).deleted := by
    intro pre suf id
    have heq : MQ.runMQ keys cmps (pre ++ MQ.MQOp.del id :: suf)
        = suf.foldl (MQ.stepMQ keys cmps)
            (MQ.stepMQ keys cmps (MQ.runMQ keys cmps pre) (MQ.MQOp.del id)) := by
      rw [MQ.runMQ, List.foldl_append]
      rfl
    rw [heq]
    refine MQ.foldMQ_deleted_mono keys cmps suf _ id ?_
    exact List.mem_append.mpr (Or.inr (List.mem_singleton.mpr rfl))
  refine ⟨?_, hpop, hpeek, ?_⟩
  · intro ops hv
    obtain ⟨hnd, h1, h2, h3, h4⟩ := MQ.runMQ_inv keys cmps ops hv
    set st := MQ.runMQ keys cmps ops with hst
    have hn : st.mq.nextId = MQ.countPushMQ ops := by
      rw [hst, MQ.runMQ, MQ.foldMQ_nextId]
      show 0 + MQ.countPushMQ ops = MQ.countPushMQ ops
      omega
    have hset : st.mq.live.toFinset
        = Finset.range st.mq.nextId \ (st.popped ++ st.deleted).toFinset := by
      ext i
      simp only [List.mem_toFinset, Finset.mem_sdiff, Finset.mem_range,
        List.mem_append, not_or]
      constructor
      · intro h
        obtain ⟨ha, hb, hc⟩ := h1 i h
        exact ⟨ha, hb, hc⟩
      · rintro ⟨ha, hb, hc⟩
        exact h2 i ha hb hc
    have hsub : (st.popped ++ st.deleted).toFinset ⊆ Finset.range st.mq.nextId := by
      intro i hi
      rw [List.mem_toFinset, List.mem_append] at hi
      rw [Finset.mem_range]
      rcases hi with h | h
      · exact h3 i h
      · exact h4 i h
    have hcard : st.mq.live.toFinset.card
        = st.mq.nextId - (st.popped ++ st.deleted).toFinset.card := by
      rw [hset, Finset.card_sdiff hsub, Finset.card_range]
    have hle : (st.popped ++ st.deleted).toFinset.card ≤ st.mq.nextId := by
      have := Finset.card_le_card hsub
      simpa using this
    have hlen : MQ.length st.mq = st.mq.live.toFinset.card :=
      (List.toFinset_card_of_nodup hnd).symm
    rw [hlen, hcard, ← hn]
    omega
  · intro pre suf k id it hv
    constructor
    · intro hr
      intro hcon
      exact (hpop _ k it hv hr).2 (hcon ▸ hdel pre suf id)
    · intro hr
      intro hcon
      exact (hpeek _ k it hv hr).2 (hcon ▸ hdel pre suf id)

/-- Witness for C6 at a concrete trace: one view, push id 0 (payload 5)
then delete id 0 — length 0 plus one distinct removed id equals one push. -/
theorem multiQueue_trace_spec_witness :
    MQ.length (MQ.runMQ [true] (fun _ (a b : Nat) => (a : Int) - b)
        [MQ.MQOp.push 5, MQ.MQOp.del 0]).mq
      + ((MQ.runMQ [true] (fun _ (a b : Nat) => (a : Int) - b)
            [MQ.MQOp.push 5, MQ.MQOp.del 0]).popped
          ++ (MQ.runMQ [true] (fun _ (a b : Nat) => (a : Int) - b)
            [MQ.MQOp.push 5, MQ.MQOp.del 0]).deleted).toFinset.card
      = MQ.countPushMQ [MQ.MQOp.push (5 : Nat), MQ.MQOp.del (0 : Nat) (K := Bool)] :=
  (multiQueue_trace_spec [true] (fun _ (a b : Nat) => (a : Int) - b)).1
    [MQ.MQOp.push 5, MQ.MQOp.del 0] (by decide)

/-! ## Preference DAG (`DAG` in `graph.ts`)

Fixed node set (insertion-ordered association list from token to
insertion-ordered successor list), mutable edge set, kept acyclic by
construction. -/

/-- The preference graph: ordered association list from node to its
insertion-ordered successor set. -/
structure DAG where
  g : List (SplitString × List SplitString)
deriving DecidableEq

namespace DAG

/-- The constructor `new DAG(verts)`: one entry per distinct vertex, empty
successor sets (a JS `Map` keeps the first insertion position and the
value written is always the empty set). -/
def ofVerts (verts : List SplitString) : DAG :=
  ⟨verts.foldl (fun acc v => if acc.any (fun p => p.1 = v) then acc else acc ++ [(v, [])]) []⟩

/-- The node list, in insertion order. -/
def nodes (d : DAG) : List SplitString := d.g.map (·.1)

/-- Successors of a node (`this.g.get(u)`), empty for unknown nodes. -/
def adj (d : DAG) (u : SplitString) : List SplitString :=
  ((d.g.find? (fun p => p.1 = u)).map (·.2)).getD []

/-- `getMatchingNodes`: a trailing `*` makes the token a prefix pattern
matching every node that starts with the rest; otherwise the singleton of
the token when it is a node, else empty. -/
def getMatchingNodes (d : DAG) (node : SplitString) : List SplitString :=
  if node.getLast? = some '*' then
    d.nodes.filter (fun k => (node.dropLast).isPrefixOf k)
  else if d.g.any (fun p => p.1 = node) then [node]
  else []

/-- Directed edge relation of the graph. -/
def Edge (d : DAG) (u v : SplitString) : Prop := v ∈ d.adj u

/-- Reachability: reflexive–transitive closure of `Edge` (`hasPath`
counts the length-0 path from a node to itself). -/
def Reach (d : DAG) : SplitString → SplitString → Prop :=
  Relation.ReflTransGen (Edge d)

/-- No node reaches itself by a non-empty path. -/
def Acyclic (d : DAG) : Prop := ∀ x, ¬ Relation.TransGen (Edge d) x x

/-- Sum of all successor-list lengths (used only to size the DFS fuel). -/
def totalAdjLen (d : DAG) : Nat := (d.g.map (fun p => p.2.length)).sum

/-- The DFS loop of `hasPath`: stack-based traversal with a visited set,
accumulating the destinations reached, stopping early once every
destination is confirmed. The stack is a JS array: push/pop at the end.
`fuel` strictly exceeds `stack.length` plus the successor counts of the
unvisited nodes, a quantity every iteration decreases. -/
def hasPathLoop (d : DAG) (dstList : List SplitString) :
    Nat → List SplitString → List SplitString → List SplitString → List SplitString
  | 0, _, _, reachable => reachable
  | fuel + 1, stack, visited, reachable =>
    match stack.getLast? with
    | none => reachable
    | some node =>
      if node ∈ dstList ∧
          (if node ∈ dstList ∧ node ∉ reachable then reachable ++ [node]
           else reachable).length = dstList.length then
        (if node ∈ dstList ∧ node ∉ reachable then reachable ++ [node] else reachable)
      else if node ∉ visited then
        hasPathLoop d dstList fuel (stack.dropLast ++ d.adj node) (visited ++ [node])
          (if node ∈ dstList ∧ node ∉ reachable then reachable ++ [node] else reachable)
      else hasPathLoop d dstList fuel stack.dropLast visited
          (if node ∈ dstList ∧ node ∉ reachable then reachable ++ [node] else reachable)

/-- `hasPath(src, dstList)`: per-destination reachability booleans. -/
def hasPath (d : DAG) (src : SplitString) (dstList : List SplitString) : List Bool :=
  let reachable := hasPathLoop d dstList (2 + d.totalAdjLen) [src] [] []
  dstList.map (fun v => decide (v ∈ reachable))

/-- Insertion-order deduplication (`new Set(list)` iterated back out). -/
def dedupKeepFirst (l : List SplitString) : List SplitString :=
  l.foldl (fun acc x => if x ∈ acc then acc else acc ++ [x]) []

/-- Add the edge `u → v` (`this.g.get(u)!.add(v)`): appended to `u`'s
successor set unless already present; no-op for unknown `u`. -/
def addEdge (d : DAG) (u v : SplitString) : DAG :=
  ⟨d.g.map (fun p => if p.1 = u then (p.1, if v ∈ p.2 then p.2 else p.2 ++ [v]) else p)⟩

/-- The inner double loop of `addEdges` for one matched group `vs`: for
each `v` take a reachability snapshot `hasPath v us`, add `us[j] → v`
whenever `v` cannot already reach `us[j]`, and drop those `us[j]` from the
chain-end set. Returns the new graph and the remaining chain ends. -/
def processVs (d : DAG) (us vs : List SplitString) : DAG × List SplitString :=
  vs.foldl
    (fun acc v =>
      let hasPaths := acc.1.hasPath v us
      let pairs := us.zip hasPaths
      (pairs.foldl (fun d2 p => if p.2 = false then addEdge d2 p.1 v else d2) acc.1,
       pairs.foldl (fun ce p => if p.2 = false then ce.erase p.1 else ce) acc.2))
    (d, dedupKeepFirst us)

/-- First phase of `addEdges`: scan for the first hint entry matching any
node; return its matches and the rest of the hint. -/
def findFirstMatch (d : DAG) : List SplitString → List SplitString × List SplitString
  | [] => ([], [])
  | x :: rest =>
    let us := d.getMatchingNodes x
    if us.isEmpty then findFirstMatch d rest else (us, rest)

/-- `addEdges(order)`: walk the hint, adding the edges of each consecutive
matched group that do not close a cycle; the frontier becomes the
untouched chain ends plus the new group. -/
def addEdges (d : DAG) (order : List SplitString) : DAG :=
  let fm := findFirstMatch d order
  (fm.2.foldl
    (fun acc x =>
      let vs := acc.1.getMatchingNodes x
      if vs.isEmpty then acc
      else
        let r := processVs acc.1 acc.2 vs
        (r.1, r.2 ++ vs))
    (d, fm.1)).1

end DAG

namespace DAG

/-- Termination potential of the DFS loop: stack size plus the successor
counts of the not-yet-visited nodes. Every iteration decreases it. -/
def phi (d : DAG) (stack visited : List SplitString) : Nat :=
  stack.length + ((d.g.filter (fun p => p.1 ∉ visited)).map (fun p => p.2.length)).sum

theorem filter_sum_mono (l : List (SplitString × List SplitString))
    (pr q : SplitString × List SplitString → Bool)
    (him : ∀ a, pr a = true → q a = true) :
    ((l.filter pr).map (fun p => p.2.length)).sum
      ≤ ((l.filter q).map (fun p => p.2.length)).sum := by
  refine List.Sublist.sum_le_sum ?_ (fun a _ => Nat.zero_le a)
  exact ((List.monotone_filter_right l him).map (fun p => p.2.length))

theorem phi_step_aux :
    ∀ (l : List (SplitString × List SplitString)) (visited : List SplitString)
      (node : SplitString), node ∉ visited →
    ((l.filter (fun p => decide (p.1 ∉ visited ++ [node]))).map (fun p => p.2.length)).sum
      + (((l.find? (fun p => p.1 = node)).map (·.2)).getD []).length
    ≤ ((l.filter (fun p => decide (p.1 ∉ visited))).map (fun p => p.2.length)).sum := by
  intro l
  induction l with
  | nil => intro visited node _; simp
  | cons p t ih =>
    intro visited node hnv
    by_cases hp : p.1 = node
    · have hfind : (p :: t).find? (fun p => p.1 = node) = some p := by
        rw [List.find?_cons_of_pos]
        simpa using hp
      have hmemL : (decide (p.1 ∉ visited ++ [node])) = false := by
        simp [hp]
      have hmemR : (decide (p.1 ∉ visited)) = true := by
        simp [hp, hnv]
      have e1 : List.filter (fun q => decide (q.1 ∉ visited ++ [node])) (p :: t)
          = List.filter (fun q => decide (q.1 ∉ visited ++ [node])) t :=
        List.filter_cons_of_neg (by simpa using hmemL)
      have e2 : List.filter (fun q => decide (q.1 ∉ visited)) (p :: t)
          = p :: List.filter (fun q => decide (q.1 ∉ visited)) t :=
        List.filter_cons_of_pos (by simpa using hmemR)
      have e3 : (((p :: t).find? (fun q => q.1 = node)).map (·.2)).getD [] = p.2 := by
        rw [hfind]
        rfl
      rw [e1, e2, e3]
      simp only [List.map_cons, List.sum_cons]
      have hmono := filter_sum_mono t
        (fun p => decide (p.1 ∉ visited ++ [node]))
        (fun p => decide (p.1 ∉ visited))
        (by
          intro a ha
          simp only [decide_eq_true_eq] at ha ⊢
          intro hc
          exact ha (List.mem_append.mpr (Or.inl hc)))
      omega
    · have hfind : (p :: t).find? (fun p => p.1 = node) = t.find? (fun p => p.1 = node) := by
        rw [List.find?_cons_of_neg]
        simpa using hp
      have hsame : (decide (p.1 ∉ visited ++ [node])) = (decide (p.1 ∉ visited)) := by
        by_cases hv : p.1 ∈ visited
        · simp [hv]
        · simp [hv, List.mem_append, hp]
      have e3 : (((p :: t).find? (fun q => q.1 = node)).map (·.2)).getD []
          = ((t.find? (fun q => q.1 = node)).map (·.2)).getD [] := by
        rw [hfind]
      rw [e3]
      by_cases hv : (decide (p.1 ∉ visited)) = true
      · have e1 : List.filter (fun q => decide (q.1 ∉ visited ++ [node])) (p :: t)
            = p :: List.filter (fun q => decide (q.1 ∉ visited ++ [node])) t :=
          List.filter_cons_of_pos (by rw [hsame]; exact hv)
        have e2 : List.filter (fun q => decide (q.1 ∉ visited)) (p :: t)
            = p :: List.filter (fun q => decide (q.1 ∉ visited)) t :=
          List.filter_cons_of_pos hv
        rw [e1, e2]
        simp only [List.map_cons, List.sum_cons]
        have := ih visited node hnv
        omega
      · rw [Bool.not_eq_true] at hv
        have e1 : List.filter (fun q => decide (q.1 ∉ visited ++ [node])) (p :: t)
            = List.filter (fun q => decide (q.1 ∉ visited ++ [node])) t :=
          List.filter_cons_of_neg (by rw [hsame]; simp [hv])
        have e2 : List.filter (fun q => decide (q.1 ∉ visited)) (p :: t)
            = List.filter (fun q => decide (q.1 ∉ visited)) t :=
          List.filter_cons_of_neg (by simp [hv])
        rw [e1, e2]
        exact ih visited node hnv

theorem phi_step (d : DAG) (visited : List SplitString) (node : SplitString)
    (hnv : node ∉ visited) :
    ((d.g.filter (fun p => decide (p.1 ∉ visited ++ [node]))).map (fun p => p.2.length)).sum
      + (d.adj node).length
    ≤ ((d.g.filter (fun p => decide (p.1 ∉ visited))).map (fun p => p.2.length)).sum :=
  phi_step_aux d.g visited node hnv

end DAG

namespace DAG

theorem mem_of_nodup_subset_length_eq {R dst : List SplitString} (hnd : R.Nodup)
    (hsub : ∀ x ∈ R, x ∈ dst) (hlen : R.length = dst.length) :
    ∀ v ∈ dst, v ∈ R := by
  intro v hv
  have hsub' : R.toFinset ⊆ dst.toFinset := by
    intro x hx
    rw [List.mem_toFinset] at hx ⊢
    exact hsub x hx
  have hcard : dst.toFinset.card ≤ R.toFinset.card := by
    have h1 : R.toFinset.card = R.length := List.toFinset_card_of_nodup hnd
    have h2 : dst.toFinset.card ≤ dst.length := List.toFinset_card_le dst
    omega
  have heq : R.toFinset = dst.toFinset := Finset.eq_of_subset_of_card_le hsub' hcard
  rw [← List.mem_toFinset] at hv ⊢
  rw [heq]
  exact hv

theorem hasPathLoop_spec (d : DAG) (dstList : List SplitString) (src : SplitString) :
    ∀ (fuel : Nat) (stack visited reachable : List SplitString),
      phi d stack visited < fuel →
      (∀ x ∈ stack, Reach d src x) →
      (∀ x ∈ visited, Reach d src x) →
      (∀ x ∈ reachable, x ∈ dstList ∧ Reach d src x) →
      (∀ x ∈ visited, ∀ y ∈ d.adj x, y ∈ visited ∨ y ∈ stack) →
      (∀ x ∈ visited, x ∈ dstList → x ∈ reachable) →
      reachable.Nodup →
      (src ∈ visited ∨ src ∈ stack) →
      (∀ v ∈ hasPathLoop d dstList fuel stack visited reachable,
          v ∈ dstList ∧ Reach d src v) ∧
      (∀ v ∈ dstList, Reach d src v →
          v ∈ hasPathLoop d dstList fuel stack visited reachable) := by
  intro fuel
  induction fuel with
  | zero =>
    intro stack visited reachable hphi _ _ _ _ _ _ _
    exact absurd hphi (by omega)
  | succ fuel ih =>
    intro stack visited reachable hphi I1 I2 I3 I4 I5 I6 I7
    rw [hasPathLoop]
    rcases hlast : stack.getLast? with _ | node
    · -- stack exhausted: full DFS finished
      simp only [hlast]
      have hstack : stack = [] := List.getLast?_eq_none_iff.mp hlast
      subst hstack
      have hsrc : src ∈ visited := by
        rcases I7 with h | h
        · exact h
        · exact absurd h (List.not_mem_nil src)
      have hclosed : ∀ v, Reach d src v → v ∈ visited := by
        intro v hv
        induction hv with
        | refl => exact hsrc
        | tail hmid hedge ihc =>
          rcases I4 _ ihc _ hedge with h | h
          · exact h
          · exact absurd h (List.not_mem_nil _)
      exact ⟨I3, fun v hvd hvr => I5 _ (hclosed v hvr) hvd⟩
    · -- pop the top of the stack
      have hne : stack ≠ [] := by
        intro h
        rw [h] at hlast
        exact absurd hlast (by simp)
      have hsplit : stack.dropLast ++ [node] = stack :=
        List.dropLast_append_getLast? node hlast
      have hnode_mem : node ∈ stack := by
        rw [← hsplit]
        exact List.mem_append.mpr (Or.inr (List.mem_singleton.mpr rfl))
      simp only [hlast]
      set R' := (if node ∈ dstList ∧ node ∉ reachable
        then reachable ++ [node] else reachable) with hR'
      have hR'sub : ∀ x ∈ R', x ∈ dstList ∧ Reach d src x := by
        intro x hx
        rw [hR'] at hx
        by_cases hc : node ∈ dstList ∧ node ∉ reachable
        · rw [if_pos hc] at hx
          rcases List.mem_append.mp hx with h | h
          · exact I3 x h
          · rw [List.mem_singleton] at h
            subst h
            exact ⟨hc.1, I1 _ hnode_mem⟩
        · rw [if_neg hc] at hx
          exact I3 x hx
      have hR'nodup : R'.Nodup := by
        rw [hR']
        by_cases hc : node ∈ dstList ∧ node ∉ reachable
        · rw [if_pos hc, List.nodup_append]
          exact ⟨I6, List.nodup_singleton _, by
            intro x hx hx'
            rw [List.mem_singleton] at hx'
            exact hc.2 (hx' ▸ hx)⟩
        · rw [if_neg hc]
          exact I6
      have hR'mono : ∀ x ∈ reachable, x ∈ R' := by
        intro x hx
        rw [hR']
        by_cases hc : node ∈ dstList ∧ node ∉ reachable
        · rw [if_pos hc]
          exact List.mem_append.mpr (Or.inl hx)
        · rw [if_neg hc]
          exact hx
      have hR'node : node ∈ dstList → node ∈ R' := by
        intro hd
        rw [hR']
        by_cases hc : node ∈ reachable
        · rw [if_neg (by simp [hc])]
          exact hc
        · rw [if_pos ⟨hd, hc⟩]
          exact List.mem_append.mpr (Or.inr (List.mem_singleton.mpr rfl))
      by_cases hbrk : node ∈ dstList ∧ R'.length = dstList.length
      · rw [if_pos hbrk]
        refine ⟨hR'sub, ?_⟩
        intro v hv _
        exact mem_of_nodup_subset_length_eq hR'nodup
          (fun x hx => (hR'sub x hx).1) hbrk.2 v hv
      · rw [if_neg hbrk]
        have hlen_stack : stack.dropLast.length + 1 = stack.length := by
          rw [← hsplit]
          simp
        by_cases hvis : node ∉ visited
        · rw [if_pos hvis]
          have hphi' : phi d (stack.dropLast ++ d.adj node) (visited ++ [node]) < fuel := by
            have hps := phi_step d visited node hvis
            have h1 : phi d stack visited
                = stack.length
                  + ((d.g.filter (fun p => decide (p.1 ∉ visited))).map
                      (fun p => p.2.length)).sum := rfl
            have h2 : phi d (stack.dropLast ++ d.adj node) (visited ++ [node])
                = stack.dropLast.length + (d.adj node).length
                  + ((d.g.filter (fun p => decide (p.1 ∉ visited ++ [node]))).map
                      (fun p => p.2.length)).sum := by
              rw [phi, List.length_append]
            rw [h1] at hphi
            rw [h2]
            omega
          refine ih _ _ _ hphi' ?_ ?_ ?_ ?_ ?_ hR'nodup ?_
          · intro x hx
            rcases List.mem_append.mp hx with h | h
            · exact I1 x (by rw [← hsplit]; exact List.mem_append.mpr (Or.inl h))
            · exact (I1 node hnode_mem).tail h
          · intro x hx
            rcases List.mem_append.mp hx with h | h
            · exact I2 x h
            · rw [List.mem_singleton] at h
              subst h
              exact I1 x hnode_mem
          · exact hR'sub
          · intro x hx y hy
            rcases List.mem_append.mp hx with h | h
            · rcases I4 x h y hy with h' | h'
              · exact Or.inl (List.mem_append.mpr (Or.inl h'))
              · rw [← hsplit] at h'
                rcases List.mem_append.mp h' with h'' | h''
                · exact Or.inr (List.mem_append.mpr (Or.inl h''))
                · rw [List.mem_singleton] at h''
                  exact Or.inl (List.mem_append.mpr (Or.inr (by simp [h''])))
            · rw [List.mem_singleton] at h
              subst h
              exact Or.inr (List.mem_append.mpr (Or.inr hy))
          · intro x hx hxd
            rcases List.mem_append.mp hx with h | h
            · exact hR'mono x (I5 x h hxd)
            · rw [List.mem_singleton] at h
              subst h
              exact hR'node hxd
          · rcases I7 with h | h
            · exact Or.inl (List.mem_append.mpr (Or.inl h))
            · rw [← hsplit] at h
              rcases List.mem_append.mp h with h' | h'
              · exact Or.inr (List.mem_append.mpr (Or.inl h'))
              · rw [List.mem_singleton] at h'
                exact Or.inl (List.mem_append.mpr (Or.inr (by simp [h'])))
        · rw [if_neg hvis]
          rw [Classical.not_not] at hvis
          have hphi' : phi d stack.dropLast visited < fuel := by
            have h1 : phi d stack visited
                = stack.length
                  + ((d.g.filter (fun p => decide (p.1 ∉ visited))).map
                      (fun p => p.2.length)).sum := rfl
            have h2 : phi d stack.dropLast visited
                = stack.dropLast.length
                  + ((d.g.filter (fun p => decide (p.1 ∉ visited))).map
                      (fun p => p.2.length)).sum := rfl
            rw [h1] at hphi
            rw [h2]
            omega
          refine ih _ _ _ hphi' ?_ I2 hR'sub ?_ ?_ hR'nodup ?_
          · intro x hx
            exact I1 x (by rw [← hsplit]; exact List.mem_append.mpr (Or.inl hx))
          · intro x hx y hy
            rcases I4 x hx y hy with h | h
            · exact Or.inl h
            · rw [← hsplit] at h
              rcases List.mem_append.mp h with h' | h'
              · exact Or.inr h'
              · rw [List.mem_singleton] at h'
                exact Or.inl (h' ▸ hvis)
          · intro x hx hxd
            exact hR'mono x (I5 x hx hxd)
          · rcases I7 with h | h
            · exact Or.inl h
            · rw [← hsplit] at h
              rcases List.mem_append.mp h with h' | h'
              · exact Or.inr h'
              · rw [List.mem_singleton] at h'
                exact Or.inl (h' ▸ hvis)

end DAG

namespace DAG

theorem zip_map_self {α β : Type} (f : α → β) :
    ∀ (l : List α) (p : α × β), p ∈ l.zip (l.map f) → p.2 = f p.1 := by
  intro l
  induction l with
  | nil => intro p hp; simp at hp
  | cons a t ih =>
    intro p hp
    rw [List.map_cons, List.zip_cons_cons] at hp
    rcases List.mem_cons.mp hp with h | h
    · rw [h]
    · exact ih p h

/-- Characterization of `hasPath`: zipped against the queried destination
list, every boolean answers exactly the reachability question. -/
theorem hasPath_spec (d : DAG) (src : SplitString) (us : List SplitString) :
    ∀ p ∈ us.zip (d.hasPath src us), (p.2 = true ↔ Reach d src p.1) := by
  have hmaster := hasPathLoop_spec d us src (2 + d.totalAdjLen) [src] [] []
    (by
      have hfil : d.g.filter (fun p => decide (p.1 ∉ ([] : List SplitString))) = d.g := by
        apply List.filter_eq_self.mpr
        intro a _
        simp
      rw [phi, hfil]
      simp [totalAdjLen])
    (by
      intro x hx
      rw [List.mem_singleton] at hx
      subst hx
      exact Relation.ReflTransGen.refl)
    (fun x hx => absurd hx (List.not_mem_nil x))
    (fun x hx => absurd hx (List.not_mem_nil x))
    (fun x hx => absurd hx (List.not_mem_nil x))
    (fun x hx _ => absurd hx (List.not_mem_nil x))
    List.nodup_nil
    (Or.inr (List.mem_singleton.mpr rfl))
  intro p hp
  have hmem := List.of_mem_zip (by rw [show p = (p.1, p.2) from rfl] at hp; exact hp)
  have hval : p.2 = decide (p.1 ∈ hasPathLoop d us (2 + d.totalAdjLen) [src] [] []) :=
    zip_map_self _ us p hp
  rw [hval]
  constructor
  · intro h
    rw [decide_eq_true_iff] at h
    exact (hmaster.1 p.1 h).2
  · intro h
    rw [decide_eq_true_iff]
    exact hmaster.2 p.1 hmem.1 h

end DAG

namespace DAG

@[simp] theorem addEdge_nodes (d : DAG) (u v : SplitString) :
    (addEdge d u v).nodes = d.nodes := by
  rw [nodes, addEdge, nodes, List.map_map]
  apply List.map_congr_left
  intro p _
  by_cases h : p.1 = u
  · simp [h]
  · simp [h]

theorem addEdge_find? (d : DAG) (u v w : SplitString) :
    (addEdge d u v).g.find? (fun p => p.1 = w)
      = (d.g.find? (fun p => p.1 = w)).map
          (fun p => if p.1 = u then (p.1, if v ∈ p.2 then p.2 else p.2 ++ [v]) else p) := by
  have hpred : ((fun p : SplitString × List SplitString => decide (p.1 = w)) ∘
      (fun p => if p.1 = u then (p.1, if v ∈ p.2 then p.2 else p.2 ++ [v]) else p))
      = (fun p : SplitString × List SplitString => decide (p.1 = w)) := by
    funext p
    by_cases h : p.1 = u
    · simp [Function.comp, h]
    · simp [Function.comp, h]
  show List.find? (fun p => decide (p.1 = w)) ((addEdge d u v).g) = _
  rw [addEdge, List.find?_map, hpred]

theorem addEdge_adj_ne (d : DAG) (u v w : SplitString) (hne : w ≠ u) :
    (addEdge d u v).adj w = d.adj w := by
  rw [adj, adj, addEdge_find?]
  rcases hf : d.g.find? (fun p => p.1 = w) with _ | p
  · rw [hf]
    rfl
  · rw [hf]
    have hp : p.1 = w := by
      have := List.find?_some hf
      simpa using this
    have hval : (if p.1 = u then (p.1, if v ∈ p.2 then p.2 else p.2 ++ [v]) else p) = p :=
      if_neg (by rw [hp]; exact hne)
    rw [Option.map_some', hval]

theorem addEdge_adj_self (d : DAG) (u v : SplitString) :
    ((addEdge d u v).adj u = d.adj u ∧ v ∈ d.adj u)
    ∨ ((addEdge d u v).adj u = d.adj u ++ [v] ∧ u ∈ d.nodes)
    ∨ ((addEdge d u v).adj u = d.adj u ∧ u ∉ d.nodes) := by
  rcases hf : d.g.find? (fun p => p.1 = u) with _ | p
  · right; right
    constructor
    · rw [adj, adj, addEdge_find?, hf]
      rfl
    · intro hmem
      rw [nodes, List.mem_map] at hmem
      obtain ⟨p, hp, hp1⟩ := hmem
      have := List.find?_eq_none.mp hf p hp
      simp [hp1] at this
  · have hp : p.1 = u := by
      have := List.find?_some hf
      simpa using this
    have hadj : d.adj u = p.2 := by
      rw [adj, hf]
      rfl
    have hnodes : u ∈ d.nodes := by
      rw [nodes, List.mem_map]
      exact ⟨p, List.mem_of_find?_eq_some hf, hp⟩
    by_cases hv : v ∈ p.2
    · left
      refine ⟨?_, hadj ▸ hv⟩
      rw [adj, addEdge_find?, hf]
      simp only [Option.map_some']
      rw [if_pos hp, if_pos hv, hadj]
      rfl
    · right; left
      refine ⟨?_, hnodes⟩
      rw [adj, addEdge_find?, hf]
      simp only [Option.map_some']
      rw [if_pos hp, if_neg hv, hadj]
      rfl

theorem addEdge_edge_iff (d : DAG) (u v x y : SplitString) :
    Edge (addEdge d u v) x y ↔ Edge d x y ∨ (x = u ∧ y = v ∧ u ∈ d.nodes) := by
  by_cases hx : x = u
  · subst hx
    rcases addEdge_adj_self d x v with ⟨he, hv⟩ | ⟨he, hn⟩ | ⟨he, hn⟩
    · rw [Edge, he]
      constructor
      · intro h; exact Or.inl h
      · rintro (h | ⟨_, rfl, _⟩)
        · exact h
        · exact hv
    · rw [Edge, he]
      constructor
      · intro h
        rcases List.mem_append.mp h with h | h
        · exact Or.inl h
        · rw [List.mem_singleton] at h
          exact Or.inr ⟨rfl, h, hn⟩
      · rintro (h | ⟨_, rfl, _⟩)
        · exact List.mem_append.mpr (Or.inl h)
        · exact List.mem_append.mpr (Or.inr (List.mem_singleton.mpr rfl))
    · rw [Edge, he]
      constructor
      · intro h; exact Or.inl h
      · rintro (h | ⟨_, _, hn'⟩)
        · exact h
        · exact absurd hn' hn
  · rw [Edge, addEdge_adj_ne d u v x hx]
    constructor
    · intro h; exact Or.inl h
    · rintro (h | ⟨hxu, _, _⟩)
      · exact h
      · exact absurd hxu hx

theorem addEdge_edge_mono (d : DAG) (u v x y : SplitString) (h : Edge d x y) :
    Edge (addEdge d u v) x y :=
  (addEdge_edge_iff d u v x y).mpr (Or.inl h)

theorem reach_addEdge_decomp (d : DAG) (u v a b : SplitString)
    (h : Reach (addEdge d u v) a b) :
    Reach d a b ∨ (Reach d a u ∧ Reach d v b) := by
  induction h with
  | refl => exact Or.inl Relation.ReflTransGen.refl
  | tail hac he ihc =>
    rcases (addEdge_edge_iff d u v _ _).mp he with he' | ⟨rfl, rfl, _⟩
    · rcases ihc with h' | ⟨h1, h2⟩
      · exact Or.inl (h'.tail he')
      · exact Or.inr ⟨h1, h2.tail he'⟩
    · rcases ihc with h' | ⟨h1, _⟩
      · exact Or.inr ⟨h', Relation.ReflTransGen.refl⟩
      · exact Or.inr ⟨h1, Relation.ReflTransGen.refl⟩

theorem reach_addEdge_from_v (d : DAG) (u v x : SplitString)
    (h : Reach (addEdge d u v) v x) : Reach d v x := by
  rcases reach_addEdge_decomp d u v v x h with h' | ⟨_, h2⟩
  · exact h'
  · exact h2

theorem addEdge_acyclic (d : DAG) (u v : SplitString) (hac : Acyclic d)
    (hnr : ¬ Reach d v u) : Acyclic (addEdge d u v) := by
  intro x hx
  rcases Relation.TransGen.head'_iff.mp hx with ⟨y, hxy, hyx⟩
  rcases (addEdge_edge_iff d u v x y).mp hxy with he | ⟨hxu, hyv, _⟩
  · rcases reach_addEdge_decomp d u v y x hyx with h' | ⟨h1, h2⟩
    · exact hac x (Relation.TransGen.head'_iff.mpr ⟨y, he, h'⟩)
    · exact hnr (h2.tail he |>.trans h1)
  · have hyx' : Reach (addEdge d u v) v u := by
      rw [hxu, hyv] at hyx
      exact hyx
    rcases reach_addEdge_decomp d u v v u hyx' with h' | ⟨_, h2⟩
    · exact hnr h'
    · exact hnr h2

end DAG

namespace DAG

/-- The inner `j` loop of `addEdges` for one `v`, as a fold over the
`(us[j], hasPaths[j])` pairs. -/
theorem foldAdd_acyclic (v : SplitString) :
    ∀ (pairs : List (SplitString × Bool)) (d : DAG),
      Acyclic d →
      (∀ p ∈ pairs, p.2 = false → ¬ Reach d v p.1) →
      Acyclic (pairs.foldl (fun d2 p => if p.2 = false then addEdge d2 p.1 v else d2) d) := by
  intro pairs
  induction pairs with
  | nil => intro d hac _; exact hac
  | cons p rest ih =>
    intro d hac hnr
    rw [List.foldl_cons]
    by_cases hp : p.2 = false
    · rw [if_pos hp]
      refine ih _ (addEdge_acyclic d p.1 v hac (hnr p (List.mem_cons_self p rest) hp)) ?_
      intro q hq hqf hre
      exact hnr q (List.mem_cons_of_mem p hq) hqf (reach_addEdge_from_v d p.1 v q.1 hre)
    · rw [if_neg hp]
      exact ih d hac (fun q hq => hnr q (List.mem_cons_of_mem p hq))

theorem foldAdd_nodes (v : SplitString) :
    ∀ (pairs : List (SplitString × Bool)) (d : DAG),
      (pairs.foldl (fun d2 p => if p.2 = false then addEdge d2 p.1 v else d2) d).nodes
        = d.nodes := by
  intro pairs
  induction pairs with
  | nil => intro d; rfl
  | cons p rest ih =>
    intro d
    rw [List.foldl_cons]
    by_cases hp : p.2 = false
    · rw [if_pos hp, ih, addEdge_nodes]
    · rw [if_neg hp, ih]

theorem foldAdd_edge_mono (v : SplitString) :
    ∀ (pairs : List (SplitString × Bool)) (d : DAG) (x y : SplitString),
      Edge d x y →
      Edge (pairs.foldl (fun d2 p => if p.2 = false then addEdge d2 p.1 v else d2) d) x y := by
  intro pairs
  induction pairs with
  | nil => intro d x y h; exact h
  | cons p rest ih =>
    intro d x y h
    rw [List.foldl_cons]
    by_cases hp : p.2 = false
    · rw [if_pos hp]
      exact ih _ x y (addEdge_edge_mono d p.1 v x y h)
    · rw [if_neg hp]
      exact ih d x y h

theorem processVs_acyclic (us : List SplitString) :
    ∀ (vs : List SplitString) (acc : DAG × List SplitString),
      Acyclic acc.1 → Acyclic (vs.foldl
        (fun acc v =>
          ((us.zip (acc.1.hasPath v us)).foldl
              (fun d2 p => if p.2 = false then addEdge d2 p.1 v else d2) acc.1,
           (us.zip (acc.1.hasPath v us)).foldl
              (fun ce p => if p.2 = false then ce.erase p.1 else ce) acc.2))
        acc).1 := by
  intro vs
  induction vs with
  | nil => intro acc hac; exact hac
  | cons v rest ih =>
    intro acc hac
    rw [List.foldl_cons]
    refine ih _ ?_
    refine foldAdd_acyclic v _ acc.1 hac ?_
    intro p hp hpf hre
    have := (hasPath_spec acc.1 v us p hp).mpr hre
    rw [hpf] at this
    exact absurd this (by simp)

theorem processVs_acyclic' (d : DAG) (us vs : List SplitString) (hac : Acyclic d) :
    Acyclic (processVs d us vs).1 :=
  processVs_acyclic us vs (d, dedupKeepFirst us) hac

theorem processVs_nodes (us : List SplitString) :
    ∀ (vs : List SplitString) (acc : DAG × List SplitString),
      (vs.foldl
        (fun acc v =>
          ((us.zip (acc.1.hasPath v us)).foldl
              (fun d2 p => if p.2 = false then addEdge d2 p.1 v else d2) acc.1,
           (us.zip (acc.1.hasPath v us)).foldl
              (fun ce p => if p.2 = false then ce.erase p.1 else ce) acc.2))
        acc).1.nodes = acc.1.nodes := by
  intro vs
  induction vs with
  | nil => intro acc; rfl
  | cons v rest ih =>
    intro acc
    rw [List.foldl_cons, ih, foldAdd_nodes]

theorem processVs_edge_mono (us : List SplitString) :
    ∀ (vs : List SplitString) (acc : DAG × List SplitString) (x y : SplitString),
      Edge acc.1 x y →
      Edge (vs.foldl
        (fun acc v =>
          ((us.zip (acc.1.hasPath v us)).foldl
              (fun d2 p => if p.2 = false then addEdge d2 p.1 v else d2) acc.1,
           (us.zip (acc.1.hasPath v us)).foldl
              (fun ce p => if p.2 = false then ce.erase p.1 else ce) acc.2))
        acc).1 x y := by
  intro vs
  induction vs with
  | nil => intro acc x y h; exact h
  | cons v rest ih =>
    intro acc x y h
    rw [List.foldl_cons]
    exact ih _ x y (foldAdd_edge_mono v _ acc.1 x y h)

end DAG

namespace DAG

theorem addEdgesLoop_acyclic :
    ∀ (rest : List SplitString) (acc : DAG × List SplitString),
      Acyclic acc.1 →
      Acyclic ((rest.foldl
        (fun acc x =>
          if (acc.1.getMatchingNodes x).isEmpty then acc
          else ((processVs acc.1 acc.2 (acc.1.getMatchingNodes x)).1,
            (processVs acc.1 acc.2 (acc.1.getMatchingNodes x)).2
              ++ acc.1.getMatchingNodes x))
        acc)).1 := by
  intro rest
  induction rest with
  | nil => intro acc hac; exact hac
  | cons x t ih =>
    intro acc hac
    rw [List.foldl_cons]
    by_cases hx : (acc.1.getMatchingNodes x).isEmpty
    · rw [if_pos hx]
      exact ih acc hac
    · rw [if_neg hx]
      exact ih _ (processVs_acyclic' acc.1 acc.2 _ hac)

theorem addEdges_acyclic (d : DAG) (order : List SplitString) (hac : Acyclic d) :
    Acyclic (addEdges d order) :=
  addEdgesLoop_acyclic (findFirstMatch d order).2 (d, (findFirstMatch d order).1) hac

theorem ofVerts_snd_nil (verts : List SplitString) :
    ∀ p ∈ (ofVerts verts).g, p.2 = [] := by
  have h : ∀ (vl : List SplitString) (acc : List (SplitString × List SplitString)),
      (∀ p ∈ acc, p.2 = []) →
      ∀ p ∈ vl.foldl
        (fun acc v => if acc.any (fun p => p.1 = v) then acc else acc ++ [(v, [])]) acc,
        p.2 = [] := by
    intro vl
    induction vl with
    | nil => intro acc h; exact h
    | cons v t iht =>
      intro acc h
      rw [List.foldl_cons]
      by_cases hv : acc.any (fun p => p.1 = v)
      · rw [if_pos hv]
        exact iht acc h
      · rw [if_neg hv]
        refine iht _ ?_
        intro p hp
        rcases List.mem_append.mp hp with h' | h'
        · exact h p h'
        · rw [List.mem_singleton] at h'
          rw [h']
  exact h verts [] (fun p hp => absurd hp (List.not_mem_nil p))

theorem ofVerts_adj (verts : List SplitString) (u : SplitString) :
    (ofVerts verts).adj u = [] := by
  rw [adj]
  rcases hf : (ofVerts verts).g.find? (fun p => p.1 = u) with _ | p
  · rw [hf]
    rfl
  · have h2 := ofVerts_snd_nil verts p (List.mem_of_find?_eq_some hf)
    rw [hf, Option.map_some', Option.getD_some, h2]

theorem ofVerts_acyclic (verts : List SplitString) : Acyclic (ofVerts verts) := by
  intro x hx
  rcases Relation.TransGen.head'_iff.mp hx with ⟨y, hxy, _⟩
  rw [Edge, ofVerts_adj] at hxy
  exact absurd hxy (List.not_mem_nil y)

theorem foldl_addEdges_acyclic :
    ∀ (hints : List (List SplitString)) (d : DAG), Acyclic d →
      Acyclic (hints.foldl addEdges d) := by
  intro hints
  induction hints with
  | nil => intro d h; exact h
  | cons hint rest ih =>
    intro d h
    rw [List.foldl_cons]
    exact ih _ (addEdges_acyclic d hint h)

end DAG

/-- C2: for every node set given to the constructor and every sequence of
`addEdges` calls with arbitrary hint lists (contradictory hints and
wildcard patterns included), the resulting graph has no node that reaches
itself by a non-empty path. -/
theorem dag_always_acyclic (verts : List SplitString)
    (hints : List (List SplitString)) :
    DAG.Acyclic (hints.foldl DAG.addEdges (DAG.ofVerts verts)) :=
  DAG.foldl_addEdges_acyclic hints (DAG.ofVerts verts) (DAG.ofVerts_acyclic verts)

namespace DAG

/-- Structural well-formedness, maintained by construction: node keys are
pairwise distinct and every successor list is duplicate-free with all its
members among the nodes. -/
def WF (d : DAG) : Prop :=
  d.nodes.Nodup ∧ ∀ p ∈ d.g, p.2.Nodup ∧ ∀ v ∈ p.2, v ∈ d.nodes

theorem WF_ofVerts (verts : List SplitString) : WF (ofVerts verts) := by
  constructor
  · have h : ∀ (vl : List SplitString) (acc : List (SplitString × List SplitString)),
        (acc.map (·.1)).Nodup →
        ((vl.foldl (fun acc v => if acc.any (fun p => p.1 = v) then acc
            else acc ++ [(v, [])]) acc).map (·.1)).Nodup := by
      intro vl
      induction vl with
      | nil => intro acc h; exact h
      | cons v t iht =>
        intro acc h
        rw [List.foldl_cons]
        by_cases hv : acc.any (fun p => p.1 = v)
        · rw [if_pos hv]
          exact iht acc h
        · rw [if_neg hv]
          refine iht _ ?_
          rw [List.map_append]
          refine List.Nodup.append h (List.nodup_singleton _) ?_
          intro x hx hx'
          simp only [List.map_cons, List.map_nil, List.mem_singleton] at hx'
          rw [List.mem_map] at hx
          obtain ⟨p, hp, hpx⟩ := hx
          simp only [List.any_eq_true, decide_eq_true_eq] at hv
          exact hv ⟨p, hp, by rw [hpx, hx']⟩
    exact h verts [] List.nodup_nil
  · intro p hp
    have h2 := ofVerts_snd_nil verts p hp
    rw [h2]
    exact ⟨List.nodup_nil, fun v hv => absurd hv (List.not_mem_nil v)⟩

theorem WF_addEdge (d : DAG) (u v : SplitString) (hwf : WF d) (hv : v ∈ d.nodes) :
    WF (addEdge d u v) := by
  obtain ⟨hnd, hent⟩ := hwf
  constructor
  · rw [addEdge_nodes]
    exact hnd
  · intro p hp
    have hp' : p ∈ d.g.map
        (fun p => if p.1 = u then (p.1, if v ∈ p.2 then p.2 else p.2 ++ [v]) else p) := hp
    rw [List.mem_map] at hp'
    obtain ⟨q, hq, hfq⟩ := hp'
    obtain ⟨hqnd, hqsub⟩ := hent q hq
    by_cases hqu : q.1 = u
    · rw [if_pos hqu] at hfq
      by_cases hvq : v ∈ q.2
      · rw [if_pos hvq] at hfq
        rw [← hfq]
        exact ⟨hqnd, fun w hw => by rw [addEdge_nodes]; exact hqsub w hw⟩
      · rw [if_neg hvq] at hfq
        rw [← hfq]
        refine ⟨?_, ?_⟩
        · refine List.Nodup.append hqnd (List.nodup_singleton v) ?_
          intro x hx hx'
          rw [List.mem_singleton] at hx'
          rw [hx'] at hx
          exact hvq hx
        · intro w hw
          rw [addEdge_nodes]
          rcases List.mem_append.mp hw with h | h
          · exact hqsub w h
          · rw [List.mem_singleton] at h
            rw [h]
            exact hv
    · rw [if_neg hqu] at hfq
      rw [← hfq]
      exact ⟨hqnd, fun w hw => by rw [addEdge_nodes]; exact hqsub w hw⟩

theorem getMatchingNodes_subset (d : DAG) (node : SplitString) :
    ∀ x ∈ d.getMatchingNodes node, x ∈ d.nodes := by
  intro x hx
  rw [getMatchingNodes] at hx
  by_cases h1 : node.getLast? = some '*'
  · rw [if_pos h1] at hx
    exact List.mem_of_mem_filter hx
  · rw [if_neg h1] at hx
    by_cases h2 : d.g.any (fun p => p.1 = node)
    · rw [if_pos h2] at hx
      rw [List.mem_singleton] at hx
      rw [hx]
      rw [List.any_eq_true] at h2
      obtain ⟨p, hp, hpn⟩ := h2
      rw [nodes, List.mem_map]
      exact ⟨p, hp, by simpa using hpn⟩
    · rw [if_neg h2] at hx
      exact absurd hx (List.not_mem_nil x)

theorem WF_foldAdd (v : SplitString) :
    ∀ (pairs : List (SplitString × Bool)) (d : DAG), WF d → v ∈ d.nodes →
      WF (pairs.foldl (fun d2 p => if p.2 = false then addEdge d2 p.1 v else d2) d) := by
  intro pairs
  induction pairs with
  | nil => intro d hwf _; exact hwf
  | cons p rest ih =>
    intro d hwf hv
    rw [List.foldl_cons]
    by_cases hp : p.2 = false
    · rw [if_pos hp]
      refine ih _ (WF_addEdge d p.1 v hwf hv) ?_
      rw [addEdge_nodes]
      exact hv
    · rw [if_neg hp]
      exact ih d hwf hv

theorem WF_processVs (us : List SplitString) :
    ∀ (vs : List SplitString) (acc : DAG × List SplitString),
      WF acc.1 → (∀ v ∈ vs, v ∈ acc.1.nodes) →
      WF (vs.foldl
        (fun acc v =>
          ((us.zip (acc.1.hasPath v us)).foldl
              (fun d2 p => if p.2 = false then addEdge d2 p.1 v else d2) acc.1,
           (us.zip (acc.1.hasPath v us)).foldl
              (fun ce p => if p.2 = false then ce.erase p.1 else ce) acc.2))
        acc).1 := by
  intro vs
  induction vs with
  | nil => intro acc hwf _; exact hwf
  | cons v rest ih =>
    intro acc hwf hvs
    rw [List.foldl_cons]
    refine ih _ ?_ ?_
    · exact WF_foldAdd v _ acc.1 hwf (hvs v (List.mem_cons_self v rest))
    · intro w hw
      have := hvs w (List.mem_cons_of_mem v hw)
      rw [foldAdd_nodes]
      exact this

theorem WF_processVs' (d : DAG) (us vs : List SplitString) (hwf : WF d)
    (hvs : ∀ v ∈ vs, v ∈ d.nodes) : WF (processVs d us vs).1 :=
  WF_processVs us vs (d, dedupKeepFirst us) hwf hvs

theorem WF_addEdgesLoop :
    ∀ (rest : List SplitString) (acc : DAG × List SplitString), WF acc.1 →
      WF ((rest.foldl
        (fun acc x =>
          if (acc.1.getMatchingNodes x).isEmpty then acc
          else ((processVs acc.1 acc.2 (acc.1.getMatchingNodes x)).1,
            (processVs acc.1 acc.2 (acc.1.getMatchingNodes x)).2
              ++ acc.1.getMatchingNodes x))
        acc)).1 := by
  intro rest
  induction rest with
  | nil => intro acc hwf; exact hwf
  | cons x t ih =>
    intro acc hwf
    rw [List.foldl_cons]
    by_cases hx : (acc.1.getMatchingNodes x).isEmpty
    · rw [if_pos hx]
      exact ih acc hwf
    · rw [if_neg hx]
      exact ih _ (WF_processVs' acc.1 acc.2 _ hwf (getMatchingNodes_subset acc.1 x))

theorem WF_addEdges (d : DAG) (order : List SplitString) (hwf : WF d) :
    WF (addEdges d order) :=
  WF_addEdgesLoop (findFirstMatch d order).2 (d, (findFirstMatch d order).1) hwf

theorem WF_foldl_addEdges :
    ∀ (hints : List (List SplitString)) (d : DAG), WF d →
      WF (hints.foldl addEdges d) := by
  intro hints
  induction hints with
  | nil => intro d h; exact h
  | cons hint rest ih =>
    intro d h
    rw [List.foldl_cons]
    exact ih _ (WF_addEdges d hint h)

end DAG

namespace DAG

/-- JS `Map.set` on an association list with `Int` values: overwrite in
place when the key is present, append otherwise. -/
def mapSet (m : List (SplitString × Int)) (k : SplitString) (x : Int) :
    List (SplitString × Int) :=
  if m.any (fun p => p.1 = k) then m.map (fun p => if p.1 = k then (k, x) else p)
  else m ++ [(k, x)]

/-- JS `Map.get` with the `?? 0` (and, on keys known present, `!`)
defaults of `topoSort` folded in. -/
def mapGet (m : List (SplitString × Int)) (k : SplitString) : Int :=
  ((m.find? (fun p => p.1 = k)).map (·.2)).getD 0

/-- Body of the first loop of `topoSort` for one `[u, neighbors]` entry:
`indegree.set(u, 0)` if absent, then `+1` per incoming edge. -/
def buildStep (m : List (SplitString × Int)) (p : SplitString × List SplitString) :
    List (SplitString × Int) :=
  p.2.foldl (fun m2 v => mapSet m2 v (mapGet m2 v + 1))
    (if m.any (fun q => q.1 = p.1) then m else m ++ [(p.1, 0)])

/-- First loop of `topoSort`: the in-degree map, keyed in first-appearance
order. -/
def buildIndegree (d : DAG) : List (SplitString × Int) :=
  d.g.foldl buildStep []

/-- Second loop: seed the priority queue with the zero-in-degree nodes, in
map order. -/
def seedPQ (cmp : PQ.Comparator SplitString) (ind : List (SplitString × Int)) :
    List SplitString :=
  ind.foldl (fun q p => if p.2 = 0 then PQ.push cmp q p.1 else q) []

/-- Per-successor body of the main loop: decrement the in-degree, push the
successor once its in-degree reaches zero. -/
def decPush (cmp : PQ.Comparator SplitString)
    (st : List SplitString × List (SplitString × Int)) (v : SplitString) :
    List SplitString × List (SplitString × Int) :=
  (if mapGet st.2 v - 1 = 0 then PQ.push cmp st.1 v else st.1,
   mapSet st.2 v (mapGet st.2 v - 1))

/-- One iteration of the `while (pq.length)` loop at queue top `top`. -/
def topoStep (cmp : PQ.Comparator SplitString) (d : DAG) (top : SplitString)
    (rest : List SplitString) (ind : List (SplitString × Int)) :
    List SplitString × List (SplitString × Int) :=
  (d.adj top).foldl (decPush cmp) ((PQ.pop cmp (top :: rest)).2, ind)

/-- The main loop; `fuel` bounds the iteration count (each iteration
strictly decreases queue length plus positive in-degree mass). -/
def topoLoop (cmp : PQ.Comparator SplitString) (d : DAG) :
    Nat → List SplitString → List (SplitString × Int) → List SplitString →
      List SplitString
  | 0, _, _, result => result
  | _ + 1, [], _, result => result
  | fuel + 1, top :: rest, ind, result =>
    topoLoop cmp d fuel (topoStep cmp d top rest ind).1 (topoStep cmp d top rest ind).2
      (result ++ [top])

/-- Total positive in-degree mass, the potential that sizes the loop fuel. -/
def posSum (ind : List (SplitString × Int)) : Nat := (ind.map (fun p => p.2.toNat)).sum

/-- `DAG.topoSort(tieBreaker)`. -/
def topoSort (cmp : PQ.Comparator SplitString) (d : DAG) : List SplitString :=
  topoLoop cmp d
    ((seedPQ cmp (buildIndegree d)).length + posSum (buildIndegree d))
    (seedPQ cmp (buildIndegree d)) (buildIndegree d) []

/-- The in-degree of `v` counted over entries whose key is not yet in
`result` (what the stored in-degree equals throughout the loop). -/
def remIndeg (d : DAG) (result : List SplitString) (v : SplitString) : Nat :=
  ((d.g.filter (fun p => decide (p.1 ∉ result))).map (fun p => p.2.count v)).sum

end DAG

namespace DAG

theorem find?_append_none {α : Type} (l1 l2 : List α) (p : α → Bool)
    (h : l1.find? p = none) : (l1 ++ l2).find? p = l2.find? p := by
  induction l1 with
  | nil => rfl
  | cons a t ih =>
    by_cases hp : p a
    · rw [List.find?_cons_of_pos _ hp] at h
      exact absurd h (by simp)
    · rw [List.find?_cons_of_neg _ hp] at h
      rw [List.cons_append, List.find?_cons_of_neg _ hp]
      exact ih h

theorem find?_append_some {α : Type} (l1 l2 : List α) (p : α → Bool) (a : α)
    (h : l1.find? p = some a) : (l1 ++ l2).find? p = some a := by
  induction l1 with
  | nil => exact absurd h (by simp)
  | cons b t ih =>
    by_cases hp : p b
    · rw [List.find?_cons_of_pos _ hp] at h
      rw [List.cons_append, List.find?_cons_of_pos _ hp]
      exact h
    · rw [List.find?_cons_of_neg _ hp] at h
      rw [List.cons_append, List.find?_cons_of_neg _ hp]
      exact ih h

theorem find?_key_eq_of_mem_nodup {β : Type} (m : List (SplitString × β))
    (hnd : (m.map (·.1)).Nodup) (p : SplitString × β) (hp : p ∈ m) :
    m.find? (fun q => q.1 = p.1) = some p := by
  induction m with
  | nil => exact absurd hp (List.not_mem_nil p)
  | cons a t ih =>
    rw [List.map_cons, List.nodup_cons] at hnd
    rcases List.mem_cons.mp hp with h | h
    · rw [h]
      exact List.find?_cons_of_pos _ (by simp)
    · have hane : ¬ a.1 = p.1 := by
        intro hc
        exact hnd.1 (hc ▸ List.mem_map.mpr ⟨p, h, rfl⟩)
      rw [List.find?_cons_of_neg _ (by simpa using hane)]
      exact ih hnd.2 h

theorem mem_keys_of_any {β : Type} (m : List (SplitString × β)) (k : SplitString) :
    m.any (fun p => p.1 = k) = true ↔ k ∈ m.map (·.1) := by
  simp only [List.any_eq_true, decide_eq_true_eq, List.mem_map]

theorem mapGet_of_not_mem (m : List (SplitString × Int)) (k : SplitString)
    (h : k ∉ m.map (·.1)) : mapGet m k = 0 := by
  rw [mapGet, List.find?_eq_none.mpr]
  · rfl
  · intro p hp
    simp only [decide_eq_true_eq]
    intro hc
    exact h (List.mem_map.mpr ⟨p, hp, hc⟩)

theorem mapGet_cons_self (p : SplitString × Int) (t : List (SplitString × Int))
    (k : SplitString) (h : p.1 = k) : mapGet (p :: t) k = p.2 := by
  rw [mapGet, List.find?_cons_of_pos _ (by simpa using h), Option.map_some', Option.getD_some]

theorem mapGet_cons_ne (p : SplitString × Int) (t : List (SplitString × Int))
    (k : SplitString) (h : ¬ p.1 = k) : mapGet (p :: t) k = mapGet t k := by
  rw [mapGet, List.find?_cons_of_neg _ (by simpa using h)]
  rfl

theorem mapGet_entry (m : List (SplitString × Int)) (hnd : (m.map (·.1)).Nodup)
    (p : SplitString × Int) (hp : p ∈ m) : mapGet m p.1 = p.2 := by
  rw [mapGet, find?_key_eq_of_mem_nodup m hnd p hp, Option.map_some', Option.getD_some]

theorem mapSet_keys_mem (m : List (SplitString × Int)) (k : SplitString) (x : Int)
    (h : k ∈ m.map (·.1)) : (mapSet m k x).map (·.1) = m.map (·.1) := by
  rw [mapSet, if_pos ((mem_keys_of_any m k).mpr h), List.map_map]
  apply List.map_congr_left
  intro p _
  by_cases hp : p.1 = k
  · simp [hp]
  · simp [hp]

theorem mapSet_keys_not_mem (m : List (SplitString × Int)) (k : SplitString) (x : Int)
    (h : k ∉ m.map (·.1)) : (mapSet m k x).map (·.1) = m.map (·.1) ++ [k] := by
  rw [mapSet, if_neg (fun hc => h ((mem_keys_of_any m k).mp hc)), List.map_append]
  rfl

theorem mapGet_mapSet_self (m : List (SplitString × Int)) (k : SplitString) (x : Int) :
    mapGet (mapSet m k x) k = x := by
  rw [mapSet]
  by_cases h : m.any (fun p => p.1 = k)
  · rw [if_pos h, mapGet, List.find?_map]
    have hpred : ((fun p : SplitString × Int => decide (p.1 = k)) ∘
        (fun p => if p.1 = k then (k, x) else p))
        = fun p : SplitString × Int => decide (p.1 = k) := by
      funext p
      by_cases hp : p.1 = k
      · simp [Function.comp, hp]
      · simp [Function.comp, hp]
    rw [hpred]
    rw [List.any_eq_true] at h
    obtain ⟨q, hq, hqk⟩ := h
    rcases hf : m.find? (fun p => p.1 = k) with _ | r
    · exfalso
      have := List.find?_eq_none.mp hf q hq
      exact this hqk
    · have hr : r.1 = k := by simpa using List.find?_some hf
      rw [hf, Option.map_some', if_pos hr]
      rfl
  · rw [if_neg h, mapGet]
    have hnone : m.find? (fun p => p.1 = k) = none := by
      rw [List.find?_eq_none]
      intro p hp hpk
      simp only [List.any_eq_true] at h
      exact h ⟨p, hp, hpk⟩
    rw [find?_append_none _ _ _ hnone, List.find?_cons_of_pos _ (by simp),
      Option.map_some', Option.getD_some]

theorem mapGet_mapSet_ne (m : List (SplitString × Int)) (k : SplitString) (x : Int)
    (w : SplitString) (hw : w ≠ k) : mapGet (mapSet m k x) w = mapGet m w := by
  rw [mapSet]
  by_cases h : m.any (fun p => p.1 = k)
  · rw [if_pos h, mapGet, mapGet, List.find?_map]
    have hpred : ((fun p : SplitString × Int => decide (p.1 = w)) ∘
        (fun p => if p.1 = k then (k, x) else p))
        = fun p : SplitString × Int => decide (p.1 = w) := by
      funext p
      by_cases hp : p.1 = k
      · simp [Function.comp, hp]
      · simp [Function.comp, hp]
    rw [hpred]
    rcases hf : m.find? (fun p => p.1 = w) with _ | r
    · rw [hf]
      rfl
    · have hr : r.1 = w := by simpa using List.find?_some hf
      have hrk : ¬ r.1 = k := by
        intro hc
        rw [hr] at hc
        exact hw hc
      rw [hf, Option.map_some', if_neg hrk]
  · rw [if_neg h, mapGet, mapGet]
    rcases hf : m.find? (fun p => p.1 = w) with _ | r
    · have hsing : List.find? (fun p : SplitString × Int => decide (p.1 = w)) [(k, x)]
          = none := by
        rw [List.find?_eq_none]
        intro p hp
        rw [List.mem_singleton] at hp
        rw [hp]
        simp only [decide_eq_true_eq]
        exact fun hc => hw hc.symm
      rw [find?_append_none _ _ _ hf, hsing, hf]
    · rw [find?_append_some _ _ _ _ hf, hf]

theorem posSum_cons (p : SplitString × Int) (t : List (SplitString × Int)) :
    posSum (p :: t) = p.2.toNat + posSum t := rfl

theorem posSum_mapSet (m : List (SplitString × Int)) (k : SplitString) (x : Int)
    (hnd : (m.map (·.1)).Nodup) (hk : k ∈ m.map (·.1)) :
    posSum (mapSet m k x) + (mapGet m k).toNat = posSum m + x.toNat := by
  induction m with
  | nil => exact absurd hk (List.not_mem_nil k)
  | cons p t ih =>
    rw [List.map_cons, List.nodup_cons] at hnd
    have hmap : mapSet (p :: t) k x
        = (if p.1 = k then (k, x) else p) :: t.map (fun q => if q.1 = k then (k, x) else q) := by
      rw [mapSet, if_pos ((mem_keys_of_any (p :: t) k).mpr hk), List.map_cons]
    by_cases hpk : p.1 = k
    · have hkt : k ∉ t.map (·.1) := hpk ▸ hnd.1
      have htt : t.map (fun q => if q.1 = k then (k, x) else q) = t := by
        have := List.map_congr_left (l := t)
          (f := fun q : SplitString × Int => if q.1 = k then (k, x) else q) (g := id)
          (fun q hq => if_neg (fun hc => hkt (List.mem_map.mpr ⟨q, hq, hc⟩)))
        rw [this, List.map_id]
      rw [hmap, if_pos hpk, htt, posSum_cons, posSum_cons, mapGet_cons_self p t k hpk]
      omega
    · have hkt : k ∈ t.map (·.1) := by
        rcases List.mem_cons.mp hk with h | h
        · exact absurd h.symm hpk
        · exact h
      have htt : t.map (fun q => if q.1 = k then (k, x) else q) = mapSet t k x := by
        rw [mapSet, if_pos ((mem_keys_of_any t k).mpr hkt)]
      rw [hmap, if_neg hpk, htt, posSum_cons, posSum_cons, mapGet_cons_ne p t k hpk]
      have := ih hnd.2 hkt
      omega

end DAG

namespace DAG

theorem mapSet_keys_iff (m : List (SplitString × Int)) (k : SplitString) (y : Int)
    (x : SplitString) :
    x ∈ (mapSet m k y).map (·.1) ↔ x ∈ m.map (·.1) ∨ x = k := by
  by_cases hmem : k ∈ m.map (·.1)
  · rw [mapSet_keys_mem m k y hmem]
    constructor
    · exact fun h => Or.inl h
    · rintro (h | h)
      · exact h
      · rw [h]
        exact hmem
  · rw [mapSet_keys_not_mem m k y hmem, List.mem_append, List.mem_singleton]

theorem mapGet_addZero (m : List (SplitString × Int)) (k : SplitString)
    (hk : k ∉ m.map (·.1)) (v : SplitString) :
    mapGet (m ++ [(k, 0)]) v = mapGet m v := by
  by_cases hv : v = k
  · subst hv
    rw [mapGet_of_not_mem m v hk]
    have hnone : m.find? (fun p => p.1 = v) = none := by
      rw [List.find?_eq_none]
      intro p hp
      simp only [decide_eq_true_eq]
      intro hc
      exact hk (List.mem_map.mpr ⟨p, hp, hc⟩)
    rw [mapGet, find?_append_none _ _ _ hnone, List.find?_cons_of_pos _ (by simp),
      Option.map_some', Option.getD_some]
  · rcases hf : m.find? (fun p => p.1 = v) with _ | r
    · have hsing : List.find? (fun p : SplitString × Int => decide (p.1 = v)) [(k, 0)]
          = none := by
        rw [List.find?_eq_none]
        intro p hp
        rw [List.mem_singleton] at hp
        rw [hp]
        simp only [decide_eq_true_eq]
        exact fun hc => hv hc.symm
      rw [mapGet, mapGet, find?_append_none _ _ _ hf, hsing, hf]
    · rw [mapGet, mapGet, find?_append_some _ _ _ _ hf, hf]

theorem bumpFold_spec (l : List SplitString) :
    ∀ (m : List (SplitString × Int)), (m.map (·.1)).Nodup →
      (((l.foldl (fun m2 v => mapSet m2 v (mapGet m2 v + 1)) m).map (·.1)).Nodup
      ∧ (∀ x, x ∈ (l.foldl (fun m2 v => mapSet m2 v (mapGet m2 v + 1)) m).map (·.1)
            ↔ x ∈ m.map (·.1) ∨ x ∈ l)
      ∧ (∀ v, mapGet (l.foldl (fun m2 v => mapSet m2 v (mapGet m2 v + 1)) m) v
            = mapGet m v + (l.count v : Int))) := by
  induction l with
  | nil =>
    intro m hnd
    refine ⟨hnd, fun x => by simp, fun v => by simp⟩
  | cons a t ih =>
    intro m hnd
    rw [List.foldl_cons]
    have hnd' : ((mapSet m a (mapGet m a + 1)).map (·.1)).Nodup := by
      by_cases hmem : a ∈ m.map (·.1)
      · rw [mapSet_keys_mem m a _ hmem]
        exact hnd
      · rw [mapSet_keys_not_mem m a _ hmem]
        refine List.Nodup.append hnd (List.nodup_singleton a) ?_
        intro x hx hx'
        rw [List.mem_singleton] at hx'
        rw [hx'] at hx
        exact hmem hx
    obtain ⟨h1, h2, h3⟩ := ih _ hnd'
    refine ⟨h1, ?_, ?_⟩
    · intro x
      rw [h2 x, mapSet_keys_iff]
      constructor
      · rintro ((h | h) | h)
        · exact Or.inl h
        · exact Or.inr (h ▸ List.mem_cons_self a t)
        · exact Or.inr (List.mem_cons_of_mem a h)
      · rintro (h | h)
        · exact Or.inl (Or.inl h)
        · rcases List.mem_cons.mp h with h | h
          · exact Or.inl (Or.inr h)
          · exact Or.inr h
    · intro v
      rw [h3 v]
      by_cases hva : v = a
      · subst hva
        rw [mapGet_mapSet_self, List.count_cons_self]
        push_cast
        omega
      · rw [mapGet_mapSet_ne _ _ _ _ hva, List.count_cons_of_ne hva]

end DAG

namespace DAG

theorem buildFold_spec :
    ∀ (gl : List (SplitString × List SplitString)) (m : List (SplitString × Int)),
      (m.map (·.1)).Nodup →
      (((gl.foldl buildStep m).map (·.1)).Nodup
      ∧ (∀ x, x ∈ (gl.foldl buildStep m).map (·.1)
            ↔ x ∈ m.map (·.1) ∨ x ∈ gl.map (·.1) ∨ ∃ p ∈ gl, x ∈ p.2)
      ∧ (∀ v, mapGet (gl.foldl buildStep m) v
            = mapGet m v + ((gl.map (fun p => p.2.count v)).sum : Int))) := by
  intro gl
  induction gl with
  | nil =>
    intro m hnd
    refine ⟨hnd, fun x => by simp, fun v => by simp⟩
  | cons p t ih =>
    intro m hnd
    rw [List.foldl_cons]
    by_cases hany : m.any (fun q => q.1 = p.1)
    · have hb : buildStep m p
          = p.2.foldl (fun m2 v => mapSet m2 v (mapGet m2 v + 1)) m := by
        rw [buildStep, if_pos hany]
      rw [hb]
      obtain ⟨b1, b2, b3⟩ := bumpFold_spec p.2 m hnd
      obtain ⟨h1, h2, h3⟩ := ih _ b1
      have hp1 : p.1 ∈ m.map (·.1) := (mem_keys_of_any m p.1).mp hany
      refine ⟨h1, ?_, ?_⟩
      · intro x
        rw [h2 x, b2 x]
        constructor
        · rintro ((h | h) | h | h)
          · exact Or.inl h
          · exact Or.inr (Or.inr ⟨p, List.mem_cons_self p t, h⟩)
          · exact Or.inr (Or.inl (List.mem_cons_of_mem _ h))
          · obtain ⟨q, hq, hxq⟩ := h
            exact Or.inr (Or.inr ⟨q, List.mem_cons_of_mem p hq, hxq⟩)
        · rintro (h | h | h)
          · exact Or.inl (Or.inl h)
          · rcases List.mem_cons.mp h with h | h
            · exact Or.inl (Or.inl (h ▸ hp1))
            · exact Or.inr (Or.inl h)
          · obtain ⟨q, hq, hxq⟩ := h
            rcases List.mem_cons.mp hq with h | h
            · exact Or.inl (Or.inr (h ▸ hxq))
            · exact Or.inr (Or.inr ⟨q, h, hxq⟩)
      · intro v
        rw [h3 v, b3 v, List.map_cons, List.sum_cons]
        ring
    · have hb : buildStep m p
          = p.2.foldl (fun m2 v => mapSet m2 v (mapGet m2 v + 1)) (m ++ [(p.1, 0)]) := by
        rw [buildStep, if_neg hany]
      rw [hb]
      have hp1 : p.1 ∉ m.map (·.1) := fun h => hany ((mem_keys_of_any m p.1).mpr h)
      have hnd0 : ((m ++ [(p.1, (0 : Int))]).map (·.1)).Nodup := by
        rw [List.map_append]
        refine List.Nodup.append hnd (by simp) ?_
        intro x hx hx'
        simp only [List.map_cons, List.map_nil, List.mem_singleton] at hx'
        rw [hx'] at hx
        exact hp1 hx
      obtain ⟨b1, b2, b3⟩ := bumpFold_spec p.2 (m ++ [(p.1, 0)]) hnd0
      obtain ⟨h1, h2, h3⟩ := ih _ b1
      refine ⟨h1, ?_, ?_⟩
      · intro x
        rw [h2 x, b2 x, List.map_append]
        simp only [List.map_cons, List.map_nil, List.mem_append, List.mem_singleton]
        constructor
        · rintro (((h | h) | h) | h | h)
          · exact Or.inl h
          · refine Or.inr (Or.inl ?_)
            rw [h]
            exact List.mem_cons_self _ _
          · exact Or.inr (Or.inr ⟨p, List.mem_cons_self p t, h⟩)
          · exact Or.inr (Or.inl (List.mem_cons_of_mem _ h))
          · obtain ⟨q, hq, hxq⟩ := h
            exact Or.inr (Or.inr ⟨q, List.mem_cons_of_mem p hq, hxq⟩)
        · rintro (h | h | h)
          · exact Or.inl (Or.inl (Or.inl h))
          · rcases List.mem_cons.mp h with h | h
            · exact Or.inl (Or.inl (Or.inr h))
            · exact Or.inr (Or.inl h)
          · obtain ⟨q, hq, hxq⟩ := h
            rcases List.mem_cons.mp hq with h | h
            · exact Or.inl (Or.inr (h ▸ hxq))
            · exact Or.inr (Or.inr ⟨q, h, hxq⟩)
      · intro v
        rw [h3 v, b3 v, mapGet_addZero m p.1 hp1 v, List.map_cons, List.sum_cons]
        ring

theorem buildIndegree_spec (d : DAG) (hwf : WF d) :
    ((buildIndegree d).map (·.1)).Nodup
    ∧ (∀ x, x ∈ (buildIndegree d).map (·.1) ↔ x ∈ d.nodes)
    ∧ (∀ v, mapGet (buildIndegree d) v
        = ((d.g.map (fun p => p.2.count v)).sum : Int)) := by
  obtain ⟨h1, h2, h3⟩ := buildFold_spec d.g [] (by simp)
  refine ⟨h1, ?_, ?_⟩
  · intro x
    rw [buildIndegree, h2 x]
    constructor
    · rintro (h | h | h)
      · exact absurd h (by simp)
      · exact h
      · obtain ⟨q, hq, hxq⟩ := h
        exact (hwf.2 q hq).2 x hxq
    · intro h
      exact Or.inr (Or.inl h)
  · intro v
    rw [buildIndegree, h3 v]
    simp [mapGet]

end DAG

namespace DAG

theorem seedFold_perm (cmp : PQ.Comparator SplitString) :
    ∀ (ind : List (SplitString × Int)) (q0 : List SplitString),
      (ind.foldl (fun q p => if p.2 = 0 then PQ.push cmp q p.1 else q) q0).Perm
        (q0 ++ (ind.filter (fun p => p.2 = 0)).map (·.1)) := by
  intro ind
  induction ind with
  | nil =>
    intro q0
    simp
  | cons p t ih =>
    intro q0
    rw [List.foldl_cons]
    by_cases hp : p.2 = 0
    · rw [if_pos hp]
      have e1 : List.filter (fun p : SplitString × Int => decide (p.2 = 0)) (p :: t)
          = p :: List.filter (fun p : SplitString × Int => decide (p.2 = 0)) t := by
        rw [List.filter_cons]
        simp [hp]
      rw [e1, List.map_cons]
      refine (ih (PQ.push cmp q0 p.1)).trans ?_
      refine (List.Perm.append_right _ (PQ.push_perm cmp q0 p.1)).trans ?_
      rw [List.append_assoc, List.singleton_append]
    · rw [if_neg hp]
      have e1 : List.filter (fun p : SplitString × Int => decide (p.2 = 0)) (p :: t)
          = List.filter (fun p : SplitString × Int => decide (p.2 = 0)) t := by
        rw [List.filter_cons]
        simp [hp]
      rw [e1]
      exact ih q0

theorem seedPQ_perm (cmp : PQ.Comparator SplitString) (ind : List (SplitString × Int)) :
    (seedPQ cmp ind).Perm ((ind.filter (fun p => p.2 = 0)).map (·.1)) := by
  have := seedFold_perm cmp ind []
  rw [List.nil_append] at this
  exact this

theorem adj_entry (d : DAG) (hnd : d.nodes.Nodup) (p : SplitString × List SplitString)
    (hp : p ∈ d.g) : d.adj p.1 = p.2 := by
  rw [adj, find?_key_eq_of_mem_nodup d.g hnd p hp, Option.map_some', Option.getD_some]

theorem edge_src_mem (d : DAG) (u v : SplitString) (h : Edge d u v) : u ∈ d.nodes := by
  rw [Edge] at h
  rcases hf : d.g.find? (fun p => p.1 = u) with _ | r
  · rw [adj, hf] at h
    exact absurd h (List.not_mem_nil v)
  · have hr : r.1 = u := by simpa using List.find?_some hf
    rw [nodes, List.mem_map]
    exact ⟨r, List.mem_of_find?_eq_some hf, hr⟩

theorem filter_mass_split :
    ∀ (g : List (SplitString × List SplitString)), ((g.map (·.1)).Nodup) →
      ∀ (result : List SplitString) (top : SplitString), top ∉ result →
      ∀ (v : SplitString),
      ((g.filter (fun p => decide (p.1 ∉ result))).map (fun p => p.2.count v)).sum =
      ((g.filter (fun p => decide (p.1 ∉ result ++ [top]))).map (fun p => p.2.count v)).sum
        + (((g.find? (fun p => p.1 = top)).map (·.2)).getD []).count v := by
  intro g
  induction g with
  | nil =>
    intro _ result top _ v
    rfl
  | cons p t ih =>
    intro hnd result top htop v
    rw [List.map_cons, List.nodup_cons] at hnd
    by_cases hpt : p.1 = top
    · have hfind : (p :: t).find? (fun q => q.1 = top) = some p :=
        List.find?_cons_of_pos _ (by simpa using hpt)
      have e1 : List.filter (fun q : SplitString × List SplitString =>
            decide (q.1 ∉ result)) (p :: t)
          = p :: List.filter (fun q : SplitString × List SplitString =>
            decide (q.1 ∉ result)) t := by
        rw [List.filter_cons]
        simp [hpt, htop]
      have e2 : List.filter (fun q : SplitString × List SplitString =>
            decide (q.1 ∉ result ++ [top])) (p :: t)
          = List.filter (fun q : SplitString × List SplitString =>
            decide (q.1 ∉ result ++ [top])) t := by
        rw [List.filter_cons]
        simp [hpt]
      have e3 : List.filter (fun q : SplitString × List SplitString =>
            decide (q.1 ∉ result)) t
          = List.filter (fun q : SplitString × List SplitString =>
            decide (q.1 ∉ result ++ [top])) t := by
        refine List.filter_congr ?_
        intro q hq
        have hqt : q.1 ≠ top := by
          intro hc
          exact hnd.1 (hpt ▸ hc ▸ List.mem_map.mpr ⟨q, hq, rfl⟩)
        simp [List.mem_append, hqt]
      rw [e1, e2, e3, hfind, List.map_cons, List.sum_cons, Option.map_some',
        Option.getD_some]
      omega
    · have hfind : (p :: t).find? (fun q => q.1 = top)
          = t.find? (fun q => q.1 = top) :=
        List.find?_cons_of_neg _ (by simpa using hpt)
      rw [hfind]
      by_cases hpr : p.1 ∈ result
      · have e1 : List.filter (fun q : SplitString × List SplitString =>
              decide (q.1 ∉ result)) (p :: t)
            = List.filter (fun q : SplitString × List SplitString =>
              decide (q.1 ∉ result)) t := by
          rw [List.filter_cons]
          simp [hpr]
        have e2 : List.filter (fun q : SplitString × List SplitString =>
              decide (q.1 ∉ result ++ [top])) (p :: t)
            = List.filter (fun q : SplitString × List SplitString =>
              decide (q.1 ∉ result ++ [top])) t := by
          rw [List.filter_cons]
          simp [List.mem_append, hpr]
        rw [e1, e2]
        exact ih hnd.2 result top htop v
      · have e1 : List.filter (fun q : SplitString × List SplitString =>
              decide (q.1 ∉ result)) (p :: t)
            = p :: List.filter (fun q : SplitString × List SplitString =>
              decide (q.1 ∉ result)) t := by
          rw [List.filter_cons]
          simp [hpr]
        have e2 : List.filter (fun q : SplitString × List SplitString =>
              decide (q.1 ∉ result ++ [top])) (p :: t)
            = p :: List.filter (fun q : SplitString × List SplitString =>
              decide (q.1 ∉ result ++ [top])) t := by
          rw [List.filter_cons]
          simp [List.mem_append, hpr, hpt]
        rw [e1, e2, List.map_cons, List.sum_cons, List.map_cons, List.sum_cons]
        have := ih hnd.2 result top htop v
        omega

theorem remIndeg_append (d : DAG) (hnd : d.nodes.Nodup) (result : List SplitString)
    (top : SplitString) (htop : top ∉ result) (v : SplitString) :
    remIndeg d result v = remIndeg d (result ++ [top]) v + (d.adj top).count v := by
  rw [remIndeg, remIndeg, filter_mass_split d.g hnd result top htop v]
  rfl

theorem remIndeg_nil (d : DAG) (v : SplitString) :
    remIndeg d [] v = ((d.g.map (fun p => p.2.count v)).sum) := by
  rw [remIndeg]
  have : d.g.filter (fun p => decide (p.1 ∉ ([] : List SplitString))) = d.g :=
    List.filter_eq_self.mpr (fun p _ => by simp)
  rw [this]

theorem one_le_remIndeg (d : DAG) (hnd : d.nodes.Nodup) (result : List SplitString)
    (u : SplitString) (hu : u ∈ d.nodes) (hur : u ∉ result) (v : SplitString)
    (hv : v ∈ d.adj u) : 1 ≤ remIndeg d result v := by
  rw [nodes, List.mem_map] at hu
  obtain ⟨p, hp, hpu⟩ := hu
  have hadj : d.adj u = p.2 := by
    rw [← hpu]
    exact adj_entry d hnd p hp
  have hcount : 1 ≤ p.2.count v := by
    rw [hadj] at hv
    exact List.count_pos_iff.mpr hv
  have hmem : p.2.count v ∈ ((d.g.filter (fun p => decide (p.1 ∉ result))).map
      (fun p => p.2.count v)) := by
    refine List.mem_map.mpr ⟨p, ?_, rfl⟩
    refine List.mem_filter.mpr ⟨hp, by simp [hpu, hur]⟩
  calc 1 ≤ p.2.count v := hcount
    _ ≤ _ := List.le_sum_of_mem hmem

theorem remIndeg_ne_zero_exists (d : DAG) (result : List SplitString) (v : SplitString)
    (h : remIndeg d result v ≠ 0) :
    ∃ p ∈ d.g, p.1 ∉ result ∧ v ∈ p.2 := by
  by_contra hall
  push_neg at hall
  refine h ?_
  rw [remIndeg]
  refine List.sum_eq_zero ?_
  intro x hx
  rw [List.mem_map] at hx
  obtain ⟨p, hp, hpx⟩ := hx
  rw [List.mem_filter] at hp
  have h1 : p.1 ∉ result := by simpa using hp.2
  have h2 := hall p hp.1 h1
  rw [← hpx]
  exact List.count_eq_zero.mpr h2

end DAG

namespace DAG

theorem decPushFold_spec (cmp : PQ.Comparator SplitString) :
    ∀ (A : List SplitString), A.Nodup →
      ∀ (q : List SplitString) (m : List (SplitString × Int)),
        (m.map (·.1)).Nodup →
        (∀ v ∈ A, v ∈ m.map (·.1) ∧ 1 ≤ mapGet m v) →
        ((A.foldl (decPush cmp) (q, m)).2.map (·.1) = m.map (·.1)
        ∧ (∀ v, mapGet (A.foldl (decPush cmp) (q, m)).2 v
              = mapGet m v - (if v ∈ A then 1 else 0))
        ∧ (A.foldl (decPush cmp) (q, m)).1.Perm
            (q ++ A.filter (fun v => mapGet m v = 1))
        ∧ posSum (A.foldl (decPush cmp) (q, m)).2 + A.length = posSum m) := by
  intro A
  induction A with
  | nil =>
    intro _ q m _ _
    exact ⟨rfl, fun v => by simp, by simp, by simp⟩
  | cons a t ih =>
    intro hAnd q m hnd hpres
    rw [List.nodup_cons] at hAnd
    have hamem : a ∈ m.map (·.1) := (hpres a (List.mem_cons_self a t)).1
    have hx : 1 ≤ mapGet m a := (hpres a (List.mem_cons_self a t)).2
    have hd : decPush cmp (q, m) a
        = (if mapGet m a - 1 = 0 then PQ.push cmp q a else q,
           mapSet m a (mapGet m a - 1)) := rfl
    rw [List.foldl_cons, hd]
    have hkeys : ((mapSet m a (mapGet m a - 1)).map (·.1)) = m.map (·.1) :=
      mapSet_keys_mem m a _ hamem
    have hnd' : ((mapSet m a (mapGet m a - 1)).map (·.1)).Nodup := by
      rw [hkeys]
      exact hnd
    have hpres' : ∀ v ∈ t, v ∈ (mapSet m a (mapGet m a - 1)).map (·.1)
        ∧ 1 ≤ mapGet (mapSet m a (mapGet m a - 1)) v := by
      intro v hv
      have hva : v ≠ a := fun hc => hAnd.1 (hc ▸ hv)
      rw [hkeys, mapGet_mapSet_ne m a _ v hva]
      exact hpres v (List.mem_cons_of_mem a hv)
    obtain ⟨h1, h2, h3, h4⟩ := ih hAnd.2
      (if mapGet m a - 1 = 0 then PQ.push cmp q a else q)
      (mapSet m a (mapGet m a - 1)) hnd' hpres'
    refine ⟨by rw [h1, hkeys], ?_, ?_, ?_⟩
    · intro v
      rw [h2 v]
      by_cases hva : v = a
      · subst hva
        rw [mapGet_mapSet_self, if_neg hAnd.1, if_pos (List.mem_cons_self v t)]
        omega
      · rw [mapGet_mapSet_ne m a _ v hva]
        by_cases hvt : v ∈ t
        · rw [if_pos hvt, if_pos (List.mem_cons_of_mem a hvt)]
        · rw [if_neg hvt, if_neg (by
            intro hc
            rcases List.mem_cons.mp hc with h | h
            · exact hva h
            · exact hvt h)]
    · refine h3.trans ?_
      have hft : t.filter (fun v => mapGet (mapSet m a (mapGet m a - 1)) v = 1)
          = t.filter (fun v => mapGet m v = 1) := by
        refine List.filter_congr ?_
        intro v hv
        have hva : v ≠ a := fun hc => hAnd.1 (hc ▸ hv)
        rw [mapGet_mapSet_ne m a _ v hva]
      rw [hft]
      by_cases hone : mapGet m a = 1
      · rw [if_pos (by omega)]
        have hfc : List.filter (fun v => decide (mapGet m v = 1)) (a :: t)
            = a :: List.filter (fun v => decide (mapGet m v = 1)) t := by
          rw [List.filter_cons]
          simp [hone]
        rw [hfc]
        refine (List.Perm.append_right _ (PQ.push_perm cmp q a)).trans ?_
        rw [List.append_assoc, List.singleton_append]
      · rw [if_neg (by omega)]
        have hfc : List.filter (fun v => decide (mapGet m v = 1)) (a :: t)
            = List.filter (fun v => decide (mapGet m v = 1)) t := by
          rw [List.filter_cons]
          simp [hone]
        rw [hfc]
    · have hps : posSum (mapSet m a (mapGet m a - 1)) + (mapGet m a).toNat
          = posSum m + (mapGet m a - 1).toNat := posSum_mapSet m a _ hnd hamem
      rw [List.length_cons]
      omega

end DAG

namespace DAG

theorem exists_cycle_of_all_pred (d : DAG) :
    ∀ (n : Nat) (S : Finset SplitString), S.card ≤ n → S.Nonempty →
      (∀ v ∈ S, ∃ u ∈ S, Edge d u v) →
      ∃ x, Relation.TransGen (Edge d) x x := by
  intro n
  induction n with
  | zero =>
    intro S hcard hne _
    obtain ⟨v, hv⟩ := hne
    have := Finset.card_pos.mpr ⟨v, hv⟩
    omega
  | succ n ih =>
    intro S hcard hne hpred
    obtain ⟨v, hv⟩ := hne
    classical
    by_cases hvv : Relation.TransGen (Edge d) v v
    · exact ⟨v, hvv⟩
    · obtain ⟨u, huS, huv⟩ := hpred v hv
      have huS' : u ∈ S.filter (fun w => Relation.TransGen (Edge d) w v) :=
        Finset.mem_filter.mpr ⟨huS, Relation.TransGen.single huv⟩
      refine ih (S.filter (fun w => Relation.TransGen (Edge d) w v)) ?_ ⟨u, huS'⟩ ?_
      · have hsub : S.filter (fun w => Relation.TransGen (Edge d) w v) ⊆ S :=
          Finset.filter_subset _ _
        have hvnot : v ∉ S.filter (fun w => Relation.TransGen (Edge d) w v) := by
          intro hc
          exact hvv (Finset.mem_filter.mp hc).2
        have hss : S.filter (fun w => Relation.TransGen (Edge d) w v) ⊂ S :=
          (Finset.ssubset_iff_of_subset hsub).mpr ⟨v, hv, hvnot⟩
        have := Finset.card_lt_card hss
        omega
      · intro w hw
        obtain ⟨hwS, hwv⟩ := Finset.mem_filter.mp hw
        obtain ⟨z, hzS, hzw⟩ := hpred w hwS
        exact ⟨z, Finset.mem_filter.mpr ⟨hzS, Relation.TransGen.head hzw hwv⟩, hzw⟩

theorem getD_of_mem_take (R : List SplitString) (u : SplitString) (j : Nat)
    (hu : u ∈ R.take j) :
    ∃ i, i < j ∧ R.getD i [] = u := by
  obtain ⟨i, hi, hval⟩ := List.getElem_of_mem hu
  have hij : i < j := by
    have h2 : (R.take j).length ≤ j := by
      rw [List.length_take]
      exact min_le_left _ _
    omega
  refine ⟨i, hij, ?_⟩
  have h1 : (R.take j)[i]? = some u := by
    rw [List.getElem?_eq_getElem hi, hval]
  rw [List.getElem?_take_of_lt hij] at h1
  rw [List.getD_eq_getElem?_getD, h1, Option.getD_some]

theorem adj_wf (d : DAG) (hwf : WF d) (u : SplitString) :
    (d.adj u).Nodup ∧ ∀ v ∈ d.adj u, v ∈ d.nodes := by
  rcases hf : d.g.find? (fun p => p.1 = u) with _ | p
  · rw [adj, hf]
    exact ⟨List.nodup_nil, fun v hv => absurd hv (List.not_mem_nil v)⟩
  · rw [adj, hf, Option.map_some', Option.getD_some]
    exact hwf.2 p (List.mem_of_find?_eq_some hf)

theorem topo_exit (d : DAG) (hac : Acyclic d) (result : List SplitString)
    (hnd : d.nodes.Nodup)
    (hsub : ∀ x ∈ result, x ∈ d.nodes)
    (hempty : ∀ v, v ∈ d.nodes → v ∉ result → remIndeg d result v ≠ 0) :
    ∀ x, x ∈ result ↔ x ∈ d.nodes := by
  intro x
  refine ⟨fun h => hsub x h, ?_⟩
  intro hx
  by_contra hnot
  classical
  have hmemS : ∀ w, w ∈ d.nodes.toFinset.filter (fun w => w ∉ result)
      ↔ w ∈ d.nodes ∧ w ∉ result := by
    intro w
    rw [Finset.mem_filter, List.mem_toFinset]
  have hSne : (d.nodes.toFinset.filter (fun w => w ∉ result)).Nonempty :=
    ⟨x, (hmemS x).mpr ⟨hx, hnot⟩⟩
  have hpred : ∀ v ∈ d.nodes.toFinset.filter (fun w => w ∉ result),
      ∃ u ∈ d.nodes.toFinset.filter (fun w => w ∉ result), Edge d u v := by
    intro v hv
    obtain ⟨hvN, hvR⟩ := (hmemS v).mp hv
    obtain ⟨p, hp, hpr, hvp⟩ := remIndeg_ne_zero_exists d result v (hempty v hvN hvR)
    refine ⟨p.1, (hmemS p.1).mpr ⟨List.mem_map.mpr ⟨p, hp, rfl⟩, hpr⟩, ?_⟩
    rw [Edge, adj_entry d hnd p hp]
    exact hvp
  obtain ⟨z, hz⟩ := exists_cycle_of_all_pred d
    (d.nodes.toFinset.filter (fun w => w ∉ result)).card
    (d.nodes.toFinset.filter (fun w => w ∉ result)) le_rfl hSne hpred
  exact hac z hz

end DAG

namespace DAG

theorem count_eq_one_of_mem_nodup {l : List SplitString} {a : SplitString}
    (hnd : l.Nodup) (ha : a ∈ l) : l.count a = 1 := by
  induction l with
  | nil => exact absurd ha (List.not_mem_nil a)
  | cons b t ih =>
    rw [List.nodup_cons] at hnd
    rcases List.mem_cons.mp ha with h | h
    · subst h
      rw [List.count_cons_self]
      have hz : t.count a = 0 := List.count_eq_zero.mpr hnd.1
      omega
    · have hba : a ≠ b := by
        intro hc
        rw [hc] at h
        exact hnd.1 h
      rw [List.count_cons_of_ne hba, ih hnd.2 h]

theorem topoLoop_spec (cmp : PQ.Comparator SplitString) (d : DAG)
    (hwf : WF d) (hac : Acyclic d) :
    ∀ (fuel : Nat) (pq : List SplitString) (ind : List (SplitString × Int))
      (result : List SplitString),
      pq.length + posSum ind ≤ fuel →
      result.Nodup →
      (∀ x ∈ result, x ∈ d.nodes) →
      pq.Nodup →
      ((ind.map (·.1)).Nodup) →
      (∀ x, x ∈ ind.map (·.1) ↔ x ∈ d.nodes) →
      (∀ v ∈ d.nodes, mapGet ind v = (remIndeg d result v : Int)) →
      (∀ v, v ∈ pq ↔ v ∈ d.nodes ∧ v ∉ result ∧ remIndeg d result v = 0) →
      (∀ v ∈ result, remIndeg d result v = 0) →
      (∀ k, k < result.length → ∀ u, Edge d u (result.getD k []) → u ∈ result.take k) →
      ((topoLoop cmp d fuel pq ind result).Nodup
      ∧ (∀ x, x ∈ topoLoop cmp d fuel pq ind result ↔ x ∈ d.nodes)
      ∧ (∀ k, k < (topoLoop cmp d fuel pq ind result).length →
          ∀ u, Edge d u ((topoLoop cmp d fuel pq ind result).getD k [])
            → u ∈ (topoLoop cmp d fuel pq ind result).take k)) := by
  intro fuel
  induction fuel with
  | zero =>
    intro pq ind result hfuel hrN hrS hpqN hkN hkM hval hpq hres hord
    have hpq0 : pq = [] := List.length_eq_zero.mp (by omega)
    subst hpq0
    rw [show topoLoop cmp d 0 [] ind result = result from rfl]
    refine ⟨hrN, ?_, hord⟩
    refine topo_exit d hac result hwf.1 hrS ?_
    intro v hvN hvR h0
    exact absurd ((hpq v).mpr ⟨hvN, hvR, h0⟩) (List.not_mem_nil v)
  | succ fuel ih =>
    intro pq ind result hfuel hrN hrS hpqN hkN hkM hval hpq hres hord
    cases pq with
    | nil =>
      rw [show topoLoop cmp d (fuel + 1) [] ind result = result from rfl]
      refine ⟨hrN, ?_, hord⟩
      refine topo_exit d hac result hwf.1 hrS ?_
      intro v hvN hvR h0
      exact absurd ((hpq v).mpr ⟨hvN, hvR, h0⟩) (List.not_mem_nil v)
    | cons top rest =>
      obtain ⟨htopN, htopR, htop0⟩ := (hpq top).mp (List.mem_cons_self top rest)
      obtain ⟨hAnd, hAsub⟩ := adj_wf d hwf top
      have htopnr : top ∉ rest := (List.nodup_cons.mp hpqN).1
      have hrestN : rest.Nodup := (List.nodup_cons.mp hpqN).2
      have hq2 : (PQ.pop cmp (top :: rest)).2.Perm rest := (PQ.pop_cons cmp top rest).2
      have hpres : ∀ v ∈ d.adj top, v ∈ ind.map (·.1) ∧ 1 ≤ mapGet ind v := by
        intro v hv
        have hvN : v ∈ d.nodes := hAsub v hv
        have h1 : 1 ≤ remIndeg d result v :=
          one_le_remIndeg d hwf.1 result top htopN htopR v hv
        refine ⟨(hkM v).mpr hvN, ?_⟩
        rw [hval v hvN]
        omega
      obtain ⟨f1, f2, f3, f4⟩ := decPushFold_spec cmp (d.adj top) hAnd
        (PQ.pop cmp (top :: rest)).2 ind hkN hpres
      have hred : topoLoop cmp d (fuel + 1) (top :: rest) ind result
          = topoLoop cmp d fuel
              ((d.adj top).foldl (decPush cmp) ((PQ.pop cmp (top :: rest)).2, ind)).1
              ((d.adj top).foldl (decPush cmp) ((PQ.pop cmp (top :: rest)).2, ind)).2
              (result ++ [top]) := rfl
      rw [hred]
      have hremA : ∀ v, remIndeg d result v
          = remIndeg d (result ++ [top]) v + (d.adj top).count v :=
        remIndeg_append d hwf.1 result top htopR
      have hcount : ∀ v, (d.adj top).count v = (if v ∈ d.adj top then 1 else 0) := by
        intro v
        by_cases hv : v ∈ d.adj top
        · rw [if_pos hv]
          exact count_eq_one_of_mem_nodup hAnd hv
        · rw [if_neg hv]
          exact List.count_eq_zero.mpr hv
      have hq' : ∀ v,
          (v ∈ ((d.adj top).foldl (decPush cmp) ((PQ.pop cmp (top :: rest)).2, ind)).1
          ↔ (v ∈ rest ∨ (v ∈ d.adj top ∧ mapGet ind v = 1))) := by
        intro v
        rw [f3.mem_iff, List.mem_append, List.mem_filter, hq2.mem_iff]
        simp only [decide_eq_true_eq]
      refine ih _ _ _ ?_ ?_ ?_ ?_ ?_ ?_ ?_ ?_ ?_ ?_
      · have hlen1 : ((d.adj top).foldl (decPush cmp)
            ((PQ.pop cmp (top :: rest)).2, ind)).1.length
            = (PQ.pop cmp (top :: rest)).2.length
              + ((d.adj top).filter (fun v => decide (mapGet ind v = 1))).length := by
          rw [f3.length_eq, List.length_append]
        have hlen2 : (PQ.pop cmp (top :: rest)).2.length = rest.length := hq2.length_eq
        have hlen3 : ((d.adj top).filter (fun v => decide (mapGet ind v = 1))).length
            ≤ (d.adj top).length := List.length_filter_le _ _
        have hlc : (top :: rest).length = rest.length + 1 := rfl
        omega
      · refine List.Nodup.append hrN (List.nodup_singleton top) ?_
        intro x hx hx'
        rw [List.mem_singleton] at hx'
        rw [hx'] at hx
        exact htopR hx
      · intro x hx
        rcases List.mem_append.mp hx with h | h
        · exact hrS x h
        · rw [List.mem_singleton] at h
          rw [h]
          exact htopN
      · have hpf : (((d.adj top).foldl (decPush cmp)
            ((PQ.pop cmp (top :: rest)).2, ind)).1).Perm
            (rest ++ (d.adj top).filter (fun v => decide (mapGet ind v = 1))) :=
          f3.trans (List.Perm.append_right _ hq2)
        refine hpf.nodup_iff.mpr ?_
        refine List.Nodup.append hrestN (List.Nodup.filter _ hAnd) ?_
        intro x hx hx'
        obtain ⟨hxN, _, hx0⟩ := (hpq x).mp (List.mem_cons_of_mem top hx)
        rw [List.mem_filter] at hx'
        have hx1 : mapGet ind x = 1 := by simpa using hx'.2
        have := hval x hxN
        omega
      · rw [f1]
        exact hkN
      · intro x
        rw [f1]
        exact hkM x
      · intro v hvN
        have e1 := f2 v
        have e2 := hval v hvN
        have e3 := hremA v
        have e4 := hcount v
        by_cases hv : v ∈ d.adj top
        · rw [if_pos hv] at e1 e4
          omega
        · rw [if_neg hv] at e1 e4
          omega
      · intro v
        rw [hq' v]
        constructor
        · rintro (h | ⟨hvA, hv1⟩)
          · obtain ⟨hvN, hvR, hv0⟩ := (hpq v).mp (List.mem_cons_of_mem top h)
            have hvA : v ∉ d.adj top := by
              intro hc
              have := one_le_remIndeg d hwf.1 result top htopN htopR v hc
              omega
            refine ⟨hvN, ?_, ?_⟩
            · intro hc
              rcases List.mem_append.mp hc with h1 | h1
              · exact hvR h1
              · rw [List.mem_singleton] at h1
                rw [h1] at h
                exact htopnr h
            · have h2 := hremA v
              rw [hcount v, if_neg hvA] at h2
              omega
          · have hvN : v ∈ d.nodes := hAsub v hvA
            have hrem1 : remIndeg d result v = 1 := by
              have := hval v hvN
              omega
            have hvR : v ∉ result := by
              intro hc
              have := hres v hc
              omega
            have hvtop : v ≠ top := by
              intro hc
              exact hac top (Relation.TransGen.single (hc ▸ hvA))
            refine ⟨hvN, ?_, ?_⟩
            · intro hc
              rcases List.mem_append.mp hc with h1 | h1
              · exact hvR h1
              · rw [List.mem_singleton] at h1
                exact hvtop h1
            · have h2 := hremA v
              rw [hcount v, if_pos hvA] at h2
              omega
        · rintro ⟨hvN, hvR', hv0'⟩
          have hvR : v ∉ result := fun hc => hvR' (List.mem_append.mpr (Or.inl hc))
          have hvtop : v ≠ top := by
            intro hc
            exact hvR' (List.mem_append.mpr (Or.inr (by
              rw [hc]
              exact List.mem_singleton.mpr rfl)))
          by_cases hvA : v ∈ d.adj top
          · right
            refine ⟨hvA, ?_⟩
            have h1 := hremA v
            rw [hcount v, if_pos hvA] at h1
            have h2 := hval v hvN
            omega
          · left
            have h1 := hremA v
            rw [hcount v, if_neg hvA] at h1
            have hv0 : remIndeg d result v = 0 := by omega
            have := (hpq v).mpr ⟨hvN, hvR, hv0⟩
            rcases List.mem_cons.mp this with h | h
            · exact absurd h hvtop
            · exact h
      · intro v hv
        rcases List.mem_append.mp hv with h | h
        · have h0 := hres v h
          have h1 := hremA v
          omega
        · rw [List.mem_singleton] at h
          subst h
          have h1 := hremA v
          omega
      · intro k hk u hEdge
        have hklen : k < result.length + 1 := by
          rw [List.length_append, List.length_singleton] at hk
          omega
        by_cases hkc : k < result.length
        · have hgd : (result ++ [top]).getD k [] = result.getD k [] :=
            List.getD_append _ _ _ _ hkc
          rw [hgd] at hEdge
          have hmem := hord k hkc u hEdge
          have htake : (result ++ [top]).take k = result.take k := by
            rw [List.take_append_eq_append_take]
            have hz : k - result.length = 0 := by omega
            rw [hz, List.take_zero, List.append_nil]
          rw [htake]
          exact hmem
        · have hkeq : k = result.length := by omega
          subst hkeq
          have hgd : (result ++ [top]).getD result.length [] = top := by
            rw [List.getD_eq_getElem (l := result ++ [top]) (d := [])
              (by rw [List.length_append, List.length_singleton]; omega)]
            exact List.getElem_concat_length result top result.length rfl _
          rw [hgd] at hEdge
          have huN : u ∈ d.nodes := edge_src_mem d u top hEdge
          have huR : u ∈ result := by
            by_contra huR
            have := one_le_remIndeg d hwf.1 result u huN huR top hEdge
            omega
          have htake : (result ++ [top]).take result.length = result := by
            rw [List.take_append_eq_append_take, List.take_length, Nat.sub_self,
              List.take_zero, List.append_nil]
          rw [htake]
          exact huR

end DAG

namespace DAG

instance (d : DAG) (u v : SplitString) : Decidable (Edge d u v) :=
  inferInstanceAs (Decidable (v ∈ d.adj u))

theorem topoSort_spec (cmp : PQ.Comparator SplitString) (d : DAG)
    (hwf : WF d) (hac : Acyclic d) :
    (topoSort cmp d).Perm d.nodes
    ∧ ∀ u v, Edge d u v →
        ∃ i j, i < j ∧ j < (topoSort cmp d).length
          ∧ (topoSort cmp d).getD i [] = u ∧ (topoSort cmp d).getD j [] = v := by
  obtain ⟨b1, b2, b3⟩ := buildIndegree_spec d hwf
  have hseed := seedPQ_perm cmp (buildIndegree d)
  have hsubl : (((buildIndegree d).filter (fun p => p.2 = 0)).map (·.1)).Sublist
      ((buildIndegree d).map (·.1)) :=
    List.Sublist.map _ (List.filter_sublist _)
  have hseedN : (seedPQ cmp (buildIndegree d)).Nodup :=
    hseed.nodup_iff.mpr (List.Nodup.sublist hsubl b1)
  have hval0 : ∀ v ∈ d.nodes, mapGet (buildIndegree d) v = (remIndeg d [] v : Int) := by
    intro v _
    rw [b3 v, remIndeg_nil, Nat.cast_list_sum, List.map_map]
    rfl
  have hseedM : ∀ v, v ∈ seedPQ cmp (buildIndegree d)
      ↔ (v ∈ d.nodes ∧ remIndeg d [] v = 0) := by
    intro v
    rw [hseed.mem_iff]
    constructor
    · intro h
      rw [List.mem_map] at h
      obtain ⟨p, hpf, hpv⟩ := h
      rw [List.mem_filter] at hpf
      have hp2 : p.2 = 0 := by simpa using hpf.2
      have hvK : v ∈ (buildIndegree d).map (·.1) := List.mem_map.mpr ⟨p, hpf.1, hpv⟩
      have hvN : v ∈ d.nodes := (b2 v).mp hvK
      have hget : mapGet (buildIndegree d) v = p.2 := by
        rw [← hpv]
        exact mapGet_entry _ b1 p hpf.1
      have h3 := hval0 v hvN
      refine ⟨hvN, ?_⟩
      omega
    · rintro ⟨hvN, hv0⟩
      have hvK : v ∈ (buildIndegree d).map (·.1) := (b2 v).mpr hvN
      rw [List.mem_map] at hvK
      obtain ⟨p, hp, hpv⟩ := hvK
      have hget : mapGet (buildIndegree d) v = p.2 := by
        rw [← hpv]
        exact mapGet_entry _ b1 p hp
      have h3 := hval0 v hvN
      have hp2 : p.2 = 0 := by omega
      refine List.mem_map.mpr ⟨p, ?_, hpv⟩
      rw [List.mem_filter]
      exact ⟨hp, by simpa using hp2⟩
  have hpq0 : ∀ v, v ∈ seedPQ cmp (buildIndegree d)
      ↔ v ∈ d.nodes ∧ v ∉ ([] : List SplitString) ∧ remIndeg d [] v = 0 := by
    intro v
    rw [hseedM v]
    constructor
    · rintro ⟨h1, h2⟩
      exact ⟨h1, List.not_mem_nil v, h2⟩
    · rintro ⟨h1, _, h2⟩
      exact ⟨h1, h2⟩
  obtain ⟨m1, m2, m3⟩ := topoLoop_spec cmp d hwf hac
    ((seedPQ cmp (buildIndegree d)).length + posSum (buildIndegree d))
    (seedPQ cmp (buildIndegree d)) (buildIndegree d) []
    le_rfl List.nodup_nil (fun x h => absurd h (List.not_mem_nil x))
    hseedN b1 b2 hval0 hpq0 (fun v hv => absurd hv (List.not_mem_nil v))
    (fun k hk => by simp at hk)
  have hR : topoSort cmp d = topoLoop cmp d
      ((seedPQ cmp (buildIndegree d)).length + posSum (buildIndegree d))
      (seedPQ cmp (buildIndegree d)) (buildIndegree d) [] := rfl
  constructor
  · rw [hR]
    exact (List.perm_ext_iff_of_nodup m1 hwf.1).mpr m2
  · intro u v hE
    have hvN : v ∈ d.nodes := (adj_wf d hwf u).2 v hE
    have hvR : v ∈ topoSort cmp d := by
      rw [hR]
      exact (m2 v).mpr hvN
    obtain ⟨j, hj, hjv⟩ := List.getElem_of_mem hvR
    have hgdj : (topoSort cmp d).getD j [] = v := by
      rw [List.getD_eq_getElem (l := topoSort cmp d) (d := []) hj, hjv]
    have hu : u ∈ (topoSort cmp d).take j := by
      have := m3 j (by rw [← hR]; exact hj) u (by rw [← hR]; rw [hgdj]; exact hE)
      rw [← hR] at this
      exact this
    obtain ⟨i, hij, hiu⟩ := getD_of_mem_take (topoSort cmp d) u j hu
    exact ⟨i, j, hij, hj, hiu, hgdj⟩

end DAG

/-- C3: for every graph built by the DAG constructor followed by any
sequence of `addEdges` calls, and for every tie-breaker comparator,
`topoSort` returns a permutation of exactly the constructor-derived node
set, and for every edge `u → v` of the graph, `u` appears at a strictly
earlier position than `v` in the returned list. -/
theorem dag_topoSort_correct (verts : List SplitString)
    (hints : List (List SplitString)) (cmp : PQ.Comparator SplitString) :
    (DAG.topoSort cmp (hints.foldl DAG.addEdges (DAG.ofVerts verts))).Perm
      (hints.foldl DAG.addEdges (DAG.ofVerts verts)).nodes
    ∧ ∀ u v, DAG.Edge (hints.foldl DAG.addEdges (DAG.ofVerts verts)) u v →
        ∃ i j, i < j
          ∧ j < (DAG.topoSort cmp (hints.foldl DAG.addEdges (DAG.ofVerts verts))).length
          ∧ (DAG.topoSort cmp (hints.foldl DAG.addEdges (DAG.ofVerts verts))).getD i [] = u
          ∧ (DAG.topoSort cmp (hints.foldl DAG.addEdges (DAG.ofVerts verts))).getD j [] = v :=
  DAG.topoSort_spec cmp _
    (DAG.WF_foldl_addEdges hints _ (DAG.WF_ofVerts verts))
    (DAG.foldl_addEdges_acyclic hints _ (DAG.ofVerts_acyclic verts))

/-- Witness for C3 at the two-node graph `a, b` with the single hint
`[a, b]` (which inserts the edge `a → b`) and the constant tie-breaker. -/
theorem dag_topoSort_correct_witness :
    DAG.Edge ([[['a'], ['b']]].foldl DAG.addEdges (DAG.ofVerts [['a'], ['b']])) ['a'] ['b']
    ∧ ∃ i j, i < j
        ∧ j < (DAG.topoSort (fun _ _ => 0)
            ([[['a'], ['b']]].foldl DAG.addEdges (DAG.ofVerts [['a'], ['b']]))).length
        ∧ (DAG.topoSort (fun _ _ => 0)
            ([[['a'], ['b']]].foldl DAG.addEdges (DAG.ofVerts [['a'], ['b']]))).getD i []
          = ['a']
        ∧ (DAG.topoSort (fun _ _ => 0)
            ([[['a'], ['b']]].foldl DAG.addEdges (DAG.ofVerts [['a'], ['b']]))).getD j []
          = ['b'] :=
  ⟨by decide,
   (dag_topoSort_correct [['a'], ['b']] [[['a'], ['b']]] (fun _ _ => 0)).2 ['a'] ['b']
     (by decide)⟩

namespace DAG

theorem addEdge_noop (d : DAG) (u v : SplitString) (hnd : d.nodes.Nodup)
    (hE : Edge d u v) : addEdge d u v = d := by
  have hu : u ∈ d.nodes := edge_src_mem d u v hE
  rw [nodes, List.mem_map] at hu
  obtain ⟨p, hp, hpu⟩ := hu
  have hadj : d.adj u = p.2 := by
    rw [← hpu]
    exact adj_entry d hnd p hp
  rw [Edge, hadj] at hE
  rw [addEdge]
  have hmap : d.g.map
      (fun q => if q.1 = u then (q.1, if v ∈ q.2 then q.2 else q.2 ++ [v]) else q) = d.g := by
    have := List.map_congr_left (l := d.g)
      (f := fun q : SplitString × List SplitString =>
        if q.1 = u then (q.1, if v ∈ q.2 then q.2 else q.2 ++ [v]) else q)
      (g := id) ?_
    · rw [this, List.map_id]
    · intro q hq
      by_cases hqu : q.1 = u
      · have hqp : q = p := by
          have h1 := find?_key_eq_of_mem_nodup d.g hnd q hq
          have h2 := find?_key_eq_of_mem_nodup d.g hnd p hp
          rw [hpu] at h2
          rw [hqu] at h1
          rw [h1] at h2
          exact Option.some_injective _ h2
        show (if q.1 = u then (q.1, if v ∈ q.2 then q.2 else q.2 ++ [v]) else q) = q
        rw [if_pos hqu, hqp, if_pos hE]
      · show (if q.1 = u then (q.1, if v ∈ q.2 then q.2 else q.2 ++ [v]) else q) = q
        rw [if_neg hqu]
  rw [hmap]

theorem foldAdd_adds (v : SplitString) :
    ∀ (pairs : List (SplitString × Bool)) (d : DAG) (p : SplitString × Bool),
      p ∈ pairs → p.2 = false → p.1 ∈ d.nodes →
      Edge (pairs.foldl (fun d2 q => if q.2 = false then addEdge d2 q.1 v else d2) d) p.1 v := by
  intro pairs
  induction pairs with
  | nil =>
    intro d p hp
    exact absurd hp (List.not_mem_nil p)
  | cons q rest ih =>
    intro d p hp hpf hpn
    rw [List.foldl_cons]
    rcases List.mem_cons.mp hp with h | h
    · rw [if_pos (by rw [← h]; exact hpf)]
      have hEq : Edge (addEdge d q.1 v) p.1 v := by
        rw [h]
        exact (addEdge_edge_iff d q.1 v q.1 v).mpr
          (Or.inr ⟨rfl, rfl, by rw [← h]; exact hpn⟩)
      exact foldAdd_edge_mono v rest _ p.1 v hEq
    · by_cases hq : q.2 = false
      · rw [if_pos hq]
        refine ih _ p h hpf ?_
        rw [addEdge_nodes]
        exact hpn
      · rw [if_neg hq]
        exact ih d p h hpf hpn

end DAG

namespace DAG

theorem foldAdd_noop (v : SplitString) (D : DAG) (hnd : D.nodes.Nodup) :
    ∀ (pairs : List (SplitString × Bool)),
      (∀ p ∈ pairs, p.2 = false → Edge D p.1 v) →
      pairs.foldl (fun d2 q => if q.2 = false then addEdge d2 q.1 v else d2) D = D := by
  intro pairs
  induction pairs with
  | nil => intro _; rfl
  | cons q rest ih =>
    intro h
    rw [List.foldl_cons]
    by_cases hq : q.2 = false
    · rw [if_pos hq, addEdge_noop D q.1 v hnd (h q (List.mem_cons_self q rest) hq)]
      exact ih (fun p hp => h p (List.mem_cons_of_mem q hp))
    · rw [if_neg hq]
      exact ih (fun p hp => h p (List.mem_cons_of_mem q hp))

theorem reach_mono (d1 d2 : DAG) (h : ∀ x y, Edge d1 x y → Edge d2 x y)
    (a b : SplitString) (hr : Reach d1 a b) : Reach d2 a b :=
  Relation.ReflTransGen.mono (fun x y => h x y) hr

theorem getMatchingNodes_eq_of_nodes (d1 d2 : DAG) (h : d1.nodes = d2.nodes)
    (x : SplitString) : d1.getMatchingNodes x = d2.getMatchingNodes x := by
  have hany : (d1.g.any (fun p => p.1 = x)) = (d2.g.any (fun p => p.1 = x)) := by
    by_cases h1 : d1.g.any (fun p => p.1 = x)
    · rw [h1]
      have hm : x ∈ d2.nodes := h ▸ (mem_keys_of_any d1.g x).mp h1
      exact ((mem_keys_of_any d2.g x).mpr hm).symm
    · have h1' : d1.g.any (fun p => p.1 = x) = false := Bool.eq_false_iff.mpr h1
      rw [h1']
      by_cases h2 : d2.g.any (fun p => p.1 = x)
      · exfalso
        have hm : x ∈ d1.nodes := h ▸ (mem_keys_of_any d2.g x).mp h2
        exact h1 ((mem_keys_of_any d1.g x).mpr hm)
      · exact (Bool.eq_false_iff.mpr h2).symm
  rw [getMatchingNodes, getMatchingNodes, h, hany]

theorem findFirstMatch_eq_of_nodes (d1 d2 : DAG) (h : d1.nodes = d2.nodes) :
    ∀ (l : List SplitString), findFirstMatch d1 l = findFirstMatch d2 l := by
  intro l
  induction l with
  | nil => rfl
  | cons x rest ih =>
    rw [findFirstMatch, findFirstMatch]
    rw [getMatchingNodes_eq_of_nodes d1 d2 h x]
    by_cases hx : (d2.getMatchingNodes x).isEmpty
    · rw [if_pos hx, if_pos hx]
      exact ih
    · rw [if_neg hx, if_neg hx]

theorem findFirstMatch_fst_subset (d : DAG) :
    ∀ (l : List SplitString), ∀ x ∈ (findFirstMatch d l).1, x ∈ d.nodes := by
  intro l
  induction l with
  | nil =>
    intro x hx
    exact absurd hx (List.not_mem_nil x)
  | cons a rest ih =>
    intro x hx
    rw [findFirstMatch] at hx
    by_cases ha : (d.getMatchingNodes a).isEmpty
    · rw [if_pos ha] at hx
      exact ih x hx
    · rw [if_neg ha] at hx
      exact getMatchingNodes_subset d a x hx

theorem addEdgesLoop_nodes :
    ∀ (rest : List SplitString) (acc : DAG × List SplitString),
      ((rest.foldl
        (fun acc x =>
          if (acc.1.getMatchingNodes x).isEmpty then acc
          else ((processVs acc.1 acc.2 (acc.1.getMatchingNodes x)).1,
            (processVs acc.1 acc.2 (acc.1.getMatchingNodes x)).2
              ++ acc.1.getMatchingNodes x))
        acc)).1.nodes = acc.1.nodes := by
  intro rest
  induction rest with
  | nil => intro acc; rfl
  | cons x t ih =>
    intro acc
    rw [List.foldl_cons]
    by_cases hx : (acc.1.getMatchingNodes x).isEmpty
    · rw [if_pos hx]
      exact ih acc
    · rw [if_neg hx]
      rw [ih _]
      exact processVs_nodes acc.2 _ (acc.1, dedupKeepFirst acc.2)

theorem addEdgesLoop_edge_mono :
    ∀ (rest : List SplitString) (acc : DAG × List SplitString) (x y : SplitString),
      Edge acc.1 x y →
      Edge ((rest.foldl
        (fun acc x =>
          if (acc.1.getMatchingNodes x).isEmpty then acc
          else ((processVs acc.1 acc.2 (acc.1.getMatchingNodes x)).1,
            (processVs acc.1 acc.2 (acc.1.getMatchingNodes x)).2
              ++ acc.1.getMatchingNodes x))
        acc)).1 x y := by
  intro rest
  induction rest with
  | nil => intro acc x y h; exact h
  | cons a t ih =>
    intro acc x y h
    rw [List.foldl_cons]
    by_cases ha : (acc.1.getMatchingNodes a).isEmpty
    · rw [if_pos ha]
      exact ih acc x y h
    · rw [if_neg ha]
      refine ih _ x y ?_
      exact processVs_edge_mono acc.2 _ (acc.1, dedupKeepFirst acc.2) x y h

theorem addEdges_nodes (d : DAG) (order : List SplitString) :
    (addEdges d order).nodes = d.nodes :=
  addEdgesLoop_nodes (findFirstMatch d order).2 (d, (findFirstMatch d order).1)

theorem addEdges_edge_mono (d : DAG) (order : List SplitString) (x y : SplitString)
    (h : Edge d x y) : Edge (addEdges d order) x y :=
  addEdgesLoop_edge_mono (findFirstMatch d order).2 (d, (findFirstMatch d order).1) x y h

theorem foldl_addEdges_nodes :
    ∀ (hints : List (List SplitString)) (d : DAG),
      (hints.foldl addEdges d).nodes = d.nodes := by
  intro hints
  induction hints with
  | nil => intro d; rfl
  | cons h t ih =>
    intro d
    rw [List.foldl_cons, ih, addEdges_nodes]

theorem foldl_addEdges_edge_mono :
    ∀ (hints : List (List SplitString)) (d : DAG) (x y : SplitString),
      Edge d x y → Edge (hints.foldl addEdges d) x y := by
  intro hints
  induction hints with
  | nil => intro d x y h; exact h
  | cons h t ih =>
    intro d x y hE
    rw [List.foldl_cons]
    exact ih _ x y (addEdges_edge_mono d h x y hE)

theorem hasPath_length (d : DAG) (src : SplitString) (us : List SplitString) :
    (d.hasPath src us).length = us.length := by
  rw [hasPath]
  exact List.length_map _ _

end DAG

namespace DAG

theorem hasPath_eq_of_sub (D : DAG) (hacD : Acyclic D) (d1 : DAG) (v : SplitString)
    (us : List SplitString)
    (hmono : ∀ x y, Edge d1 x y → Edge D x y)
    (husnodes : ∀ u ∈ us, u ∈ d1.nodes)
    (hafter : ∀ x y,
      Edge ((us.zip (d1.hasPath v us)).foldl
        (fun d2 p => if p.2 = false then addEdge d2 p.1 v else d2) d1) x y →
      Edge D x y) :
    d1.hasPath v us = D.hasPath v us := by
  refine List.ext_getElem ?_ ?_
  · rw [hasPath_length, hasPath_length]
  · intro i h1 h2
    have hius : i < us.length := by
      rw [hasPath_length] at h1
      exact h1
    have hlen1 : i < (us.zip (d1.hasPath v us)).length := by
      rw [List.length_zip, hasPath_length, Nat.min_self]
      exact hius
    have hlen2 : i < (us.zip (D.hasPath v us)).length := by
      rw [List.length_zip, hasPath_length, Nat.min_self]
      exact hius
    have hmem1 : (us[i], (d1.hasPath v us)[i]) ∈ us.zip (d1.hasPath v us) :=
      List.mem_iff_getElem.mpr ⟨i, hlen1, List.getElem_zip⟩
    have hmem2 : (us[i], (D.hasPath v us)[i]) ∈ us.zip (D.hasPath v us) :=
      List.mem_iff_getElem.mpr ⟨i, hlen2, List.getElem_zip⟩
    have hiff1 : ((d1.hasPath v us)[i] = true) ↔ Reach d1 v us[i] :=
      hasPath_spec d1 v us _ hmem1
    have hiff2 : ((D.hasPath v us)[i] = true) ↔ Reach D v us[i] :=
      hasPath_spec D v us _ hmem2
    have hcore : Reach d1 v us[i] ↔ Reach D v us[i] := by
      constructor
      · exact reach_mono d1 D hmono v _
      · intro hRD
        by_contra hnR
        have hfalse : (d1.hasPath v us)[i] = false := by
          rcases Bool.eq_false_or_eq_true ((d1.hasPath v us)[i]) with h | h
          · exact absurd (hiff1.mp h) hnR
          · exact h
        have hEdge1 : Edge ((us.zip (d1.hasPath v us)).foldl
            (fun d2 p => if p.2 = false then addEdge d2 p.1 v else d2) d1) us[i] v := by
          refine foldAdd_adds v _ d1 (us[i], (d1.hasPath v us)[i]) hmem1 hfalse ?_
          exact husnodes us[i] (List.getElem_mem _)
        have hED : Edge D us[i] v := hafter _ _ hEdge1
        exact hacD us[i] (Relation.TransGen.head'_iff.mpr ⟨v, hED, hRD⟩)
    rcases Bool.eq_false_or_eq_true ((d1.hasPath v us)[i]) with h | h
    · rw [h]
      have h3 := hiff2.mpr (hcore.mp (hiff1.mp h))
      rw [h3]
    · rw [h]
      rcases Bool.eq_false_or_eq_true ((D.hasPath v us)[i]) with h' | h'
      · exact absurd (hiff1.mpr (hcore.mpr (hiff2.mp h'))) (by rw [h]; simp)
      · rw [h']

end DAG

namespace DAG

theorem eraseFold_subset :
    ∀ (pairs : List (SplitString × Bool)) (ce : List SplitString) (x : SplitString),
      x ∈ pairs.foldl (fun ce p => if p.2 = false then ce.erase p.1 else ce) ce →
      x ∈ ce := by
  intro pairs
  induction pairs with
  | nil => intro ce x h; exact h
  | cons p t ih =>
    intro ce x h
    rw [List.foldl_cons] at h
    by_cases hp : p.2 = false
    · rw [if_pos hp] at h
      exact List.mem_of_mem_erase (ih _ x h)
    · rw [if_neg hp] at h
      exact ih ce x h

theorem dedupFold_subset :
    ∀ (l acc : List SplitString) (x : SplitString),
      x ∈ l.foldl (fun acc x => if x ∈ acc then acc else acc ++ [x]) acc →
      x ∈ acc ∨ x ∈ l := by
  intro l
  induction l with
  | nil => intro acc x h; exact Or.inl h
  | cons a t ih =>
    intro acc x h
    rw [List.foldl_cons] at h
    by_cases ha : a ∈ acc
    · rw [if_pos ha] at h
      rcases ih acc x h with h' | h'
      · exact Or.inl h'
      · exact Or.inr (List.mem_cons_of_mem a h')
    · rw [if_neg ha] at h
      rcases ih _ x h with h' | h'
      · rcases List.mem_append.mp h' with h'' | h''
        · exact Or.inl h''
        · rw [List.mem_singleton] at h''
          exact Or.inr (h'' ▸ List.mem_cons_self a t)
      · exact Or.inr (List.mem_cons_of_mem a h')

theorem dedupKeepFirst_subset (l : List SplitString) (x : SplitString)
    (h : x ∈ dedupKeepFirst l) : x ∈ l := by
  rcases dedupFold_subset l [] x h with h' | h'
  · exact absurd h' (List.not_mem_nil x)
  · exact h'

theorem processVs_fold_corr (us : List SplitString) :
    ∀ (vs : List SplitString) (D : DAG), Acyclic D → D.nodes.Nodup →
      ∀ (d1 : DAG) (ce : List SplitString),
        d1.nodes = D.nodes →
        (∀ x y, Edge d1 x y → Edge D x y) →
        (∀ u ∈ us, u ∈ d1.nodes) →
        (∀ x y, Edge (vs.foldl
          (fun acc v =>
            ((us.zip (acc.1.hasPath v us)).foldl
                (fun d2 p => if p.2 = false then addEdge d2 p.1 v else d2) acc.1,
             (us.zip (acc.1.hasPath v us)).foldl
                (fun ce p => if p.2 = false then ce.erase p.1 else ce) acc.2))
          (d1, ce)).1 x y → Edge D x y) →
        vs.foldl
          (fun acc v =>
            ((us.zip (acc.1.hasPath v us)).foldl
                (fun d2 p => if p.2 = false then addEdge d2 p.1 v else d2) acc.1,
             (us.zip (acc.1.hasPath v us)).foldl
                (fun ce p => if p.2 = false then ce.erase p.1 else ce) acc.2))
          (D, ce)
        = (D, (vs.foldl
          (fun acc v =>
            ((us.zip (acc.1.hasPath v us)).foldl
                (fun d2 p => if p.2 = false then addEdge d2 p.1 v else d2) acc.1,
             (us.zip (acc.1.hasPath v us)).foldl
                (fun ce p => if p.2 = false then ce.erase p.1 else ce) acc.2))
          (d1, ce)).2) := by
  intro vs
  induction vs with
  | nil =>
    intro D _ _ d1 ce _ _ _ _
    rfl
  | cons v rest ih =>
    intro D hacD hndD d1 ce hnodes hmono hus hend
    rw [List.foldl_cons] at hend
    rw [List.foldl_cons, List.foldl_cons]
    have hafter : ∀ x y,
        Edge ((us.zip (d1.hasPath v us)).foldl
          (fun d2 p => if p.2 = false then addEdge d2 p.1 v else d2) d1) x y →
        Edge D x y := by
      intro x y hE
      refine hend x y ?_
      refine processVs_edge_mono us rest _ x y ?_
      exact hE
    have hA : d1.hasPath v us = D.hasPath v us :=
      hasPath_eq_of_sub D hacD d1 v us hmono hus hafter
    have hgD : (us.zip (D.hasPath v us)).foldl
        (fun d2 p => if p.2 = false then addEdge d2 p.1 v else d2) D = D := by
      rw [← hA]
      refine foldAdd_noop v D hndD _ ?_
      intro p hp hpf
      have hp1 : p.1 ∈ us := (List.of_mem_zip hp).1
      exact hafter p.1 v (foldAdd_adds v _ d1 p hp hpf (hus p.1 hp1))
    have hstep2 : ((us.zip (D.hasPath v us)).foldl
          (fun d2 p => if p.2 = false then addEdge d2 p.1 v else d2) D,
        (us.zip (D.hasPath v us)).foldl
          (fun ce p => if p.2 = false then ce.erase p.1 else ce) ce)
        = (D, (us.zip (d1.hasPath v us)).foldl
            (fun ce p => if p.2 = false then ce.erase p.1 else ce) ce) := by
      rw [hgD, ← hA]
    have hnodes' : ((us.zip (d1.hasPath v us)).foldl
        (fun d2 p => if p.2 = false then addEdge d2 p.1 v else d2) d1).nodes
        = D.nodes := by
      rw [foldAdd_nodes]
      exact hnodes
    have hus' : ∀ u ∈ us, u ∈ ((us.zip (d1.hasPath v us)).foldl
        (fun d2 p => if p.2 = false then addEdge d2 p.1 v else d2) d1).nodes := by
      intro u hu
      rw [foldAdd_nodes]
      exact hus u hu
    have hih := ih D hacD hndD
      ((us.zip (d1.hasPath v us)).foldl
        (fun d2 p => if p.2 = false then addEdge d2 p.1 v else d2) d1)
      ((us.zip (d1.hasPath v us)).foldl
        (fun ce p => if p.2 = false then ce.erase p.1 else ce) ce)
      hnodes' hafter hus' hend
    exact Eq.trans
      (congrArg (fun st => List.foldl
        (fun (acc : DAG × List SplitString) (v : SplitString) =>
          ((us.zip (acc.1.hasPath v us)).foldl
              (fun d2 p => if p.2 = false then addEdge d2 p.1 v else d2) acc.1,
           (us.zip (acc.1.hasPath v us)).foldl
              (fun ce p => if p.2 = false then ce.erase p.1 else ce) acc.2))
        st rest) hstep2)
      hih

end DAG

namespace DAG

theorem pvFold_snd_subset (us : List SplitString) :
    ∀ (vs : List SplitString) (acc : DAG × List SplitString) (x : SplitString),
      x ∈ (vs.foldl
        (fun acc v =>
          ((us.zip (acc.1.hasPath v us)).foldl
              (fun d2 p => if p.2 = false then addEdge d2 p.1 v else d2) acc.1,
           (us.zip (acc.1.hasPath v us)).foldl
              (fun ce p => if p.2 = false then ce.erase p.1 else ce) acc.2))
        acc).2 → x ∈ acc.2 := by
  intro vs
  induction vs with
  | nil => intro acc x h; exact h
  | cons v rest ih =>
    intro acc x h
    rw [List.foldl_cons] at h
    exact eraseFold_subset _ _ _ (ih _ x h)

theorem addEdgesLoop_corr :
    ∀ (rest : List SplitString) (D : DAG), Acyclic D → D.nodes.Nodup →
      ∀ (d1 : DAG) (ce : List SplitString),
        d1.nodes = D.nodes →
        (∀ x y, Edge d1 x y → Edge D x y) →
        (∀ u ∈ ce, u ∈ d1.nodes) →
        (∀ x y, Edge ((rest.foldl
          (fun acc x =>
            if (acc.1.getMatchingNodes x).isEmpty then acc
            else ((processVs acc.1 acc.2 (acc.1.getMatchingNodes x)).1,
              (processVs acc.1 acc.2 (acc.1.getMatchingNodes x)).2
                ++ acc.1.getMatchingNodes x))
          (d1, ce))).1 x y → Edge D x y) →
        rest.foldl
          (fun acc x =>
            if (acc.1.getMatchingNodes x).isEmpty then acc
            else ((processVs acc.1 acc.2 (acc.1.getMatchingNodes x)).1,
              (processVs acc.1 acc.2 (acc.1.getMatchingNodes x)).2
                ++ acc.1.getMatchingNodes x))
          (D, ce)
        = (D, (rest.foldl
          (fun acc x =>
            if (acc.1.getMatchingNodes x).isEmpty then acc
            else ((processVs acc.1 acc.2 (acc.1.getMatchingNodes x)).1,
              (processVs acc.1 acc.2 (acc.1.getMatchingNodes x)).2
                ++ acc.1.getMatchingNodes x))
          (d1, ce)).2) := by
  intro rest
  induction rest with
  | nil =>
    intro D _ _ d1 ce _ _ _ _
    rfl
  | cons x t ih =>
    intro D hacD hndD d1 ce hnodes hmono hce hend
    have hmn : D.getMatchingNodes x = d1.getMatchingNodes x :=
      (getMatchingNodes_eq_of_nodes d1 D hnodes x).symm
    by_cases hx : (d1.getMatchingNodes x).isEmpty
    · have hstep1 : (fun (acc : DAG × List SplitString) (x : SplitString) =>
          if (acc.1.getMatchingNodes x).isEmpty then acc
          else ((processVs acc.1 acc.2 (acc.1.getMatchingNodes x)).1,
            (processVs acc.1 acc.2 (acc.1.getMatchingNodes x)).2
              ++ acc.1.getMatchingNodes x)) (d1, ce) x = (d1, ce) := by
        show (if (d1.getMatchingNodes x).isEmpty then ((d1, ce) : DAG × List SplitString)
          else ((processVs d1 ce (d1.getMatchingNodes x)).1,
            (processVs d1 ce (d1.getMatchingNodes x)).2 ++ d1.getMatchingNodes x)) = (d1, ce)
        rw [if_pos hx]
      have hstep2 : (fun (acc : DAG × List SplitString) (x : SplitString) =>
          if (acc.1.getMatchingNodes x).isEmpty then acc
          else ((processVs acc.1 acc.2 (acc.1.getMatchingNodes x)).1,
            (processVs acc.1 acc.2 (acc.1.getMatchingNodes x)).2
              ++ acc.1.getMatchingNodes x)) (D, ce) x = (D, ce) := by
        show (if (D.getMatchingNodes x).isEmpty then ((D, ce) : DAG × List SplitString)
          else ((processVs D ce (D.getMatchingNodes x)).1,
            (processVs D ce (D.getMatchingNodes x)).2 ++ D.getMatchingNodes x)) = (D, ce)
        rw [hmn, if_pos hx]
      have heq1 : (x :: t).foldl
          (fun acc x =>
            if (acc.1.getMatchingNodes x).isEmpty then acc
            else ((processVs acc.1 acc.2 (acc.1.getMatchingNodes x)).1,
              (processVs acc.1 acc.2 (acc.1.getMatchingNodes x)).2
                ++ acc.1.getMatchingNodes x)) (d1, ce)
          = t.foldl
          (fun acc x =>
            if (acc.1.getMatchingNodes x).isEmpty then acc
            else ((processVs acc.1 acc.2 (acc.1.getMatchingNodes x)).1,
              (processVs acc.1 acc.2 (acc.1.getMatchingNodes x)).2
                ++ acc.1.getMatchingNodes x)) (d1, ce) := by
        rw [List.foldl_cons]
        exact congrArg (fun st => t.foldl
          (fun (acc : DAG × List SplitString) (x : SplitString) =>
            if (acc.1.getMatchingNodes x).isEmpty then acc
            else ((processVs acc.1 acc.2 (acc.1.getMatchingNodes x)).1,
              (processVs acc.1 acc.2 (acc.1.getMatchingNodes x)).2
                ++ acc.1.getMatchingNodes x)) st) hstep1
      have heq2 : (x :: t).foldl
          (fun acc x =>
            if (acc.1.getMatchingNodes x).isEmpty then acc
            else ((processVs acc.1 acc.2 (acc.1.getMatchingNodes x)).1,
              (processVs acc.1 acc.2 (acc.1.getMatchingNodes x)).2
                ++ acc.1.getMatchingNodes x)) (D, ce)
          = t.foldl
          (fun acc x =>
            if (acc.1.getMatchingNodes x).isEmpty then acc
            else ((processVs acc.1 acc.2 (acc.1.getMatchingNodes x)).1,
              (processVs acc.1 acc.2 (acc.1.getMatchingNodes x)).2
                ++ acc.1.getMatchingNodes x)) (D, ce) := by
        rw [List.foldl_cons]
        exact congrArg (fun st => t.foldl
          (fun (acc : DAG × List SplitString) (x : SplitString) =>
            if (acc.1.getMatchingNodes x).isEmpty then acc
            else ((processVs acc.1 acc.2 (acc.1.getMatchingNodes x)).1,
              (processVs acc.1 acc.2 (acc.1.getMatchingNodes x)).2
                ++ acc.1.getMatchingNodes x)) st) hstep2
      rw [heq2, heq1]
      refine ih D hacD hndD d1 ce hnodes hmono hce ?_
      intro a b hE
      refine hend a b ?_
      rw [heq1]
      exact hE
    · have hstep1 : (fun (acc : DAG × List SplitString) (x : SplitString) =>
          if (acc.1.getMatchingNodes x).isEmpty then acc
          else ((processVs acc.1 acc.2 (acc.1.getMatchingNodes x)).1,
            (processVs acc.1 acc.2 (acc.1.getMatchingNodes x)).2
              ++ acc.1.getMatchingNodes x)) (d1, ce)
            x = ((processVs d1 ce (d1.getMatchingNodes x)).1,
              (processVs d1 ce (d1.getMatchingNodes x)).2 ++ d1.getMatchingNodes x) := by
        show (if (d1.getMatchingNodes x).isEmpty then ((d1, ce) : DAG × List SplitString)
          else ((processVs d1 ce (d1.getMatchingNodes x)).1,
            (processVs d1 ce (d1.getMatchingNodes x)).2 ++ d1.getMatchingNodes x)) = _
        rw [if_neg hx]
      have heq1 : (x :: t).foldl
          (fun acc x =>
            if (acc.1.getMatchingNodes x).isEmpty then acc
            else ((processVs acc.1 acc.2 (acc.1.getMatchingNodes x)).1,
              (processVs acc.1 acc.2 (acc.1.getMatchingNodes x)).2
                ++ acc.1.getMatchingNodes x)) (d1, ce)
          = t.foldl
          (fun acc x =>
            if (acc.1.getMatchingNodes x).isEmpty then acc
            else ((processVs acc.1 acc.2 (acc.1.getMatchingNodes x)).1,
              (processVs acc.1 acc.2 (acc.1.getMatchingNodes x)).2
                ++ acc.1.getMatchingNodes x))
            ((processVs d1 ce (d1.getMatchingNodes x)).1,
              (processVs d1 ce (d1.getMatchingNodes x)).2 ++ d1.getMatchingNodes x) := by
        rw [List.foldl_cons]
        exact congrArg (fun st => t.foldl
          (fun (acc : DAG × List SplitString) (x : SplitString) =>
            if (acc.1.getMatchingNodes x).isEmpty then acc
            else ((processVs acc.1 acc.2 (acc.1.getMatchingNodes x)).1,
              (processVs acc.1 acc.2 (acc.1.getMatchingNodes x)).2
                ++ acc.1.getMatchingNodes x)) st) hstep1
      have hmono' : ∀ a b, Edge (processVs d1 ce (d1.getMatchingNodes x)).1 a b →
          Edge D a b := by
        intro a b hE
        refine hend a b ?_
        rw [heq1]
        exact addEdgesLoop_edge_mono t _ a b hE
      have hcorr : processVs D ce (d1.getMatchingNodes x)
          = (D, (processVs d1 ce (d1.getMatchingNodes x)).2) :=
        processVs_fold_corr ce (d1.getMatchingNodes x) D hacD hndD d1
          (dedupKeepFirst ce) hnodes hmono hce hmono'
      have hstep2 : (fun (acc : DAG × List SplitString) (x : SplitString) =>
          if (acc.1.getMatchingNodes x).isEmpty then acc
          else ((processVs acc.1 acc.2 (acc.1.getMatchingNodes x)).1,
            (processVs acc.1 acc.2 (acc.1.getMatchingNodes x)).2
              ++ acc.1.getMatchingNodes x)) (D, ce)
            x = (D, (processVs d1 ce (d1.getMatchingNodes x)).2
              ++ d1.getMatchingNodes x) := by
        show (if (D.getMatchingNodes x).isEmpty then ((D, ce) : DAG × List SplitString)
          else ((processVs D ce (D.getMatchingNodes x)).1,
            (processVs D ce (D.getMatchingNodes x)).2 ++ D.getMatchingNodes x)) = _
        rw [hmn, if_neg hx, hcorr]
      have heq2 : (x :: t).foldl
          (fun acc x =>
            if (acc.1.getMatchingNodes x).isEmpty then acc
            else ((processVs acc.1 acc.2 (acc.1.getMatchingNodes x)).1,
              (processVs acc.1 acc.2 (acc.1.getMatchingNodes x)).2
                ++ acc.1.getMatchingNodes x)) (D, ce)
          = t.foldl
          (fun acc x =>
            if (acc.1.getMatchingNodes x).isEmpty then acc
            else ((processVs acc.1 acc.2 (acc.1.getMatchingNodes x)).1,
              (processVs acc.1 acc.2 (acc.1.getMatchingNodes x)).2
                ++ acc.1.getMatchingNodes x))
            (D, (processVs d1 ce (d1.getMatchingNodes x)).2 ++ d1.getMatchingNodes x) := by
        rw [List.foldl_cons]
        exact congrArg (fun st => t.foldl
          (fun (acc : DAG × List SplitString) (x : SplitString) =>
            if (acc.1.getMatchingNodes x).isEmpty then acc
            else ((processVs acc.1 acc.2 (acc.1.getMatchingNodes x)).1,
              (processVs acc.1 acc.2 (acc.1.getMatchingNodes x)).2
                ++ acc.1.getMatchingNodes x)) st) hstep2
      rw [heq2, heq1]
      refine ih D hacD hndD (processVs d1 ce (d1.getMatchingNodes x)).1
        ((processVs d1 ce (d1.getMatchingNodes x)).2 ++ d1.getMatchingNodes x)
        ?_ hmono' ?_ ?_
      · rw [show (processVs d1 ce (d1.getMatchingNodes x)).1.nodes = d1.nodes from
          processVs_nodes ce _ (d1, dedupKeepFirst ce)]
        exact hnodes
      · intro u hu
        rw [show (processVs d1 ce (d1.getMatchingNodes x)).1.nodes = d1.nodes from
          processVs_nodes ce _ (d1, dedupKeepFirst ce)]
        rcases List.mem_append.mp hu with h | h
        · exact hce u (dedupKeepFirst_subset ce u (pvFold_snd_subset ce _ _ u h))
        · exact getMatchingNodes_subset d1 x u h
      · intro a b hE
        refine hend a b ?_
        rw [heq1]
        exact hE

end DAG

namespace DAG

theorem addEdges_corr (D : DAG) (hacD : Acyclic D) (hndD : D.nodes.Nodup)
    (d1 : DAG) (order : List SplitString)
    (hnodes : d1.nodes = D.nodes)
    (hmono : ∀ x y, Edge d1 x y → Edge D x y)
    (hend : ∀ x y, Edge (addEdges d1 order) x y → Edge D x y) :
    addEdges D order = D := by
  have hfm : findFirstMatch D order = findFirstMatch d1 order :=
    (findFirstMatch_eq_of_nodes d1 D hnodes order).symm
  have hloop := addEdgesLoop_corr (findFirstMatch d1 order).2 D hacD hndD d1
    (findFirstMatch d1 order).1 hnodes hmono
    (findFirstMatch_fst_subset d1 order) hend
  show ((findFirstMatch D order).2.foldl
    (fun acc x =>
      if (acc.1.getMatchingNodes x).isEmpty then acc
      else ((processVs acc.1 acc.2 (acc.1.getMatchingNodes x)).1,
        (processVs acc.1 acc.2 (acc.1.getMatchingNodes x)).2
          ++ acc.1.getMatchingNodes x))
    (D, (findFirstMatch D order).1)).1 = D
  rw [hfm, hloop]

theorem foldl_addEdges_idem_aux :
    ∀ (hints : List (List SplitString)) (d1 D : DAG), Acyclic D → D.nodes.Nodup →
      d1.nodes = D.nodes → (∀ x y, Edge d1 x y → Edge D x y) →
      hints.foldl addEdges d1 = D →
      hints.foldl addEdges D = D := by
  intro hints
  induction hints with
  | nil =>
    intro d1 D _ _ _ _ _
    rfl
  | cons h t ih =>
    intro d1 D hacD hndD hnodes hmono hrun
    rw [List.foldl_cons] at hrun
    have hend : ∀ x y, Edge (addEdges d1 h) x y → Edge D x y := by
      intro x y hE
      rw [← hrun]
      exact foldl_addEdges_edge_mono t (addEdges d1 h) x y hE
    have hone : addEdges D h = D := addEdges_corr D hacD hndD d1 h hnodes hmono hend
    rw [List.foldl_cons, hone]
    refine ih (addEdges d1 h) D hacD hndD ?_ hend hrun
    rw [addEdges_nodes]
    exact hnodes

end DAG

/-- C4: `addEdges` is idempotent over hint lists on constructor-built
graphs: re-applying the whole hint list a second time leaves the graph
data unchanged (in particular it adds no edge the first application did
not add), and `topoSort` with the same tie-breaker therefore returns the
same output after the second application as after the first. -/
theorem dag_addEdges_idempotent (verts : List SplitString)
    (hints : List (List SplitString)) (cmp : PQ.Comparator SplitString) :
    hints.foldl DAG.addEdges (hints.foldl DAG.addEdges (DAG.ofVerts verts))
      = hints.foldl DAG.addEdges (DAG.ofVerts verts)
    ∧ DAG.topoSort cmp
        (hints.foldl DAG.addEdges (hints.foldl DAG.addEdges (DAG.ofVerts verts)))
      = DAG.topoSort cmp (hints.foldl DAG.addEdges (DAG.ofVerts verts)) := by
  have hmain : hints.foldl DAG.addEdges (hints.foldl DAG.addEdges (DAG.ofVerts verts))
      = hints.foldl DAG.addEdges (DAG.ofVerts verts) := by
    refine DAG.foldl_addEdges_idem_aux hints (DAG.ofVerts verts) _
      (DAG.foldl_addEdges_acyclic hints _ (DAG.ofVerts_acyclic verts))
      (DAG.WF_foldl_addEdges hints _ (DAG.WF_ofVerts verts)).1
      ?_ ?_ rfl
    · rw [DAG.foldl_addEdges_nodes]
    · intro x y hE
      exact DAG.foldl_addEdges_edge_mono hints _ x y hE
  exact ⟨hmain, by rw [hmain]⟩

/-- The index map of the `'no'`/`'stable'` tail of `PreferenceSorter.sort`
(`new Map(arr.map((v, i) => [v, i]))`: a JS `Map`, so a later duplicate key
overwrites the earlier one). -/
def buildIndexMap (arr2 : List SplitString) : List (SplitString × Int) :=
  arr2.enum.foldl (fun m p => DAG.mapSet m p.2 (p.1 : Int)) []

/-- The tie-breaker `(a, b) => indexMap.get(a)! - indexMap.get(b)!`
(the non-null assertion is modeled by the `getD 0` default inside
`mapGet`; both tokens are always nodes of the graph when it is called). -/
def indexCmp (arr2 : List SplitString) : PQ.Comparator SplitString :=
  fun a b => DAG.mapGet (buildIndexMap arr2) a - DAG.mapGet (buildIndexMap arr2) b

/-- The `'stable'` branch's re-sorted array:
`Array.from(p.keys()).sort((a, b) => p[b] - p[a]).map(si => arr[si])`.
The engine's `Array.prototype.sort` with the Bradley–Terry score
comparator (whose values may even be `NaN`) is abstracted by the oracle
`jsSortIdx`, which receives the index list `0 .. n-1`; the specification
of JS sort guarantees only that the result is some rearrangement of the
input, so the oracle is left arbitrary (every theorem below holds for all
of them). -/
def sortResorted (jsSortIdx : List Nat → List Nat) (arr : List SplitString) :
    List SplitString :=
  (jsSortIdx (List.range arr.length)).map (fun si => arr.getD si [])

/-- `PreferenceSorter.sort(arr)`: length below 2 short-circuits; otherwise
the DAG over `arr` is built and every stored hint list applied, and then
the `switch (this.useAI)` runs: `'yes'` topo-sorts with the AI comparator;
`'stable'` re-sorts `arr` by Bradley–Terry strengths and falls through to
the `'no'` tail; `'no'` adds the (re-)ordered array itself as a final hint
and topo-sorts with the index tie-breaker. The `switch` has no `default`
case, so any other mode value reaches the end of the method and yields
`undefined` (`none`) — after the graph work. -/
def sort (jsSortIdx : List Nat → List Nat) (aiCmp : PQ.Comparator SplitString)
    (orders : List (List SplitString)) (useAI : List Char) (arr : List SplitString) :
    Option (List SplitString) :=
  if arr.length < 2 then some arr
  else
    if useAI = ['y', 'e', 's'] then
      some (DAG.topoSort aiCmp (orders.foldl DAG.addEdges (DAG.ofVerts arr)))
    else if useAI = ['s', 't', 'a', 'b', 'l', 'e'] then
      some (DAG.topoSort (indexCmp (sortResorted jsSortIdx arr))
        (DAG.addEdges (orders.foldl DAG.addEdges (DAG.ofVerts arr))
          (sortResorted jsSortIdx arr)))
    else if useAI = ['n', 'o'] then
      some (DAG.topoSort (indexCmp arr)
        (DAG.addEdges (orders.foldl DAG.addEdges (DAG.ofVerts arr)) arr))
    else none

namespace DAG

theorem ofVerts_nodes_of_nodup (verts : List SplitString) (h : verts.Nodup) :
    (ofVerts verts).nodes = verts := by
  have hgen : ∀ (vl : List SplitString) (acc : List (SplitString × List SplitString)),
      (acc.map (·.1) ++ vl).Nodup →
      ((vl.foldl (fun acc v => if acc.any (fun p => p.1 = v) then acc
        else acc ++ [(v, [])]) acc).map (·.1)) = acc.map (·.1) ++ vl := by
    intro vl
    induction vl with
    | nil =>
      intro acc _
      rw [List.append_nil]
      rfl
    | cons v t iht =>
      intro acc hnd
      rw [List.foldl_cons]
      have hdisj := (List.nodup_append.mp hnd).2.2
      have hvnot : ¬ acc.any (fun p => p.1 = v) = true := by
        intro hc
        exact hdisj ((mem_keys_of_any acc v).mp hc) (List.mem_cons_self v t)
      rw [if_neg hvnot]
      have hkeys : (acc ++ [(v, ([] : List SplitString))]).map (·.1)
          = acc.map (·.1) ++ [v] := by
        rw [List.map_append]
        rfl
      have hnd' : ((acc ++ [(v, ([] : List SplitString))]).map (·.1) ++ t).Nodup := by
        rw [hkeys, List.append_assoc, List.singleton_append]
        exact hnd
      rw [iht _ hnd', hkeys, List.append_assoc, List.singleton_append]
  have h2 : (ofVerts verts).nodes
      = List.map (·.1) ([] : List (SplitString × List SplitString)) ++ verts :=
    hgen verts [] (by simpa using h)
  rw [h2]
  rfl

end DAG

/-- C1: for every duplicate-free token list and every valid mode
(`'yes'`, `'no'`, `'stable'`), `PreferenceSorter.sort` succeeds and
returns a permutation of its input, for every AI comparator, every stored
hint list (custom or canonical) and every behaviour of the engine's
`Array.prototype.sort`. -/
theorem preferenceSorter_sort_perm (jsSortIdx : List Nat → List Nat)
    (aiCmp : PQ.Comparator SplitString) (orders : List (List SplitString))
    (useAI : List Char) (arr : List SplitString)
    (hnd : arr.Nodup)
    (hmode : useAI = ['y', 'e', 's'] ∨ useAI = ['n', 'o']
      ∨ useAI = ['s', 't', 'a', 'b', 'l', 'e']) :
    ∃ out, sort jsSortIdx aiCmp orders useAI arr = some out ∧ out.Perm arr := by
  by_cases hlen : arr.length < 2
  · refine ⟨arr, ?_, List.Perm.refl arr⟩
    rw [sort, if_pos hlen]
  · have hwf : DAG.WF (orders.foldl DAG.addEdges (DAG.ofVerts arr)) :=
      DAG.WF_foldl_addEdges orders _ (DAG.WF_ofVerts arr)
    have hac : DAG.Acyclic (orders.foldl DAG.addEdges (DAG.ofVerts arr)) :=
      DAG.foldl_addEdges_acyclic orders _ (DAG.ofVerts_acyclic arr)
    have hn1 : (orders.foldl DAG.addEdges (DAG.ofVerts arr)).nodes = arr := by
      rw [DAG.foldl_addEdges_nodes, DAG.ofVerts_nodes_of_nodup arr hnd]
    rcases hmode with h | h | h
    · subst h
      refine ⟨DAG.topoSort aiCmp (orders.foldl DAG.addEdges (DAG.ofVerts arr)), ?_, ?_⟩
      · rw [sort, if_neg hlen, if_pos rfl]
      · have := (DAG.topoSort_spec aiCmp _ hwf hac).1
        rw [hn1] at this
        exact this
    · subst h
      refine ⟨DAG.topoSort (indexCmp arr)
        (DAG.addEdges (orders.foldl DAG.addEdges (DAG.ofVerts arr)) arr), ?_, ?_⟩
      · rw [sort, if_neg hlen, if_neg (by decide), if_neg (by decide), if_pos rfl]
      · have hwf2 : DAG.WF (DAG.addEdges (orders.foldl DAG.addEdges (DAG.ofVerts arr)) arr) :=
          DAG.WF_addEdges _ arr hwf
        have hac2 : DAG.Acyclic
            (DAG.addEdges (orders.foldl DAG.addEdges (DAG.ofVerts arr)) arr) :=
          DAG.addEdges_acyclic _ arr hac
        have := (DAG.topoSort_spec (indexCmp arr) _ hwf2 hac2).1
        rw [DAG.addEdges_nodes, hn1] at this
        exact this
    · subst h
      refine ⟨DAG.topoSort (indexCmp (sortResorted jsSortIdx arr))
        (DAG.addEdges (orders.foldl DAG.addEdges (DAG.ofVerts arr))
          (sortResorted jsSortIdx arr)), ?_, ?_⟩
      · rw [sort, if_neg hlen, if_neg (by decide), if_pos rfl]
      · have hwf2 : DAG.WF (DAG.addEdges (orders.foldl DAG.addEdges (DAG.ofVerts arr))
            (sortResorted jsSortIdx arr)) :=
          DAG.WF_addEdges _ _ hwf
        have hac2 : DAG.Acyclic (DAG.addEdges (orders.foldl DAG.addEdges (DAG.ofVerts arr))
            (sortResorted jsSortIdx arr)) :=
          DAG.addEdges_acyclic _ _ hac
        have := (DAG.topoSort_spec (indexCmp (sortResorted jsSortIdx arr)) _ hwf2 hac2).1
        rw [DAG.addEdges_nodes, hn1] at this
        exact this

/-- Witness for C1: the concrete two-token input `[a, b]` in mode `'no'`
with no hints, the zero comparator and the identity sort oracle. -/
theorem preferenceSorter_sort_perm_witness :
    ([['a'], ['b']] : List SplitString).Nodup
    ∧ ∃ out, sort (fun l => l) (fun _ _ => 0) [] ['n', 'o'] [['a'], ['b']] = some out
        ∧ out.Perm [['a'], ['b']] :=
  ⟨by decide,
   preferenceSorter_sort_perm (fun l => l) (fun _ _ => 0) [] ['n', 'o'] [['a'], ['b']]
     (by decide) (Or.inr (Or.inl rfl))⟩

/-- C9, counterexample to the claim as stated: the invalid mode string
`'bogus'` is not rejected — on a short input the sort returns the input
exactly as in the valid modes, with no error of any kind. -/
theorem preferenceSorter_invalid_mode_counterexample :
    sort (fun l => l) (fun _ _ => 0) [] ['b', 'o', 'g', 'u', 's'] [['a']] = some [['a']]
    ∧ sort (fun l => l) (fun _ _ => 0) [] ['b', 'o', 'g', 'u', 's'] [['a']] ≠ none :=
  ⟨rfl, by decide⟩

/-- C9 (amended): an invalid mode value is never rejected eagerly: the
`switch` has no `default` case, so `sort` first short-circuits short
inputs (returning them unchanged) and otherwise performs the full graph
construction and hint insertion before falling off the end of the method
with `undefined`. -/
theorem preferenceSorter_invalid_mode (jsSortIdx : List Nat → List Nat)
    (aiCmp : PQ.Comparator SplitString) (orders : List (List SplitString))
    (useAI : List Char) (arr : List SplitString)
    (h1 : useAI ≠ ['y', 'e', 's']) (h2 : useAI ≠ ['s', 't', 'a', 'b', 'l', 'e'])
    (h3 : useAI ≠ ['n', 'o']) :
    sort jsSortIdx aiCmp orders useAI arr
      = if arr.length < 2 then some arr else none := by
  rw [sort]
  by_cases hlen : arr.length < 2
  · rw [if_pos hlen, if_pos hlen]
  · rw [if_neg hlen, if_neg hlen, if_neg h1, if_neg h2, if_neg h3]

/-- Witness for C9's amended theorem at the mode `'bogus'` and a
two-element input (the result is `undefined`, not an error, and only
after the graph phase). -/
theorem preferenceSorter_invalid_mode_witness :
    (['b', 'o', 'g', 'u', 's'] ≠ (['y', 'e', 's'] : List Char))
    ∧ (['b', 'o', 'g', 'u', 's'] ≠ (['s', 't', 'a', 'b', 'l', 'e'] : List Char))
    ∧ (['b', 'o', 'g', 'u', 's'] ≠ (['n', 'o'] : List Char))
    ∧ sort (fun l => l) (fun _ _ => 0) [] ['b', 'o', 'g', 'u', 's'] [['a'], ['b']]
        = if ([['a'], ['b']] : List SplitString).length < 2
            then some [['a'], ['b']] else none :=
  ⟨by decide, by decide, by decide,
   preferenceSorter_invalid_mode (fun l => l) (fun _ _ => 0) [] ['b', 'o', 'g', 'u', 's']
     [['a'], ['b']] (by decide) (by decide) (by decide)⟩

namespace AIC

/-- Normalized tokens (`splitIdentifier` output) never contain `'-'`. -/
def noDash (s : SplitString) : Prop := '-' ∉ s

instance (s : SplitString) : Decidable (noDash s) :=
  inferInstanceAs (Decidable ('-' ∉ s))

/-- The cache key `` `${a}-${b}` ``. -/
def ckey (a b : SplitString) : List Char := a ++ '-' :: b

/-- `AIComparator.compare(a, b)`: check the cache under `a-b`, then under
`b-a` (negating), else call `rawCompare`, difference the two scores, and
store under `a-b`. Returns the value, the new cache and whether
`rawCompare` was invoked. -/
def compare (raw : SplitString → SplitString → Int × Int)
    (cache : List (List Char × Int)) (a b : SplitString) :
    Int × List (List Char × Int) × Bool :=
  if (cache.find? (fun p => p.1 = ckey a b)).isSome then
    (((cache.find? (fun p => p.1 = ckey a b)).map (·.2)).getD 0, (cache, false))
  else if (cache.find? (fun p => p.1 = ckey b a)).isSome then
    (-(((cache.find? (fun p => p.1 = ckey b a)).map (·.2)).getD 0), (cache, false))
  else
    ((raw a b).1 - (raw a b).2,
     (cache ++ [(ckey a b, (raw a b).1 - (raw a b).2)], true))

/-- Run a sequence of `compare` calls from the empty cache. -/
def runCmp (raw : SplitString → SplitString → Int × Int)
    (ops : List (SplitString × SplitString)) : List (List Char × Int) :=
  ops.foldl (fun c p => (compare raw c p.1 p.2).2.1) []

theorem ckey_inj : ∀ (a c b d : SplitString),
    noDash a → noDash c → ckey a b = ckey c d → a = c ∧ b = d := by
  intro a
  induction a with
  | nil =>
    intro c b d _ hc h
    cases c with
    | nil =>
      refine ⟨rfl, ?_⟩
      rw [ckey, ckey, List.nil_append, List.nil_append] at h
      injection h
    | cons ch ct =>
      exfalso
      rw [ckey, ckey, List.nil_append, List.cons_append] at h
      injection h with h1 _
      refine hc ?_
      rw [← h1]
      exact List.mem_cons_self _ _
  | cons x xs ih =>
    intro c b d ha hc h
    cases c with
    | nil =>
      exfalso
      rw [ckey, ckey, List.cons_append, List.nil_append] at h
      injection h with h1 _
      refine ha ?_
      rw [h1]
      exact List.mem_cons_self _ _
    | cons y ys =>
      rw [ckey, ckey, List.cons_append, List.cons_append] at h
      injection h with h1 h2
      have hxs : noDash xs := fun hm => ha (List.mem_cons_of_mem x hm)
      have hys : noDash ys := fun hm => hc (List.mem_cons_of_mem y hm)
      obtain ⟨e1, e2⟩ := ih ys b d hxs hys h2
      refine ⟨?_, e2⟩
      rw [h1, e1]

theorem find?_isSome_iff (cache : List (List Char × Int)) (k : List Char) :
    (cache.find? (fun p => p.1 = k)).isSome = true ↔ ∃ p ∈ cache, p.1 = k := by
  induction cache with
  | nil => simp
  | cons q t ih =>
    by_cases hq : q.1 = k
    · rw [List.find?_cons_of_pos _ (by simpa using hq)]
      simp only [Option.isSome_some, true_iff]
      exact ⟨q, List.mem_cons_self q t, hq⟩
    · rw [List.find?_cons_of_neg _ (by simpa using hq)]
      rw [ih]
      constructor
      · rintro ⟨p, hp, hpk⟩
        exact ⟨p, List.mem_cons_of_mem q hp, hpk⟩
      · rintro ⟨p, hp, hpk⟩
        rcases List.mem_cons.mp hp with h | h
        · exact absurd (h ▸ hpk) hq
        · exact ⟨p, h, hpk⟩

end AIC

namespace AIC

/-- Cache invariant: every entry is keyed `x-y` for dash-free tokens and
stores exactly the raw score difference for `(x, y)`; and (for `x ≠ y`)
never both orientations of a pair. -/
def CacheInv (raw : SplitString → SplitString → Int × Int)
    (cache : List (List Char × Int)) : Prop :=
  (∀ p ∈ cache, ∃ x y, noDash x ∧ noDash y ∧ p.1 = ckey x y
      ∧ p.2 = (raw x y).1 - (raw x y).2)
  ∧ (∀ x y, x ≠ y → noDash x → noDash y →
      ¬((∃ p ∈ cache, p.1 = ckey x y) ∧ (∃ p ∈ cache, p.1 = ckey y x)))

theorem CacheInv_nil (raw : SplitString → SplitString → Int × Int) : CacheInv raw [] := by
  constructor
  · intro p hp
    exact absurd hp (List.not_mem_nil p)
  · rintro x y _ _ _ ⟨⟨p, hp, _⟩, _⟩
    exact absurd hp (List.not_mem_nil p)

theorem compare_key_present (raw : SplitString → SplitString → Int × Int)
    (cache : List (List Char × Int)) (a b : SplitString) (inv : CacheInv raw cache)
    (ha : noDash a) (hb : noDash b)
    (h : ∃ p ∈ cache, p.1 = ckey a b) :
    compare raw cache a b = ((raw a b).1 - (raw a b).2, (cache, false)) := by
  have hsome : (cache.find? (fun p => p.1 = ckey a b)).isSome = true :=
    (find?_isSome_iff cache (ckey a b)).mpr h
  rcases hf : cache.find? (fun p => p.1 = ckey a b) with _ | q
  · rw [hf] at hsome
    exact absurd hsome (by simp)
  · have hq1 : q.1 = ckey a b := by simpa using List.find?_some hf
    have hqc : q ∈ cache := List.mem_of_find?_eq_some hf
    obtain ⟨x, y, hx, hy, hkey, hval⟩ := inv.1 q hqc
    obtain ⟨hxa, hyb⟩ := ckey_inj x a y b hx ha (by rw [← hkey, hq1])
    rw [compare, hf]
    simp only [Option.isSome_some, if_true, Option.map_some', Option.getD_some]
    rw [hval, hxa, hyb]

theorem compare_keyrev (raw : SplitString → SplitString → Int × Int)
    (cache : List (List Char × Int)) (a b : SplitString) (inv : CacheInv raw cache)
    (ha : noDash a) (hb : noDash b)
    (hno : ¬∃ p ∈ cache, p.1 = ckey a b) (hrev : ∃ p ∈ cache, p.1 = ckey b a) :
    compare raw cache a b = (-((raw b a).1 - (raw b a).2), (cache, false)) := by
  have hnone : cache.find? (fun p => p.1 = ckey a b) = none := by
    rcases hf : cache.find? (fun p => p.1 = ckey a b) with _ | q
    · exact hf
    · exfalso
      refine hno ⟨q, List.mem_of_find?_eq_some hf, ?_⟩
      simpa using List.find?_some hf
  have hsome : (cache.find? (fun p => p.1 = ckey b a)).isSome = true :=
    (find?_isSome_iff cache (ckey b a)).mpr hrev
  rcases hf : cache.find? (fun p => p.1 = ckey b a) with _ | q
  · rw [hf] at hsome
    exact absurd hsome (by simp)
  · have hq1 : q.1 = ckey b a := by simpa using List.find?_some hf
    have hqc : q ∈ cache := List.mem_of_find?_eq_some hf
    obtain ⟨x, y, hx, hy, hkey, hval⟩ := inv.1 q hqc
    obtain ⟨hxb, hya⟩ := ckey_inj x b y a hx hb (by rw [← hkey, hq1])
    rw [compare, hnone, hf]
    simp only [Option.isSome_none, Bool.false_eq_true, if_false, Option.isSome_some,
      if_true, Option.map_some', Option.getD_some]
    rw [hval, hxb, hya]

theorem compare_fresh (raw : SplitString → SplitString → Int × Int)
    (cache : List (List Char × Int)) (a b : SplitString)
    (hno : ¬∃ p ∈ cache, p.1 = ckey a b) (hnorev : ¬∃ p ∈ cache, p.1 = ckey b a) :
    compare raw cache a b
      = ((raw a b).1 - (raw a b).2,
         (cache ++ [(ckey a b, (raw a b).1 - (raw a b).2)], true)) := by
  have hnone : cache.find? (fun p => p.1 = ckey a b) = none := by
    rcases hf : cache.find? (fun p => p.1 = ckey a b) with _ | q
    · exact hf
    · exfalso
      refine hno ⟨q, List.mem_of_find?_eq_some hf, ?_⟩
      simpa using List.find?_some hf
  have hnone2 : cache.find? (fun p => p.1 = ckey b a) = none := by
    rcases hf : cache.find? (fun p => p.1 = ckey b a) with _ | q
    · exact hf
    · exfalso
      refine hnorev ⟨q, List.mem_of_find?_eq_some hf, ?_⟩
      simpa using List.find?_some hf
  rw [compare, hnone, hnone2]
  simp only [Option.isSome_none, Bool.false_eq_true, if_false]

end AIC

namespace AIC

theorem compare_inv (raw : SplitString → SplitString → Int × Int)
    (cache : List (List Char × Int)) (a b : SplitString) (inv : CacheInv raw cache)
    (ha : noDash a) (hb : noDash b) :
    CacheInv raw (compare raw cache a b).2.1
    ∧ (∀ p ∈ cache, p ∈ (compare raw cache a b).2.1) := by
  by_cases hk : ∃ p ∈ cache, p.1 = ckey a b
  · rw [compare_key_present raw cache a b inv ha hb hk]
    exact ⟨inv, fun p hp => hp⟩
  · by_cases hkr : ∃ p ∈ cache, p.1 = ckey b a
    · rw [compare_keyrev raw cache a b inv ha hb hk hkr]
      exact ⟨inv, fun p hp => hp⟩
    · rw [compare_fresh raw cache a b hk hkr]
      refine ⟨⟨?_, ?_⟩, fun p hp => List.mem_append.mpr (Or.inl hp)⟩
      · intro p hp
        rcases List.mem_append.mp hp with h | h
        · exact inv.1 p h
        · rw [List.mem_singleton] at h
          exact ⟨a, b, ha, hb, by rw [h], by rw [h]⟩
      · intro x y hxy hx hy hcon
        obtain ⟨⟨p, hp, hpk⟩, ⟨q, hq, hqk⟩⟩ := hcon
        rcases List.mem_append.mp hp with h1 | h1
        · rcases List.mem_append.mp hq with h2 | h2
          · exact inv.2 x y hxy hx hy ⟨⟨p, h1, hpk⟩, ⟨q, h2, hqk⟩⟩
          · rw [List.mem_singleton] at h2
            have hqk' : ckey y x = ckey a b := by rw [← hqk, h2]
            obtain ⟨hya, hxb⟩ := ckey_inj y a x b hy ha hqk'
            refine hkr ⟨p, h1, ?_⟩
            rw [hpk, hxb, hya]
        · rw [List.mem_singleton] at h1
          have hpk' : ckey x y = ckey a b := by rw [← hpk, h1]
          obtain ⟨hxa, hyb⟩ := ckey_inj x a y b hx ha hpk'
          rcases List.mem_append.mp hq with h2 | h2
          · refine hkr ⟨q, h2, ?_⟩
            rw [hqk, hxa, hyb]
          · rw [List.mem_singleton] at h2
            have hqk' : ckey y x = ckey a b := by rw [← hqk, h2]
            obtain ⟨hya, hxb⟩ := ckey_inj y a x b hy ha hqk'
            exact hxy (hxa.trans hya.symm)

theorem fold_inv (raw : SplitString → SplitString → Int × Int) :
    ∀ (ops : List (SplitString × SplitString)) (cache : List (List Char × Int)),
      CacheInv raw cache → (∀ p ∈ ops, noDash p.1 ∧ noDash p.2) →
      CacheInv raw (ops.foldl (fun c p => (compare raw c p.1 p.2).2.1) cache)
      ∧ (∀ p ∈ cache, p ∈ ops.foldl (fun c p => (compare raw c p.1 p.2).2.1) cache) := by
  intro ops
  induction ops with
  | nil =>
    intro cache inv _
    exact ⟨inv, fun p hp => hp⟩
  | cons o t ih =>
    intro cache inv hops
    rw [List.foldl_cons]
    obtain ⟨ho1, ho2⟩ := hops o (List.mem_cons_self o t)
    obtain ⟨hstep1, hstep2⟩ := compare_inv raw cache o.1 o.2 inv ho1 ho2
    obtain ⟨h1, h2⟩ := ih _ hstep1 (fun p hp => hops p (List.mem_cons_of_mem o hp))
    exact ⟨h1, fun p hp => h2 p (hstep2 p hp)⟩

theorem fold_key_absent (raw : SplitString → SplitString → Int × Int) :
    ∀ (ops : List (SplitString × SplitString)) (cache : List (List Char × Int)),
      CacheInv raw cache → (∀ p ∈ ops, noDash p.1 ∧ noDash p.2) →
      ∀ (a b : SplitString), noDash a → noDash b →
      (¬∃ p ∈ cache, p.1 = ckey a b) → (∃ p ∈ cache, p.1 = ckey b a) →
      (¬∃ p ∈ ops.foldl (fun c p => (compare raw c p.1 p.2).2.1) cache, p.1 = ckey a b)
      ∧ (∃ p ∈ ops.foldl (fun c p => (compare raw c p.1 p.2).2.1) cache,
          p.1 = ckey b a) := by
  intro ops
  induction ops with
  | nil =>
    intro cache _ _ a b _ _ hno hyes
    exact ⟨hno, hyes⟩
  | cons o t ih =>
    intro cache inv hops a b ha hb hno hyes
    rw [List.foldl_cons]
    obtain ⟨ho1, ho2⟩ := hops o (List.mem_cons_self o t)
    have htail := fun p hp => hops p (List.mem_cons_of_mem o hp)
    by_cases hk : ∃ p ∈ cache, p.1 = ckey o.1 o.2
    · rw [compare_key_present raw cache o.1 o.2 inv ho1 ho2 hk]
      exact ih cache inv htail a b ha hb hno hyes
    · by_cases hkr : ∃ p ∈ cache, p.1 = ckey o.2 o.1
      · rw [compare_keyrev raw cache o.1 o.2 inv ho1 ho2 hk hkr]
        exact ih cache inv htail a b ha hb hno hyes
      · rw [compare_fresh raw cache o.1 o.2 hk hkr]
        have hinv' : CacheInv raw (cache ++ [(ckey o.1 o.2,
            (raw o.1 o.2).1 - (raw o.1 o.2).2)]) := by
          have := (compare_inv raw cache o.1 o.2 inv ho1 ho2).1
          rw [compare_fresh raw cache o.1 o.2 hk hkr] at this
          exact this
        refine ih _ hinv' htail a b ha hb ?_ ?_
        · rintro ⟨p, hp, hpk⟩
          rcases List.mem_append.mp hp with h1 | h1
          · exact hno ⟨p, h1, hpk⟩
          · rw [List.mem_singleton] at h1
            have : ckey o.1 o.2 = ckey a b := by rw [← hpk, h1]
            obtain ⟨e1, e2⟩ := ckey_inj o.1 a o.2 b ho1 ha this
            obtain ⟨q, hq, hqk⟩ := hyes
            refine hkr ⟨q, hq, ?_⟩
            rw [hqk, e1, e2]
        · obtain ⟨q, hq, hqk⟩ := hyes
          exact ⟨q, List.mem_append.mpr (Or.inl hq), hqk⟩

end AIC

/-- C10, counterexample to the claim as stated: for `a = b` the cached
first value is returned verbatim on the second call, not negated — with
`rawCompare` constantly `(1, 0)`, `compare(a, a)` returns `1` both times,
and `1 ≠ -1`. -/
theorem aiComparator_negation_counterexample :
    (AIC.compare (fun _ _ => ((1 : Int), 0))
        (AIC.compare (fun _ _ => ((1 : Int), 0)) [] ['a'] ['a']).2.1 ['a'] ['a']).1
      ≠ -((AIC.compare (fun _ _ => ((1 : Int), 0)) [] ['a'] ['a']).1) := by
  decide

/-- C10 (amended, requiring `a ≠ b` for the antisymmetry part): assuming
`rawCompare` is a pure function, for dash-free tokens and arbitrary
dash-free traffic before and after, a repeated `compare(a, b)` returns
the same value as the first call without invoking `rawCompare`, and a
`compare(b, a)` (for `a ≠ b`) returns exactly its negation, also without
invoking `rawCompare`. -/
theorem aiComparator_compare_spec (raw : SplitString → SplitString → Int × Int)
    (pre mid : List (SplitString × SplitString)) (a b : SplitString)
    (hpre : ∀ p ∈ pre, AIC.noDash p.1 ∧ AIC.noDash p.2)
    (hmid : ∀ p ∈ mid, AIC.noDash p.1 ∧ AIC.noDash p.2)
    (ha : AIC.noDash a) (hb : AIC.noDash b) (hab : a ≠ b) :
    (AIC.compare raw (AIC.runCmp raw (pre ++ (a, b) :: mid)) a b).1
        = (AIC.compare raw (AIC.runCmp raw pre) a b).1
    ∧ (AIC.compare raw (AIC.runCmp raw (pre ++ (a, b) :: mid)) a b).2.2 = false
    ∧ (AIC.compare raw (AIC.runCmp raw (pre ++ (a, b) :: mid)) b a).1
        = -(AIC.compare raw (AIC.runCmp raw pre) a b).1
    ∧ (AIC.compare raw (AIC.runCmp raw (pre ++ (a, b) :: mid)) b a).2.2 = false := by
  have inv1 : AIC.CacheInv raw (AIC.runCmp raw pre) :=
    (AIC.fold_inv raw pre [] (AIC.CacheInv_nil raw) hpre).1
  have hrun : AIC.runCmp raw (pre ++ (a, b) :: mid)
      = mid.foldl (fun c p => (AIC.compare raw c p.1 p.2).2.1)
          ((AIC.compare raw (AIC.runCmp raw pre) a b).2.1) := by
    rw [AIC.runCmp, List.foldl_append, List.foldl_cons]
    rfl
  rw [hrun]
  by_cases hk : ∃ p ∈ AIC.runCmp raw pre, p.1 = AIC.ckey a b
  · have hcmp1 := AIC.compare_key_present raw (AIC.runCmp raw pre) a b inv1 ha hb hk
    have hc2 : (AIC.compare raw (AIC.runCmp raw pre) a b).2.1 = AIC.runCmp raw pre := by
      rw [hcmp1]
    rw [hc2]
    obtain ⟨invF, monoF⟩ := AIC.fold_inv raw mid (AIC.runCmp raw pre) inv1 hmid
    obtain ⟨p, hp, hpk⟩ := hk
    have hkF : ∃ p ∈ mid.foldl (fun c p => (AIC.compare raw c p.1 p.2).2.1)
        (AIC.runCmp raw pre), p.1 = AIC.ckey a b := ⟨p, monoF p hp, hpk⟩
    have hkrF : ¬∃ q ∈ mid.foldl (fun c p => (AIC.compare raw c p.1 p.2).2.1)
        (AIC.runCmp raw pre), q.1 = AIC.ckey b a := by
      intro hq
      exact invF.2 a b hab ha hb ⟨hkF, hq⟩
    have hF1 := AIC.compare_key_present raw _ a b invF ha hb hkF
    have hF2 := AIC.compare_keyrev raw _ b a invF hb ha hkrF hkF
    rw [hF1, hF2, hcmp1]
    exact ⟨rfl, rfl, rfl, rfl⟩
  · by_cases hkr : ∃ p ∈ AIC.runCmp raw pre, p.1 = AIC.ckey b a
    · have hcmp1 := AIC.compare_keyrev raw (AIC.runCmp raw pre) a b inv1 ha hb hk hkr
      have hc2 : (AIC.compare raw (AIC.runCmp raw pre) a b).2.1 = AIC.runCmp raw pre := by
        rw [hcmp1]
      rw [hc2]
      obtain ⟨invF, _⟩ := AIC.fold_inv raw mid (AIC.runCmp raw pre) inv1 hmid
      obtain ⟨hnoF, hyesF⟩ := AIC.fold_key_absent raw mid (AIC.runCmp raw pre) inv1 hmid
        a b ha hb hk hkr
      have hF1 := AIC.compare_keyrev raw _ a b invF ha hb hnoF hyesF
      have hF2 := AIC.compare_key_present raw _ b a invF hb ha hyesF
      rw [hF1, hF2, hcmp1]
      refine ⟨rfl, rfl, ?_, rfl⟩
      rw [neg_neg]
    · have hcmp1 := AIC.compare_fresh raw (AIC.runCmp raw pre) a b hk hkr
      have hc2 : (AIC.compare raw (AIC.runCmp raw pre) a b).2.1
          = AIC.runCmp raw pre
            ++ [(AIC.ckey a b, (raw a b).1 - (raw a b).2)] := by
        rw [hcmp1]
      rw [hc2]
      have inv2 : AIC.CacheInv raw (AIC.runCmp raw pre
          ++ [(AIC.ckey a b, (raw a b).1 - (raw a b).2)]) := by
        have := (AIC.compare_inv raw (AIC.runCmp raw pre) a b inv1 ha hb).1
        rw [hcmp1] at this
        exact this
      obtain ⟨invF, monoF⟩ := AIC.fold_inv raw mid _ inv2 hmid
      have hkF : ∃ p ∈ mid.foldl (fun c p => (AIC.compare raw c p.1 p.2).2.1)
          (AIC.runCmp raw pre ++ [(AIC.ckey a b, (raw a b).1 - (raw a b).2)]),
          p.1 = AIC.ckey a b :=
        ⟨(AIC.ckey a b, (raw a b).1 - (raw a b).2),
         monoF _ (List.mem_append.mpr (Or.inr (List.mem_singleton.mpr rfl))), rfl⟩
      have hkrF : ¬∃ q ∈ mid.foldl (fun c p => (AIC.compare raw c p.1 p.2).2.1)
          (AIC.runCmp raw pre ++ [(AIC.ckey a b, (raw a b).1 - (raw a b).2)]),
          q.1 = AIC.ckey b a := by
        intro hq
        exact invF.2 a b hab ha hb ⟨hkF, hq⟩
      have hF1 := AIC.compare_key_present raw _ a b invF ha hb hkF
      have hF2 := AIC.compare_keyrev raw _ b a invF hb ha hkrF hkF
      rw [hF1, hF2, hcmp1]
      exact ⟨rfl, rfl, rfl, rfl⟩

/-- Witness for C10's amended theorem at `a = [a]`, `b = [b]`, empty
surrounding traffic and the constant raw scorer `(1, 0)`. -/
theorem aiComparator_compare_spec_witness :
    AIC.noDash ['a'] ∧ AIC.noDash ['b'] ∧ (['a'] : SplitString) ≠ ['b']
    ∧ ((AIC.compare (fun _ _ => ((1 : Int), 0))
          (AIC.runCmp (fun _ _ => ((1 : Int), 0)) ([] ++ (['a'], ['b']) :: [])) ['a'] ['b']).1
        = (AIC.compare (fun _ _ => ((1 : Int), 0))
            (AIC.runCmp (fun _ _ => ((1 : Int), 0)) []) ['a'] ['b']).1
      ∧ (AIC.compare (fun _ _ => ((1 : Int), 0))
          (AIC.runCmp (fun _ _ => ((1 : Int), 0)) ([] ++ (['a'], ['b']) :: [])) ['a'] ['b']).2.2
        = false
      ∧ (AIC.compare (fun _ _ => ((1 : Int), 0))
          (AIC.runCmp (fun _ _ => ((1 : Int), 0)) ([] ++ (['a'], ['b']) :: [])) ['b'] ['a']).1
        = -(AIC.compare (fun _ _ => ((1 : Int), 0))
            (AIC.runCmp (fun _ _ => ((1 : Int), 0)) []) ['a'] ['b']).1
      ∧ (AIC.compare (fun _ _ => ((1 : Int), 0))
          (AIC.runCmp (fun _ _ => ((1 : Int), 0)) ([] ++ (['a'], ['b']) :: [])) ['b'] ['a']).2.2
        = false) :=
  ⟨by decide, by decide, by decide,
   aiComparator_compare_spec (fun _ _ => ((1 : Int), 0)) [] [] ['a'] ['b']
     (fun p hp => absurd hp (List.not_mem_nil p))
     (fun p hp => absurd hp (List.not_mem_nil p))
     (by decide) (by decide) (by decide)⟩

/-- IEEE-754 double model adequate for `bradley-terry.ts`: NaN, the two
infinities, and finite values as exact rationals (the concrete runs below
never round, and the signed zero never arises negatively, so `fin 0`
stands for `+0`). -/
inductive FP where
  | nan : FP
  | inf : FP
  | ninf : FP
  | fin : ℚ → FP

namespace FP

/-- IEEE addition. -/
def addFP : FP → FP → FP
  | nan, _ => nan
  | _, nan => nan
  | inf, ninf => nan
  | ninf, inf => nan
  | inf, _ => inf
  | _, inf => inf
  | ninf, _ => ninf
  | _, ninf => ninf
  | fin a, fin b => fin (a + b)

/-- IEEE negation. -/
def negFP : FP → FP
  | nan => nan
  | inf => ninf
  | ninf => inf
  | fin a => fin (-a)

/-- IEEE subtraction. -/
def subFP (x y : FP) : FP := addFP x (negFP y)

/-- IEEE multiplication (`0 × ∞ = NaN`). -/
def mulFP : FP → FP → FP
  | nan, _ => nan
  | _, nan => nan
  | inf, inf => inf
  | inf, ninf => ninf
  | ninf, inf => ninf
  | ninf, ninf => inf
  | inf, fin b => if b = 0 then nan else if 0 < b then inf else ninf
  | fin a, inf => if a = 0 then nan else if 0 < a then inf else ninf
  | ninf, fin b => if b = 0 then nan else if 0 < b then ninf else inf
  | fin a, ninf => if a = 0 then nan else if 0 < a then ninf else inf
  | fin a, fin b => fin (a * b)

/-- IEEE division (`x/±∞ = ±0` collapses to `fin 0`; `x/+0 = ±∞` for
`x ≠ 0`; `0/0 = ∞/∞ = NaN`). -/
def divFP : FP → FP → FP
  | nan, _ => nan
  | _, nan => nan
  | inf, inf => nan
  | inf, ninf => nan
  | ninf, inf => nan
  | ninf, ninf => nan
  | fin _, inf => fin 0
  | fin _, ninf => fin 0
  | inf, fin b => if 0 ≤ b then inf else ninf
  | ninf, fin b => if 0 ≤ b then ninf else inf
  | fin a, fin b =>
    if b = 0 then (if 0 < a then inf else if a < 0 then ninf else nan)
    else fin (a / b)

/-- IEEE absolute value. -/
def absFP : FP → FP
  | nan => nan
  | inf => inf
  | ninf => inf
  | fin a => fin (abs a)

/-- IEEE `<` (false whenever NaN is involved). -/
def bltFP : FP → FP → Bool
  | nan, _ => false
  | _, nan => false
  | ninf, ninf => false
  | ninf, _ => true
  | inf, _ => false
  | fin _, inf => true
  | fin _, ninf => false
  | fin a, fin b => decide (a < b)

end FP

/-- Accumulator of `num` over the inner `j` loop of `bradleyTerry`
(`num += (w[i][j] * p[j]) / (p[i] + p[j])`, skipping `j = i`). -/
def btNum (w : List (List FP)) (p : List FP) (i : Nat) : FP :=
  (List.range w.length).foldl
    (fun num j =>
      if i = j then num
      else FP.addFP num (FP.divFP
        (FP.mulFP ((w.getD i []).getD j FP.nan) (p.getD j FP.nan))
        (FP.addFP (p.getD i FP.nan) (p.getD j FP.nan))))
    (FP.fin 0)

/-- Accumulator of `den` over the same inner loop
(`den += w[j][i] / sum`; `num` and `den` never interact, so the single
JS loop is split into two independent folds). -/
def btDen (w : List (List FP)) (p : List FP) (i : Nat) : FP :=
  (List.range w.length).foldl
    (fun den j =>
      if i = j then den
      else FP.addFP den (FP.divFP ((w.getD j []).getD i FP.nan)
        (FP.addFP (p.getD i FP.nan) (p.getD j FP.nan))))
    (FP.fin 0)

/-- One `i` step of the middle loop: `p[i] = num / den` (in place, so
later `i` see the update) and `normLog += Math.log(p[i])`. -/
def btPass (logf : FP → FP) (w : List (List FP)) (st : List FP × FP) (i : Nat) :
    List FP × FP :=
  (st.1.set i (FP.divFP (btNum w st.1 i) (btDen w st.1 i)),
   FP.addFP st.2 (logf (FP.divFP (btNum w st.1 i) (btDen w st.1 i))))

/-- The outer iteration loop of `bradleyTerry` (fuel = remaining
iterations): run the middle loop, renormalize by the geometric mean
`Math.exp(normLog / n)`, divide every strength by it, and stop early when
`Math.abs(lastNorm - normLog) < 1e-3`. -/
def btLoop (logf expf : FP → FP) (w : List (List FP)) :
    Nat → List FP → FP → List FP
  | 0, p, _ => p
  | k + 1, p, lastNorm =>
    if FP.bltFP (FP.absFP (FP.subFP lastNorm (expf (FP.divFP
          ((List.range w.length).foldl (btPass logf w) (p, FP.fin 0)).2
          (FP.fin (w.length : ℚ))))))
        (FP.fin (1 / 1000)) then
      (((List.range w.length).foldl (btPass logf w) (p, FP.fin 0)).1).map
        (fun x => FP.divFP x (expf (FP.divFP
          ((List.range w.length).foldl (btPass logf w) (p, FP.fin 0)).2
          (FP.fin (w.length : ℚ)))))
    else
      btLoop logf expf w k
        ((((List.range w.length).foldl (btPass logf w) (p, FP.fin 0)).1).map
          (fun x => FP.divFP x (expf (FP.divFP
            ((List.range w.length).foldl (btPass logf w) (p, FP.fin 0)).2
            (FP.fin (w.length : ℚ))))))
        (expf (FP.divFP ((List.range w.length).foldl (btPass logf w) (p, FP.fin 0)).2
          (FP.fin (w.length : ℚ))))

/-- `bradleyTerry(w, maxIter)` with `Math.log` and `Math.exp` abstracted
as parameters (only their values at `∞` and `NaN` matter below);
strengths start at `1`. -/
def bradleyTerry (logf expf : FP → FP) (w : List (List FP)) (maxIter : Nat) :
    List FP :=
  btLoop logf expf w maxIter (w.map (fun _ => FP.fin 1)) (FP.fin 0)

namespace FP

theorem divFP_fin_fin_ne (a b : ℚ) (hb : b ≠ 0) :
    divFP (fin a) (fin b) = fin (a / b) := by
  show (if b = 0 then (if 0 < a then inf else if a < 0 then ninf else nan)
    else fin (a / b)) = fin (a / b)
  rw [if_neg hb]

theorem divFP_fin_zero_pos (a : ℚ) (ha : 0 < a) :
    divFP (fin a) (fin 0) = inf := by
  show (if (0 : ℚ) = 0 then (if 0 < a then inf else if a < 0 then ninf else nan)
    else fin (a / 0)) = inf
  rw [if_pos rfl, if_pos ha]

theorem mulFP_fin_zero_inf : mulFP (fin 0) inf = nan := by
  show (if (0 : ℚ) = 0 then nan else if (0 : ℚ) < 0 then inf else ninf) = nan
  rw [if_pos rfl]

end FP

/-- C8: for the 2×2 win matrix `[[0, q], [0, 0]]` with any positive
weight `q` (item 0 beats item 1, no other observations), `bradleyTerry`
with the default 10 iterations returns `NaN` for both strengths: item 0's
win/loss ratio divides by `+0` giving `+∞`, whose logarithm poisons the
normalizer, and `0 × ∞` produces the first `NaN`, which then propagates
through every renormalization and every later iteration. Only the IEEE
values of `Math.log` at `∞`/`NaN` and of `Math.exp` at `NaN` are assumed. -/
theorem bradleyTerry_nan (q : ℚ) (hq : 0 < q) (logf expf : FP → FP)
    (hlinf : logf FP.inf = FP.inf) (hlnan : logf FP.nan = FP.nan)
    (henan : expf FP.nan = FP.nan) :
    bradleyTerry logf expf [[FP.fin 0, FP.fin q], [FP.fin 0, FP.fin 0]] 10
      = [FP.nan, FP.nan] := by
  have hnum0 : btNum [[FP.fin 0, FP.fin q], [FP.fin 0, FP.fin 0]]
      [FP.fin 1, FP.fin 1] 0 = FP.fin (0 + q * 1 / (1 + 1)) := by
    show FP.addFP (FP.fin 0) (FP.divFP (FP.mulFP (FP.fin q) (FP.fin 1))
      (FP.addFP (FP.fin 1) (FP.fin 1))) = FP.fin (0 + q * 1 / (1 + 1))
    rw [show FP.mulFP (FP.fin q) (FP.fin 1) = FP.fin (q * 1) from rfl,
      show FP.addFP (FP.fin 1) (FP.fin 1) = FP.fin (1 + 1) from rfl,
      FP.divFP_fin_fin_ne (q * 1) (1 + 1) (by norm_num)]
    rfl
  have hden0 : btDen [[FP.fin 0, FP.fin q], [FP.fin 0, FP.fin 0]]
      [FP.fin 1, FP.fin 1] 0 = FP.fin (0 + 0 / (1 + 1)) := by
    show FP.addFP (FP.fin 0) (FP.divFP (FP.fin 0)
      (FP.addFP (FP.fin 1) (FP.fin 1))) = FP.fin (0 + 0 / (1 + 1))
    rw [show FP.addFP (FP.fin 1) (FP.fin 1) = FP.fin (1 + 1) from rfl,
      FP.divFP_fin_fin_ne 0 (1 + 1) (by norm_num)]
    rfl
  have hp0 : FP.divFP
      (btNum [[FP.fin 0, FP.fin q], [FP.fin 0, FP.fin 0]] [FP.fin 1, FP.fin 1] 0)
      (btDen [[FP.fin 0, FP.fin q], [FP.fin 0, FP.fin 0]] [FP.fin 1, FP.fin 1] 0)
      = FP.inf := by
    rw [hnum0, hden0]
    rw [show (0 + 0 / (1 + 1) : ℚ) = 0 by norm_num]
    refine FP.divFP_fin_zero_pos _ ?_
    have h3 : (0 + q * 1 / (1 + 1) : ℚ) = q / 2 := by ring
    rw [h3]
    exact div_pos hq (by norm_num)
  have hpass0 : btPass logf [[FP.fin 0, FP.fin q], [FP.fin 0, FP.fin 0]]
      ([FP.fin 1, FP.fin 1], FP.fin 0) 0 = ([FP.inf, FP.fin 1], FP.inf) := by
    rw [btPass, hp0, hlinf]
    rfl
  have hdiv1 : FP.divFP
      (btNum [[FP.fin 0, FP.fin q], [FP.fin 0, FP.fin 0]] [FP.inf, FP.fin 1] 1)
      (btDen [[FP.fin 0, FP.fin q], [FP.fin 0, FP.fin 0]] [FP.inf, FP.fin 1] 1)
      = FP.nan := by
    have hnum1 : btNum [[FP.fin 0, FP.fin q], [FP.fin 0, FP.fin 0]]
        [FP.inf, FP.fin 1] 1 = FP.nan := by
      show FP.addFP (FP.fin 0) (FP.divFP (FP.mulFP (FP.fin 0) FP.inf)
        (FP.addFP (FP.fin 1) FP.inf)) = FP.nan
      rw [FP.mulFP_fin_zero_inf]
      rfl
    rw [hnum1]
    rfl
  have hpass1 : btPass logf [[FP.fin 0, FP.fin q], [FP.fin 0, FP.fin 0]]
      ([FP.inf, FP.fin 1], FP.inf) 1 = ([FP.inf, FP.nan], FP.nan) := by
    rw [btPass, hdiv1, hlnan]
    rfl
  have hfold : (List.range
        ([[FP.fin 0, FP.fin q], [FP.fin 0, FP.fin 0]] : List (List FP)).length).foldl
      (btPass logf [[FP.fin 0, FP.fin q], [FP.fin 0, FP.fin 0]])
      ([FP.fin 1, FP.fin 1], FP.fin 0) = ([FP.inf, FP.nan], FP.nan) := by
    show btPass logf [[FP.fin 0, FP.fin q], [FP.fin 0, FP.fin 0]]
      (btPass logf [[FP.fin 0, FP.fin q], [FP.fin 0, FP.fin 0]]
        ([FP.fin 1, FP.fin 1], FP.fin 0) 0) 1 = ([FP.inf, FP.nan], FP.nan)
    rw [hpass0, hpass1]
  have hloopnan : ∀ (k : Nat),
      btLoop logf expf [[FP.fin 0, FP.fin q], [FP.fin 0, FP.fin 0]] k
        [FP.nan, FP.nan] FP.nan = [FP.nan, FP.nan] := by
    intro k
    induction k with
    | zero => rfl
    | succ k ih =>
      have hpassn0 : btPass logf [[FP.fin 0, FP.fin q], [FP.fin 0, FP.fin 0]]
          ([FP.nan, FP.nan], FP.fin 0) 0 = ([FP.nan, FP.nan], FP.nan) := by
        rw [btPass,
          show FP.divFP
            (btNum [[FP.fin 0, FP.fin q], [FP.fin 0, FP.fin 0]] [FP.nan, FP.nan] 0)
            (btDen [[FP.fin 0, FP.fin q], [FP.fin 0, FP.fin 0]] [FP.nan, FP.nan] 0)
            = FP.nan from rfl, hlnan]
        rfl
      have hfoldn : (List.range
            ([[FP.fin 0, FP.fin q], [FP.fin 0, FP.fin 0]] : List (List FP)).length).foldl
          (btPass logf [[FP.fin 0, FP.fin q], [FP.fin 0, FP.fin 0]])
          ([FP.nan, FP.nan], FP.fin 0) = ([FP.nan, FP.nan], FP.nan) := by
        show btPass logf [[FP.fin 0, FP.fin q], [FP.fin 0, FP.fin 0]]
          (btPass logf [[FP.fin 0, FP.fin q], [FP.fin 0, FP.fin 0]]
            ([FP.nan, FP.nan], FP.fin 0) 0) 1 = ([FP.nan, FP.nan], FP.nan)
        rw [hpassn0, btPass,
          show FP.divFP
            (btNum [[FP.fin 0, FP.fin q], [FP.fin 0, FP.fin 0]] [FP.nan, FP.nan] 1)
            (btDen [[FP.fin 0, FP.fin q], [FP.fin 0, FP.fin 0]] [FP.nan, FP.nan] 1)
            = FP.nan from rfl, hlnan]
        rfl
      rw [btLoop, hfoldn]
      rw [show FP.divFP FP.nan
        (FP.fin ((([[FP.fin 0, FP.fin q], [FP.fin 0, FP.fin 0]] :
          List (List FP)).length : ℚ))) = FP.nan from rfl, henan]
      have hcond : ¬ (FP.bltFP (FP.absFP (FP.subFP FP.nan FP.nan))
          (FP.fin (1 / 1000)) = true) := fun h => Bool.false_ne_true h
      rw [if_neg hcond]
      exact ih
  show btLoop logf expf [[FP.fin 0, FP.fin q], [FP.fin 0, FP.fin 0]] 10
    [FP.fin 1, FP.fin 1] (FP.fin 0) = [FP.nan, FP.nan]
  rw [btLoop, hfold]
  rw [show FP.divFP FP.nan
    (FP.fin ((([[FP.fin 0, FP.fin q], [FP.fin 0, FP.fin 0]] :
      List (List FP)).length : ℚ))) = FP.nan from rfl, henan]
  have hcond : ¬ (FP.bltFP (FP.absFP (FP.subFP (FP.fin 0) FP.nan))
      (FP.fin (1 / 1000)) = true) := fun h => Bool.false_ne_true h
  rw [if_neg hcond]
  exact hloopnan 9

/-- Witness for C8 at weight `q = 1` and concrete IEEE-consistent stubs
for `Math.log` and `Math.exp`. -/
theorem bradleyTerry_nan_witness :
    (0 : ℚ) < 1
    ∧ (fun x => match x with | FP.inf => FP.inf | _ => FP.nan) FP.inf = FP.inf
    ∧ (fun x => match x with | FP.inf => FP.inf | _ => FP.nan) FP.nan = FP.nan
    ∧ (fun _ => FP.nan : FP → FP) FP.nan = FP.nan
    ∧ bradleyTerry (fun x => match x with | FP.inf => FP.inf | _ => FP.nan)
        (fun _ => FP.nan) [[FP.fin 0, FP.fin 1], [FP.fin 0, FP.fin 0]] 10
      = [FP.nan, FP.nan] :=
  ⟨one_pos, rfl, rfl, rfl,
   bradleyTerry_nan 1 one_pos
     (fun x => match x with | FP.inf => FP.inf | _ => FP.nan)
     (fun _ => FP.nan) rfl rfl rfl⟩

/-! ## FAS topological sort (`fasTopoSort` in `graph.ts`)

GreedyFAS over a weighted edge list: node set in first-appearance order,
per-node outgoing/incoming weight maps, a three-view `MultiQueue` over node
snapshots `{u, outW, inW}`, and an order array filled from both ends (sinks
from the right, sources and best-score nodes from the left). -/

namespace Assoc

/-- JS `Map.set` / keyed record or array assignment on an association
list: overwrite in place when the key is present, append otherwise. -/
def set {κ β : Type} [DecidableEq κ] (m : List (κ × β)) (k : κ) (x : β) :
    List (κ × β) :=
  if m.any (fun p => p.1 = k) then m.map (fun p => if p.1 = k then (k, x) else p)
  else m ++ [(k, x)]

/-- Keyed lookup (`Map.get` / record read / array read): `undefined` is
`none`. -/
def get? {κ β : Type} [DecidableEq κ] (m : List (κ × β)) (k : κ) : Option β :=
  (m.find? (fun p => p.1 = k)).map (·.2)

theorem any_key_mem_iff {κ β : Type} [DecidableEq κ] (m : List (κ × β)) (k : κ) :
    m.any (fun p => p.1 = k) = true ↔ k ∈ m.map (·.1) := by
  simp only [List.any_eq_true, decide_eq_true_eq, List.mem_map]

theorem find?_entry_of_mem_nodup {κ β : Type} [DecidableEq κ]
    (m : List (κ × β)) (hnd : (m.map (·.1)).Nodup) (p : κ × β) (hp : p ∈ m) :
    m.find? (fun q => q.1 = p.1) = some p := by
  induction m with
  | nil => exact absurd hp (List.not_mem_nil p)
  | cons a t ih =>
    rw [List.map_cons, List.nodup_cons] at hnd
    rcases List.mem_cons.mp hp with h | h
    · rw [h]
      exact List.find?_cons_of_pos _ (by simp)
    · have hane : ¬ a.1 = p.1 := by
        intro hc
        exact hnd.1 (hc ▸ List.mem_map.mpr ⟨p, h, rfl⟩)
      rw [List.find?_cons_of_neg _ (by simpa using hane)]
      exact ih hnd.2 h

theorem get?_of_not_mem {κ β : Type} [DecidableEq κ] (m : List (κ × β)) (k : κ)
    (h : k ∉ m.map (·.1)) : get? m k = none := by
  rw [get?, List.find?_eq_none.mpr]
  · rfl
  · intro p hp
    simp only [decide_eq_true_eq]
    intro hc
    exact h (List.mem_map.mpr ⟨p, hp, hc⟩)

theorem set_keys_mem {κ β : Type} [DecidableEq κ] (m : List (κ × β)) (k : κ)
    (x : β) (h : k ∈ m.map (·.1)) :
    (set m k x).map (·.1) = m.map (·.1) := by
  rw [set, if_pos ((any_key_mem_iff m k).mpr h), List.map_map]
  refine List.map_congr_left ?_
  intro p _
  by_cases hp : p.1 = k
  · simp [hp]
  · simp [hp]

theorem set_keys_not_mem {κ β : Type} [DecidableEq κ] (m : List (κ × β)) (k : κ)
    (x : β) (h : k ∉ m.map (·.1)) :
    (set m k x).map (·.1) = m.map (·.1) ++ [k] := by
  rw [set, if_neg (fun hc => h ((any_key_mem_iff m k).mp hc)), List.map_append]
  rfl

theorem set_of_not_mem {κ β : Type} [DecidableEq κ] (m : List (κ × β)) (k : κ)
    (x : β) (h : k ∉ m.map (·.1)) : set m k x = m ++ [(k, x)] := by
  rw [set, if_neg (fun hc => h ((any_key_mem_iff m k).mp hc))]

theorem find?_append_keyless {α : Type} (l1 l2 : List α) (p : α → Bool)
    (h : l1.find? p = none) : (l1 ++ l2).find? p = l2.find? p := by
  induction l1 with
  | nil => rfl
  | cons a t ih =>
    by_cases hp : p a
    · rw [List.find?_cons_of_pos _ hp] at h
      exact absurd h (by simp)
    · rw [List.find?_cons_of_neg _ hp] at h
      rw [List.cons_append, List.find?_cons_of_neg _ hp]
      exact ih h

theorem get?_set_self {κ β : Type} [DecidableEq κ] (m : List (κ × β)) (k : κ)
    (x : β) : get? (set m k x) k = some x := by
  rw [set]
  by_cases hmem : m.any (fun p => p.1 = k)
  · rw [if_pos hmem]
    rw [get?]
    induction m with
    | nil => exact absurd hmem (by simp)
    | cons a t ih =>
      by_cases ha : a.1 = k
      · rw [List.map_cons, if_pos ha, List.find?_cons_of_pos _ (by simp)]
        rfl
      · rw [List.map_cons, if_neg ha, List.find?_cons_of_neg _ (by simpa using ha)]
        refine ih ?_
        rcases (List.any_eq_true).mp hmem with ⟨p, hp, hpk⟩
        rcases List.mem_cons.mp hp with rfl | hpt
        · exact absurd (of_decide_eq_true hpk) ha
        · exact (List.any_eq_true).mpr ⟨p, hpt, hpk⟩
  · rw [if_neg hmem, get?]
    have hnone : m.find? (fun p => p.1 = k) = none := by
      rw [List.find?_eq_none]
      intro p hp
      intro hc
      exact hmem ((List.any_eq_true).mpr ⟨p, hp, hc⟩)
    rw [find?_append_keyless _ _ _ hnone, List.find?_cons_of_pos _ (by simp)]
    rfl

theorem find?_append_found {α : Type} (l1 l2 : List α) (p : α → Bool) (a : α)
    (h : l1.find? p = some a) : (l1 ++ l2).find? p = some a := by
  induction l1 with
  | nil => exact absurd h (by simp)
  | cons b t ih =>
    by_cases hp : p b
    · rw [List.find?_cons_of_pos _ hp] at h
      rw [List.cons_append, List.find?_cons_of_pos _ hp]
      exact h
    · rw [List.find?_cons_of_neg _ hp] at h
      rw [List.cons_append, List.find?_cons_of_neg _ hp]
      exact ih h

theorem find?_map_overwrite {κ β : Type} [DecidableEq κ]
    (m : List (κ × β)) (k j : κ) (x : β) (hne : j ≠ k) :
    (m.map (fun p => if p.1 = k then (k, x) else p)).find? (fun p => p.1 = j)
      = m.find? (fun p => p.1 = j) := by
  induction m with
  | nil => rfl
  | cons a t ih =>
    rw [List.map_cons]
    by_cases hak : a.1 = k
    · rw [if_pos hak]
      have haj : ¬ a.1 = j := fun hc => hne (by rw [← hc, hak])
      rw [List.find?_cons_of_neg _ (by simpa using fun hc => hne hc.symm),
        List.find?_cons_of_neg _ (by simpa using haj)]
      exact ih
    · rw [if_neg hak]
      by_cases haj : a.1 = j
      · rw [List.find?_cons_of_pos _ (by simpa using haj),
          List.find?_cons_of_pos _ (by simpa using haj)]
      · rw [List.find?_cons_of_neg _ (by simpa using haj),
          List.find?_cons_of_neg _ (by simpa using haj)]
        exact ih

theorem get?_set_ne {κ β : Type} [DecidableEq κ] (m : List (κ × β)) (k j : κ)
    (x : β) (hne : j ≠ k) : get? (set m k x) j = get? m j := by
  rw [set]
  by_cases hmem : m.any (fun p => p.1 = k)
  · rw [if_pos hmem, get?, get?, find?_map_overwrite m k j x hne]
  · rw [if_neg hmem, get?, get?]
    rcases hf : m.find? (fun p => p.1 = j) with _ | p
    · rw [find?_append_keyless _ _ _ hf,
        List.find?_cons_of_neg _ (by simpa using fun hc => hne hc.symm), hf]
      rfl
    · rw [find?_append_found _ _ _ _ hf, hf]

theorem get?_filter_ne {κ β : Type} [DecidableEq κ] (m : List (κ × β)) (k j : κ)
    (hne : j ≠ k) :
    get? (m.filter (fun p => decide (¬ p.1 = k))) j = get? m j := by
  rw [get?, get?]
  induction m with
  | nil => rfl
  | cons a t ih =>
    rw [List.filter_cons]
    by_cases hak : a.1 = k
    · have hb : (decide (¬ a.1 = k)) = false := by simpa using hak
      rw [hb]
      have haj : ¬ a.1 = j := fun hc => hne (by rw [← hc, hak])
      rw [if_neg (by simp), List.find?_cons_of_neg _ (by simpa using haj)]
      exact ih
    · have hb : (decide (¬ a.1 = k)) = true := by simpa using hak
      rw [hb, if_pos rfl]
      by_cases haj : a.1 = j
      · rw [List.find?_cons_of_pos _ (by simpa using haj),
          List.find?_cons_of_pos _ (by simpa using haj)]
      · rw [List.find?_cons_of_neg _ (by simpa using haj),
          List.find?_cons_of_neg _ (by simpa using haj)]
        exact ih

theorem get?_mem {κ β : Type} [DecidableEq κ] (m : List (κ × β)) (k : κ) (x : β)
    (h : get? m k = some x) : (k, x) ∈ m := by
  rw [get?] at h
  rcases hf : m.find? (fun p => p.1 = k) with _ | e
  · rw [hf] at h
    exact absurd h (by simp)
  · rw [hf] at h
    have hk : e.1 = k := by
      have h2 := List.find?_some hf
      exact of_decide_eq_true h2
    have hx : e.2 = x := by
      rw [Option.map_some'] at h
      exact Option.some.inj h
    have := List.mem_of_find?_eq_some hf
    rwa [show (k, x) = e from Prod.ext hk.symm hx.symm]

end Assoc

namespace MQ

theorem peek_eq_cons {α : Type} {q : List α} {top : α}
    (h : PQ.peek q = some top) : q = top :: q.tail := by
  rcases q with _ | ⟨a, t⟩
  · exact absurd h (by simp [PQ.peek])
  · have ha : a = top := by simpa [PQ.peek] using h
    rw [List.tail_cons, ha]

theorem pop_tail_perm {α : Type} [Inhabited α] (cmp : PQ.Comparator α)
    {q : List α} {top : α} (h : PQ.peek q = some top) :
    (PQ.pop cmp q).2.Perm q.tail := by
  have hcons := peek_eq_cons h
  rw [hcons, List.tail_cons]
  exact (PQ.pop_cons cmp top q.tail).2

theorem popLoop_perm {α : Type} [Inhabited α] (cmp : PQ.Comparator (Item α)) :
    ∀ (fuel : Nat) (q : List (Item α)) (live : List Nat) (it : Item α),
      (popLoop cmp fuel q live).1 = some it →
      ∃ dead, (∀ x ∈ dead, x.id ∉ live) ∧
        q.Perm (dead ++ it :: (popLoop cmp fuel q live).2.1) ∧
        it.id ∈ live ∧ (popLoop cmp fuel q live).2.2 = live.erase it.id := by
  intro fuel
  induction fuel with
  | zero => intro q live it h; exact absurd h (by simp [popLoop])
  | succ fuel ih =>
    intro q live it h
    rcases hq : PQ.peek q with _ | top
    · simp only [popLoop, hq] at h
      exact absurd h (by simp)
    · have hcons := peek_eq_cons hq
      have hq1 : q.Perm (top :: (PQ.pop cmp q).2) := by
        have hq1a : q.Perm (top :: q.tail) := by rw [← hcons]
        exact hq1a.trans ((pop_tail_perm cmp hq).symm.cons top)
      simp only [popLoop, hq] at h ⊢
      by_cases hl : top.id ∈ live
      · rw [if_pos hl] at h ⊢
        have htop : top = it := Option.some.inj h
        subst htop
        refine ⟨[], by simp, ?_, hl, rfl⟩
        rw [List.nil_append]
        exact hq1
      · rw [if_neg hl] at h ⊢
        obtain ⟨dead, hdead, hperm, hitl, herase⟩ := ih _ _ _ h
        refine ⟨top :: dead, ?_, ?_, hitl, herase⟩
        · intro x hx
          rcases List.mem_cons.mp hx with rfl | hx2
          · exact hl
          · exact hdead x hx2
        · exact hq1.trans (hperm.cons top)

theorem popLoop_all_dead {α : Type} [Inhabited α] (cmp : PQ.Comparator (Item α)) :
    ∀ (fuel : Nat) (q : List (Item α)) (live : List Nat),
      (popLoop cmp fuel q live).1 = none → q.length ≤ fuel →
      ∀ x ∈ q, x.id ∉ live := by
  intro fuel
  induction fuel with
  | zero =>
    intro q live _ hlen x hx
    rw [Nat.le_zero, List.length_eq_zero] at hlen
    subst hlen
    exact absurd hx (List.not_mem_nil x)
  | succ fuel ih =>
    intro q live h hlen x hx
    rcases hq : PQ.peek q with _ | top
    · rcases q with _ | ⟨a, t⟩
      · exact absurd hx (List.not_mem_nil x)
      · exact absurd hq (by simp [PQ.peek])
    · have hcons := peek_eq_cons hq
      simp only [popLoop, hq] at h
      by_cases hl : top.id ∈ live
      · rw [if_pos hl] at h
        exact absurd h (by simp)
      · rw [if_neg hl] at h
        rcases List.mem_cons.mp (hcons ▸ hx) with rfl | hx2
        · exact hl
        · have hq2 : (PQ.pop cmp q).2.Perm q.tail := pop_tail_perm cmp hq
          have hxq2 : x ∈ (PQ.pop cmp q).2 := hq2.symm.subset hx2
          have hlen2 : (PQ.pop cmp q).2.length ≤ fuel := by
            have h1 := hq2.length_eq
            have h2 : q.length = q.tail.length + 1 := by rw [hcons]; rfl
            omega
          exact ih _ _ h hlen2 x hxq2

theorem popLoop_heapInv {α : Type} [Inhabited α] {cmp : PQ.Comparator (Item α)}
    {le : Item α → Item α → Prop} (hc : PQ.Compat cmp le) (htr : Transitive le) :
    ∀ (fuel : Nat) (q : List (Item α)) (live : List Nat),
      PQ.HeapInv le q → PQ.HeapInv le (popLoop cmp fuel q live).2.1 := by
  intro fuel
  induction fuel with
  | zero => intro q live hq; exact hq
  | succ fuel ih =>
    intro q live hq
    rcases hpk : PQ.peek q with _ | top
    · simpa only [popLoop, hpk] using hq
    · simp only [popLoop, hpk]
      by_cases hl : top.id ∈ live
      · rw [if_pos hl]
        exact PQ.pop_heapInv hc htr hq
      · rw [if_neg hl]
        exact ih _ _ (PQ.pop_heapInv hc htr hq)

theorem peekLoop_spec {α : Type} [Inhabited α] (cmp : PQ.Comparator (Item α)) :
    ∀ (fuel : Nat) (q : List (Item α)) (live : List Nat) (it : Item α),
      (peekLoop cmp fuel q live).1 = some it →
      ∃ dead, (∀ x ∈ dead, x.id ∉ live) ∧
        q.Perm (dead ++ (peekLoop cmp fuel q live).2) ∧
        PQ.peek (peekLoop cmp fuel q live).2 = some it ∧ it.id ∈ live := by
  intro fuel
  induction fuel with
  | zero => intro q live it h; exact absurd h (by simp [peekLoop])
  | succ fuel ih =>
    intro q live it h
    rcases hq : PQ.peek q with _ | top
    · simp only [peekLoop, hq] at h
      exact absurd h (by simp)
    · have hq1 : q.Perm (top :: (PQ.pop cmp q).2) := by
        have hq1a : q.Perm (top :: q.tail) := by rw [← peek_eq_cons hq]
        exact hq1a.trans ((pop_tail_perm cmp hq).symm.cons top)
      simp only [peekLoop, hq] at h ⊢
      by_cases hl : top.id ∈ live
      · rw [if_pos hl] at h ⊢
        have htop : top = it := Option.some.inj h
        subst htop
        exact ⟨[], by simp, by simp, hq, hl⟩
      · rw [if_neg hl] at h ⊢
        obtain ⟨dead, hdead, hperm, hpk, hitl⟩ := ih _ _ _ h
        refine ⟨top :: dead, ?_, ?_, hpk, hitl⟩
        · intro x hx
          rcases List.mem_cons.mp hx with rfl | hx2
          · exact hl
          · exact hdead x hx2
        · exact hq1.trans (hperm.cons top)

theorem peekLoop_all_dead {α : Type} [Inhabited α] (cmp : PQ.Comparator (Item α)) :
    ∀ (fuel : Nat) (q : List (Item α)) (live : List Nat),
      (peekLoop cmp fuel q live).1 = none → q.length ≤ fuel →
      ∀ x ∈ q, x.id ∉ live := by
  intro fuel
  induction fuel with
  | zero =>
    intro q live _ hlen x hx
    rw [Nat.le_zero, List.length_eq_zero] at hlen
    subst hlen
    exact absurd hx (List.not_mem_nil x)
  | succ fuel ih =>
    intro q live h hlen x hx
    rcases hq : PQ.peek q with _ | top
    · rcases q with _ | ⟨a, t⟩
      · exact absurd hx (List.not_mem_nil x)
      · exact absurd hq (by simp [PQ.peek])
    · have hcons := peek_eq_cons hq
      simp only [peekLoop, hq] at h
      by_cases hl : top.id ∈ live
      · rw [if_pos hl] at h
        exact absurd h (by simp)
      · rw [if_neg hl] at h
        rcases List.mem_cons.mp (hcons ▸ hx) with rfl | hx2
        · exact hl
        · have hq2 : (PQ.pop cmp q).2.Perm q.tail := pop_tail_perm cmp hq
          have hlen2 : (PQ.pop cmp q).2.length ≤ fuel := by
            have h1 := hq2.length_eq
            have h2 : q.length = q.tail.length + 1 := by rw [hcons]; rfl
            omega
          exact ih _ _ h hlen2 x (hq2.symm.subset hx2)

theorem peekLoop_heapInv {α : Type} [Inhabited α] {cmp : PQ.Comparator (Item α)}
    {le : Item α → Item α → Prop} (hc : PQ.Compat cmp le) (htr : Transitive le) :
    ∀ (fuel : Nat) (q : List (Item α)) (live : List Nat),
      PQ.HeapInv le q → PQ.HeapInv le (peekLoop cmp fuel q live).2 := by
  intro fuel
  induction fuel with
  | zero => intro q live hq; exact hq
  | succ fuel ih =>
    intro q live hq
    rcases hpk : PQ.peek q with _ | top
    · simpa only [peekLoop, hpk] using hq
    · simp only [peekLoop, hpk]
      by_cases hl : top.id ∈ live
      · rw [if_pos hl]
        exact hq
      · rw [if_neg hl]
        exact ih _ _ (PQ.pop_heapInv hc htr hq)

end MQ

namespace FAS

/-- An edge `[src, dst, weight]` (weights modelled as exact integers). -/
abbrev E3 : Type := SplitString × SplitString × Int

/-- The three comparator views of the `MultiQueue`. -/
inductive View : Type where
  | outW
  | inW
  | score
deriving DecidableEq

/-- `type Data = { u: SplitString; outW: number; inW: number }`. -/
structure Data where
  u : SplitString
  outW : Int
  inW : Int
deriving DecidableEq

instance : Inhabited Data := ⟨⟨[], 0, 0⟩⟩

/-- The three comparators.  JS `x || y` on numbers yields `y` when `x` is
`0`. -/
def cmps : View → PQ.Comparator Data
  | View.outW => fun a b => if a.outW - b.outW = 0 then -1 else a.outW - b.outW
  | View.inW => fun a b => a.inW - b.inW
  | View.score => fun a b =>
      if (a.inW - b.inW) - (a.outW - b.outW) = 0
      then (a.inW - b.inW) + (a.outW - b.outW)
      else (a.inW - b.inW) - (a.outW - b.outW)

/-- The view keys of the comparator record, in declaration order. -/
def keyList : List View := [View.outW, View.inW, View.score]

/-- JS `Set.add`. -/
def addNode (ns : List SplitString) (u : SplitString) : List SplitString :=
  if u ∈ ns then ns else ns ++ [u]

/-- The `nodes` set: both endpoints of every edge, in first-appearance
order. -/
def nodesOf (edges : List E3) : List SplitString :=
  edges.foldl (fun ns e => addNode (addNode ns e.1) e.2.1) []

/-- The `outAdj` map of one node: `outAdj.get(u)` after the build loop
(`outAdj.get(src)!.set(dst, weight)` per edge; later duplicates
overwrite). -/
def outAdj (edges : List E3) (u : SplitString) : List (SplitString × Int) :=
  edges.foldl (fun m e => if e.1 = u then Assoc.set m e.2.1 e.2.2 else m) []

/-- The `inAdj` map of one node (`inAdj.get(dst)!.set(src, weight)`). -/
def inAdj (edges : List E3) (v : SplitString) : List (SplitString × Int) :=
  edges.foldl (fun m e => if e.2.1 = v then Assoc.set m e.1 e.2.2 else m) []

/-- `map.values().reduce((a, b) => a + b, 0)`. -/
def sumVals (m : List (SplitString × Int)) : Int := (m.map (·.2)).sum

/-- The `nodeMap` record: node, keyed by its token, to its current queue
item. -/
abbrev NodeMap : Type := List (SplitString × MQ.Item Data)

/-- `nodeMap[v]` (callers only read keys they have written). -/
def nmGet (m : NodeMap) (k : SplitString) : MQ.Item Data :=
  (Assoc.get? m k).getD default

/-- The mutable state of `fasTopoSort` after setup: the `nodes` set, the
`MultiQueue`, the `nodeMap`, the written cells of the `order` array
(keyed by index; a JS write at a negative index is a plain property
write, invisible to the returned elements, hence `Int` keys), and the
`left`/`right` fill pointers. -/
structure St where
  ns : List SplitString
  mq : MQ.MultiQueue Data View
  nodeMap : NodeMap
  ord : List (Int × SplitString)
  left : Int
  right : Int

/-- One step of `removeNode`'s first loop (`for (const [v, w] of outs)`):
skip nodes already removed, otherwise resubmit `v` with `inW` lowered by
the edge weight (delete old id, push new snapshot). -/
def rnOut (ns : List SplitString) (s : MQ.MultiQueue Data View × NodeMap)
    (p : SplitString × Int) : MQ.MultiQueue Data View × NodeMap :=
  if p.1 ∈ ns then
    let old := nmGet s.2 p.1
    let r := MQ.push keyList cmps (MQ.delete s.1 old.id)
      ⟨p.1, old.data.outW, old.data.inW - p.2⟩
    (r.2, Assoc.set s.2 p.1 r.1)
  else s

/-- One step of `removeNode`'s second loop (incoming edges: `outW`
lowered). -/
def rnIn (ns : List SplitString) (s : MQ.MultiQueue Data View × NodeMap)
    (p : SplitString × Int) : MQ.MultiQueue Data View × NodeMap :=
  if p.1 ∈ ns then
    let old := nmGet s.2 p.1
    let r := MQ.push keyList cmps (MQ.delete s.1 old.id)
      ⟨p.1, old.data.outW - p.2, old.data.inW⟩
    (r.2, Assoc.set s.2 p.1 r.1)
  else s

/-- `removeNode(node)`: drop the node from the set, resubmit its still
present out- and in-neighbours with adjusted weights, drop its `nodeMap`
entry.  (The whole-map deletes `outAdj.delete(node)` / `inAdj.delete(node)`
have no observable effect: deleted keys are never read again.) -/
def removeNode (edges : List E3) (node : SplitString) (st : St) : St :=
  let ns2 := st.ns.erase node
  let s1 := (outAdj edges node).foldl (rnOut ns2) (st.mq, st.nodeMap)
  let s2 := (inAdj edges node).foldl (rnIn ns2) s1
  ⟨ns2, s2.1, s2.2.filter (fun p => decide (¬ p.1 = node)), st.ord, st.left, st.right⟩

/-- `await q.peek(view)` at the state level. -/
def peekSt (st : St) (k : View) : Option (MQ.Item Data) × St :=
  let r := MQ.peek cmps st.mq k
  (r.1, ⟨st.ns, r.2, st.nodeMap, st.ord, st.left, st.right⟩)

/-- `await q.pop(view)` at the state level. -/
def popSt (st : St) (k : View) : Option (MQ.Item Data) × St :=
  let r := MQ.pop cmps st.mq k
  (r.1, ⟨st.ns, r.2, st.nodeMap, st.ord, st.left, st.right⟩)

/-- `order[right--] = u`. -/
def placeRight (st : St) (u : SplitString) : St :=
  ⟨st.ns, st.mq, st.nodeMap, Assoc.set st.ord st.right u, st.left, st.right - 1⟩

/-- `order[left++] = u`. -/
def placeLeft (st : St) (u : SplitString) : St :=
  ⟨st.ns, st.mq, st.nodeMap, Assoc.set st.ord st.left u, st.left + 1, st.right⟩

/-- The sink loop: `while (q.length) { peek('outW'); if (outW !== 0)
break; pop('outW'); order[right--]; removeNode }`.  `fuel` bounds the
iteration count (each non-final iteration removes one node). -/
def sinkLoop (edges : List E3) : Nat → St → St
  | 0, st => st
  | fuel + 1, st =>
    if MQ.length st.mq = 0 then st
    else
      match (peekSt st View.outW).1 with
      | none => (peekSt st View.outW).2
      | some sink =>
        if sink.data.outW ≠ 0 then (peekSt st View.outW).2
        else
          sinkLoop edges fuel
            (removeNode edges sink.data.u
              (placeRight (popSt (peekSt st View.outW).2 View.outW).2 sink.data.u))

/-- The source loop: like the sink loop on the `inW` view, filling from
the left. -/
def sourceLoop (edges : List E3) : Nat → St → St
  | 0, st => st
  | fuel + 1, st =>
    if MQ.length st.mq = 0 then st
    else
      match (peekSt st View.inW).1 with
      | none => (peekSt st View.inW).2
      | some source =>
        if source.data.inW ≠ 0 then (peekSt st View.inW).2
        else
          sourceLoop edges fuel
            (removeNode edges source.data.u
              (placeLeft (popSt (peekSt st View.inW).2 View.inW).2 source.data.u))

/-- The outer `while (nodes.size)` loop: sink phase, source phase, then
one pop on the `score` view (`if (!max) break`). -/
def mainLoop (edges : List E3) : Nat → St → St
  | 0, st => st
  | fuel + 1, st =>
    if st.ns.length = 0 then st
    else
      let st1 := sinkLoop edges (st.ns.length + 1) st
      let st2 := sourceLoop edges (st1.ns.length + 1) st1
      match (popSt st2 View.score).1 with
      | none => (popSt st2 View.score).2
      | some mx =>
        mainLoop edges fuel
          (removeNode edges mx.data.u (placeLeft (popSt st2 View.score).2 mx.data.u))

/-- The setup: collect the node set and push every node's initial
snapshot (total out-weight, total in-weight), recording its item in
`nodeMap`.  `order` is empty, `left = 0`, `right = nodes.size - 1`. -/
def initSt (edges : List E3) : St :=
  let N := nodesOf edges
  let p := N.foldl
    (fun acc u =>
      let r := MQ.push keyList cmps acc.1
        ⟨u, sumVals (outAdj edges u), sumVals (inAdj edges u)⟩
      (r.2, Assoc.set acc.2 u r.1))
    (MQ.MultiQueue.empty Data View, [])
  ⟨N, p.1, p.2, [], 0, (N.length : Int) - 1⟩

/-- `fasTopoSort(edges)`: run the loop, read the `order` array back
element by element (a never-written cell is JS `undefined`, rendered as
the empty token). -/
def fasTopoSort (edges : List E3) : List SplitString :=
  let st := mainLoop edges ((nodesOf edges).length + 1) (initSt edges)
  (List.range (nodesOf edges).length).map
    (fun (i : Nat) => ((Assoc.get? st.ord (i : Int)).getD []))

/-- The directed-graph relation described by the edge list. -/
def EdgeRel (edges : List E3) (u v : SplitString) : Prop :=
  ∃ w : Int, (u, v, w) ∈ edges

/-- Out-weight of `u` restricted to a remaining node set. -/
def remOut (edges : List E3) (ns : List SplitString) (u : SplitString) : Int :=
  sumVals ((outAdj edges u).filter (fun p => decide (p.1 ∈ ns)))

/-- In-weight of `u` restricted to a remaining node set. -/
def remIn (edges : List E3) (ns : List SplitString) (u : SplitString) : Int :=
  sumVals ((inAdj edges u).filter (fun p => decide (p.1 ∈ ns)))

end FAS

namespace FAS

theorem mem_addNode (ns : List SplitString) (u v : SplitString) :
    v ∈ addNode ns u ↔ v ∈ ns ∨ v = u := by
  rw [addNode]
  by_cases h : u ∈ ns
  · rw [if_pos h]
    constructor
    · exact Or.inl
    · rintro (hv | rfl)
      · exact hv
      · exact h
  · rw [if_neg h, List.mem_append, List.mem_singleton]

theorem addNode_nodup (ns : List SplitString) (u : SplitString)
    (h : ns.Nodup) : (addNode ns u).Nodup := by
  rw [addNode]
  by_cases hm : u ∈ ns
  · rwa [if_pos hm]
  · rw [if_neg hm]
    exact List.Nodup.append h (List.nodup_singleton u)
      (by intro x hx hx2; rw [List.mem_singleton] at hx2; exact hm (hx2 ▸ hx))

theorem nodesOf_fold_nodup (edges : List E3) :
    ∀ acc : List SplitString, acc.Nodup →
      (edges.foldl (fun ns e => addNode (addNode ns e.1) e.2.1) acc).Nodup := by
  induction edges with
  | nil => intro acc h; exact h
  | cons e t ih =>
    intro acc h
    exact ih _ (addNode_nodup _ _ (addNode_nodup _ _ h))

theorem nodesOf_nodup (edges : List E3) : (nodesOf edges).Nodup :=
  nodesOf_fold_nodup edges [] List.nodup_nil

theorem nodesOf_fold_mono (edges : List E3) :
    ∀ (acc : List SplitString) (x : SplitString), x ∈ acc →
      x ∈ edges.foldl (fun ns e => addNode (addNode ns e.1) e.2.1) acc := by
  induction edges with
  | nil => intro acc x h; exact h
  | cons e t ih =>
    intro acc x h
    exact ih _ x ((mem_addNode _ _ _).mpr (Or.inl ((mem_addNode _ _ _).mpr (Or.inl h))))

theorem mem_nodesOf (edges : List E3) (e : E3) (he : e ∈ edges) :
    e.1 ∈ nodesOf edges ∧ e.2.1 ∈ nodesOf edges := by
  rw [nodesOf]
  have main : ∀ (es : List E3) (acc : List SplitString), e ∈ es →
      e.1 ∈ es.foldl (fun ns e2 => addNode (addNode ns e2.1) e2.2.1) acc ∧
      e.2.1 ∈ es.foldl (fun ns e2 => addNode (addNode ns e2.1) e2.2.1) acc := by
    intro es
    induction es with
    | nil => intro acc h; exact absurd h (List.not_mem_nil e)
    | cons a t ih =>
      intro acc h
      rcases List.mem_cons.mp h with rfl | ht
      · constructor
        · exact nodesOf_fold_mono t _ e.1
            ((mem_addNode _ _ _).mpr (Or.inl ((mem_addNode _ _ _).mpr (Or.inr rfl))))
        · exact nodesOf_fold_mono t _ e.2.1 ((mem_addNode _ _ _).mpr (Or.inr rfl))
      · exact ih _ ht
  exact main edges [] he

theorem assoc_set_mem_cases {κ β : Type} [DecidableEq κ]
    (m : List (κ × β)) (k : κ) (x : β) (p : κ × β)
    (hp : p ∈ Assoc.set m k x) : p ∈ m ∨ p = (k, x) := by
  rw [Assoc.set] at hp
  by_cases hmem : m.any (fun q => q.1 = k)
  · rw [if_pos hmem] at hp
    rcases List.mem_map.mp hp with ⟨q, hq, hqe⟩
    by_cases hqk : q.1 = k
    · rw [if_pos hqk] at hqe
      exact Or.inr hqe.symm
    · rw [if_neg hqk] at hqe
      exact Or.inl (hqe ▸ hq)
  · rw [if_neg hmem, List.mem_append, List.mem_singleton] at hp
    exact hp

theorem assoc_fold_keys_nodup {κ β : Type} [DecidableEq κ] (m : List (κ × β))
    (k : κ) (x : β) (h : (m.map (·.1)).Nodup) :
    ((Assoc.set m k x).map (·.1)).Nodup := by
  by_cases hmem : k ∈ m.map (·.1)
  · rwa [Assoc.set_keys_mem m k x hmem]
  · rw [Assoc.set_keys_not_mem m k x hmem]
    exact List.Nodup.append h (List.nodup_singleton k)
      (by intro y hy hy2; rw [List.mem_singleton] at hy2; exact hmem (hy2 ▸ hy))

theorem outAdj_keys_nodup (edges : List E3) (u : SplitString) :
    ((outAdj edges u).map (·.1)).Nodup := by
  rw [outAdj]
  have main : ∀ (es : List E3) (acc : List (SplitString × Int)),
      (acc.map (·.1)).Nodup →
      ((es.foldl (fun m e => if e.1 = u then Assoc.set m e.2.1 e.2.2 else m) acc).map
        (·.1)).Nodup := by
    intro es
    induction es with
    | nil => intro acc h; exact h
    | cons e t ih =>
      intro acc h
      rw [List.foldl_cons]
      by_cases he : e.1 = u
      · rw [if_pos he]
        exact ih _ (assoc_fold_keys_nodup acc e.2.1 e.2.2 h)
      · rw [if_neg he]
        exact ih _ h
  exact main edges [] (by simp)

theorem inAdj_keys_nodup (edges : List E3) (v : SplitString) :
    ((inAdj edges v).map (·.1)).Nodup := by
  rw [inAdj]
  have main : ∀ (es : List E3) (acc : List (SplitString × Int)),
      (acc.map (·.1)).Nodup →
      ((es.foldl (fun m e => if e.2.1 = v then Assoc.set m e.1 e.2.2 else m) acc).map
        (·.1)).Nodup := by
    intro es
    induction es with
    | nil => intro acc h; exact h
    | cons e t ih =>
      intro acc h
      rw [List.foldl_cons]
      by_cases he : e.2.1 = v
      · rw [if_pos he]
        exact ih _ (assoc_fold_keys_nodup acc e.1 e.2.2 h)
      · rw [if_neg he]
        exact ih _ h
  exact main edges [] (by simp)

theorem outAdj_mem (edges : List E3) (u : SplitString) (p : SplitString × Int)
    (hp : p ∈ outAdj edges u) : (u, p.1, p.2) ∈ edges := by
  rw [outAdj] at hp
  have main : ∀ (es : List E3) (acc : List (SplitString × Int)),
      p ∈ es.foldl (fun m e => if e.1 = u then Assoc.set m e.2.1 e.2.2 else m) acc →
      p ∈ acc ∨ (u, p.1, p.2) ∈ es := by
    intro es
    induction es with
    | nil => intro acc h; exact Or.inl h
    | cons e t ih =>
      intro acc h
      rw [List.foldl_cons] at h
      by_cases he : e.1 = u
      · rw [if_pos he] at h
        rcases ih _ h with hacc | hes
        · rcases assoc_set_mem_cases acc e.2.1 e.2.2 p hacc with h2 | h2
          · exact Or.inl h2
          · refine Or.inr ?_
            have h3 : (u, p.1, p.2) = e := by
              rw [h2, ← he]
            rw [h3]
            exact List.mem_cons_self e t
        · exact Or.inr (List.mem_cons_of_mem e hes)
      · rw [if_neg he] at h
        rcases ih _ h with hacc | hes
        · exact Or.inl hacc
        · exact Or.inr (List.mem_cons_of_mem e hes)
  rcases main edges [] hp with h | h
  · exact absurd h (List.not_mem_nil p)
  · exact h

theorem inAdj_mem (edges : List E3) (v : SplitString) (p : SplitString × Int)
    (hp : p ∈ inAdj edges v) : (p.1, v, p.2) ∈ edges := by
  rw [inAdj] at hp
  have main : ∀ (es : List E3) (acc : List (SplitString × Int)),
      p ∈ es.foldl (fun m e => if e.2.1 = v then Assoc.set m e.1 e.2.2 else m) acc →
      p ∈ acc ∨ (p.1, v, p.2) ∈ es := by
    intro es
    induction es with
    | nil => intro acc h; exact Or.inl h
    | cons e t ih =>
      intro acc h
      rw [List.foldl_cons] at h
      by_cases he : e.2.1 = v
      · rw [if_pos he] at h
        rcases ih _ h with hacc | hes
        · rcases assoc_set_mem_cases acc e.1 e.2.2 p hacc with h2 | h2
          · exact Or.inl h2
          · refine Or.inr ?_
            have : (p.1, v, p.2) = e := by
              rw [h2, ← he]
            rw [this]
            exact List.mem_cons_self e t
        · exact Or.inr (List.mem_cons_of_mem e hes)
      · rw [if_neg he] at h
        rcases ih _ h with hacc | hes
        · exact Or.inl hacc
        · exact Or.inr (List.mem_cons_of_mem e hes)
  rcases main edges [] hp with h | h
  · exact absurd h (List.not_mem_nil p)
  · exact h

end FAS

namespace FAS

theorem assoc_set_keys_mono {κ β : Type} [DecidableEq κ]
    (m : List (κ × β)) (k : κ) (x : β) (y : κ) (hy : y ∈ m.map (·.1)) :
    y ∈ (Assoc.set m k x).map (·.1) := by
  by_cases hmem : k ∈ m.map (·.1)
  · rwa [Assoc.set_keys_mem m k x hmem]
  · rw [Assoc.set_keys_not_mem m k x hmem]
    exact List.mem_append_left _ hy

theorem assoc_set_keys_self {κ β : Type} [DecidableEq κ]
    (m : List (κ × β)) (k : κ) (x : β) :
    k ∈ (Assoc.set m k x).map (·.1) := by
  by_cases hmem : k ∈ m.map (·.1)
  · rwa [Assoc.set_keys_mem m k x hmem]
  · rw [Assoc.set_keys_not_mem m k x hmem]
    exact List.mem_append_right _ (List.mem_singleton.mpr rfl)

theorem outAdj_keys_iff (edges : List E3) (u v : SplitString) :
    v ∈ (outAdj edges u).map (·.1) ↔ ∃ w : Int, (u, v, w) ∈ edges := by
  constructor
  · intro h
    rcases List.mem_map.mp h with ⟨p, hp, hpk⟩
    exact ⟨p.2, by rw [← hpk]; exact outAdj_mem edges u p hp⟩
  · rintro ⟨w, hw⟩
    rw [outAdj]
    have main : ∀ (es : List E3) (acc : List (SplitString × Int)),
        (u, v, w) ∈ es ∨ v ∈ acc.map (·.1) →
        v ∈ ((es.foldl (fun m e => if e.1 = u then Assoc.set m e.2.1 e.2.2 else m)
          acc).map (·.1)) := by
      intro es
      induction es with
      | nil =>
        intro acc h
        rcases h with h | h
        · exact absurd h (List.not_mem_nil _)
        · exact h
      | cons e t ih =>
        intro acc h
        rw [List.foldl_cons]
        rcases h with h | h
        · rcases List.mem_cons.mp h with heq | ht
          · rw [← heq]
            rw [show ((u, v, w) : E3).1 = u from rfl, if_pos rfl]
            exact ih _ (Or.inr (assoc_set_keys_self acc v w))
          · by_cases he : e.1 = u
            · rw [if_pos he]
              exact ih _ (Or.inl ht)
            · rw [if_neg he]
              exact ih _ (Or.inl ht)
        · by_cases he : e.1 = u
          · rw [if_pos he]
            exact ih _ (Or.inr (assoc_set_keys_mono acc e.2.1 e.2.2 v h))
          · rw [if_neg he]
            exact ih _ (Or.inr h)
    exact main edges [] (Or.inl hw)

/-- The last edge of the list from `u` to `v`, which is the one whose
weight both adjacency maps record. -/
def lastE (edges : List E3) (u v : SplitString) : Option E3 :=
  (edges.filter (fun e => decide (e.1 = u) && decide (e.2.1 = v))).getLast?

theorem get?_outAdj (edges : List E3) (u v : SplitString) :
    Assoc.get? (outAdj edges u) v = (lastE edges u v).map (·.2.2) := by
  induction edges using List.reverseRecOn with
  | nil => rfl
  | append_singleton es e ih =>
    rw [outAdj, List.foldl_append, List.foldl_cons, List.foldl_nil, ← outAdj,
      lastE, List.filter_append]
    by_cases he : e.1 = u
    · rw [if_pos he]
      by_cases hv : e.2.1 = v
      · have hcond : (decide (e.1 = u) && decide (e.2.1 = v)) = true := by
          simp [he, hv]
        rw [show List.filter (fun e => decide (e.1 = u) && decide (e.2.1 = v)) [e]
            = [e] from by simp [List.filter, hcond]]
        rw [List.getLast?_concat, hv, Assoc.get?_set_self]
        rfl
      · have hcond : (decide (e.1 = u) && decide (e.2.1 = v)) = false := by
          simp [hv]
        rw [show List.filter (fun e => decide (e.1 = u) && decide (e.2.1 = v)) [e]
            = [] from by simp [List.filter, hcond]]
        rw [List.append_nil, Assoc.get?_set_ne _ _ _ _ (fun hc => hv hc.symm)]
        exact ih
    · rw [if_neg he]
      have hcond : (decide (e.1 = u) && decide (e.2.1 = v)) = false := by
        simp [he]
      rw [show List.filter (fun e => decide (e.1 = u) && decide (e.2.1 = v)) [e]
          = [] from by simp [List.filter, hcond]]
      rw [List.append_nil]
      exact ih

theorem get?_inAdj (edges : List E3) (u v : SplitString) :
    Assoc.get? (inAdj edges v) u = (lastE edges u v).map (·.2.2) := by
  induction edges using List.reverseRecOn with
  | nil => rfl
  | append_singleton es e ih =>
    rw [inAdj, List.foldl_append, List.foldl_cons, List.foldl_nil, ← inAdj,
      lastE, List.filter_append]
    by_cases hv : e.2.1 = v
    · rw [if_pos hv]
      by_cases he : e.1 = u
      · have hcond : (decide (e.1 = u) && decide (e.2.1 = v)) = true := by
          simp [he, hv]
        rw [show List.filter (fun e => decide (e.1 = u) && decide (e.2.1 = v)) [e]
            = [e] from by simp [List.filter, hcond]]
        rw [List.getLast?_concat, he, Assoc.get?_set_self]
        rfl
      · have hcond : (decide (e.1 = u) && decide (e.2.1 = v)) = false := by
          simp [he]
        rw [show List.filter (fun e => decide (e.1 = u) && decide (e.2.1 = v)) [e]
            = [] from by simp [List.filter, hcond]]
        rw [List.append_nil, Assoc.get?_set_ne _ _ _ _ (fun hc => he hc.symm)]
        exact ih
    · rw [if_neg hv]
      have hcond : (decide (e.1 = u) && decide (e.2.1 = v)) = false := by
        simp [hv]
      rw [show List.filter (fun e => decide (e.1 = u) && decide (e.2.1 = v)) [e]
          = [] from by simp [List.filter, hcond]]
      rw [List.append_nil]
      exact ih

theorem get?_outAdj_inAdj (edges : List E3) (u v : SplitString) :
    Assoc.get? (outAdj edges u) v = Assoc.get? (inAdj edges v) u := by
  rw [get?_outAdj, get?_inAdj]

theorem sumVals_cons (p : SplitString × Int) (l : List (SplitString × Int)) :
    sumVals (p :: l) = p.2 + sumVals l := by
  simp [sumVals]

theorem sumVals_nonneg (l : List (SplitString × Int))
    (h : ∀ p ∈ l, 0 < p.2) : 0 ≤ sumVals l := by
  induction l with
  | nil => exact le_refl 0
  | cons p t ih =>
    rw [sumVals_cons]
    have h1 := h p (List.mem_cons_self p t)
    have h2 := ih (fun q hq => h q (List.mem_cons_of_mem p hq))
    omega

theorem sumVals_zero_empty (l : List (SplitString × Int))
    (h : ∀ p ∈ l, 0 < p.2) (hz : sumVals l = 0) : l = [] := by
  rcases l with _ | ⟨p, t⟩
  · rfl
  · rw [sumVals_cons] at hz
    have h1 := h p (List.mem_cons_self p t)
    have h2 := sumVals_nonneg t (fun q hq => h q (List.mem_cons_of_mem p hq))
    omega

theorem sumVals_filter_erase (m : List (SplitString × Int)) :
    ∀ (ns : List SplitString), (m.map (·.1)).Nodup → ns.Nodup →
      ∀ u ∈ ns,
      sumVals (m.filter (fun p => decide (p.1 ∈ ns)))
        = sumVals (m.filter (fun p => decide (p.1 ∈ ns.erase u)))
          + ((Assoc.get? m u).getD 0) := by
  induction m with
  | nil =>
    intro ns _ _ u _
    simp [sumVals, Assoc.get?]
  | cons a t ih =>
    intro ns hmnd hns u hu
    rw [List.map_cons, List.nodup_cons] at hmnd
    by_cases ha : a.1 = u
    · have hin : (decide (a.1 ∈ ns)) = true := by
        rw [ha]
        simpa using hu
      have hout : (decide (a.1 ∈ ns.erase u)) = false := by
        rw [ha]
        simp only [decide_eq_false_iff_not]
        intro hc
        exact ((List.Nodup.mem_erase_iff hns).mp hc).1 rfl
      rw [List.filter_cons, List.filter_cons, hin, hout, if_pos rfl,
        if_neg (by simp), sumVals_cons]
      have hget : Assoc.get? (a :: t) u = some a.2 := by
        rw [Assoc.get?, List.find?_cons_of_pos _ (by simpa using ha)]
        rfl
      rw [hget, Option.getD_some]
      have hfc : t.filter (fun p => decide (p.1 ∈ ns))
          = t.filter (fun p => decide (p.1 ∈ ns.erase u)) := by
        refine List.filter_congr ?_
        intro p hp
        have hpne : p.1 ≠ u := by
          intro hc
          exact hmnd.1 (by rw [ha, ← hc]; exact List.mem_map.mpr ⟨p, hp, rfl⟩)
        rw [decide_eq_decide]
        rw [List.Nodup.mem_erase_iff hns]
        constructor
        · exact fun h => ⟨hpne, h⟩
        · exact fun h => h.2
      rw [hfc]
      omega
    · have hiff : (decide (a.1 ∈ ns.erase u)) = (decide (a.1 ∈ ns)) := by
        rw [decide_eq_decide, List.Nodup.mem_erase_iff hns]
        constructor
        · exact fun h => h.2
        · exact fun h => ⟨ha, h⟩
      have hget : Assoc.get? (a :: t) u = Assoc.get? t u := by
        rw [Assoc.get?, List.find?_cons_of_neg _ (by simpa using ha)]
        rfl
      rw [List.filter_cons, List.filter_cons, hiff, hget]
      by_cases hm : a.1 ∈ ns
      · have hb : decide (a.1 ∈ ns) = true := by simpa using hm
        rw [hb, if_pos rfl, if_pos rfl, sumVals_cons, sumVals_cons,
          ih ns hmnd.2 hns u hu]
        omega
      · have hb : decide (a.1 ∈ ns) = false := by simpa using hm
        rw [hb, if_neg (by simp), if_neg (by simp)]
        exact ih ns hmnd.2 hns u hu

theorem remIn_erase (edges : List E3) (ns : List SplitString) (hns : ns.Nodup)
    (u v : SplitString) (hu : u ∈ ns) :
    remIn edges ns v
      = remIn edges (ns.erase u) v + ((Assoc.get? (inAdj edges v) u).getD 0) :=
  sumVals_filter_erase (inAdj edges v) ns (inAdj_keys_nodup edges v) hns u hu

theorem remOut_erase (edges : List E3) (ns : List SplitString) (hns : ns.Nodup)
    (u v : SplitString) (hu : u ∈ ns) :
    remOut edges ns v
      = remOut edges (ns.erase u) v + ((Assoc.get? (outAdj edges v) u).getD 0) :=
  sumVals_filter_erase (outAdj edges v) ns (outAdj_keys_nodup edges v) hns u hu

theorem remOut_nonneg (edges : List E3) (ns : List SplitString) (u : SplitString)
    (hpos : ∀ e ∈ edges, 0 < e.2.2) : 0 ≤ remOut edges ns u := by
  refine sumVals_nonneg _ ?_
  intro p hp
  have hp2 := List.mem_filter.mp hp
  exact hpos _ (outAdj_mem edges u p hp2.1)

theorem remOut_zero_no_succ (edges : List E3) (ns : List SplitString)
    (u : SplitString) (hpos : ∀ e ∈ edges, 0 < e.2.2)
    (hz : remOut edges ns u = 0) : ∀ p ∈ outAdj edges u, p.1 ∉ ns := by
  have hempty := sumVals_zero_empty _
    (fun p hp => hpos _ (outAdj_mem edges u p (List.mem_filter.mp hp).1)) hz
  intro p hp hmem
  have : p ∈ (outAdj edges u).filter (fun p => decide (p.1 ∈ ns)) :=
    List.mem_filter.mpr ⟨hp, by simpa using hmem⟩
  rw [hempty] at this
  exact absurd this (List.not_mem_nil p)

theorem remOut_init (edges : List E3) (u : SplitString) :
    remOut edges (nodesOf edges) u = sumVals (outAdj edges u) := by
  rw [remOut]
  congr 1
  refine List.filter_eq_self.mpr ?_
  intro p hp
  simpa using (mem_nodesOf edges _ (outAdj_mem edges u p hp)).2

theorem remIn_init (edges : List E3) (u : SplitString) :
    remIn edges (nodesOf edges) u = sumVals (inAdj edges u) := by
  rw [remIn]
  congr 1
  refine List.filter_eq_self.mpr ?_
  intro p hp
  simpa using (mem_nodesOf edges _ (inAdj_mem edges u p hp)).1

theorem exists_cycle_of_all_succ (r : SplitString → SplitString → Prop) :
    ∀ (n : Nat) (S : Finset SplitString), S.card ≤ n → S.Nonempty →
      (∀ v ∈ S, ∃ u ∈ S, r v u) →
      ∃ x, Relation.TransGen r x x := by
  intro n
  induction n with
  | zero =>
    intro S hcard hne _
    obtain ⟨v, hv⟩ := hne
    have := Finset.card_pos.mpr ⟨v, hv⟩
    omega
  | succ n ih =>
    intro S hcard hne hsucc
    obtain ⟨v, hv⟩ := hne
    classical
    by_cases hvv : Relation.TransGen r v v
    · exact ⟨v, hvv⟩
    · obtain ⟨u, huS, hvu⟩ := hsucc v hv
      have huS' : u ∈ S.filter (fun w => Relation.TransGen r v w) :=
        Finset.mem_filter.mpr ⟨huS, Relation.TransGen.single hvu⟩
      refine ih (S.filter (fun w => Relation.TransGen r v w)) ?_ ⟨u, huS'⟩ ?_
      · have hsub : S.filter (fun w => Relation.TransGen r v w) ⊆ S :=
          Finset.filter_subset _ _
        have hvnot : v ∉ S.filter (fun w => Relation.TransGen r v w) := by
          intro hc
          exact hvv (Finset.mem_filter.mp hc).2
        have hss : S.filter (fun w => Relation.TransGen r v w) ⊂ S :=
          (Finset.ssubset_iff_of_subset hsub).mpr ⟨v, hv, hvnot⟩
        have := Finset.card_lt_card hss
        omega
      · intro w hw
        obtain ⟨hwS, hvw⟩ := Finset.mem_filter.mp hw
        obtain ⟨z, hzS, hwz⟩ := hsucc w hwS
        exact ⟨z, Finset.mem_filter.mpr ⟨hzS, hvw.trans (Relation.TransGen.single hwz)⟩,
          hwz⟩

theorem exists_sink (edges : List E3)
    (hpos : ∀ e ∈ edges, 0 < e.2.2)
    (hacyc : ∀ x, ¬ Relation.TransGen (EdgeRel edges) x x)
    (ns : List SplitString) (hne : ns ≠ []) :
    ∃ u ∈ ns, remOut edges ns u = 0 := by
  by_contra hc
  push_neg at hc
  classical
  have hsucc : ∀ v ∈ ns.toFinset, ∃ u ∈ ns.toFinset, EdgeRel edges v u := by
    intro v hv
    rw [List.mem_toFinset] at hv
    have hnz := hc v hv
    have hfil : (outAdj edges v).filter (fun p => decide (p.1 ∈ ns)) ≠ [] := by
      intro hnil
      exact hnz (by rw [remOut, hnil]; rfl)
    obtain ⟨p, hp⟩ := List.exists_mem_of_ne_nil _ hfil
    have hp2 := List.mem_filter.mp hp
    refine ⟨p.1, List.mem_toFinset.mpr (by simpa using hp2.2), ?_⟩
    exact ⟨p.2, outAdj_mem edges v p hp2.1⟩
  obtain ⟨x, hx⟩ := exists_cycle_of_all_succ (EdgeRel edges) ns.toFinset.card
    ns.toFinset le_rfl
    (by
      obtain ⟨a, ha⟩ := List.exists_mem_of_ne_nil _ hne
      exact ⟨a, List.mem_toFinset.mpr ha⟩)
    hsucc
  exact hacyc x hx

end FAS

namespace FAS

/-- The `outW` preorder on queue items, which the `outW` comparator is
consistent with (ties answer `-1`, i.e. `≤`). -/
def leOut (a b : MQ.Item Data) : Prop := a.data.outW ≤ b.data.outW

theorem leOut_compat : PQ.Compat (MQ.itemCmp (cmps View.outW)) leOut := by
  intro a b
  have hcmp : MQ.itemCmp (cmps View.outW) a b
      = (if a.data.outW - b.data.outW = 0 then -1
         else a.data.outW - b.data.outW) := rfl
  rw [hcmp]
  by_cases h : a.data.outW - b.data.outW = 0
  · rw [if_pos h]
    constructor
    · intro _
      show a.data.outW ≤ b.data.outW
      omega
    · intro hc
      exact absurd (by norm_num : (-1 : Int) < 0) hc
  · rw [if_neg h]
    constructor
    · intro h2
      show a.data.outW ≤ b.data.outW
      omega
    · intro h2
      show b.data.outW ≤ a.data.outW
      omega

theorem leOut_trans : Transitive leOut := by
  intro a b c h1 h2
  rw [leOut] at h1 h2 ⊢
  omega

theorem push_item (mq : MQ.MultiQueue Data View) (a : Data) :
    (MQ.push keyList cmps mq a).1 = ⟨mq.nextId, a⟩ := rfl

theorem push_nextId (mq : MQ.MultiQueue Data View) (a : Data) :
    (MQ.push keyList cmps mq a).2.nextId = mq.nextId + 1 := rfl

theorem push_qs (mq : MQ.MultiQueue Data View) (a : Data) (k : View) :
    (MQ.push keyList cmps mq a).2.qs k
      = PQ.push (MQ.itemCmp (cmps k)) (mq.qs k) ⟨mq.nextId, a⟩ := by
  cases k <;> rfl

theorem push_live (mq : MQ.MultiQueue Data View) (a : Data)
    (h : mq.nextId ∉ mq.live) :
    (MQ.push keyList cmps mq a).2.live = mq.live ++ [mq.nextId] := by
  show (if mq.nextId ∈ mq.live then mq.live else mq.live ++ [mq.nextId]) = _
  rw [if_neg h]

/-- The item a node's current `nodeMap` entry would deliver. -/
theorem nmGet_set_self (m : NodeMap) (k : SplitString) (it : MQ.Item Data) :
    nmGet (Assoc.set m k it) k = it := by
  rw [nmGet, Assoc.get?_set_self]
  rfl

theorem nmGet_set_ne (m : NodeMap) (k j : SplitString) (it : MQ.Item Data)
    (h : j ≠ k) : nmGet (Assoc.set m k it) j = nmGet m j := by
  rw [nmGet, Assoc.get?_set_ne _ _ _ _ h, nmGet]

theorem nmGet_filter_ne (m : NodeMap) (k j : SplitString) (h : j ≠ k) :
    nmGet (m.filter (fun p => decide (¬ p.1 = k))) j = nmGet m j := by
  rw [nmGet, Assoc.get?_filter_ne _ _ _ h, nmGet]

/-- The standing relationship between the remaining node set, a per-node
data description, the queue, and the node map. -/
structure Core (ns : List SplitString) (D : SplitString → Data)
    (s : MQ.MultiQueue Data View × NodeMap) : Prop where
  liveNodup : s.1.live.Nodup
  liveLen : s.1.live.length = ns.length
  liveBound : ∀ i ∈ s.1.live, i < s.1.nextId
  qsBound : ∀ k : View, ∀ x ∈ s.1.qs k, x.id < s.1.nextId
  qsNodup : ∀ k : View, ((s.1.qs k).map (·.id)).Nodup
  itemLive : ∀ v ∈ ns, (nmGet s.2 v).id ∈ s.1.live
  itemData : ∀ v ∈ ns, (nmGet s.2 v).data = D v
  itemMem : ∀ k : View, ∀ v ∈ ns, nmGet s.2 v ∈ s.1.qs k
  idInj : ∀ v ∈ ns, ∀ w ∈ ns, (nmGet s.2 v).id = (nmGet s.2 w).id → v = w
  liveCover : ∀ i ∈ s.1.live, ∃ v ∈ ns, (nmGet s.2 v).id = i
  qsHeap : PQ.HeapInv leOut (s.1.qs View.outW)

theorem core_congr {ns : List SplitString} {D D2 : SplitString → Data}
    {s : MQ.MultiQueue Data View × NodeMap} (hc : Core ns D s)
    (h : ∀ v ∈ ns, D v = D2 v) : Core ns D2 s :=
  ⟨hc.liveNodup, hc.liveLen, hc.liveBound, hc.qsBound, hc.qsNodup, hc.itemLive,
    fun v hv => (hc.itemData v hv).trans (h v hv), hc.itemMem, hc.idInj,
    hc.liveCover, hc.qsHeap⟩

theorem resubmit_core {ns : List SplitString} {D : SplitString → Data}
    {s : MQ.MultiQueue Data View × NodeMap} (v : SplitString) (nd : Data)
    (hv : v ∈ ns) (hc : Core ns D s) :
    Core ns (fun x => if x = v then nd else D x)
      ((MQ.push keyList cmps (MQ.delete s.1 (nmGet s.2 v).id) nd).2,
        Assoc.set s.2 v
          (MQ.push keyList cmps (MQ.delete s.1 (nmGet s.2 v).id) nd).1) := by
  have holdlive : (nmGet s.2 v).id ∈ s.1.live := hc.itemLive v hv
  have hdel_live : (MQ.delete s.1 (nmGet s.2 v).id).live
      = s.1.live.erase (nmGet s.2 v).id := rfl
  have hdel_next : (MQ.delete s.1 (nmGet s.2 v).id).nextId = s.1.nextId := rfl
  have hdel_qs : ∀ k, (MQ.delete s.1 (nmGet s.2 v).id).qs k = s.1.qs k :=
    fun _ => rfl
  have hfresh : s.1.nextId ∉ (s.1.live.erase (nmGet s.2 v).id) := by
    intro hmem
    have := hc.liveBound _ (List.mem_of_mem_erase hmem)
    omega
  have hlive2 : (MQ.push keyList cmps (MQ.delete s.1 (nmGet s.2 v).id) nd).2.live
      = s.1.live.erase (nmGet s.2 v).id ++ [s.1.nextId] := by
    rw [push_live _ _ (by rw [hdel_live, hdel_next]; exact hfresh), hdel_live,
      hdel_next]
  have hnext2 : (MQ.push keyList cmps (MQ.delete s.1 (nmGet s.2 v).id) nd).2.nextId
      = s.1.nextId + 1 := by
    rw [push_nextId, hdel_next]
  have hqs2 : ∀ k, (MQ.push keyList cmps (MQ.delete s.1 (nmGet s.2 v).id) nd).2.qs k
      = PQ.push (MQ.itemCmp (cmps k)) (s.1.qs k) ⟨s.1.nextId, nd⟩ := by
    intro k
    rw [push_qs, hdel_qs, hdel_next]
  have hqs2perm : ∀ k,
      ((MQ.push keyList cmps (MQ.delete s.1 (nmGet s.2 v).id) nd).2.qs k).Perm
        (s.1.qs k ++ [⟨s.1.nextId, nd⟩]) := by
    intro k
    rw [hqs2]
    exact PQ.push_perm _ _ _
  have hitem : (MQ.push keyList cmps (MQ.delete s.1 (nmGet s.2 v).id) nd).1
      = ⟨s.1.nextId, nd⟩ := by
    rw [push_item, hdel_next]
  have hget_self : nmGet (Assoc.set s.2 v
      (MQ.push keyList cmps (MQ.delete s.1 (nmGet s.2 v).id) nd).1) v
      = ⟨s.1.nextId, nd⟩ := by
    rw [nmGet_set_self, hitem]
  have hget_ne : ∀ x, x ≠ v → nmGet (Assoc.set s.2 v
      (MQ.push keyList cmps (MQ.delete s.1 (nmGet s.2 v).id) nd).1) x
      = nmGet s.2 x := by
    intro x hx
    rw [nmGet_set_ne _ _ _ _ hx]
  refine ⟨?_, ?_, ?_, ?_, ?_, ?_, ?_, ?_, ?_, ?_, ?_⟩
  · rw [hlive2]
    refine List.Nodup.append (hc.liveNodup.erase _) (List.nodup_singleton _) ?_
    intro x hx hx2
    rw [List.mem_singleton] at hx2
    exact hfresh (hx2 ▸ hx)
  · rw [hlive2, List.length_append, List.length_singleton,
      List.length_erase_of_mem holdlive, hc.liveLen]
    have : 0 < ns.length := List.length_pos_of_mem hv
    have h2 : 0 < s.1.live.length := List.length_pos_of_mem holdlive
    rw [hc.liveLen] at h2
    omega
  · intro i hi
    rw [hlive2] at hi
    rw [hnext2]
    rcases List.mem_append.mp hi with h | h
    · have := hc.liveBound _ (List.mem_of_mem_erase h)
      omega
    · rw [List.mem_singleton] at h
      omega
  · intro k x hx
    have hx2 := (hqs2perm k).subset hx
    rw [hnext2]
    rcases List.mem_append.mp hx2 with h | h
    · have := hc.qsBound k _ h
      omega
    · rw [List.mem_singleton] at h
      rw [h]
      show s.1.nextId < s.1.nextId + 1
      omega
  · intro k
    have hperm := (hqs2perm k).map (·.id)
    refine (List.Perm.nodup_iff hperm).mpr ?_
    rw [List.map_append]
    refine List.Nodup.append (hc.qsNodup k) (by simp) ?_
    intro x hx hx2
    simp only [List.map_cons, List.map_nil, List.mem_singleton] at hx2
    rcases List.mem_map.mp hx with ⟨y, hy, hyx⟩
    have := hc.qsBound k _ hy
    omega
  · intro x hx
    rw [hlive2]
    by_cases hxv : x = v
    · subst hxv
      rw [hget_self]
      exact List.mem_append_right _ (List.mem_singleton.mpr rfl)
    · rw [hget_ne x hxv]
      refine List.mem_append_left _ ?_
      refine (List.mem_erase_of_ne ?_).2 (hc.itemLive x hx)
      intro hceq
      exact hxv (hc.idInj x hx v hv hceq)
  · intro x hx
    by_cases hxv : x = v
    · subst hxv
      rw [hget_self, if_pos rfl]
    · rw [hget_ne x hxv, if_neg hxv]
      exact hc.itemData x hx
  · intro k x hx
    by_cases hxv : x = v
    · subst hxv
      rw [hget_self]
      exact (hqs2perm k).symm.subset
        (List.mem_append_right _ (List.mem_singleton.mpr rfl))
    · rw [hget_ne x hxv]
      exact (hqs2perm k).symm.subset (List.mem_append_left _ (hc.itemMem k x hx))
  · intro x hx y hy
    by_cases hxv : x = v
    · by_cases hyv : y = v
      · intro _
        rw [hxv, hyv]
      · rw [hxv, hget_self, hget_ne y hyv]
        intro hid
        have hid2 : s.1.nextId = (nmGet s.2 y).id := hid
        have hb := hc.liveBound _ (hc.itemLive y hy)
        omega
    · by_cases hyv : y = v
      · rw [hyv, hget_self, hget_ne x hxv]
        intro hid
        have hid2 : (nmGet s.2 x).id = s.1.nextId := hid
        have hb := hc.liveBound _ (hc.itemLive x hx)
        omega
      · rw [hget_ne x hxv, hget_ne y hyv]
        exact hc.idInj x hx y hy
  · intro i hi
    rw [hlive2] at hi
    rcases List.mem_append.mp hi with h | h
    · have hlv := List.mem_of_mem_erase h
      obtain ⟨x, hx, hxid⟩ := hc.liveCover i hlv
      have hine : i ≠ (nmGet s.2 v).id :=
        ((List.Nodup.mem_erase_iff hc.liveNodup).mp h).1
      have hxv : x ≠ v := by
        intro hceq
        exact hine (by rw [← hxid, hceq])
      exact ⟨x, hx, by rw [hget_ne x hxv]; exact hxid⟩
    · rw [List.mem_singleton] at h
      exact ⟨v, hv, by rw [hget_self, h]⟩
  · rw [hqs2 View.outW]
    exact PQ.push_heapInv leOut_compat leOut_trans _ hc.qsHeap

end FAS

namespace FAS

theorem rnOutFold_core :
    ∀ (m : List (SplitString × Int)), (m.map (·.1)).Nodup →
    ∀ (ns : List SplitString) (A B : SplitString → Data)
      (s : MQ.MultiQueue Data View × NodeMap),
      (∀ p ∈ m, p.1 ∈ ns → B p.1 = ⟨p.1, (A p.1).outW, (A p.1).inW - p.2⟩) →
      Core ns (fun x => if x ∈ m.map (·.1) then A x else B x) s →
      Core ns B (m.foldl (rnOut ns) s) := by
  intro m
  induction m with
  | nil =>
    intro _ ns A B s _ hc
    rw [List.foldl_nil]
    exact core_congr hc (fun v _ => by rw [if_neg (by simp)])
  | cons p t ih =>
    intro hnd ns A B s hAB hc
    rw [List.map_cons, List.nodup_cons] at hnd
    rw [List.foldl_cons]
    by_cases hp : p.1 ∈ ns
    · have hstep : rnOut ns s p
          = ((MQ.push keyList cmps (MQ.delete s.1 (nmGet s.2 p.1).id)
                ⟨p.1, (nmGet s.2 p.1).data.outW, (nmGet s.2 p.1).data.inW - p.2⟩).2,
             Assoc.set s.2 p.1
               (MQ.push keyList cmps (MQ.delete s.1 (nmGet s.2 p.1).id)
                 ⟨p.1, (nmGet s.2 p.1).data.outW,
                   (nmGet s.2 p.1).data.inW - p.2⟩).1) := by
        rw [rnOut, if_pos hp]
      rw [hstep]
      have hres := resubmit_core p.1
        (⟨p.1, (nmGet s.2 p.1).data.outW, (nmGet s.2 p.1).data.inW - p.2⟩ : Data)
        hp hc
      refine ih hnd.2 ns A B _
        (fun q hq hq2 => hAB q (List.mem_cons_of_mem p hq) hq2)
        (core_congr hres ?_)
      intro v hv
      by_cases hvp : v = p.1
      · rw [if_pos hvp, hvp, if_neg hnd.1]
        have hdata : (nmGet s.2 p.1).data = A p.1 := by
          have h2 := hc.itemData p.1 hp
          rwa [if_pos (by rw [List.map_cons]; exact List.mem_cons_self _ _)] at h2
        rw [hAB p (List.mem_cons_self p t) hp, hdata]
      · rw [if_neg hvp]
        by_cases hvt : v ∈ t.map (·.1)
        · rw [if_pos (by rw [List.map_cons]; exact List.mem_cons_of_mem _ hvt),
            if_pos hvt]
        · rw [if_neg ?_, if_neg hvt]
          rw [List.map_cons]
          intro hcmem
          rcases List.mem_cons.mp hcmem with h | h
          · exact hvp h
          · exact hvt h
    · have hstep : rnOut ns s p = s := by
        rw [rnOut, if_neg hp]
      rw [hstep]
      refine ih hnd.2 ns A B s
        (fun q hq hq2 => hAB q (List.mem_cons_of_mem p hq) hq2)
        (core_congr hc ?_)
      intro v hv
      have hvp : v ≠ p.1 := fun hc2 => hp (hc2 ▸ hv)
      by_cases hvt : v ∈ t.map (·.1)
      · rw [if_pos (by rw [List.map_cons]; exact List.mem_cons_of_mem _ hvt),
          if_pos hvt]
      · rw [if_neg ?_, if_neg hvt]
        rw [List.map_cons]
        intro hcmem
        rcases List.mem_cons.mp hcmem with h | h
        · exact hvp h
        · exact hvt h

theorem rnInFold_core :
    ∀ (m : List (SplitString × Int)), (m.map (·.1)).Nodup →
    ∀ (ns : List SplitString) (A B : SplitString → Data)
      (s : MQ.MultiQueue Data View × NodeMap),
      (∀ p ∈ m, p.1 ∈ ns → B p.1 = ⟨p.1, (A p.1).outW - p.2, (A p.1).inW⟩) →
      Core ns (fun x => if x ∈ m.map (·.1) then A x else B x) s →
      Core ns B (m.foldl (rnIn ns) s) := by
  intro m
  induction m with
  | nil =>
    intro _ ns A B s _ hc
    rw [List.foldl_nil]
    exact core_congr hc (fun v _ => by rw [if_neg (by simp)])
  | cons p t ih =>
    intro hnd ns A B s hAB hc
    rw [List.map_cons, List.nodup_cons] at hnd
    rw [List.foldl_cons]
    by_cases hp : p.1 ∈ ns
    · have hstep : rnIn ns s p
          = ((MQ.push keyList cmps (MQ.delete s.1 (nmGet s.2 p.1).id)
                ⟨p.1, (nmGet s.2 p.1).data.outW - p.2, (nmGet s.2 p.1).data.inW⟩).2,
             Assoc.set s.2 p.1
               (MQ.push keyList cmps (MQ.delete s.1 (nmGet s.2 p.1).id)
                 ⟨p.1, (nmGet s.2 p.1).data.outW - p.2,
                   (nmGet s.2 p.1).data.inW⟩).1) := by
        rw [rnIn, if_pos hp]
      rw [hstep]
      have hres := resubmit_core p.1
        (⟨p.1, (nmGet s.2 p.1).data.outW - p.2, (nmGet s.2 p.1).data.inW⟩ : Data)
        hp hc
      refine ih hnd.2 ns A B _
        (fun q hq hq2 => hAB q (List.mem_cons_of_mem p hq) hq2)
        (core_congr hres ?_)
      intro v hv
      by_cases hvp : v = p.1
      · rw [if_pos hvp, hvp, if_neg hnd.1]
        have hdata : (nmGet s.2 p.1).data = A p.1 := by
          have h2 := hc.itemData p.1 hp
          rwa [if_pos (by rw [List.map_cons]; exact List.mem_cons_self _ _)] at h2
        rw [hAB p (List.mem_cons_self p t) hp, hdata]
      · rw [if_neg hvp]
        by_cases hvt : v ∈ t.map (·.1)
        · rw [if_pos (by rw [List.map_cons]; exact List.mem_cons_of_mem _ hvt),
            if_pos hvt]
        · rw [if_neg ?_, if_neg hvt]
          rw [List.map_cons]
          intro hcmem
          rcases List.mem_cons.mp hcmem with h | h
          · exact hvp h
          · exact hvt h
    · have hstep : rnIn ns s p = s := by
        rw [rnIn, if_neg hp]
      rw [hstep]
      refine ih hnd.2 ns A B s
        (fun q hq hq2 => hAB q (List.mem_cons_of_mem p hq) hq2)
        (core_congr hc ?_)
      intro v hv
      have hvp : v ≠ p.1 := fun hc2 => hp (hc2 ▸ hv)
      by_cases hvt : v ∈ t.map (·.1)
      · rw [if_pos (by rw [List.map_cons]; exact List.mem_cons_of_mem _ hvt),
          if_pos hvt]
      · rw [if_neg ?_, if_neg hvt]
        rw [List.map_cons]
        intro hcmem
        rcases List.mem_cons.mp hcmem with h | h
        · exact hvp h
        · exact hvt h

theorem core_filter_node {ns : List SplitString} {D : SplitString → Data}
    {s : MQ.MultiQueue Data View × NodeMap} (node : SplitString)
    (h : ∀ v ∈ ns, v ≠ node) (hc : Core ns D s) :
    Core ns D (s.1, s.2.filter (fun p => decide (¬ p.1 = node))) := by
  refine ⟨hc.liveNodup, hc.liveLen, hc.liveBound, hc.qsBound, hc.qsNodup,
    ?_, ?_, ?_, ?_, ?_, hc.qsHeap⟩
  · intro v hv
    rw [nmGet_filter_ne _ _ _ (h v hv)]
    exact hc.itemLive v hv
  · intro v hv
    rw [nmGet_filter_ne _ _ _ (h v hv)]
    exact hc.itemData v hv
  · intro k v hv
    rw [nmGet_filter_ne _ _ _ (h v hv)]
    exact hc.itemMem k v hv
  · intro v hv w hw
    rw [nmGet_filter_ne _ _ _ (h v hv), nmGet_filter_ne _ _ _ (h w hw)]
    exact hc.idInj v hv w hw
  · intro i hi
    obtain ⟨v, hv, hvid⟩ := hc.liveCover i hi
    exact ⟨v, hv, by rw [nmGet_filter_ne _ _ _ (h v hv)]; exact hvid⟩

theorem removeNode_core (edges : List E3) (node : SplitString) (st : St)
    (hnd : st.ns.Nodup) (hnode : node ∈ st.ns)
    (hc : Core (st.ns.erase node)
      (fun v => ⟨v, remOut edges st.ns v, remIn edges st.ns v⟩)
      (st.mq, st.nodeMap)) :
    Core (st.ns.erase node)
      (fun v => ⟨v, remOut edges (st.ns.erase node) v,
        remIn edges (st.ns.erase node) v⟩)
      ((removeNode edges node st).mq, (removeNode edges node st).nodeMap) := by
  have hget_out_in : ∀ v : SplitString,
      Assoc.get? (inAdj edges v) node = Assoc.get? (outAdj edges node) v :=
    fun v => (get?_outAdj_inAdj edges node v).symm
  have hget_in_out : ∀ v : SplitString,
      Assoc.get? (outAdj edges v) node = Assoc.get? (inAdj edges node) v :=
    fun v => get?_outAdj_inAdj edges v node
  have h1 : Core (st.ns.erase node)
      (fun v => ⟨v, remOut edges st.ns v, remIn edges (st.ns.erase node) v⟩)
      ((outAdj edges node).foldl (rnOut (st.ns.erase node)) (st.mq, st.nodeMap)) := by
    refine rnOutFold_core (outAdj edges node) (outAdj_keys_nodup edges node)
      (st.ns.erase node)
      (fun v => ⟨v, remOut edges st.ns v, remIn edges st.ns v⟩)
      (fun v => ⟨v, remOut edges st.ns v, remIn edges (st.ns.erase node) v⟩)
      (st.mq, st.nodeMap) ?_ (core_congr hc ?_)
    · intro p hp hpns
      have hg : Assoc.get? (outAdj edges node) p.1 = some p.2 := by
        rw [Assoc.get?, Assoc.find?_entry_of_mem_nodup (outAdj edges node)
          (outAdj_keys_nodup edges node) p hp]
        rfl
      have heq : remIn edges (st.ns.erase node) p.1
          = remIn edges st.ns p.1 - p.2 := by
        have h2 := remIn_erase edges st.ns hnd node p.1 hnode
        rw [hget_out_in p.1, hg] at h2
        rw [h2]
        show remIn edges (st.ns.erase node) p.1
          = remIn edges (st.ns.erase node) p.1 + p.2 - p.2
        omega
      exact congrArg (Data.mk p.1 (remOut edges st.ns p.1)) heq
    · intro v hv
      by_cases hvk : v ∈ (outAdj edges node).map (·.1)
      · rw [if_pos hvk]
      · rw [if_neg hvk]
        have hg : Assoc.get? (outAdj edges node) v = none :=
          Assoc.get?_of_not_mem _ _ hvk
        have h2 := remIn_erase edges st.ns hnd node v hnode
        rw [hget_out_in v, hg] at h2
        have heq : remIn edges st.ns v = remIn edges (st.ns.erase node) v := by
          rw [h2]
          show remIn edges (st.ns.erase node) v + (0 : Int)
            = remIn edges (st.ns.erase node) v
          omega
        exact congrArg (Data.mk v (remOut edges st.ns v)) heq
  have h2 : Core (st.ns.erase node)
      (fun v => ⟨v, remOut edges (st.ns.erase node) v,
        remIn edges (st.ns.erase node) v⟩)
      ((inAdj edges node).foldl (rnIn (st.ns.erase node))
        ((outAdj edges node).foldl (rnOut (st.ns.erase node))
          (st.mq, st.nodeMap))) := by
    refine rnInFold_core (inAdj edges node) (inAdj_keys_nodup edges node)
      (st.ns.erase node)
      (fun v => ⟨v, remOut edges st.ns v, remIn edges (st.ns.erase node) v⟩)
      (fun v => ⟨v, remOut edges (st.ns.erase node) v,
        remIn edges (st.ns.erase node) v⟩)
      _ ?_ (core_congr h1 ?_)
    · intro p hp hpns
      have hg : Assoc.get? (inAdj edges node) p.1 = some p.2 := by
        rw [Assoc.get?, Assoc.find?_entry_of_mem_nodup (inAdj edges node)
          (inAdj_keys_nodup edges node) p hp]
        rfl
      have heq : remOut edges (st.ns.erase node) p.1
          = remOut edges st.ns p.1 - p.2 := by
        have h3 := remOut_erase edges st.ns hnd node p.1 hnode
        rw [hget_in_out p.1, hg] at h3
        rw [h3]
        show remOut edges (st.ns.erase node) p.1
          = remOut edges (st.ns.erase node) p.1 + p.2 - p.2
        omega
      have hmk : (⟨p.1, remOut edges (st.ns.erase node) p.1,
          remIn edges (st.ns.erase node) p.1⟩ : Data)
          = ⟨p.1, remOut edges st.ns p.1 - p.2,
            remIn edges (st.ns.erase node) p.1⟩ := by
        rw [heq]
      exact hmk
    · intro v hv
      by_cases hvk : v ∈ (inAdj edges node).map (·.1)
      · rw [if_pos hvk]
      · rw [if_neg hvk]
        have hg : Assoc.get? (inAdj edges node) v = none :=
          Assoc.get?_of_not_mem _ _ hvk
        have h3 := remOut_erase edges st.ns hnd node v hnode
        rw [hget_in_out v, hg] at h3
        have heq : remOut edges st.ns v = remOut edges (st.ns.erase node) v := by
          rw [h3]
          show remOut edges (st.ns.erase node) v + (0 : Int)
            = remOut edges (st.ns.erase node) v
          omega
        rw [heq]
  have hne : ∀ v ∈ st.ns.erase node, v ≠ node :=
    fun v hv => ((List.Nodup.mem_erase_iff hnd).mp hv).1
  exact core_filter_node node hne h2

end FAS

namespace MQ

theorem popLoop_of_head_live {α : Type} [Inhabited α] (cmp : PQ.Comparator (Item α))
    (q : List (Item α)) (live : List Nat) (it : Item α)
    (hpk : PQ.peek q = some it) (hl : it.id ∈ live) :
    popLoop cmp q.length q live = (some it, (PQ.pop cmp q).2, live.erase it.id) := by
  have hcons := peek_eq_cons hpk
  rw [hcons]
  show popLoop cmp (q.tail.length + 1) (it :: q.tail) live = _
  have hpk2 : PQ.peek (it :: q.tail) = some it := rfl
  simp only [popLoop, hpk2]
  rw [if_pos hl]

theorem popLoop_subperm {α : Type} [Inhabited α] (cmp : PQ.Comparator (Item α)) :
    ∀ (fuel : Nat) (q : List (Item α)) (live : List Nat),
      ∃ rem, q.Perm (rem ++ (popLoop cmp fuel q live).2.1) := by
  intro fuel
  induction fuel with
  | zero => intro q live; exact ⟨[], by simp [popLoop]⟩
  | succ fuel ih =>
    intro q live
    rcases hq : PQ.peek q with _ | top
    · exact ⟨[], by simp [popLoop, hq]⟩
    · have hq1 : q.Perm (top :: (PQ.pop cmp q).2) := by
        have hq1a : q.Perm (top :: q.tail) := by rw [← peek_eq_cons hq]
        exact hq1a.trans ((pop_tail_perm cmp hq).symm.cons top)
      simp only [popLoop, hq]
      by_cases hl : top.id ∈ live
      · rw [if_pos hl]
        exact ⟨[top], hq1⟩
      · rw [if_neg hl]
        obtain ⟨rem, hrem⟩ := ih (PQ.pop cmp q).2 live
        exact ⟨top :: rem, hq1.trans (hrem.cons top)⟩

end MQ

namespace FAS

theorem map_nodup_inj {α β : Type} (f : α → β) (l : List α)
    (hnd : (l.map f).Nodup) :
    ∀ a ∈ l, ∀ b ∈ l, f a = f b → a = b := by
  induction l with
  | nil => intro a ha; exact absurd ha (List.not_mem_nil a)
  | cons x t ih =>
    rw [List.map_cons, List.nodup_cons] at hnd
    intro a ha b hb hf
    rcases List.mem_cons.mp ha with rfl | hat
    · rcases List.mem_cons.mp hb with rfl | hbt
      · rfl
      · exact absurd (hf ▸ List.mem_map.mpr ⟨b, hbt, rfl⟩) hnd.1
    · rcases List.mem_cons.mp hb with rfl | hbt
      · exact absurd (hf ▸ List.mem_map.mpr ⟨a, hat, rfl⟩) hnd.1
      · exact ih hnd.2 a hat b hbt hf

/-- The data maintained by the whole loop state. -/
structure Inv (edges : List E3) (st : St) : Prop where
  nsNodup : st.ns.Nodup
  nsSub : ∀ u ∈ st.ns, u ∈ nodesOf edges
  core : Core st.ns
    (fun v => ⟨v, remOut edges st.ns v, remIn edges st.ns v⟩)
    (st.mq, st.nodeMap)
  ordDom : ∀ p ∈ st.ord, (0 ≤ p.1 ∧ p.1 < st.left)
    ∨ (st.right < p.1 ∧ p.1 < ((nodesOf edges).length : Int))
  ordKeyNodup : (st.ord.map (·.1)).Nodup
  ordCover : ∀ i : Int, ((0 ≤ i ∧ i < st.left)
    ∨ (st.right < i ∧ i < ((nodesOf edges).length : Int))) → ∃ p ∈ st.ord, p.1 = i
  ordPerm : ((st.ord.map (·.2)) ++ st.ns).Perm (nodesOf edges)
  leftRight : st.left ≤ st.right + 1
  leftNonneg : 0 ≤ st.left
  rightLt : st.right < ((nodesOf edges).length : Int)
  ordLen : (st.ord.length : Int) = st.left + (((nodesOf edges).length : Int) - 1 - st.right)

theorem inv_counts (edges : List E3) (st : St) (hinv : Inv edges st) :
    st.ord.length + st.ns.length = (nodesOf edges).length := by
  have h := hinv.ordPerm.length_eq
  rw [List.length_append, List.length_map] at h
  exact h

theorem inv_room (edges : List E3) (st : St) (hinv : Inv edges st)
    (hne : st.ns ≠ []) : st.left ≤ st.right := by
  have hcnt := inv_counts edges st hinv
  have hlen := hinv.ordLen
  have hpos : 0 < st.ns.length := List.length_pos_of_ne_nil hne
  have hlr := hinv.leftRight
  omega

theorem inv_length_iff (edges : List E3) (st : St) (hinv : Inv edges st) :
    MQ.length st.mq = 0 ↔ st.ns = [] := by
  rw [MQ.length, hinv.core.liveLen, List.length_eq_zero]

theorem peekSt_proj (st : St) (k : View) :
    (peekSt st k).2.ns = st.ns ∧ (peekSt st k).2.nodeMap = st.nodeMap ∧
    (peekSt st k).2.ord = st.ord ∧ (peekSt st k).2.left = st.left ∧
    (peekSt st k).2.right = st.right :=
  ⟨rfl, rfl, rfl, rfl, rfl⟩

theorem peekSt_some_spec (edges : List E3) (st : St) (k : View)
    (it : MQ.Item Data) (hinv : Inv edges st)
    (hpk : (peekSt st k).1 = some it) :
    Inv edges (peekSt st k).2
    ∧ PQ.peek ((peekSt st k).2.mq.qs k) = some it
    ∧ it.id ∈ (peekSt st k).2.mq.live
    ∧ (peekSt st k).2.mq.live = st.mq.live := by
  have hfun : (peekSt st k).1
      = (MQ.peekLoop (MQ.itemCmp (cmps k)) (st.mq.qs k).length (st.mq.qs k)
          st.mq.live).1 := rfl
  rw [hfun] at hpk
  obtain ⟨dead, hdead, hperm, hhead, hlive⟩ :=
    MQ.peekLoop_spec (MQ.itemCmp (cmps k)) _ _ _ _ hpk
  have hq2 : (peekSt st k).2.mq.qs k
      = (MQ.peekLoop (MQ.itemCmp (cmps k)) (st.mq.qs k).length (st.mq.qs k)
          st.mq.live).2 := by
    show (if k = k then _ else st.mq.qs k) = _
    rw [if_pos rfl]
  have hqne : ∀ k2, k2 ≠ k → (peekSt st k).2.mq.qs k2 = st.mq.qs k2 := by
    intro k2 hk2
    show (if k2 = k then _ else st.mq.qs k2) = _
    rw [if_neg hk2]
  have hlv : (peekSt st k).2.mq.live = st.mq.live := rfl
  have hni : (peekSt st k).2.mq.nextId = st.mq.nextId := rfl
  have hmemq : ∀ x ∈ (peekSt st k).2.mq.qs k, x ∈ st.mq.qs k := by
    intro x hx
    rw [hq2] at hx
    exact hperm.symm.subset (List.mem_append_right _ hx)
  have hlivemem : ∀ x ∈ st.mq.qs k, x.id ∈ st.mq.live →
      x ∈ (peekSt st k).2.mq.qs k := by
    intro x hx hxl
    rw [hq2]
    rcases List.mem_append.mp (hperm.subset hx) with h | h
    · exact absurd hxl (hdead x h)
    · exact h
  have hcore := hinv.core
  refine ⟨⟨hinv.nsNodup, hinv.nsSub, ⟨?_, ?_, ?_, ?_, ?_, ?_, ?_, ?_, ?_, ?_, ?_⟩,
      hinv.ordDom, hinv.ordKeyNodup, hinv.ordCover, hinv.ordPerm,
      hinv.leftRight, hinv.leftNonneg, hinv.rightLt, hinv.ordLen⟩,
    by rw [hq2]; exact hhead, by rw [hlv]; exact hlive, hlv⟩
  · rw [hlv]; exact hcore.liveNodup
  · rw [hlv]; exact hcore.liveLen
  · rw [hlv, hni]; exact hcore.liveBound
  · intro k2 x hx
    rw [hni]
    by_cases hk2 : k2 = k
    · subst hk2
      exact hcore.qsBound k2 x (hmemq x hx)
    · rw [hqne k2 hk2] at hx
      exact hcore.qsBound k2 x hx
  · intro k2
    by_cases hk2 : k2 = k
    · subst hk2
      rw [hq2]
      have hmap := hperm.map (·.id)
      have hnd := (List.Perm.nodup_iff hmap).mp (hcore.qsNodup k2)
      rw [List.map_append] at hnd
      exact List.Nodup.of_append_right hnd
    · rw [hqne k2 hk2]
      exact hcore.qsNodup k2
  · intro v hv
    rw [hlv]
    exact hcore.itemLive v hv
  · exact hcore.itemData
  · intro k2 v hv
    by_cases hk2 : k2 = k
    · subst hk2
      exact hlivemem _ (hcore.itemMem k2 v hv) (hcore.itemLive v hv)
    · rw [hqne k2 hk2]
      exact hcore.itemMem k2 v hv
  · exact hcore.idInj
  · intro i hi
    rw [hlv] at hi
    exact hcore.liveCover i hi
  · by_cases hk2 : k = View.outW
    · subst hk2
      rw [hq2]
      exact MQ.peekLoop_heapInv leOut_compat leOut_trans _ _ _ hcore.qsHeap
    · rw [hqne View.outW (fun hc => hk2 hc.symm)]
      exact hcore.qsHeap

theorem peekSt_ne_none (edges : List E3) (st : St) (k : View)
    (hinv : Inv edges st) (hlen : MQ.length st.mq ≠ 0) :
    (peekSt st k).1 ≠ none := by
  intro hnone
  have hfun : (peekSt st k).1
      = (MQ.peekLoop (MQ.itemCmp (cmps k)) (st.mq.qs k).length (st.mq.qs k)
          st.mq.live).1 := rfl
  rw [hfun] at hnone
  have hdead := MQ.peekLoop_all_dead (MQ.itemCmp (cmps k)) _ _ _ hnone le_rfl
  have hlive_ne : st.mq.live ≠ [] := by
    intro hc
    exact hlen (by rw [MQ.length, hc]; rfl)
  obtain ⟨i, hi⟩ := List.exists_mem_of_ne_nil _ hlive_ne
  obtain ⟨u, hu, huid⟩ := hinv.core.liveCover i hi
  have hmem := hinv.core.itemMem k u hu
  have hl := hinv.core.itemLive u hu
  exact hdead _ hmem hl

theorem peek_min (edges : List E3) (st : St) (it : MQ.Item Data)
    (hinv : Inv edges st)
    (hhead : PQ.peek (st.mq.qs View.outW) = some it) :
    ∀ v ∈ st.ns, it.data.outW ≤ (nmGet st.nodeMap v).data.outW := by
  intro v hv
  have hcons := MQ.peek_eq_cons hhead
  have hmem := hinv.core.itemMem View.outW v hv
  rw [hcons] at hmem
  have hle := PQ.heapInv_head_min leOut_compat leOut_trans
    (by rw [← hcons]; exact hinv.core.qsHeap) _ hmem
  exact hle

end FAS

namespace FAS

theorem popSt_proj (st : St) (k : View) :
    (popSt st k).2.ns = st.ns ∧ (popSt st k).2.nodeMap = st.nodeMap ∧
    (popSt st k).2.ord = st.ord ∧ (popSt st k).2.left = st.left ∧
    (popSt st k).2.right = st.right :=
  ⟨rfl, rfl, rfl, rfl, rfl⟩

theorem popSt_core (edges : List E3) (st : St) (k : View) (it : MQ.Item Data)
    (hinv : Inv edges st) (hpop : (popSt st k).1 = some it) :
    ∃ u ∈ st.ns, it = nmGet st.nodeMap u ∧
      Core (st.ns.erase u)
        (fun v => ⟨v, remOut edges st.ns v, remIn edges st.ns v⟩)
        ((popSt st k).2.mq, (popSt st k).2.nodeMap) := by
  have hfun : (popSt st k).1
      = (MQ.popLoop (MQ.itemCmp (cmps k)) (st.mq.qs k).length (st.mq.qs k)
          st.mq.live).1 := rfl
  rw [hfun] at hpop
  obtain ⟨dead, hdead, hperm, hitlive, herase⟩ :=
    MQ.popLoop_perm (MQ.itemCmp (cmps k)) _ _ _ _ hpop
  have hcore := hinv.core
  obtain ⟨u, hu, huid⟩ := hcore.liveCover it.id hitlive
  have hitq : it ∈ st.mq.qs k :=
    hperm.symm.subset (List.mem_append_right _ (List.mem_cons_self _ _))
  have hitem : it = nmGet st.nodeMap u := by
    refine map_nodup_inj (·.id) _ (hcore.qsNodup k) it hitq _
      (hcore.itemMem k u hu) ?_
    exact huid.symm
  have hlv : (popSt st k).2.mq.live
      = (MQ.popLoop (MQ.itemCmp (cmps k)) (st.mq.qs k).length (st.mq.qs k)
          st.mq.live).2.2 := rfl
  have hni : (popSt st k).2.mq.nextId = st.mq.nextId := rfl
  have hq2 : (popSt st k).2.mq.qs k
      = (MQ.popLoop (MQ.itemCmp (cmps k)) (st.mq.qs k).length (st.mq.qs k)
          st.mq.live).2.1 := by
    show (if k = k then _ else st.mq.qs k) = _
    rw [if_pos rfl]
  have hqne : ∀ k2, k2 ≠ k → (popSt st k).2.mq.qs k2 = st.mq.qs k2 := by
    intro k2 hk2
    show (if k2 = k then _ else st.mq.qs k2) = _
    rw [if_neg hk2]
  have hlv2 : (popSt st k).2.mq.live = st.mq.live.erase it.id := by
    rw [hlv, herase]
  have hsub : ∀ x ∈ (popSt st k).2.mq.qs k, x ∈ st.mq.qs k := by
    intro x hx
    rw [hq2] at hx
    exact hperm.symm.subset
      (List.mem_append_right _ (List.mem_cons_of_mem _ hx))
  have hnm : (popSt st k).2.nodeMap = st.nodeMap := rfl
  refine ⟨u, hu, hitem, ?_⟩
  rw [hnm]
  have hne_of_mem : ∀ v ∈ st.ns.erase u, v ≠ u :=
    fun v hv => ((List.Nodup.mem_erase_iff hinv.nsNodup).mp hv).1
  have hid_ne : ∀ v ∈ st.ns.erase u, (nmGet st.nodeMap v).id ≠ it.id := by
    intro v hv hc
    have hveq := hcore.idInj v (List.mem_of_mem_erase hv) u hu (by rw [hc, huid])
    exact hne_of_mem v hv hveq
  refine ⟨?_, ?_, ?_, ?_, ?_, ?_, ?_, ?_, ?_, ?_, ?_⟩
  · rw [hlv2]
    exact hcore.liveNodup.erase _
  · rw [hlv2, List.length_erase_of_mem hitlive, hcore.liveLen,
      List.length_erase_of_mem hu]
  · intro i hi
    rw [hlv2] at hi
    rw [hni]
    exact hcore.liveBound i (List.mem_of_mem_erase hi)
  · intro k2 x hx
    rw [hni]
    by_cases hk2 : k2 = k
    · subst hk2
      exact hcore.qsBound k2 x (hsub x hx)
    · rw [hqne k2 hk2] at hx
      exact hcore.qsBound k2 x hx
  · intro k2
    by_cases hk2 : k2 = k
    · subst hk2
      rw [hq2]
      have hmap := hperm.map (·.id)
      have hnd := (List.Perm.nodup_iff hmap).mp (hcore.qsNodup k2)
      rw [List.map_append, List.map_cons] at hnd
      exact (List.Nodup.of_append_right hnd).of_cons
    · rw [hqne k2 hk2]
      exact hcore.qsNodup k2
  · intro v hv
    rw [hlv2]
    refine (List.mem_erase_of_ne (hid_ne v hv)).2 ?_
    exact hcore.itemLive v (List.mem_of_mem_erase hv)
  · intro v hv
    exact hcore.itemData v (List.mem_of_mem_erase hv)
  · intro k2 v hv
    by_cases hk2 : k2 = k
    · subst hk2
      have hmem := hcore.itemMem k2 v (List.mem_of_mem_erase hv)
      rw [hq2]
      rcases List.mem_append.mp (hperm.subset hmem) with h | h
      · exact absurd (hcore.itemLive v (List.mem_of_mem_erase hv)) (hdead _ h)
      · rcases List.mem_cons.mp h with h2 | h2
        · exact absurd (by rw [h2] : (nmGet st.nodeMap v).id = it.id)
            (hid_ne v hv)
        · exact h2
    · rw [hqne k2 hk2]
      exact hcore.itemMem k2 v (List.mem_of_mem_erase hv)
  · intro v hv w hw
    exact hcore.idInj v (List.mem_of_mem_erase hv) w (List.mem_of_mem_erase hw)
  · intro i hi
    rw [hlv2] at hi
    obtain ⟨w, hw, hwid⟩ := hcore.liveCover i (List.mem_of_mem_erase hi)
    have hine : i ≠ it.id :=
      ((List.Nodup.mem_erase_iff hcore.liveNodup).mp hi).1
    have hwne : w ≠ u := by
      intro hc
      exact hine (by rw [← hwid, hc, huid])
    exact ⟨w, (List.mem_erase_of_ne hwne).2 hw, hwid⟩
  · by_cases hk2 : k = View.outW
    · subst hk2
      rw [hq2]
      exact MQ.popLoop_heapInv leOut_compat leOut_trans _ _ _ hcore.qsHeap
    · rw [hqne View.outW (fun hc => hk2 hc.symm)]
      exact hcore.qsHeap

theorem popSt_none_spec (edges : List E3) (st : St) (k : View)
    (hinv : Inv edges st) (hpop : (popSt st k).1 = none) :
    st.ns = [] ∧ Inv edges (popSt st k).2 := by
  have hfun : (popSt st k).1
      = (MQ.popLoop (MQ.itemCmp (cmps k)) (st.mq.qs k).length (st.mq.qs k)
          st.mq.live).1 := rfl
  rw [hfun] at hpop
  have hcore := hinv.core
  have hns : st.ns = [] := by
    rw [List.eq_nil_iff_forall_not_mem]
    intro u hu
    have hdead := MQ.popLoop_all_dead (MQ.itemCmp (cmps k)) _ _ _ hpop le_rfl
    exact hdead _ (hcore.itemMem k u hu) (hcore.itemLive u hu)
  have hlv : (popSt st k).2.mq.live = st.mq.live := by
    show (MQ.popLoop (MQ.itemCmp (cmps k)) (st.mq.qs k).length (st.mq.qs k)
        st.mq.live).2.2 = st.mq.live
    exact MQ.popLoop_none (MQ.itemCmp (cmps k)) _ _ _ hpop
  have hni : (popSt st k).2.mq.nextId = st.mq.nextId := rfl
  have hq2 : (popSt st k).2.mq.qs k
      = (MQ.popLoop (MQ.itemCmp (cmps k)) (st.mq.qs k).length (st.mq.qs k)
          st.mq.live).2.1 := by
    show (if k = k then _ else st.mq.qs k) = _
    rw [if_pos rfl]
  have hqne : ∀ k2, k2 ≠ k → (popSt st k).2.mq.qs k2 = st.mq.qs k2 := by
    intro k2 hk2
    show (if k2 = k then _ else st.mq.qs k2) = _
    rw [if_neg hk2]
  obtain ⟨rem, hrem⟩ := MQ.popLoop_subperm (MQ.itemCmp (cmps k))
    (st.mq.qs k).length (st.mq.qs k) st.mq.live
  have hsub : ∀ x ∈ (popSt st k).2.mq.qs k, x ∈ st.mq.qs k := by
    intro x hx
    rw [hq2] at hx
    exact hrem.symm.subset (List.mem_append_right _ hx)
  refine ⟨hns, ⟨hinv.nsNodup, hinv.nsSub, ⟨?_, ?_, ?_, ?_, ?_, ?_, ?_, ?_, ?_, ?_, ?_⟩,
    hinv.ordDom, hinv.ordKeyNodup, hinv.ordCover, hinv.ordPerm,
    hinv.leftRight, hinv.leftNonneg, hinv.rightLt, hinv.ordLen⟩⟩
  · rw [hlv]
    exact hcore.liveNodup
  · rw [hlv]
    exact hcore.liveLen
  · intro i hi
    rw [hlv] at hi
    rw [hni]
    exact hcore.liveBound i hi
  · intro k2 x hx
    rw [hni]
    by_cases hk2 : k2 = k
    · subst hk2
      exact hcore.qsBound k2 x (hsub x hx)
    · rw [hqne k2 hk2] at hx
      exact hcore.qsBound k2 x hx
  · intro k2
    by_cases hk2 : k2 = k
    · subst hk2
      rw [hq2]
      have hmap := hrem.map (·.id)
      have hnd := (List.Perm.nodup_iff hmap).mp (hcore.qsNodup k2)
      rw [List.map_append] at hnd
      exact List.Nodup.of_append_right hnd
    · rw [hqne k2 hk2]
      exact hcore.qsNodup k2
  · intro v hv
    have hv2 : v ∈ st.ns := hv
    rw [hns] at hv2
    exact absurd hv2 (List.not_mem_nil v)
  · intro v hv
    have hv2 : v ∈ st.ns := hv
    rw [hns] at hv2
    exact absurd hv2 (List.not_mem_nil v)
  · intro k2 v hv
    have hv2 : v ∈ st.ns := hv
    rw [hns] at hv2
    exact absurd hv2 (List.not_mem_nil v)
  · intro v hv
    have hv2 : v ∈ st.ns := hv
    rw [hns] at hv2
    exact absurd hv2 (List.not_mem_nil v)
  · intro i hi
    rw [hlv] at hi
    exact hcore.liveCover i hi
  · by_cases hk2 : k = View.outW
    · subst hk2
      rw [hq2]
      exact MQ.popLoop_heapInv leOut_compat leOut_trans _ _ _ hcore.qsHeap
    · rw [hqne View.outW (fun hc => hk2 hc.symm)]
      exact hcore.qsHeap

end FAS

namespace FAS

theorem ord_set_append (ord : List (Int × SplitString)) (i : Int)
    (u : SplitString) (h : i ∉ ord.map (·.1)) :
    Assoc.set ord i u = ord ++ [(i, u)] :=
  Assoc.set_of_not_mem ord i u h

theorem perm_cons_erase_mem {l : List SplitString} {a : SplitString}
    (h : a ∈ l) : l.Perm (a :: l.erase a) := by
  induction l with
  | nil => exact absurd h (List.not_mem_nil a)
  | cons x t ih =>
    by_cases hax : x = a
    · rw [hax, List.erase_cons_head]
    · rw [List.erase_cons_tail]
      · rcases List.mem_cons.mp h with h2 | h2
        · exact absurd h2.symm hax
        · exact ((ih h2).cons x).trans (List.Perm.swap a x (t.erase a))
      · simpa using hax

theorem perm_place (vals ns : List SplitString) (N : List SplitString)
    (u : SplitString) (hu : u ∈ ns) (hperm : (vals ++ ns).Perm N) :
    ((vals ++ [u]) ++ ns.erase u).Perm N := by
  have h1 : ns.Perm (u :: ns.erase u) := perm_cons_erase_mem hu
  rw [List.append_assoc]
  refine List.Perm.trans ?_ hperm
  exact List.Perm.append_left vals h1.symm

theorem place_remove_right (edges : List E3) (st stp : St) (u : SplitString)
    (hu : u ∈ st.ns) (hinv : Inv edges st)
    (hns : stp.ns = st.ns) (hnm : stp.nodeMap = st.nodeMap)
    (hord : stp.ord = st.ord) (hl : stp.left = st.left) (hr : stp.right = st.right)
    (hcore : Core (st.ns.erase u)
      (fun v => ⟨v, remOut edges st.ns v, remIn edges st.ns v⟩)
      (stp.mq, stp.nodeMap)) :
    Inv edges (removeNode edges u (placeRight stp u))
    ∧ (removeNode edges u (placeRight stp u)).ns = st.ns.erase u
    ∧ (removeNode edges u (placeRight stp u)).left = st.left
    ∧ (removeNode edges u (placeRight stp u)).right = st.right - 1
    ∧ (removeNode edges u (placeRight stp u)).ord = st.ord ++ [(st.right, u)] := by
  have hroom : st.left ≤ st.right := inv_room edges st hinv (List.ne_nil_of_mem hu)
  have hr0 : (0 : Int) ≤ st.right := le_trans hinv.leftNonneg hroom
  have hnotin : st.right ∉ st.ord.map (·.1) := by
    intro hmem
    rcases List.mem_map.mp hmem with ⟨p, hp, hpk⟩
    rcases hinv.ordDom p hp with ⟨_, h2⟩ | ⟨h1, _⟩
    · omega
    · omega
  have hset : Assoc.set st.ord st.right u = st.ord ++ [(st.right, u)] :=
    ord_set_append st.ord st.right u hnotin
  have hplace : placeRight stp u
      = ⟨st.ns, stp.mq, st.nodeMap, Assoc.set st.ord st.right u,
          st.left, st.right - 1⟩ := by
    show (⟨stp.ns, stp.mq, stp.nodeMap, Assoc.set stp.ord stp.right u,
      stp.left, stp.right - 1⟩ : St) = _
    rw [hns, hnm, hord, hl, hr]
  rw [hplace]
  rw [hnm] at hcore
  have hcore3 := removeNode_core edges u
    ⟨st.ns, stp.mq, st.nodeMap, Assoc.set st.ord st.right u, st.left,
      st.right - 1⟩
    hinv.nsNodup hu hcore
  have hordeq : (removeNode edges u
      ⟨st.ns, stp.mq, st.nodeMap, Assoc.set st.ord st.right u, st.left,
        st.right - 1⟩).ord = st.ord ++ [(st.right, u)] := hset
  have hNN : (removeNode edges u
      ⟨st.ns, stp.mq, st.nodeMap, Assoc.set st.ord st.right u, st.left,
        st.right - 1⟩).ns = st.ns.erase u := rfl
  have hLL : (removeNode edges u
      ⟨st.ns, stp.mq, st.nodeMap, Assoc.set st.ord st.right u, st.left,
        st.right - 1⟩).left = st.left := rfl
  have hRR : (removeNode edges u
      ⟨st.ns, stp.mq, st.nodeMap, Assoc.set st.ord st.right u, st.left,
        st.right - 1⟩).right = st.right - 1 := rfl
  have hn := hinv.rightLt
  refine ⟨⟨?_, ?_, hcore3, ?_, ?_, ?_, ?_, ?_, ?_, ?_, ?_⟩, hNN, hLL, hRR, hordeq⟩
  · rw [hNN]
    exact hinv.nsNodup.erase u
  · rw [hNN]
    intro v hv
    exact hinv.nsSub v (List.mem_of_mem_erase hv)
  · intro p hp
    rw [hordeq] at hp
    rw [hLL, hRR]
    rcases List.mem_append.mp hp with h | h
    · rcases hinv.ordDom p h with ⟨h1, h2⟩ | ⟨h1, h2⟩
      · exact Or.inl ⟨h1, h2⟩
      · exact Or.inr ⟨by omega, h2⟩
    · rw [List.mem_singleton] at h
      rw [h]
      exact Or.inr ⟨by omega, by omega⟩
  · rw [hordeq, List.map_append]
    refine List.Nodup.append hinv.ordKeyNodup (by simp) ?_
    intro x hx hx2
    simp only [List.map_cons, List.map_nil, List.mem_singleton] at hx2
    rw [hx2] at hx
    exact hnotin hx
  · intro i hi
    rw [hLL, hRR] at hi
    rw [hordeq]
    rcases hi with ⟨h1, h2⟩ | ⟨h1, h2⟩
    · obtain ⟨p, hp, hpk⟩ := hinv.ordCover i (Or.inl ⟨h1, h2⟩)
      exact ⟨p, List.mem_append_left _ hp, hpk⟩
    · by_cases hir : i = st.right
      · exact ⟨(st.right, u),
          List.mem_append_right _ (List.mem_singleton.mpr rfl), hir.symm⟩
      · obtain ⟨p, hp, hpk⟩ := hinv.ordCover i (Or.inr ⟨by omega, h2⟩)
        exact ⟨p, List.mem_append_left _ hp, hpk⟩
  · rw [hordeq, hNN, List.map_append]
    exact perm_place _ st.ns _ u hu hinv.ordPerm
  · rw [hLL, hRR]
    omega
  · rw [hLL]
    exact hinv.leftNonneg
  · rw [hRR]
    omega
  · have hgoal : ((Assoc.set st.ord st.right u).length : Int)
        = st.left + (((nodesOf edges).length : Int) - 1 - (st.right - 1)) := by
      rw [hset, List.length_append, List.length_singleton]
      have h2 := hinv.ordLen
      push_cast at h2 ⊢
      omega
    exact hgoal

theorem place_remove_left (edges : List E3) (st stp : St) (u : SplitString)
    (hu : u ∈ st.ns) (hinv : Inv edges st)
    (hns : stp.ns = st.ns) (hnm : stp.nodeMap = st.nodeMap)
    (hord : stp.ord = st.ord) (hl : stp.left = st.left) (hr : stp.right = st.right)
    (hcore : Core (st.ns.erase u)
      (fun v => ⟨v, remOut edges st.ns v, remIn edges st.ns v⟩)
      (stp.mq, stp.nodeMap)) :
    Inv edges (removeNode edges u (placeLeft stp u))
    ∧ (removeNode edges u (placeLeft stp u)).ns = st.ns.erase u
    ∧ (removeNode edges u (placeLeft stp u)).left = st.left + 1
    ∧ (removeNode edges u (placeLeft stp u)).right = st.right
    ∧ (removeNode edges u (placeLeft stp u)).ord = st.ord ++ [(st.left, u)] := by
  have hroom : st.left ≤ st.right := inv_room edges st hinv (List.ne_nil_of_mem hu)
  have hnotin : st.left ∉ st.ord.map (·.1) := by
    intro hmem
    rcases List.mem_map.mp hmem with ⟨p, hp, hpk⟩
    rcases hinv.ordDom p hp with ⟨_, h2⟩ | ⟨h1, _⟩
    · omega
    · omega
  have hset : Assoc.set st.ord st.left u = st.ord ++ [(st.left, u)] :=
    ord_set_append st.ord st.left u hnotin
  have hplace : placeLeft stp u
      = ⟨st.ns, stp.mq, st.nodeMap, Assoc.set st.ord st.left u,
          st.left + 1, st.right⟩ := by
    show (⟨stp.ns, stp.mq, stp.nodeMap, Assoc.set stp.ord stp.left u,
      stp.left + 1, stp.right⟩ : St) = _
    rw [hns, hnm, hord, hl, hr]
  rw [hplace]
  rw [hnm] at hcore
  have hcore3 := removeNode_core edges u
    ⟨st.ns, stp.mq, st.nodeMap, Assoc.set st.ord st.left u, st.left + 1,
      st.right⟩
    hinv.nsNodup hu hcore
  have hordeq : (removeNode edges u
      ⟨st.ns, stp.mq, st.nodeMap, Assoc.set st.ord st.left u, st.left + 1,
        st.right⟩).ord = st.ord ++ [(st.left, u)] := hset
  have hNN : (removeNode edges u
      ⟨st.ns, stp.mq, st.nodeMap, Assoc.set st.ord st.left u, st.left + 1,
        st.right⟩).ns = st.ns.erase u := rfl
  have hLL : (removeNode edges u
      ⟨st.ns, stp.mq, st.nodeMap, Assoc.set st.ord st.left u, st.left + 1,
        st.right⟩).left = st.left + 1 := rfl
  have hRR : (removeNode edges u
      ⟨st.ns, stp.mq, st.nodeMap, Assoc.set st.ord st.left u, st.left + 1,
        st.right⟩).right = st.right := rfl
  have hn := hinv.rightLt
  refine ⟨⟨?_, ?_, hcore3, ?_, ?_, ?_, ?_, ?_, ?_, ?_, ?_⟩, hNN, hLL, hRR, hordeq⟩
  · rw [hNN]
    exact hinv.nsNodup.erase u
  · rw [hNN]
    intro v hv
    exact hinv.nsSub v (List.mem_of_mem_erase hv)
  · intro p hp
    rw [hordeq] at hp
    rw [hLL, hRR]
    rcases List.mem_append.mp hp with h | h
    · rcases hinv.ordDom p h with ⟨h1, h2⟩ | ⟨h1, h2⟩
      · exact Or.inl ⟨h1, by omega⟩
      · exact Or.inr ⟨h1, h2⟩
    · rw [List.mem_singleton] at h
      rw [h]
      exact Or.inl ⟨hinv.leftNonneg, by omega⟩
  · rw [hordeq, List.map_append]
    refine List.Nodup.append hinv.ordKeyNodup (by simp) ?_
    intro x hx hx2
    simp only [List.map_cons, List.map_nil, List.mem_singleton] at hx2
    rw [hx2] at hx
    exact hnotin hx
  · intro i hi
    rw [hLL, hRR] at hi
    rw [hordeq]
    rcases hi with ⟨h1, h2⟩ | ⟨h1, h2⟩
    · by_cases hil : i = st.left
      · exact ⟨(st.left, u),
          List.mem_append_right _ (List.mem_singleton.mpr rfl), hil.symm⟩
      · obtain ⟨p, hp, hpk⟩ := hinv.ordCover i (Or.inl ⟨h1, by omega⟩)
        exact ⟨p, List.mem_append_left _ hp, hpk⟩
    · obtain ⟨p, hp, hpk⟩ := hinv.ordCover i (Or.inr ⟨h1, h2⟩)
      exact ⟨p, List.mem_append_left _ hp, hpk⟩
  · rw [hordeq, hNN, List.map_append]
    exact perm_place _ st.ns _ u hu hinv.ordPerm
  · rw [hLL, hRR]
    omega
  · rw [hLL]
    have h2 := hinv.leftNonneg
    omega
  · rw [hRR]
    exact hinv.rightLt
  · have hgoal : ((Assoc.set st.ord st.left u).length : Int)
        = (st.left + 1) + (((nodesOf edges).length : Int) - 1 - st.right) := by
      rw [hset, List.length_append, List.length_singleton]
      have h2 := hinv.ordLen
      push_cast at h2 ⊢
      omega
    exact hgoal

end FAS

namespace FAS

theorem popSt_after_peek_some (st1 : St) (k : View) (it : MQ.Item Data)
    (hhead : PQ.peek (st1.mq.qs k) = some it) (hlive : it.id ∈ st1.mq.live) :
    (popSt st1 k).1 = some it := by
  have hfun : (popSt st1 k).1
      = (MQ.popLoop (MQ.itemCmp (cmps k)) (st1.mq.qs k).length (st1.mq.qs k)
          st1.mq.live).1 := rfl
  rw [hfun, MQ.popLoop_of_head_live _ _ _ _ hhead hlive]

theorem sinkLoop_inv (edges : List E3) :
    ∀ (fuel : Nat) (st : St), Inv edges st → st.ns.length < fuel →
      Inv edges (sinkLoop edges fuel st)
      ∧ (sinkLoop edges fuel st).ns.length ≤ st.ns.length
      ∧ (sinkLoop edges fuel st).left = st.left := by
  intro fuel
  induction fuel with
  | zero => intro st _ h; omega
  | succ fuel ih =>
    intro st hinv hfuel
    simp only [sinkLoop]
    by_cases hlen : MQ.length st.mq = 0
    · rw [if_pos hlen]
      exact ⟨hinv, le_refl _, rfl⟩
    · rw [if_neg hlen]
      rcases hopt : (peekSt st View.outW).1 with _ | sink
      · exact absurd hopt (peekSt_ne_none edges st View.outW hinv hlen)
      · simp only [hopt]
        obtain ⟨hinv1, hhead, hlive1, hlveq⟩ :=
          peekSt_some_spec edges st View.outW sink hinv hopt
        by_cases hz : sink.data.outW ≠ 0
        · rw [if_pos hz]
          exact ⟨hinv1, le_refl _, rfl⟩
        · rw [if_neg hz]
          have hpop : (popSt (peekSt st View.outW).2 View.outW).1 = some sink :=
            popSt_after_peek_some _ _ _ hhead hlive1
          obtain ⟨u, hu, hitem, hcore⟩ :=
            popSt_core edges (peekSt st View.outW).2 View.outW sink hinv1 hpop
          have hu2 : u ∈ st.ns := hu
          have hdata := hinv1.core.itemData u hu
          rw [← hitem] at hdata
          have husink : sink.data.u = u := by
            rw [hdata]
          rw [husink]
          obtain ⟨hinv3, hns3, hl3, hr3, hord3⟩ :=
            place_remove_right edges st (popSt (peekSt st View.outW).2 View.outW).2
              u hu2 hinv rfl rfl rfl rfl rfl hcore
          have hlen3 : (removeNode edges u
              (placeRight (popSt (peekSt st View.outW).2 View.outW).2 u)).ns.length
              < fuel := by
            rw [hns3, List.length_erase_of_mem hu2]
            have := List.length_pos_of_mem hu2
            omega
          obtain ⟨hinvR, hlenR, hlR⟩ := ih _ hinv3 hlen3
          refine ⟨hinvR, ?_, ?_⟩
          · refine le_trans hlenR ?_
            rw [hns3, List.length_erase_of_mem hu2]
            omega
          · rw [hlR, hl3]

theorem sourceLoop_inv (edges : List E3) :
    ∀ (fuel : Nat) (st : St), Inv edges st → st.ns.length < fuel →
      Inv edges (sourceLoop edges fuel st)
      ∧ (sourceLoop edges fuel st).ns.length ≤ st.ns.length := by
  intro fuel
  induction fuel with
  | zero => intro st _ h; omega
  | succ fuel ih =>
    intro st hinv hfuel
    simp only [sourceLoop]
    by_cases hlen : MQ.length st.mq = 0
    · rw [if_pos hlen]
      exact ⟨hinv, le_refl _⟩
    · rw [if_neg hlen]
      rcases hopt : (peekSt st View.inW).1 with _ | source
      · exact absurd hopt (peekSt_ne_none edges st View.inW hinv hlen)
      · simp only [hopt]
        obtain ⟨hinv1, hhead, hlive1, hlveq⟩ :=
          peekSt_some_spec edges st View.inW source hinv hopt
        by_cases hz : source.data.inW ≠ 0
        · rw [if_pos hz]
          exact ⟨hinv1, le_refl _⟩
        · rw [if_neg hz]
          have hpop : (popSt (peekSt st View.inW).2 View.inW).1 = some source :=
            popSt_after_peek_some _ _ _ hhead hlive1
          obtain ⟨u, hu, hitem, hcore⟩ :=
            popSt_core edges (peekSt st View.inW).2 View.inW source hinv1 hpop
          have hu2 : u ∈ st.ns := hu
          have hdata := hinv1.core.itemData u hu
          rw [← hitem] at hdata
          have husrc : source.data.u = u := by
            rw [hdata]
          rw [husrc]
          obtain ⟨hinv3, hns3, hl3, hr3, hord3⟩ :=
            place_remove_left edges st (popSt (peekSt st View.inW).2 View.inW).2
              u hu2 hinv rfl rfl rfl rfl rfl hcore
          have hlen3 : (removeNode edges u
              (placeLeft (popSt (peekSt st View.inW).2 View.inW).2 u)).ns.length
              < fuel := by
            rw [hns3, List.length_erase_of_mem hu2]
            have := List.length_pos_of_mem hu2
            omega
          obtain ⟨hinvR, hlenR⟩ := ih _ hinv3 hlen3
          refine ⟨hinvR, ?_⟩
          refine le_trans hlenR ?_
          rw [hns3, List.length_erase_of_mem hu2]
          omega

theorem mainLoop_inv (edges : List E3) :
    ∀ (fuel : Nat) (st : St), Inv edges st → st.ns.length < fuel →
      Inv edges (mainLoop edges fuel st) ∧ (mainLoop edges fuel st).ns = [] := by
  intro fuel
  induction fuel with
  | zero => intro st _ h; omega
  | succ fuel ih =>
    intro st hinv hfuel
    simp only [mainLoop]
    by_cases hns0 : st.ns.length = 0
    · rw [if_pos hns0]
      exact ⟨hinv, List.length_eq_zero.mp hns0⟩
    · rw [if_neg hns0]
      obtain ⟨hinv1, hlen1, _⟩ :=
        sinkLoop_inv edges (st.ns.length + 1) st hinv (by omega)
      obtain ⟨hinv2, hlen2⟩ :=
        sourceLoop_inv edges
          ((sinkLoop edges (st.ns.length + 1) st).ns.length + 1)
          (sinkLoop edges (st.ns.length + 1) st) hinv1 (by omega)
      rcases hopt : (popSt (sourceLoop edges
          ((sinkLoop edges (st.ns.length + 1) st).ns.length + 1)
          (sinkLoop edges (st.ns.length + 1) st)) View.score).1 with _ | mx
      · simp only [hopt]
        obtain ⟨hns2, hinv3⟩ := popSt_none_spec edges _ View.score hinv2 hopt
        exact ⟨hinv3, hns2⟩
      · simp only [hopt]
        obtain ⟨u, hu, hitem, hcore⟩ := popSt_core edges _ View.score mx hinv2 hopt
        have hdata := hinv2.core.itemData u hu
        rw [← hitem] at hdata
        have humx : mx.data.u = u := by
          rw [hdata]
        rw [humx]
        obtain ⟨hinv3, hns3, hl3, hr3, hord3⟩ :=
          place_remove_left edges _
            ((popSt (sourceLoop edges
              ((sinkLoop edges (st.ns.length + 1) st).ns.length + 1)
              (sinkLoop edges (st.ns.length + 1) st)) View.score).2)
            u hu hinv2 rfl rfl rfl rfl rfl hcore
        have hlen3 : (removeNode edges u
            (placeLeft (popSt (sourceLoop edges
              ((sinkLoop edges (st.ns.length + 1) st).ns.length + 1)
              (sinkLoop edges (st.ns.length + 1) st)) View.score).2 u)).ns.length
            < fuel := by
          rw [hns3, List.length_erase_of_mem hu]
          have hp := List.length_pos_of_mem hu
          omega
        exact ih _ hinv3 hlen3

end FAS

namespace FAS

theorem pushNode_core {done : List SplitString} {D : SplitString → Data}
    {s : MQ.MultiQueue Data View × NodeMap} (u : SplitString) (a : Data)
    (hu : u ∉ done) (hdata : D u = a) (hc : Core done D s) :
    Core (done ++ [u]) D
      ((MQ.push keyList cmps s.1 a).2,
        Assoc.set s.2 u (MQ.push keyList cmps s.1 a).1) := by
  have hfresh : s.1.nextId ∉ s.1.live := by
    intro hmem
    have := hc.liveBound _ hmem
    omega
  have hlive2 : (MQ.push keyList cmps s.1 a).2.live
      = s.1.live ++ [s.1.nextId] := push_live s.1 a hfresh
  have hnext2 : (MQ.push keyList cmps s.1 a).2.nextId = s.1.nextId + 1 :=
    push_nextId s.1 a
  have hqs2 : ∀ k, (MQ.push keyList cmps s.1 a).2.qs k
      = PQ.push (MQ.itemCmp (cmps k)) (s.1.qs k) ⟨s.1.nextId, a⟩ :=
    push_qs s.1 a
  have hqs2perm : ∀ k, ((MQ.push keyList cmps s.1 a).2.qs k).Perm
      (s.1.qs k ++ [⟨s.1.nextId, a⟩]) := by
    intro k
    rw [hqs2]
    exact PQ.push_perm _ _ _
  have hget_self : nmGet (Assoc.set s.2 u (MQ.push keyList cmps s.1 a).1) u
      = ⟨s.1.nextId, a⟩ := by
    rw [nmGet_set_self]
    exact push_item s.1 a
  have hget_ne : ∀ x, x ≠ u →
      nmGet (Assoc.set s.2 u (MQ.push keyList cmps s.1 a).1) x = nmGet s.2 x := by
    intro x hx
    rw [nmGet_set_ne _ _ _ _ hx]
  have hmem_done : ∀ x ∈ done ++ [u], x ∈ done ∨ x = u := by
    intro x hx
    rcases List.mem_append.mp hx with h | h
    · exact Or.inl h
    · exact Or.inr (List.mem_singleton.mp h)
  refine ⟨?_, ?_, ?_, ?_, ?_, ?_, ?_, ?_, ?_, ?_, ?_⟩
  · rw [hlive2]
    refine List.Nodup.append hc.liveNodup (List.nodup_singleton _) ?_
    intro x hx hx2
    rw [List.mem_singleton] at hx2
    exact hfresh (hx2 ▸ hx)
  · rw [hlive2, List.length_append, List.length_singleton, hc.liveLen,
      List.length_append, List.length_singleton]
  · intro i hi
    rw [hlive2] at hi
    rw [hnext2]
    rcases List.mem_append.mp hi with h | h
    · have := hc.liveBound _ h
      omega
    · rw [List.mem_singleton] at h
      omega
  · intro k x hx
    have hx2 := (hqs2perm k).subset hx
    rw [hnext2]
    rcases List.mem_append.mp hx2 with h | h
    · have := hc.qsBound k _ h
      omega
    · rw [List.mem_singleton] at h
      rw [h]
      show s.1.nextId < s.1.nextId + 1
      omega
  · intro k
    have hperm := (hqs2perm k).map (·.id)
    refine (List.Perm.nodup_iff hperm).mpr ?_
    rw [List.map_append]
    refine List.Nodup.append (hc.qsNodup k) (by simp) ?_
    intro x hx hx2
    simp only [List.map_cons, List.map_nil, List.mem_singleton] at hx2
    rcases List.mem_map.mp hx with ⟨y, hy, hyx⟩
    have := hc.qsBound k _ hy
    omega
  · intro x hx
    rw [hlive2]
    rcases hmem_done x hx with h | h
    · have hxu : x ≠ u := fun hceq => hu (hceq ▸ h)
      rw [hget_ne x hxu]
      exact List.mem_append_left _ (hc.itemLive x h)
    · rw [h, hget_self]
      exact List.mem_append_right _ (List.mem_singleton.mpr rfl)
  · intro x hx
    rcases hmem_done x hx with h | h
    · have hxu : x ≠ u := fun hceq => hu (hceq ▸ h)
      rw [hget_ne x hxu]
      exact hc.itemData x h
    · rw [h, hget_self, hdata]
  · intro k x hx
    rcases hmem_done x hx with h | h
    · have hxu : x ≠ u := fun hceq => hu (hceq ▸ h)
      rw [hget_ne x hxu]
      exact (hqs2perm k).symm.subset (List.mem_append_left _ (hc.itemMem k x h))
    · rw [h, hget_self]
      exact (hqs2perm k).symm.subset
        (List.mem_append_right _ (List.mem_singleton.mpr rfl))
  · intro x hx y hy
    rcases hmem_done x hx with h | h
    · have hxu : x ≠ u := fun hceq => hu (hceq ▸ h)
      rcases hmem_done y hy with h2 | h2
      · have hyu : y ≠ u := fun hceq => hu (hceq ▸ h2)
        rw [hget_ne x hxu, hget_ne y hyu]
        exact hc.idInj x h y h2
      · rw [h2, hget_ne x hxu, hget_self]
        intro hid
        have hid2 : (nmGet s.2 x).id = s.1.nextId := hid
        have hb := hc.liveBound _ (hc.itemLive x h)
        omega
    · rcases hmem_done y hy with h2 | h2
      · have hyu : y ≠ u := fun hceq => hu (hceq ▸ h2)
        rw [h, hget_self, hget_ne y hyu]
        intro hid
        have hid2 : s.1.nextId = (nmGet s.2 y).id := hid
        have hb := hc.liveBound _ (hc.itemLive y h2)
        omega
      · intro _
        rw [h, h2]
  · intro i hi
    rw [hlive2] at hi
    rcases List.mem_append.mp hi with h | h
    · obtain ⟨x, hx, hxid⟩ := hc.liveCover i h
      have hxu : x ≠ u := fun hceq => hu (hceq ▸ hx)
      exact ⟨x, List.mem_append_left _ hx, by rw [hget_ne x hxu]; exact hxid⟩
    · rw [List.mem_singleton] at h
      exact ⟨u, List.mem_append_right _ (List.mem_singleton.mpr rfl),
        by rw [hget_self, h]⟩
  · rw [hqs2 View.outW]
    exact PQ.push_heapInv leOut_compat leOut_trans _ hc.qsHeap

theorem initFold_core (edges : List E3) (D : SplitString → Data)
    (hD : ∀ u, D u = ⟨u, sumVals (outAdj edges u), sumVals (inAdj edges u)⟩) :
    ∀ (rest done : List SplitString) (s : MQ.MultiQueue Data View × NodeMap),
      (done ++ rest).Nodup → Core done D s →
      Core (done ++ rest) D
        (rest.foldl (fun acc u =>
          ((MQ.push keyList cmps acc.1
              ⟨u, sumVals (outAdj edges u), sumVals (inAdj edges u)⟩).2,
            Assoc.set acc.2 u (MQ.push keyList cmps acc.1
              ⟨u, sumVals (outAdj edges u), sumVals (inAdj edges u)⟩).1)) s) := by
  intro rest
  induction rest with
  | nil =>
    intro done s hnd hc
    rw [List.foldl_nil, List.append_nil]
    exact hc
  | cons u t ih =>
    intro done s hnd hc
    rw [List.foldl_cons]
    have hnd2 : ((done ++ [u]) ++ t).Nodup := by
      rw [List.append_assoc, List.singleton_append]
      exact hnd
    have hu : u ∉ done := by
      intro hmem
      have h2 : ¬ (done ++ u :: t).Nodup := by
        intro hcn
        have hdis := List.disjoint_of_nodup_append hcn
        exact hdis hmem (List.mem_cons_self u t)
      exact h2 hnd
    have hstep := pushNode_core u
      (⟨u, sumVals (outAdj edges u), sumVals (inAdj edges u)⟩ : Data)
      hu (hD u) hc
    have := ih (done ++ [u]) _ hnd2 hstep
    rwa [List.append_assoc, List.singleton_append] at this

theorem core_empty (D : SplitString → Data) :
    Core [] D (MQ.MultiQueue.empty Data View, []) := by
  refine ⟨List.nodup_nil, rfl, ?_, ?_, ?_, ?_, ?_, ?_, ?_, ?_, ?_⟩
  · intro i hi
    exact absurd hi (List.not_mem_nil i)
  · intro k x hx
    exact absurd hx (List.not_mem_nil x)
  · intro k
    exact List.nodup_nil
  · intro v hv
    exact absurd hv (List.not_mem_nil v)
  · intro v hv
    exact absurd hv (List.not_mem_nil v)
  · intro k v hv
    exact absurd hv (List.not_mem_nil v)
  · intro v hv
    exact absurd hv (List.not_mem_nil v)
  · intro i hi
    exact absurd hi (List.not_mem_nil i)
  · intro i j _ hj
    have hq : (MQ.MultiQueue.empty Data View).qs View.outW = [] := rfl
    rw [hq] at hj
    simp at hj

theorem initSt_inv (edges : List E3) : Inv edges (initSt edges) := by
  have hcore0 := initFold_core edges
    (fun v => ⟨v, remOut edges (nodesOf edges) v, remIn edges (nodesOf edges) v⟩)
    (fun u => by
      show (⟨u, remOut edges (nodesOf edges) u,
        remIn edges (nodesOf edges) u⟩ : Data) = _
      rw [remOut_init, remIn_init])
    (nodesOf edges) [] (MQ.MultiQueue.empty Data View, [])
    (by rw [List.nil_append]; exact nodesOf_nodup edges)
    (core_empty _)
  rw [List.nil_append] at hcore0
  have hn : (0 : Int) ≤ ((nodesOf edges).length : Int) := by positivity
  refine ⟨nodesOf_nodup edges, ?_, hcore0, ?_, ?_, ?_, ?_, ?_, ?_, ?_, ?_⟩
  · intro u hu
    exact hu
  · intro p hp
    exact absurd hp (List.not_mem_nil p)
  · exact List.nodup_nil
  · intro i hi
    rcases hi with ⟨h1, h2⟩ | ⟨h1, h2⟩
    · have h3 : (initSt edges).left = 0 := rfl
      rw [h3] at h2
      omega
    · have h3 : (initSt edges).right = ((nodesOf edges).length : Int) - 1 := rfl
      rw [h3] at h1
      omega
  · show (([] : List SplitString) ++ nodesOf edges).Perm (nodesOf edges)
    rw [List.nil_append]
  · show (0 : Int) ≤ (((nodesOf edges).length : Int) - 1) + 1
    omega
  · exact le_refl 0
  · show ((nodesOf edges).length : Int) - 1 < ((nodesOf edges).length : Int)
    omega
  · show ((0 : Nat) : Int)
      = 0 + (((nodesOf edges).length : Int) - 1
        - (((nodesOf edges).length : Int) - 1))
    omega

end FAS

namespace FAS

theorem final_perm (edges : List E3) (st : St) (hinv : Inv edges st)
    (hns : st.ns = []) :
    ((List.range (nodesOf edges).length).map
      (fun (i : Nat) => ((Assoc.get? st.ord (i : Int)).getD []))).Perm
      (nodesOf edges) := by
  have hcnt := inv_counts edges st hinv
  rw [hns, List.length_nil] at hcnt
  have hlen : st.ord.length = (nodesOf edges).length := by omega
  have hlr : st.left = st.right + 1 := by
    have h2 := hinv.ordLen
    rw [hlen] at h2
    have h3 := hinv.leftRight
    omega
  have hrge : (-1 : Int) ≤ st.right := by
    have := hinv.leftNonneg
    omega
  have hkey_mem : ∀ p ∈ st.ord, 0 ≤ p.1 ∧ p.1 < ((nodesOf edges).length : Int) := by
    intro p hp
    rcases hinv.ordDom p hp with ⟨h1, h2⟩ | ⟨h1, h2⟩
    · have := hinv.rightLt
      constructor
      · exact h1
      · omega
    · constructor
      · omega
      · exact h2
  have hnd1 : (st.ord.map (·.1)).Nodup := hinv.ordKeyNodup
  have hnd2 : ((List.range (nodesOf edges).length).map
      (fun (i : Nat) => (i : Int))).Nodup := by
    refine List.Nodup.map ?_ (List.nodup_range _)
    intro a b hab
    exact Nat.cast_inj.mp hab
  have hsub1 : st.ord.map (·.1) ⊆ (List.range (nodesOf edges).length).map
      (fun (i : Nat) => (i : Int)) := by
    intro x hx
    rcases List.mem_map.mp hx with ⟨p, hp, hpk⟩
    obtain ⟨h1, h2⟩ := hkey_mem p hp
    have hpk2 : p.1 = x := hpk
    refine List.mem_map.mpr ⟨p.1.toNat, List.mem_range.mpr (by omega), ?_⟩
    show ((p.1.toNat : Nat) : Int) = x
    omega
  have hsub2 : (List.range (nodesOf edges).length).map (fun (i : Nat) => (i : Int))
      ⊆ st.ord.map (·.1) := by
    intro x hx
    rcases List.mem_map.mp hx with ⟨i, hi, hix⟩
    rw [List.mem_range] at hi
    have hix2 : ((i : Nat) : Int) = x := hix
    have hx0 : 0 ≤ x := by omega
    have hxn : x < ((nodesOf edges).length : Int) := by omega
    have hreg : (0 ≤ x ∧ x < st.left)
        ∨ (st.right < x ∧ x < ((nodesOf edges).length : Int)) := by
      by_cases h : x < st.left
      · exact Or.inl ⟨hx0, h⟩
      · exact Or.inr ⟨by omega, hxn⟩
    obtain ⟨p, hp, hpk⟩ := hinv.ordCover x hreg
    exact List.mem_map.mpr ⟨p, hp, hpk⟩
  have hkeyperm : (st.ord.map (·.1)).Perm
      ((List.range (nodesOf edges).length).map (fun (i : Nat) => (i : Int))) :=
    (List.subperm_of_subset hnd1 hsub1).antisymm
      (List.subperm_of_subset hnd2 hsub2)
  have hmapped := (hkeyperm.symm).map (fun j => ((Assoc.get? st.ord j).getD []))
  rw [List.map_map, List.map_map] at hmapped
  have hvals : st.ord.map ((fun j => ((Assoc.get? st.ord j).getD []))
      ∘ (·.1)) = st.ord.map (·.2) := by
    refine List.map_congr_left ?_
    intro p hp
    show ((Assoc.get? st.ord p.1).getD []) = p.2
    rw [Assoc.get?, Assoc.find?_entry_of_mem_nodup st.ord hnd1 p hp]
    rfl
  rw [hvals] at hmapped
  have hfinal : (st.ord.map (·.2)).Perm (nodesOf edges) := by
    have h2 := hinv.ordPerm
    rw [hns, List.append_nil] at h2
    exact h2
  exact hmapped.trans hfinal

theorem fasTopoSort_perm (edges : List E3) :
    (fasTopoSort edges).Perm (nodesOf edges) := by
  have hinit := initSt_inv edges
  have hlen : (initSt edges).ns.length < (nodesOf edges).length + 1 := by
    show (nodesOf edges).length < (nodesOf edges).length + 1
    omega
  have hmain := mainLoop_inv edges ((nodesOf edges).length + 1) (initSt edges)
    hinit hlen
  show ((List.range (nodesOf edges).length).map
    (fun (i : Nat) => ((Assoc.get? (mainLoop edges ((nodesOf edges).length + 1)
      (initSt edges)).ord (i : Int)).getD []))).Perm (nodesOf edges)
  exact final_perm edges _ hmain.1 hmain.2

end FAS

namespace FAS

/-- The ordering invariant of the sink phase: whenever an edge's source has
been placed, its destination sits at a strictly larger index. -/
def Ordered (edges : List E3) (ord : List (Int × SplitString)) : Prop :=
  ∀ e ∈ edges, ∀ p ∈ ord, p.2 = e.1 → ∃ q ∈ ord, q.2 = e.2.1 ∧ p.1 < q.1

theorem peek_ident (edges : List E3) (st1 : St) (k : View) (it : MQ.Item Data)
    (hinv1 : Inv edges st1) (hhead : PQ.peek (st1.mq.qs k) = some it)
    (hlive : it.id ∈ st1.mq.live) :
    ∃ w ∈ st1.ns, it = nmGet st1.nodeMap w := by
  obtain ⟨w, hw, hwid⟩ := hinv1.core.liveCover it.id hlive
  have hitq : it ∈ st1.mq.qs k := by
    have hcons := MQ.peek_eq_cons hhead
    rw [hcons]
    exact List.mem_cons_self _ _
  exact ⟨w, hw, map_nodup_inj (·.id) _ (hinv1.core.qsNodup k) it hitq _
    (hinv1.core.itemMem k w hw) hwid.symm⟩

theorem sinkLoop_empties (edges : List E3)
    (hpos : ∀ e ∈ edges, 0 < e.2.2)
    (hacyc : ∀ x, ¬ Relation.TransGen (EdgeRel edges) x x) :
    ∀ (fuel : Nat) (st : St), Inv edges st → st.left = 0 →
      Ordered edges st.ord → st.ns.length < fuel →
      (sinkLoop edges fuel st).ns = []
      ∧ Inv edges (sinkLoop edges fuel st)
      ∧ (sinkLoop edges fuel st).left = 0
      ∧ Ordered edges (sinkLoop edges fuel st).ord := by
  intro fuel
  induction fuel with
  | zero => intro st _ _ _ h; omega
  | succ fuel ih =>
    intro st hinv hleft hord hfuel
    simp only [sinkLoop]
    by_cases hlen : MQ.length st.mq = 0
    · rw [if_pos hlen]
      exact ⟨(inv_length_iff edges st hinv).mp hlen, hinv, hleft, hord⟩
    · rw [if_neg hlen]
      have hnsne : st.ns ≠ [] := by
        intro hc
        exact hlen ((inv_length_iff edges st hinv).mpr hc)
      rcases hopt : (peekSt st View.outW).1 with _ | sink
      · exact absurd hopt (peekSt_ne_none edges st View.outW hinv hlen)
      · simp only [hopt]
        obtain ⟨hinv1, hhead, hlive1, hlveq⟩ :=
          peekSt_some_spec edges st View.outW sink hinv hopt
        obtain ⟨w, hw, hwident⟩ :=
          peek_ident edges (peekSt st View.outW).2 View.outW sink hinv1 hhead
            hlive1
        have hwdata := hinv1.core.itemData w hw
        rw [← hwident] at hwdata
        have hw2 : w ∈ st.ns := hw
        obtain ⟨u0, hu0, hu0z⟩ := exists_sink edges hpos hacyc st.ns hnsne
        have hmin := peek_min edges (peekSt st View.outW).2 sink hinv1 hhead u0 hu0
        have hu0data := hinv1.core.itemData u0 hu0
        rw [hu0data] at hmin
        have hge : 0 ≤ sink.data.outW := by
          rw [hwdata]
          show 0 ≤ remOut edges st.ns w
          exact remOut_nonneg edges st.ns w hpos
        have hz0 : sink.data.outW = 0 := by
          have h2 : sink.data.outW ≤ remOut edges st.ns u0 := hmin
          rw [hu0z] at h2
          omega
        rw [if_neg (fun hc => hc hz0)]
        have hpop : (popSt (peekSt st View.outW).2 View.outW).1 = some sink :=
          popSt_after_peek_some _ _ _ hhead hlive1
        obtain ⟨u, hu, hitem, hcore⟩ :=
          popSt_core edges (peekSt st View.outW).2 View.outW sink hinv1 hpop
        have hu2 : u ∈ st.ns := hu
        have hdata := hinv1.core.itemData u hu
        rw [← hitem] at hdata
        have husink : sink.data.u = u := by
          rw [hdata]
        have hremu : remOut edges st.ns u = 0 := by
          have h2 : sink.data.outW = remOut edges st.ns u := by
            rw [hdata]
            rfl
          rw [← h2]
          exact hz0
        rw [husink]
        obtain ⟨hinv3, hns3, hl3, hr3, hord3⟩ :=
          place_remove_right edges st (popSt (peekSt st View.outW).2 View.outW).2
            u hu2 hinv rfl rfl rfl rfl rfl hcore
        have hlen3 : (removeNode edges u
            (placeRight (popSt (peekSt st View.outW).2 View.outW).2 u)).ns.length
            < fuel := by
          rw [hns3, List.length_erase_of_mem hu2]
          have := List.length_pos_of_mem hu2
          omega
        have hleft3 : (removeNode edges u
            (placeRight (popSt (peekSt st View.outW).2 View.outW).2 u)).left
            = 0 := by
          rw [hl3, hleft]
        have hord3new : Ordered edges (removeNode edges u
            (placeRight (popSt (peekSt st View.outW).2 View.outW).2 u)).ord := by
          rw [hord3]
          intro e he p hp hpe
          rcases List.mem_append.mp hp with hpo | hpn
          · obtain ⟨q, hq, hq2, hqlt⟩ := hord e he p hpo hpe
            exact ⟨q, List.mem_append_left _ hq, hq2, hqlt⟩
          · rw [List.mem_singleton] at hpn
            have hpu : p.2 = u := by rw [hpn]
            have he1 : e.1 = u := by rw [← hpe, hpu]
            have hbkey : e.2.1 ∈ (outAdj edges u).map (·.1) := by
              refine (outAdj_keys_iff edges u e.2.1).mpr ⟨e.2.2, ?_⟩
              rw [← he1]
              exact he
            rcases List.mem_map.mp hbkey with ⟨pp, hpp, hppk⟩
            have hnob := remOut_zero_no_succ edges st.ns u hpos hremu pp hpp
            rw [hppk] at hnob
            have hbN : e.2.1 ∈ nodesOf edges := (mem_nodesOf edges e he).2
            have hbvals : e.2.1 ∈ st.ord.map (·.2) := by
              have hperm := hinv.ordPerm
              rcases List.mem_append.mp (hperm.symm.subset hbN) with h2 | h2
              · exact h2
              · exact absurd h2 hnob
            rcases List.mem_map.mp hbvals with ⟨q, hq, hqv⟩
            refine ⟨q, List.mem_append_left _ hq, hqv, ?_⟩
            have hqdom := hinv.ordDom q hq
            rcases hqdom with ⟨h1, h2⟩ | ⟨h1, h2⟩
            · rw [hleft] at h2
              omega
            · have hp1 : p.1 = st.right := by rw [hpn]
              rw [hp1]
              exact h1
        obtain ⟨hnsR, hinvR, hlR, hordR⟩ := ih _ hinv3 hleft3 hord3new hlen3
        refine ⟨hnsR, hinvR, hlR, hordR⟩

theorem sourceLoop_stop (edges : List E3) (fuel : Nat) (st : St)
    (h : MQ.length st.mq = 0) : sourceLoop edges (fuel + 1) st = st := by
  simp only [sourceLoop]
  rw [if_pos h]

theorem popSt_empty_none (st : St) (k : View) (h : st.mq.live = []) :
    (popSt st k).1 = none := by
  rcases hopt : (popSt st k).1 with _ | it
  · rfl
  · have hfun : (popSt st k).1
        = (MQ.popLoop (MQ.itemCmp (cmps k)) (st.mq.qs k).length (st.mq.qs k)
            st.mq.live).1 := rfl
    rw [hfun] at hopt
    have := (MQ.popLoop_some (MQ.itemCmp (cmps k)) _ _ _ _ hopt).1
    rw [h] at this
    exact absurd this (List.not_mem_nil _)

end FAS

namespace FAS

theorem range_map_getD (n : Nat) (f : Nat → SplitString) (i : Nat) (hi : i < n) :
    (((List.range n).map f).getD i []) = f i := by
  rw [List.getD_eq_getElem?_getD, List.getElem?_map, List.getElem?_range hi]
  rfl

theorem fasTopoSort_order (edges : List E3)
    (hpos : ∀ e ∈ edges, 0 < e.2.2)
    (hacyc : ∀ x, ¬ Relation.TransGen (EdgeRel edges) x x) :
    ∀ e ∈ edges, ∃ i j : Nat, i < j ∧ j < (fasTopoSort edges).length ∧
      (fasTopoSort edges).getD i [] = e.1
      ∧ (fasTopoSort edges).getD j [] = e.2.1 := by
  intro e he
  have hinit := initSt_inv edges
  have hN1 : e.1 ∈ nodesOf edges := (mem_nodesOf edges e he).1
  have hnne : nodesOf edges ≠ [] := List.ne_nil_of_mem hN1
  have hns0 : ¬ (initSt edges).ns.length = 0 := by
    show ¬ (nodesOf edges).length = 0
    intro hc
    exact hnne (List.length_eq_zero.mp hc)
  obtain ⟨hns1, hinv1, hleft1, hord1⟩ := sinkLoop_empties edges hpos hacyc
    ((initSt edges).ns.length + 1) (initSt edges) hinit rfl
    (fun e2 he2 p hp => absurd hp (List.not_mem_nil p)) (by omega)
  have hlen1 : MQ.length (sinkLoop edges ((initSt edges).ns.length + 1)
      (initSt edges)).mq = 0 :=
    (inv_length_iff edges _ hinv1).mpr hns1
  have hstop : sourceLoop edges
      ((sinkLoop edges ((initSt edges).ns.length + 1) (initSt edges)).ns.length + 1)
      (sinkLoop edges ((initSt edges).ns.length + 1) (initSt edges))
      = sinkLoop edges ((initSt edges).ns.length + 1) (initSt edges) :=
    sourceLoop_stop edges _ _ hlen1
  have hlive2 : (sinkLoop edges ((initSt edges).ns.length + 1)
      (initSt edges)).mq.live = [] := by
    have h2 := hinv1.core.liveLen
    rw [hns1, List.length_nil] at h2
    exact List.length_eq_zero.mp h2
  have hpopnone := popSt_empty_none
    (sinkLoop edges ((initSt edges).ns.length + 1) (initSt edges)) View.score
    hlive2
  have hrun : mainLoop edges ((nodesOf edges).length + 1) (initSt edges)
      = (popSt (sinkLoop edges ((initSt edges).ns.length + 1) (initSt edges))
          View.score).2 := by
    simp only [mainLoop]
    rw [if_neg hns0, hstop]
    simp only [hpopnone]
  have hfinal_ord : (mainLoop edges ((nodesOf edges).length + 1)
      (initSt edges)).ord
      = (sinkLoop edges ((initSt edges).ns.length + 1) (initSt edges)).ord := by
    rw [hrun]
    rfl
  have hfEq : fasTopoSort edges = (List.range (nodesOf edges).length).map
      (fun (i : Nat) => ((Assoc.get? (sinkLoop edges
        ((initSt edges).ns.length + 1) (initSt edges)).ord (i : Int)).getD [])) := by
    show (List.range (nodesOf edges).length).map
      (fun (i : Nat) => ((Assoc.get? (mainLoop edges
        ((nodesOf edges).length + 1) (initSt edges)).ord (i : Int)).getD [])) = _
    rw [hfinal_ord]
  have hcnt := inv_counts edges _ hinv1
  rw [hns1, List.length_nil] at hcnt
  have hkeydom : ∀ p ∈ (sinkLoop edges ((initSt edges).ns.length + 1)
      (initSt edges)).ord,
      0 ≤ p.1 ∧ p.1 < ((nodesOf edges).length : Int) := by
    intro p hp
    rcases hinv1.ordDom p hp with ⟨h1, h2⟩ | ⟨h1, h2⟩
    · rw [hleft1] at h2
      omega
    · have h3 := hinv1.ordLen
      have h4 := hinv1.leftNonneg
      rw [hleft1] at h3
      constructor
      · have hr1 : (sinkLoop edges ((initSt edges).ns.length + 1)
            (initSt edges)).right = -1 := by
          omega
        omega
      · exact h2
  have hval : ∀ r ∈ (sinkLoop edges ((initSt edges).ns.length + 1)
      (initSt edges)).ord,
      (fasTopoSort edges).getD r.1.toNat [] = r.2 := by
    intro r hr
    obtain ⟨hr0, hrn⟩ := hkeydom r hr
    rw [hfEq, range_map_getD _ _ _ (by omega)]
    have hcast : ((r.1.toNat : Nat) : Int) = r.1 := by omega
    rw [hcast, Assoc.get?, Assoc.find?_entry_of_mem_nodup _ hinv1.ordKeyNodup
      r hr]
    rfl
  have hlenres : (fasTopoSort edges).length = (nodesOf edges).length := by
    rw [hfEq, List.length_map, List.length_range]
  have hperm1 := hinv1.ordPerm
  rw [hns1, List.append_nil] at hperm1
  have hsrc : e.1 ∈ ((sinkLoop edges ((initSt edges).ns.length + 1)
      (initSt edges)).ord.map (·.2)) := hperm1.symm.subset hN1
  rcases List.mem_map.mp hsrc with ⟨p, hp, hpv⟩
  obtain ⟨q, hq, hqv, hqlt⟩ := hord1 e he p hp hpv
  obtain ⟨hp0, hpn⟩ := hkeydom p hp
  obtain ⟨hq0, hqn⟩ := hkeydom q hq
  refine ⟨p.1.toNat, q.1.toNat, by omega, ?_, ?_, ?_⟩
  · rw [hlenres]
    omega
  · rw [hval p hp, hpv]
  · rw [hval q hq, hqv]

end FAS

/-- C7: for every finite list of weighted directed edges, `fasTopoSort`
returns a permutation of the set of all nodes appearing in the edge list
(each node exactly once, the node set being duplicate-free); and when the
edge list describes an acyclic graph with positive weights, every edge's
source node precedes its destination node in the output. -/
theorem fasTopoSort_correct (edges : List FAS.E3) :
    ((FAS.fasTopoSort edges).Perm (FAS.nodesOf edges)
      ∧ (FAS.nodesOf edges).Nodup)
    ∧ ((∀ e ∈ edges, 0 < e.2.2) →
      (∀ x, ¬ Relation.TransGen (FAS.EdgeRel edges) x x) →
      ∀ e ∈ edges, ∃ i j : Nat, i < j ∧ j < (FAS.fasTopoSort edges).length ∧
        (FAS.fasTopoSort edges).getD i [] = e.1
        ∧ (FAS.fasTopoSort edges).getD j [] = e.2.1) :=
  ⟨⟨FAS.fasTopoSort_perm edges, FAS.nodesOf_nodup edges⟩,
   fun hpos hacyc => FAS.fasTopoSort_order edges hpos hacyc⟩

/-- The one-edge list `a -> b` is acyclic: every transitive step starts at
`a` and ends at `b`, and those differ. -/
theorem fas_witness_acyclic :
    ∀ x, ¬ Relation.TransGen (FAS.EdgeRel [([ 'a' ], [ 'b' ], (1 : Int))]) x x := by
  have key : ∀ x y, Relation.TransGen
      (FAS.EdgeRel [([ 'a' ], [ 'b' ], (1 : Int))]) x y →
      x = [ 'a' ] ∧ y = [ 'b' ] := by
    intro x y h
    induction h with
    | single h =>
      rcases h with ⟨w, hw⟩
      rw [List.mem_singleton] at hw
      rw [Prod.ext_iff, Prod.ext_iff] at hw
      exact ⟨hw.1, hw.2.1⟩
    | tail h1 h2 ih =>
      rcases h2 with ⟨w, hw⟩
      rw [List.mem_singleton] at hw
      rw [Prod.ext_iff, Prod.ext_iff] at hw
      exact ⟨ih.1, hw.2.1⟩
  intro x h
  have h2 := key x x h
  have h3 : ([ 'a' ] : SplitString) = [ 'b' ] := by
    rw [← h2.1, h2.2]
  exact absurd h3 (by decide)

/-- Witness for C7 on the single positive edge `a -> b`: the hypotheses
hold and the conclusions are delivered at that input. -/
theorem fasTopoSort_correct_witness :
    (∀ e ∈ [(([ 'a' ], [ 'b' ], 1) : FAS.E3)], 0 < e.2.2)
    ∧ (∀ x, ¬ Relation.TransGen
        (FAS.EdgeRel [([ 'a' ], [ 'b' ], (1 : Int))]) x x)
    ∧ (FAS.fasTopoSort [([ 'a' ], [ 'b' ], 1)]).Perm
        (FAS.nodesOf [([ 'a' ], [ 'b' ], 1)])
    ∧ (∃ i j : Nat, i < j
        ∧ j < (FAS.fasTopoSort [([ 'a' ], [ 'b' ], 1)]).length
        ∧ (FAS.fasTopoSort [([ 'a' ], [ 'b' ], 1)]).getD i [] = [ 'a' ]
        ∧ (FAS.fasTopoSort [([ 'a' ], [ 'b' ], 1)]).getD j [] = [ 'b' ]) :=
  ⟨by decide, fas_witness_acyclic,
   (fasTopoSort_correct [([ 'a' ], [ 'b' ], 1)]).1.1,
   (fasTopoSort_correct [([ 'a' ], [ 'b' ], 1)]).2 (by decide)
     fas_witness_acyclic ([ 'a' ], [ 'b' ], 1) (List.mem_cons_self _ _)⟩
